import Mathlib

/-!
# qtx-go: the committable transaction and its two-phase commit coordinator

A shallow embedding of `committable.go`, `enlistments.go` and `qtx-go.go`.

* A transaction is the record of the fields guarded by `mu` (`status`, `tod`, `vrms`).
  Every method body that runs between `mu.Lock()` and `mu.Unlock()` is one atomic
  function on that record.
* Participants are externally owned objects.  A participant is identified by a natural
  number; what it does when it is notified is given by an environment `Env`.
  A Go `nil` interface value is not a participant: `tod : Option Participant`
  holds `none` for `nil`, and a slot of the working set that was set to `nil`
  is `none`.
* The response channel is a bounded FIFO buffer; a send on a full buffer and a
  receive on an empty one do not return (`none`).
* A Go `error` result is `Option Error`, with `none` for `nil`.
-/

namespace qtx

/-! ## qtx-go.go -/

/-- The error values declared in `qtx-go.go`. -/
inductive Error where
  | ErrTxError
  | ErrTxAborted
  | ErrInvalidOperation
  deriving DecidableEq, Repr

/-! ## enlistments.go -/

/-- The transport codes `trmResponseCode`. -/
inductive trmResponseCode where
  | trmResponseCodeDone
  | trmResponseCodeAbort
  | trmResponseCodeCommit
  deriving DecidableEq, Repr

/-- The message `trmResponse` posted to the response channel; `cause` is a Go
`error` value (`none` is `nil`). -/
structure trmResponse where
  code : trmResponseCode
  enlId : Int
  cause : Option Nat
  deriving DecidableEq, Repr

/-- The handle `enlistment`.  Its field `resp` (the send side of the channel) is
threaded explicitly by the coordinator: a verb yields the message it posts. -/
structure enlistment where
  id : Int
  deriving DecidableEq, Repr

/-- Message posted by `enlistment.Done`. -/
def enlistment.Done (en : enlistment) : trmResponse :=
  { code := .trmResponseCodeDone, enlId := en.id, cause := none }

/-- Message posted by `enlistment.ForceRollback`. -/
def enlistment.ForceRollback (en : enlistment) (cause : Option Nat) : trmResponse :=
  { code := .trmResponseCodeAbort, enlId := en.id, cause := cause }

/-- Message posted by `enlistment.Prepared`. -/
def enlistment.Prepared (en : enlistment) : trmResponse :=
  { code := .trmResponseCodeCommit, enlId := en.id, cause := none }

/-- Message posted by `enlistment.Aborted`. -/
def enlistment.Aborted (en : enlistment) (cause : Option Nat) : trmResponse :=
  { code := .trmResponseCodeAbort, enlId := en.id, cause := cause }

/-- Message posted by `enlistment.Committed`. -/
def enlistment.Committed (en : enlistment) : trmResponse :=
  { code := .trmResponseCodeCommit, enlId := en.id, cause := none }

/-! ## committable.go: the state -/

/-- The lifecycle states `txStatus`. -/
inductive txStatus where
  | txStatusActive
  | txStatusPreparing
  | txStatusPrepareAborted
  | txStatusFinalizing
  | txStatusCommitted
  | txStatusAborted
  deriving DecidableEq, Repr

/-- Identity of a participant object (a non-nil interface value). -/
abbrev Participant := Nat

/-- The fields of `CommittableTransaction` that `mu` guards. -/
structure CommittableTransaction where
  status : txStatus
  tod : Option Participant
  vrms : List Participant
  deriving DecidableEq, Repr

/-- The zero value `CommittableTransaction{}`: a fresh transaction. -/
def CommittableTransaction.fresh : CommittableTransaction :=
  { status := .txStatusActive, tod := none, vrms := [] }

/-- Method `isTerminated`. -/
def CommittableTransaction.isTerminated (tx : CommittableTransaction) : Bool :=
  tx.status == .txStatusCommitted || tx.status == .txStatusAborted

/-- Method `isPreparing`. -/
def CommittableTransaction.isPreparing (tx : CommittableTransaction) : Bool :=
  tx.status == .txStatusPreparing || tx.status == .txStatusPrepareAborted

/-- Method `clear`. -/
def CommittableTransaction.clear (tx : CommittableTransaction) : CommittableTransaction :=
  { tx with tod := none, vrms := [] }

/-- Method `EnlistTheOnlyDurable`: the returned error and the state afterwards. -/
def CommittableTransaction.EnlistTheOnlyDurable (tx : CommittableTransaction)
    (drm : Participant) : Option Error × CommittableTransaction :=
  if tx.tod != none then
    (some .ErrTxError, tx)
  else if !(tx.status == .txStatusActive || tx.isPreparing) then
    (some .ErrTxError, tx)
  else
    (none, { tx with tod := some drm })

/-- Method `EnlistVolatile`: the returned error and the state afterwards. -/
def CommittableTransaction.EnlistVolatile (tx : CommittableTransaction)
    (vrm : Participant) : Option Error × CommittableTransaction :=
  if !(tx.status == .txStatusActive || tx.isPreparing) then
    (some .ErrTxError, tx)
  else
    (none, { tx with vrms := tx.vrms ++ [vrm] })

/-- The reentrant entry of method `Rollback` (the block between the first `mu.Lock()`
and `mu.Unlock()`): when the transaction is in the Preparing family the call latches
PrepareAborted and returns nil; `none` when the call goes on to take `ctlMu`. -/
def CommittableTransaction.RollbackNested (tx : CommittableTransaction) :
    Option (Option Error × CommittableTransaction) :=
  if tx.isPreparing then
    some (none, { tx with status := .txStatusPrepareAborted })
  else
    none

/-! ## The response channel -/

/-- A buffered Go channel of `trmResponse`: its capacity and the messages in flight. -/
structure Chan where
  cap : Nat
  buf : List trmResponse
  deriving DecidableEq, Repr

/-- The channel `make(chan trmResponse, cap)`. -/
def Chan.make (cap : Nat) : Chan :=
  { cap := cap, buf := [] }

/-- Send `ch <- m`; `none` when the buffer is full (the sender would block). -/
def Chan.send (ch : Chan) (m : trmResponse) : Option Chan :=
  if ch.buf.length < ch.cap then some { ch with buf := ch.buf ++ [m] } else none

/-- Receive `<-ch`; `none` when the buffer is empty (the receiver would block). -/
def Chan.recv (ch : Chan) : Option (trmResponse × Chan) :=
  match ch.buf with
  | [] => none
  | m :: rest => some (m, { ch with buf := rest })

/-- The detached goroutine that consumes `n` responses. -/
def drain : Nat → Chan → Option Chan
  | 0, ch => some ch
  | n + 1, ch =>
    match ch.recv with
    | none => none
    | some (_, ch1) => drain n ch1

/-! ## Participants -/

/-- An enlistment a participant may request from inside a notification. -/
inductive EnlistCall where
  | EnlistVolatile (vrm : Participant)
  | EnlistTheOnlyDurable (drm : Participant)
  deriving DecidableEq, Repr

/-- A call made on the transaction while a `Commit` is in its prepare phase: by a
participant from inside `Prepare`, or by another goroutine. -/
inductive NestedCall where
  | enlist (e : EnlistCall)
  | Rollback
  deriving DecidableEq, Repr

/-- The verbs of `PreparingEnlistment`. -/
inductive PreparingVerb where
  | Done
  | Prepared
  | ForceRollback (cause : Option Nat)
  deriving DecidableEq, Repr

/-- The verbs of `SinglePhaseEnlistment`. -/
inductive SinglePhaseVerb where
  | Committed
  | Aborted (cause : Option Nat)
  deriving DecidableEq, Repr

/-- What a participant does on `Prepare`: calls on the transaction, then one verb. -/
structure PrepareReaction where
  nested : List NestedCall
  verb : PreparingVerb
  deriving DecidableEq, Repr

/-- What a TOD does on `SinglePhaseCommit`: enlistment attempts, then one verb. -/
structure SinglePhaseReaction where
  nested : List EnlistCall
  verb : SinglePhaseVerb
  deriving DecidableEq, Repr

/-- The behaviour of the participants, of the other goroutines and of the scheduler.
A notification is identified by the participant and the handle id it is given.  On
`Commit` and `Rollback` a participant may attempt enlistments and then answers `Done`.
`outside i` is what the goroutines other than the one that runs `Commit`, and other
than the participants' own, call on the transaction while the `Prepare` with the
handle id `i` is in flight.  During the prepare phase `mu` is released only for the
time of a pass and every pass issues a `Prepare`, so every such call falls into the
time of some `Prepare`; where it falls among the actions of the pass is decided by
the scheduler.  `sched processed` is the sequence of choices that interleaves the
tasks of the pass that starts at `processed` (two tasks for every `Prepare` of the
pass: the reaction of the participant, then the calls of the other goroutines); the
empty sequence is the synchronous run. -/
structure Env where
  onPrepare : Participant → Int → PrepareReaction
  onSinglePhaseCommit : Participant → SinglePhaseReaction
  onCommit : Participant → Int → List EnlistCall
  onRollback : Participant → Int → List EnlistCall
  sched : Nat → List Nat
  outside : Int → List NestedCall

/-- What is called on the transaction while the `Prepare` of participant `p` with the
handle id `i` is in flight: the calls of the participant from inside the notification
and the calls of the other goroutines. -/
def Env.during (env : Env) (p : Participant) (i : Int) : List NestedCall :=
  (env.onPrepare p i).nested ++ env.outside i

/-- The notification methods of `EnlistmentNotification` and `SinglePhaseNotification`. -/
inductive Notification where
  | Prepare
  | Commit
  | Rollback
  | SinglePhaseCommit
  deriving DecidableEq, Repr

/-- One invocation of a participant: who, which method, and the handle id. -/
structure Call where
  trm : Participant
  what : Notification
  id : Int
  deriving DecidableEq, Repr

/-- One call made on the transaction by a participant or by another goroutine, with
the error it got. -/
structure NestedResult where
  call : NestedCall
  err : Option Error
  deriving DecidableEq, Repr

/-- The message a `PreparingEnlistment` verb posts through the handle `en`. -/
def PreparingVerb.post (en : enlistment) : PreparingVerb → trmResponse
  | .Done => en.Done
  | .Prepared => en.Prepared
  | .ForceRollback cause => en.ForceRollback cause

/-- The message a `SinglePhaseEnlistment` verb posts through the handle `en`. -/
def SinglePhaseVerb.post (en : enlistment) : SinglePhaseVerb → trmResponse
  | .Committed => en.Committed
  | .Aborted cause => en.Aborted cause

/-- One atomic thing a task does: a call on the transaction or the post of an
answer. -/
inductive Action where
  | call (c : NestedCall)
  | post (m : trmResponse)
  deriving DecidableEq, Repr

/-- The reaction of participant `p` to `Prepare` with handle id `i`, as a task. -/
def prepareTask (env : Env) (p : Participant) (i : Nat) : List Action :=
  ((env.onPrepare p i).nested.map Action.call) ++
    [Action.post ((env.onPrepare p i).verb.post { id := i })]

/-- The calls of the other goroutines during the `Prepare` with handle id `i`, as a
task. -/
def outsideTask (env : Env) (i : Nat) : List Action :=
  (env.outside i).map Action.call

/-- Take the next action of task number `k`, if that task has one. -/
def popTask {α : Type} : Nat → List (List α) → Option (α × List (List α))
  | _, [] => none
  | 0, [] :: _ => none
  | 0, (a :: t) :: ts => some (a, t :: ts)
  | k + 1, t :: ts =>
    match popTask k ts with
    | none => none
    | some (a, ts1) => some (a, t :: ts1)

/-- Interleave the tasks according to the choices; a choice that names no pending
action is skipped, and when the choices are used up the remaining tasks run one after
the other. -/
def interleave {α : Type} : List Nat → List (List α) → List α
  | [], ts => ts.flatten
  | c :: cs, ts =>
    match popTask c ts with
    | none => interleave cs ts
    | some (a, ts1) => a :: interleave cs ts1

/-! ## committable.go: Commit and Rollback -/

/-- The state of a `Commit` or `Rollback` call: the transaction, the local variables
of the method, and what has been observed so far (`calls`: the notifications issued,
in order; `nested`: the calls made on the transaction meanwhile, by participants and by
other goroutines, with their results). -/
structure Run where
  tx : CommittableTransaction
  tod : Option Participant
  vrms : List (Option Participant)
  responses : Chan
  shouldAbort : Bool
  processed : Nat
  pendingRespsNo : Nat
  calls : List Call
  nested : List NestedResult
  deriving DecidableEq, Repr

/-- How far a call, or a stage of it, gets: it returns, or it never does (it blocks on
a channel or on `ctlMu`, it runs out of fuel, or the process is aborted by a panic or
by `internal.Assert`); in the second case the state that was reached is kept. -/
inductive Outcome (α : Type) where
  | ret (a : α)
  | stop (r : Run)
  deriving DecidableEq, Repr

/-- A call that issues no notification: only the transaction is set. -/
def Run.idle (tx : CommittableTransaction) : Run :=
  { tx := tx, tod := none, vrms := [], responses := Chan.make 0, shouldAbort := false,
    processed := 0, pendingRespsNo := 0, calls := [], nested := [] }

/-- Dispatch an enlistment attempt to the method it names. -/
def runEnlist (tx : CommittableTransaction) :
    EnlistCall → Option Error × CommittableTransaction
  | .EnlistVolatile vrm => tx.EnlistVolatile vrm
  | .EnlistTheOnlyDurable drm => tx.EnlistTheOnlyDurable drm

/-- Enlistment attempts made from inside a notification, in order. -/
def runEnlists : List EnlistCall → Run → Run
  | [], r => r
  | e :: es, r =>
    runEnlists es
      { r with tx := (runEnlist r.tx e).2,
               nested := r.nested ++ [{ call := .enlist e, err := (runEnlist r.tx e).1 }] }

/-- One action of a task of a prepare pass.  A `Rollback` that does not take the
reentrant shortcut waits for `ctlMu`, which the running `Commit` holds. -/
def stepAction (r : Run) : Action → Outcome Run
  | .call (.enlist e) =>
    .ret { r with tx := (runEnlist r.tx e).2,
                  nested := r.nested ++ [{ call := .enlist e, err := (runEnlist r.tx e).1 }] }
  | .call .Rollback =>
    match r.tx.RollbackNested with
    | none => .stop r
    | some (err, tx1) =>
      .ret { r with tx := tx1, nested := r.nested ++ [{ call := .Rollback, err := err }] }
  | .post m =>
    match r.responses.send m with
    | none => .stop r
    | some ch => .ret { r with responses := ch }

/-- Run a sequence of actions. -/
def runActions : List Action → Run → Outcome Run
  | [], r => .ret r
  | a :: as, r =>
    match stepAction r a with
    | .stop r1 => .stop r1
    | .ret r1 => runActions as r1

/-- The loop `for i := processed; i < len(vrms); i++ { vrms[i].Prepare(..) }`: the
notifications issued and the tasks that run meanwhile (for every notification the
reaction of the participant and the calls of the other goroutines), for the slots from
index `i` on; `none` when a slot holds nil. -/
def prepareCalls (env : Env) : Nat → List (Option Participant) →
    Option (List Call × List (List Action))
  | _, [] => some ([], [])
  | _, none :: _ => none
  | i, some p :: rest =>
    match prepareCalls env (i + 1) rest with
    | none => none
    | some (cs, ts) =>
      some ({ trm := p, what := .Prepare, id := i } :: cs,
        prepareTask env p i :: outsideTask env i :: ts)

/-- The loop `for ; processed < len(vrms); processed++ { resp := <-responses; .. }`,
for `n` remaining iterations; it stops when the receive blocks or the index is out of
range. -/
def collect : Nat → Run → Outcome Run
  | 0, r => .ret r
  | n + 1, r =>
    match r.responses.recv with
    | none => .stop r
    | some (resp, ch) =>
      match resp.code with
      | .trmResponseCodeDone =>
        if 0 ≤ resp.enlId ∧ resp.enlId.toNat < r.vrms.length then
          collect n { r with responses := ch, processed := r.processed + 1,
                             vrms := r.vrms.set resp.enlId.toNat none }
        else
          .stop r
      | .trmResponseCodeAbort =>
        collect n { r with responses := ch, processed := r.processed + 1,
                           shouldAbort := true }
      | .trmResponseCodeCommit =>
        collect n { r with responses := ch, processed := r.processed + 1 }

/-- The block after `tx.mu.Lock()` at the end of a pass: take over the volatiles
enlisted meanwhile, re-read the TOD, observe a `Rollback` called meanwhile. -/
def relock (r : Run) : Run :=
  let r1 : Run :=
    if r.tx.vrms.length > r.vrms.length then
      { r with vrms := r.vrms ++ (r.tx.vrms.drop r.vrms.length).map some,
               responses := Chan.make
                 ((r.vrms ++ (r.tx.vrms.drop r.vrms.length).map some).length + 1) }
    else r
  let r2 : Run := { r1 with tod := r1.tx.tod }
  if r2.tx.status = .txStatusPrepareAborted then { r2 with shouldAbort := true } else r2

/-- One iteration of the outer prepare loop. -/
def preparePass (env : Env) (r : Run) : Outcome Run :=
  match prepareCalls env r.processed (r.vrms.drop r.processed) with
  | none => .stop r
  | some (cs, ts) =>
    match runActions (interleave (env.sched r.processed) ts)
        { r with calls := r.calls ++ cs } with
    | .stop r1 => .stop r1
    | .ret r1 =>
      match collect (r1.vrms.length - r1.processed) r1 with
      | .stop r2 => .stop r2
      | .ret r2 => .ret (relock r2)

/-- The outer loop `for processed := 0; !shouldAbort && processed < len(vrms); {..}`
with at most `fuel` iterations; it stops when an iteration does or when the fuel is
used up. -/
def prepareLoop (env : Env) : Nat → Run → Outcome Run
  | fuel, r =>
    if !r.shouldAbort && r.processed < r.vrms.length then
      match fuel with
      | 0 => .stop r
      | fuel1 + 1 =>
        match preparePass env r with
        | .stop r1 => .stop r1
        | .ret r1 => prepareLoop env fuel1 r1
    else
      .ret r

/-- The step "SPC Commit": `SinglePhaseCommit` on the TOD when applicable. -/
def singlePhase (env : Env) (r : Run) : Outcome Run :=
  match r.tod with
  | none => .ret r
  | some d =>
    if !r.shouldAbort then
      let r1 := runEnlists (env.onSinglePhaseCommit d).nested
        { r with calls := r.calls ++ [{ trm := d, what := .SinglePhaseCommit, id := -1 }] }
      match r1.responses.send ((env.onSinglePhaseCommit d).verb.post { id := -1 }) with
      | none => .stop r1
      | some ch =>
        match ch.recv with
        | none => .stop { r1 with responses := ch }
        | some (resp, ch1) =>
          if resp.code != .trmResponseCodeCommit then
            .ret { r1 with responses := ch1, shouldAbort := true }
          else
            .ret { r1 with responses := ch1 }
    else
      .ret r

/-- A terminal notification (`Commit` or `Rollback`) to participant `p` with handle id
`id`: the participant may attempt enlistments and posts `Done`. -/
def notifyTerminal (env : Env) (p : Participant) (what : Notification) (id : Int)
    (r : Run) : Outcome Run :=
  let r1 := runEnlists (if what = .Commit then env.onCommit p id else env.onRollback p id)
    { r with calls := r.calls ++ [{ trm := p, what := what, id := id }] }
  match r1.responses.send (enlistment.Done { id := id }) with
  | none => .stop r1
  | some ch => .ret { r1 with responses := ch }

/-- The loop `for i, vrm := range vrms` of `Commit`, for the slots from index `i`. -/
def commitTerminal (env : Env) : Nat → List (Option Participant) → Run → Outcome Run
  | _, [], r => .ret r
  | i, none :: rest, r => commitTerminal env (i + 1) rest r
  | i, some vrm :: rest, r =>
    match notifyTerminal env vrm (if r.shouldAbort then .Rollback else .Commit) i r with
    | .stop r1 => .stop r1
    | .ret r1 =>
      commitTerminal env (i + 1) rest { r1 with pendingRespsNo := r1.pendingRespsNo + 1 }

/-- The statement `if tod != nil && shouldAbort { tod.Rollback(..); pendingRespsNo++ }`
of `Commit`. -/
def commitTodRollback (env : Env) (r : Run) : Outcome Run :=
  match r.tod with
  | none => .ret r
  | some d =>
    if r.shouldAbort then
      match notifyTerminal env d .Rollback (-1) r with
      | .stop r1 => .stop r1
      | .ret r1 => .ret { r1 with pendingRespsNo := r1.pendingRespsNo + 1 }
    else
      .ret r

/-- The part of `Commit` from "SPC Commit" on, entered with `mu` held at the exit of
the prepare loop. -/
def commitFinish (env : Env) (r1 : Run) : Outcome (Option Error × Run) :=
  match singlePhase env { r1 with tx := { r1.tx with status := .txStatusFinalizing } } with
  | .stop r => .stop r
  | .ret r2 =>
    match commitTodRollback env
        { r2 with tx := ({ r2.tx with status :=
            if r2.shouldAbort then .txStatusAborted else .txStatusCommitted }).clear } with
    | .stop r => .stop r
    | .ret r3 =>
      match commitTerminal env 0 r3.vrms r3 with
      | .stop r => .stop r
      | .ret r4 => .ret (if r4.shouldAbort then some .ErrTxAborted else none, r4)

/-- The working data `Commit` sets up before the prepare loop, with the status already
set to Preparing. -/
def commitStart (tx : CommittableTransaction) : Run :=
  { tx := { tx with status := .txStatusPreparing },
    tod := tx.tod, vrms := tx.vrms.map some,
    responses := Chan.make ((tx.vrms.map some).length + 1),
    shouldAbort := false, processed := 0, pendingRespsNo := 0,
    calls := [], nested := [] }

/-- Method `Commit` with at most `fuel` prepare passes: the returned error and the
final state of the call. -/
def Commit (fuel : Nat) (env : Env) (tx : CommittableTransaction) :
    Outcome (Option Error × Run) :=
  if !(tx.isTerminated || tx.status == .txStatusActive) then
    .stop (Run.idle tx)
  else if tx.status == .txStatusAborted then
    .ret (some .ErrTxAborted, Run.idle tx)
  else if tx.isTerminated then
    .ret (some .ErrTxError, Run.idle tx)
  else if tx.tod == none && tx.vrms.length == 0 then
    .ret (none, Run.idle ({ tx with status := .txStatusCommitted }).clear)
  else
    match prepareLoop env fuel (commitStart tx) with
    | .stop r => .stop r
    | .ret r1 => commitFinish env r1

/-- The loop `for i, vrm := range vrms { vrm.Rollback(..) }` of `Rollback`, for the
participants from index `i`. -/
def rollbackTerminal (env : Env) : Nat → List Participant → Run → Outcome Run
  | _, [], r => .ret r
  | i, vrm :: rest, r =>
    match notifyTerminal env vrm .Rollback i r with
    | .stop r1 => .stop r1
    | .ret r1 => rollbackTerminal env (i + 1) rest r1

/-- The statement `if tod != nil { tod.Rollback(..); pendingRespsNo++ }` of
`Rollback`. -/
def rollbackTod (env : Env) (r : Run) : Outcome Run :=
  match r.tod with
  | none => .ret r
  | some d =>
    match notifyTerminal env d .Rollback (-1) r with
    | .stop r1 => .stop r1
    | .ret r1 => .ret { r1 with pendingRespsNo := r1.pendingRespsNo + 1 }

/-- Method `Rollback`: the returned error and the final state of the call. -/
def Rollback (env : Env) (tx : CommittableTransaction) : Outcome (Option Error × Run) :=
  match tx.RollbackNested with
  | some (err, tx1) => .ret (err, Run.idle tx1)
  | none =>
    if !(tx.isTerminated || tx.status == .txStatusActive) then
      .stop (Run.idle tx)
    else if tx.status == .txStatusAborted then
      .ret (some .ErrTxAborted, Run.idle tx)
    else if tx.isTerminated then
      .ret (some .ErrTxError, Run.idle tx)
    else if tx.tod == none && tx.vrms.length == 0 then
      .ret (none, Run.idle { tx with status := .txStatusAborted })
    else
      match rollbackTod env
          { tx := ({ tx with status := .txStatusAborted }).clear,
            tod := tx.tod, vrms := tx.vrms.map some,
            responses := Chan.make (tx.vrms.length + 1),
            shouldAbort := false, processed := 0, pendingRespsNo := 0,
            calls := [], nested := [] } with
      | .stop r => .stop r
      | .ret r1 =>
        match rollbackTerminal env 0 tx.vrms r1 with
        | .stop r => .stop r
        | .ret r2 =>
          .ret (none, { r2 with pendingRespsNo := r2.pendingRespsNo + tx.vrms.length })

/-- The state a call reached, whether or not it returned. -/
def Outcome.run : Outcome (Option Error × Run) → Run
  | .ret (_, r) => r
  | .stop r => r

/-- The error a call returned, if it returned. -/
def Outcome.err : Outcome (Option Error × Run) → Option (Option Error)
  | .ret (e, _) => some e
  | .stop _ => none

/-! ## Specification helpers

These functions are not part of the program: they describe, from the behaviour of the
participants, what a run is expected to produce. -/

/-- The message an action posts, if it is a post. -/
def Action.posted : Action → Option trmResponse
  | .post m => some m
  | .call _ => none

/-- The volatile participant an action enlists, if it is an `EnlistVolatile` call. -/
def Action.volatile : Action → Option Participant
  | .call (.enlist (.EnlistVolatile v)) => some v
  | _ => none

/-- The `Prepare` notifications for the participants `ps`, with handle ids from `i`. -/
def prepList : Nat → List Participant → List Call
  | _, [] => []
  | i, p :: ps => { trm := p, what := .Prepare, id := i } :: prepList (i + 1) ps

/-- The tasks that run during the `Prepare` notifications for `ps`, handle ids from
`i`. -/
def taskList (env : Env) : Nat → List Participant → List (List Action)
  | _, [] => []
  | i, p :: ps => prepareTask env p i :: outsideTask env i :: taskList env (i + 1) ps

/-- The working set after the slots below `k` have been prepared: a slot whose
participant answered `Done` holds nil.  The list `ps` starts at index `i`. -/
def slots (env : Env) (k : Nat) : Nat → List Participant → List (Option Participant)
  | _, [] => []
  | i, p :: ps =>
    (if i < k ∧ (env.onPrepare p i).verb = .Done then none else some p) ::
      slots env k (i + 1) ps

/-- Whether a verb is `ForceRollback`. -/
def PreparingVerb.isForceRollback : PreparingVerb → Bool
  | .ForceRollback _ => true
  | _ => false

/-- Whether one of the slots below `k` answered `Prepare` with `ForceRollback`. -/
def forced (env : Env) (k : Nat) : Nat → List Participant → Bool
  | _, [] => false
  | i, p :: ps =>
    (decide (i < k) && (env.onPrepare p i).verb.isForceRollback) || forced env k (i + 1) ps

/-- Whether `Rollback` was called on the transaction during the `Prepare` of one of
the slots below `k`, by the participant or by another goroutine. -/
def rolled (env : Env) (k : Nat) : Nat → List Participant → Bool
  | _, [] => false
  | i, p :: ps =>
    (decide (i < k) && decide (NestedCall.Rollback ∈ env.during p i)) ||
      rolled env k (i + 1) ps

/-- The terminal notifications `what` for the non-nil slots, handle ids from `i`. -/
def termList (what : Notification) : Nat → List (Option Participant) → List Call
  | _, [] => []
  | i, none :: rest => termList what (i + 1) rest
  | i, some p :: rest => { trm := p, what := what, id := i } :: termList what (i + 1) rest

/-- The working set after the responses `msgs` have been consumed: every `Done`
response sets the slot it names to nil. -/
def markDone : List trmResponse → List (Option Participant) → List (Option Participant)
  | [], w => w
  | m :: ms, w =>
    markDone ms (if m.code = .trmResponseCodeDone then w.set m.enlId.toNat none else w)

/-- The answers to the `Prepare` notifications for `ps`, handle ids from `i`. -/
def postList (env : Env) : Nat → List Participant → List trmResponse
  | _, [] => []
  | i, p :: ps => (env.onPrepare p i).verb.post { id := i } :: postList env (i + 1) ps

/-- The invariant of the prepare loop of `Commit` at the loop head, where `mu` is held:
the locals are determined by the volatile list of the transaction, by the number of
slots already prepared and by the answers those slots gave. -/
structure LoopInv (env : Env) (r : Run) : Prop where
  bound : r.processed ≤ r.tx.vrms.length
  working : r.vrms = slots env r.processed 0 r.tx.vrms
  chan : r.responses = Chan.make (r.tx.vrms.length + 1)
  tod : r.tod = r.tx.tod
  calls : r.calls = prepList 0 (r.tx.vrms.take r.processed)
  abort : r.shouldAbort =
    (forced env r.processed 0 r.tx.vrms || rolled env r.processed 0 r.tx.vrms)
  status : r.tx.status =
    if rolled env r.processed 0 r.tx.vrms then .txStatusPrepareAborted
    else .txStatusPreparing
  pending : r.pendingRespsNo = 0

/-- Nested volatile enlistments are bounded: during a `Prepare` with a handle id `N`
or larger nobody calls `EnlistVolatile`, neither the participant nor another
goroutine. -/
def boundedNesting (env : Env) (N : Nat) : Prop :=
  ∀ (p : Participant) (i : Nat), N ≤ i → ∀ v : Participant,
    NestedCall.enlist (.EnlistVolatile v) ∉ env.during p (i : Int)

/-- The log entries of enlistment attempts that are all refused. -/
def refusedLog (es : List EnlistCall) : List NestedResult :=
  es.map (fun e => { call := .enlist e, err := some .ErrTxError })

/-- Whether a verb is `Aborted`. -/
def SinglePhaseVerb.isAborted : SinglePhaseVerb → Bool
  | .Aborted _ => true
  | .Committed => false

/-- The `Done` answers to a list of notifications. -/
def doneList (cs : List Call) : List trmResponse :=
  cs.map (fun c => enlistment.Done { id := c.id })

/-- The enlistment attempts made from inside a terminal notification. -/
def terminalNested (env : Env) (c : Call) : List EnlistCall :=
  if c.what = .Commit then env.onCommit c.trm c.id else env.onRollback c.trm c.id

/-- Whether the TOD, if there is one, answers `SinglePhaseCommit` with `Aborted`. -/
def spcAborts (env : Env) : Option Participant → Bool
  | none => false
  | some d => (env.onSinglePhaseCommit d).verb.isAborted

/-- The `SinglePhaseCommit` notification: issued to the TOD when no abort is latched
at the end of the prepare phase. -/
def spcList (tod : Option Participant) (latched : Bool) : List Call :=
  match tod with
  | none => []
  | some d => if latched then [] else [{ trm := d, what := .SinglePhaseCommit, id := -1 }]

/-- The `Rollback` notification to the TOD: issued when the verdict is abort. -/
def todRollbackList (tod : Option Participant) (abort : Bool) : List Call :=
  match tod with
  | none => []
  | some d => if abort then [{ trm := d, what := .Rollback, id := -1 }] else []

/-- The terminal notifications of `Commit`: the TOD first, then the working set. -/
def terminalList (tod : Option Participant) (abort : Bool)
    (w : List (Option Participant)) : List Call :=
  todRollbackList tod abort ++ termList (if abort then .Rollback else .Commit) 0 w

/-- The volatile a logged call enlisted: an `EnlistVolatile` that returned nil. -/
def NestedResult.volWin (x : NestedResult) : Option Participant :=
  match x.call, x.err with
  | .enlist (.EnlistVolatile v), none => some v
  | _, _ => none

/-- The volatiles enlisted by the calls of a log, in order. -/
def volWins (log : List NestedResult) : List Participant :=
  log.filterMap NestedResult.volWin

/-- Whether a logged call is an `EnlistTheOnlyDurable`. -/
def NestedResult.isTodCall (x : NestedResult) : Bool :=
  match x.call with
  | .enlist (.EnlistTheOnlyDurable _) => true
  | _ => false

/-- The log of the prepare phase of a `Commit` that started with the volatile list
`vs0`: the volatile list is `vs0` followed by the volatiles enlisted during the phase,
and every logged call other than `EnlistTheOnlyDurable` has returned nil. -/
structure PrepLog (vs0 : List Participant) (tx : CommittableTransaction)
    (log : List NestedResult) : Prop where
  vols : tx.vrms = vs0 ++ volWins log
  accepted : ∀ x ∈ log, x.isTodCall = false → x.err = none

/-- What a returning `Commit` on an Active transaction with a non-empty registry has
done, in terms of the behaviour of the participants and of the other goroutines.  `ps`
is the volatile list of the transaction at the end of the prepare phase (the enlisted
volatiles followed by those enlisted during the phase); `r.processed` of them have been
prepared. -/
structure CommitReturn (env : Env) (tx : CommittableTransaction) (e : Option Error)
    (r : Run) (ps : List Participant) : Prop where
  grows : ∃ more, ps = tx.vrms ++ more
  bound : r.processed ≤ ps.length
  complete : (forced env r.processed 0 ps || rolled env r.processed 0 ps) = false →
    r.processed = ps.length
  working : r.vrms = slots env r.processed 0 ps
  verdict : r.shouldAbort =
    ((forced env r.processed 0 ps || rolled env r.processed 0 ps) || spcAborts env r.tod)
  err : e = if r.shouldAbort then some .ErrTxAborted else none
  final : r.tx =
    { status := if r.shouldAbort then .txStatusAborted else .txStatusCommitted,
      tod := none, vrms := [] }
  calls : r.calls = prepList 0 (ps.take r.processed) ++
    spcList r.tod (forced env r.processed 0 ps || rolled env r.processed 0 ps) ++
    terminalList r.tod r.shouldAbort r.vrms
  pending : r.pendingRespsNo = (terminalList r.tod r.shouldAbort r.vrms).length
  chan : r.responses =
    { cap := ps.length + 1, buf := doneList (terminalList r.tod r.shouldAbort r.vrms) }
  todKept : ∀ d, tx.tod = some d → r.tod = some d
  todNested : ∀ d : Participant,
    ({ call := .enlist (.EnlistTheOnlyDurable d), err := none } : NestedResult) ∈ r.nested →
      r.tod = some d
  prepLog : ∃ log1 es, r.nested = log1 ++ refusedLog es ∧
    ps = tx.vrms ++ volWins log1 ∧ ∀ x ∈ log1, x.isTodCall = false → x.err = none

/-- The state an outcome carries. -/
def Outcome.state : Outcome Run → Run
  | .ret r => r
  | .stop r => r

/-- Whether a logged call is an `EnlistTheOnlyDurable` that returned nil. -/
def NestedResult.todWin (x : NestedResult) : Bool :=
  match x.call, x.err with
  | .enlist (.EnlistTheOnlyDurable _), none => true
  | _, _ => false

/-- The number of `EnlistTheOnlyDurable` calls in a log that returned nil. -/
def todWins (log : List NestedResult) : Nat :=
  (log.filter NestedResult.todWin).length

/-- The TOD invariant of a transaction, given that `b` calls of `EnlistTheOnlyDurable`
returned nil before the log of `r` starts: at most one call has returned nil; and once
one has, the TOD it stored is held until the transaction is terminated. -/
structure TodInv (b : Nat) (r : Run) : Prop where
  once : b + todWins r.nested ≤ 1
  held : b + todWins r.nested = 1 → r.tx.tod ≠ none ∨ r.tx.isTerminated = true
  kept : ∀ d : Participant,
    ({ call := .enlist (.EnlistTheOnlyDurable d), err := none } : NestedResult) ∈ r.nested →
      r.tx.tod = some d ∨ r.tx.isTerminated = true

/-- An operation of the client on the transaction.  `Commit` and `Rollback` come with
the behaviour of the participants during the call (`Commit` also with its fuel). -/
inductive Op where
  | EnlistTheOnlyDurable (drm : Participant)
  | EnlistVolatile (vrm : Participant)
  | Commit (fuel : Nat) (env : Env)
  | Rollback (env : Env)

/-- Apply a sequence of operations one after the other.  The result is the final
transaction and the log of all enlistment attempts, those of the client and those
made by participants from inside notifications.  An operation that does not return
ends the sequence. -/
def runOps : List Op → CommittableTransaction → List NestedResult →
    CommittableTransaction × List NestedResult
  | [], tx, log => (tx, log)
  | .EnlistTheOnlyDurable drm :: ops, tx, log =>
    runOps ops (tx.EnlistTheOnlyDurable drm).2
      (log ++ [{ call := .enlist (.EnlistTheOnlyDurable drm),
                 err := (tx.EnlistTheOnlyDurable drm).1 }])
  | .EnlistVolatile vrm :: ops, tx, log =>
    runOps ops (tx.EnlistVolatile vrm).2
      (log ++ [{ call := .enlist (.EnlistVolatile vrm), err := (tx.EnlistVolatile vrm).1 }])
  | .Commit fuel env :: ops, tx, log =>
    match Commit fuel env tx with
    | .ret (_, r) => runOps ops r.tx (log ++ r.nested)
    | .stop r => (r.tx, log ++ r.nested)
  | .Rollback env :: ops, tx, log =>
    match Rollback env tx with
    | .ret (_, r) => runOps ops r.tx (log ++ r.nested)
    | .stop r => (r.tx, log ++ r.nested)

/-- An abort vote is observed in a trace: a participant that was notified `Prepare`
answers `ForceRollback`, or the TOD that was notified `SinglePhaseCommit` answers
`Aborted`. -/
def votedAbort (env : Env) (calls : List Call) : Prop :=
  (∃ c ∈ calls, c.what = .Prepare ∧ (env.onPrepare c.trm c.id).verb.isForceRollback = true) ∨
  (∃ c ∈ calls, c.what = .SinglePhaseCommit ∧
    (env.onSinglePhaseCommit c.trm).verb.isAborted = true)

/-- `Rollback` is called on the transaction while a `Prepare` of the trace is in
flight: by the notified participant from inside the notification, or by another
goroutine. -/
def nestedRollback (env : Env) (calls : List Call) : Prop :=
  ∃ c ∈ calls, c.what = .Prepare ∧ NestedCall.Rollback ∈ env.during c.trm c.id

/-- Participants that answer `Prepared` and `Committed`, call nothing and are scheduled
synchronously; no other goroutine calls the transaction. -/
def Env.quiet : Env :=
  { onPrepare := fun _ _ => { nested := [], verb := .Prepared },
    onSinglePhaseCommit := fun _ => { nested := [], verb := .Committed },
    onCommit := fun _ _ => [],
    onRollback := fun _ _ => [],
    sched := fun _ => [],
    outside := fun _ => [] }

/-- An Active transaction with the volatiles 1 and 2 and the TOD 9, as in the tests. -/
def exampleTx : CommittableTransaction :=
  { status := .txStatusActive, tod := some 9, vrms := [1, 2] }

/-- The test "nested Rollback, synchronous": participant 2 calls `Rollback` from inside
`Prepare` and then answers `Prepared`; everybody else answers `Prepared`. -/
def exampleNestedRollback : Env :=
  { Env.quiet with
    onPrepare := fun p _ =>
      if p = 2 then { nested := [.Rollback], verb := .Prepared }
      else { nested := [], verb := .Prepared } }

/-- Participant 1 enlists the volatile 3 from inside `Prepare` and then answers
`ForceRollback`; everybody else answers `Prepared`. -/
def exampleLateEnlist : Env :=
  { Env.quiet with
    onPrepare := fun p _ =>
      if p = 1 then { nested := [.enlist (.EnlistVolatile 3)], verb := .ForceRollback none }
      else { nested := [], verb := .Prepared } }

/-- The `Rollback` notifications for the participants `ps`, with handle ids from `i`. -/
def rollbackList : Nat → List Participant → List Call
  | _, [] => []
  | i, p :: ps => { trm := p, what := .Rollback, id := i } :: rollbackList (i + 1) ps

/-- Method `Unwrap` of an error value: `ErrTxAborted` is built by
`fmt.Errorf("#TX_ABORTED: %w", ErrTxError)` and wraps `ErrTxError`; the two errors
built by `errors.New` wrap nothing. -/
def Error.Unwrap : Error → Option Error
  | .ErrTxAborted => some .ErrTxError
  | .ErrTxError => none
  | .ErrInvalidOperation => none

/-- The standard library function `errors.Is`: follow the `Unwrap` chain of `err` and
compare each error with `target`; `depth` bounds the length of the chain that is
followed. -/
def errorsIs : Nat → Error → Error → Bool
  | 0, _, _ => false
  | depth + 1, err, target =>
    err == target ||
      match err.Unwrap with
      | none => false
      | some inner => errorsIs depth inner target

/-- Participant 1 answers `Prepare` with `Done`; participant 2 calls `Rollback` from
inside `Prepare` and then answers `Prepared`. -/
def exampleDoneAndRollback : Env :=
  { Env.quiet with
    onPrepare := fun p _ =>
      if p = 1 then { nested := [], verb := .Done }
      else { nested := [.Rollback], verb := .Prepared } }

/-! ## ambient.go -/

/-- The address of a `CommittableTransaction` object. -/
abbrev TxRef := Nat

/-- A value of the interface type `Transaction`: nil (`none`), or a pointer to a
`CommittableTransaction`, the implementation of the interface in this package. -/
abbrev Transaction := Option TxRef

/-- The objects behind the pointers: `cell t` is the state of the transaction at the
address `t`, and the addresses below `next` are those handed out so far. -/
structure Heap where
  cell : TxRef → CommittableTransaction
  next : TxRef

/-- Writes the state of the transaction at the address `t`. -/
def Heap.store (h : Heap) (t : TxRef) (tx : CommittableTransaction) : Heap :=
  { h with cell := fun u => if u = t then tx else h.cell u }

/-- A new zero-valued `CommittableTransaction{}` at an address not handed out before. -/
def Heap.alloc (h : Heap) : TxRef × Heap :=
  (h.next, { cell := fun u => if u = h.next then CommittableTransaction.fresh else h.cell u,
             next := h.next + 1 })

/-- A context key: `contextKey[Transaction]{}`, or a key of some other type. -/
inductive Key where
  | transaction
  | other (k : Nat)
  deriving DecidableEq, Repr

/-- A value of type `any` stored in a context: the nil interface, a `Transaction`, or a
value of some other type. -/
inductive Any where
  | nil
  | tx (t : TxRef)
  | other (v : Nat)
  deriving DecidableEq, Repr

/-- A non-nil `context.Context`, as far as its method `Value` goes: the background
context, or a `context.WithValue` on top of a parent. -/
inductive Context where
  | background
  | withValue (parent : Context) (key : Key) (val : Any)
  deriving DecidableEq, Repr

/-- Method `Value` of a context: the value of the innermost `WithValue` with the key,
nil when there is none. -/
def Context.Value : Context → Key → Any
  | .background, _ => .nil
  | .withValue parent key val, k => if key = k then val else parent.Value k

/-- Function `WithTransaction`; a nil `tx` is stored as the nil interface. -/
def WithTransaction (ctx : Context) (tx : Transaction) : Context :=
  .withValue ctx .transaction
    (match tx with
      | none => .nil
      | some t => .tx t)

/-- Function `CurrentTransaction`: the type assertion `.(Transaction)` fails on nil
and on a value of another type. -/
def CurrentTransaction (ctx : Context) : Transaction :=
  match ctx.Value .transaction with
  | .tx t => some t
  | _ => none

/-- Whether some `WithValue` of the context has the key `contextKey[Transaction]{}`. -/
def Context.setsTransaction : Context → Bool
  | .background => false
  | .withValue parent key _ => key == .transaction || parent.setsTransaction

/-! ## scope.go -/

/-- A call of a method of a transaction made by a scope. -/
inductive TxCall where
  | Commit (t : TxRef)
  | Rollback (t : TxRef)
  deriving DecidableEq, Repr

/-- What a returning `complete` or `dispose` leaves: the returned error, the scope
object, the transactions, and the calls it made on transactions, in order. -/
structure ScopeReturn (σ : Type) where
  err : Option Error
  scope : σ
  heap : Heap
  called : List TxCall

/-- Struct `committableScope`; `tx` is the address of the field `tx`. -/
structure committableScope where
  tx : TxRef
  terminated : Bool
  deriving DecidableEq, Repr

/-- Method `committableScope.dispose`; `none` when the `Rollback` does not return. -/
def committableScope.dispose (env : Env) (s : committableScope) (h : Heap) :
    Option (ScopeReturn committableScope) :=
  if s.terminated then
    some { err := none, scope := s, heap := h, called := [] }
  else
    match Rollback env (h.cell s.tx) with
    | .stop _ => none
    | .ret (err, r) =>
      some { err := err, scope := { s with terminated := true }, heap := h.store s.tx r.tx,
             called := [.Rollback s.tx] }

/-- Method `committableScope.complete`; `none` when the `Commit` does not return. -/
def committableScope.complete (fuel : Nat) (env : Env) (s : committableScope) (h : Heap) :
    Option (ScopeReturn committableScope) :=
  if s.terminated then
    some { err := some .ErrInvalidOperation, scope := s, heap := h, called := [] }
  else
    match Commit fuel env (h.cell s.tx) with
    | .stop _ => none
    | .ret (err, r) =>
      some { err := err, scope := { s with terminated := true }, heap := h.store s.tx r.tx,
             called := [.Commit s.tx] }

/-- Struct `transactionScope`. -/
structure transactionScope where
  tx : Transaction
  terminated : Bool
  deriving DecidableEq, Repr

/-- Method `transactionScope.dispose`; `none` when the `Rollback` does not return, or
when `tx` is nil and the method call panics. -/
def transactionScope.dispose (env : Env) (s : transactionScope) (h : Heap) :
    Option (ScopeReturn transactionScope) :=
  if s.terminated then
    some { err := none, scope := s, heap := h, called := [] }
  else
    match s.tx with
    | none => none
    | some t =>
      match Rollback env (h.cell t) with
      | .stop _ => none
      | .ret (err, r) =>
        some { err := err, scope := { s with terminated := true }, heap := h.store t r.tx,
               called := [.Rollback t] }

/-- Method `transactionScope.complete`. -/
def transactionScope.complete (s : transactionScope) (h : Heap) :
    Option (ScopeReturn transactionScope) :=
  if s.terminated then
    some { err := some .ErrInvalidOperation, scope := s, heap := h, called := [] }
  else
    some { err := none, scope := { s with terminated := true }, heap := h, called := [] }

/-- Struct `emptyScope`. -/
structure emptyScope where
  terminated : Bool
  deriving DecidableEq, Repr

/-- Method `emptyScope.dispose`. -/
def emptyScope.dispose (s : emptyScope) (h : Heap) : Option (ScopeReturn emptyScope) :=
  some { err := none, scope := s, heap := h, called := [] }

/-- Method `emptyScope.complete`. -/
def emptyScope.complete (s : emptyScope) (h : Heap) : Option (ScopeReturn emptyScope) :=
  if s.terminated then
    some { err := some .ErrInvalidOperation, scope := s, heap := h, called := [] }
  else
    some { err := none, scope := { s with terminated := true }, heap := h, called := [] }
/-- The scope object behind the pair of functions `complete`, `dispose` that
`WithTransactionScope` returns. -/
inductive Scope where
  | committable (s : committableScope)
  | transaction (s : transactionScope)
  | empty (s : emptyScope)
  deriving DecidableEq, Repr

/-- A result about one kind of scope as a result about `Scope`. -/
def ScopeReturn.lift {σ : Type} (f : σ → Scope) (x : ScopeReturn σ) : ScopeReturn Scope :=
  { err := x.err, scope := f x.scope, heap := x.heap, called := x.called }

/-- The function `complete` returned by `WithTransactionScope`, with at most `fuel`
prepare passes in a `Commit`. -/
def Scope.complete (fuel : Nat) (env : Env) (s : Scope) (h : Heap) :
    Option (ScopeReturn Scope) :=
  match s with
  | .committable s => (s.complete fuel env h).map (ScopeReturn.lift .committable)
  | .transaction s => (s.complete h).map (ScopeReturn.lift .transaction)
  | .empty s => (s.complete h).map (ScopeReturn.lift .empty)

/-- The function `dispose` returned by `WithTransactionScope`. -/
def Scope.dispose (env : Env) (s : Scope) (h : Heap) : Option (ScopeReturn Scope) :=
  match s with
  | .committable s => (s.dispose env h).map (ScopeReturn.lift .committable)
  | .transaction s => (s.dispose env h).map (ScopeReturn.lift .transaction)
  | .empty s => (s.dispose h).map (ScopeReturn.lift .empty)

/-- The functions a `scopeOptions.createScope` can hold. -/
inductive CreateScope where
  | createTransactionScope
  | createRequiresScope
  | createRequiresNewScope
  | createSuppressScope
  deriving DecidableEq, Repr

/-- Struct `scopeOptions`; `createScope = none` is the nil function. -/
structure scopeOptions where
  tx : Transaction
  createScope : Option CreateScope
  deriving DecidableEq, Repr

/-- The values of type `ScopeOption` that the package constructs.  The argument of
`WithScopeTransaction` is a pointer: the constructor asserts `tx != nil`. -/
inductive ScopeOption where
  | WithScopeTransaction (tx : TxRef)
  | WithTxRequired
  | WithRequiresNewTx
  | WithSuppressTx
  deriving DecidableEq, Repr

/-- The call `opt(&options)`. -/
def ScopeOption.apply (options : scopeOptions) : ScopeOption → scopeOptions
  | .WithScopeTransaction tx => { tx := some tx, createScope := some .createTransactionScope }
  | .WithTxRequired => { options with createScope := some .createRequiresScope }
  | .WithRequiresNewTx => { options with createScope := some .createRequiresNewScope }
  | .WithSuppressTx => { options with createScope := some .createSuppressScope }

/-- What `WithTransactionScope` returns: the new context and the scope behind
`complete` and `dispose`; and the transactions afterwards. -/
structure ScopeCreated where
  ctx : Context
  scope : Scope
  heap : Heap

/-- Function `createTransactionScope`. -/
def createTransactionScope (h : Heap) (ctx : Context) (options : scopeOptions) :
    ScopeCreated :=
  let scope : transactionScope := { tx := options.tx, terminated := false }
  { ctx := WithTransaction ctx scope.tx, scope := .transaction scope, heap := h }

/-- Function `createRequiresNewScope`. -/
def createRequiresNewScope (h : Heap) (ctx : Context) (_options : scopeOptions) :
    ScopeCreated :=
  let scope : committableScope := { tx := h.alloc.1, terminated := false }
  { ctx := WithTransaction ctx (some scope.tx), scope := .committable scope,
    heap := h.alloc.2 }

/-- Function `createRequiresScope`. -/
def createRequiresScope (h : Heap) (ctx : Context) (_options : scopeOptions) :
    ScopeCreated :=
  match CurrentTransaction ctx with
  | some tx =>
    let scope : transactionScope := { tx := some tx, terminated := false }
    { ctx := ctx, scope := .transaction scope, heap := h }
  | none =>
    let scope : committableScope := { tx := h.alloc.1, terminated := false }
    { ctx := WithTransaction ctx (some scope.tx), scope := .committable scope,
      heap := h.alloc.2 }

/-- Function `createSuppressScope`. -/
def createSuppressScope (h : Heap) (ctx : Context) (_options : scopeOptions) :
    ScopeCreated :=
  let scope : emptyScope := { terminated := false }
  { ctx := WithTransaction ctx none, scope := .empty scope, heap := h }

/-- The call `options.createScope(ctx, &options)`. -/
def CreateScope.call : CreateScope → Heap → Context → scopeOptions → ScopeCreated
  | .createTransactionScope => qtx.createTransactionScope
  | .createRequiresScope => qtx.createRequiresScope
  | .createRequiresNewScope => qtx.createRequiresNewScope
  | .createSuppressScope => qtx.createSuppressScope

/-- Function `WithTransactionScope`; the context of the model is never nil. -/
def WithTransactionScope (h : Heap) (ctx : Context) (opts : List ScopeOption) :
    ScopeCreated :=
  let options := opts.foldl ScopeOption.apply { tx := none, createScope := none }
  let createScope :=
    match options.createScope with
    | none => CreateScope.createRequiresScope
    | some f => f
  createScope.call h ctx { options with createScope := some createScope }

/-- No transaction has been created yet. -/
def Heap.empty : Heap :=
  { cell := fun _ => CommittableTransaction.fresh, next := 0 }

/-- Whether a notification is terminal: `Commit` or `Rollback`. -/
def Notification.isTerminal : Notification → Bool
  | .Commit => true
  | .Rollback => true
  | _ => false

/-- The argument of a logged call of `EnlistTheOnlyDurable`. -/
def NestedResult.todOf (x : NestedResult) : Option Participant :=
  match x.call with
  | .enlist (.EnlistTheOnlyDurable d) => some d
  | _ => none

/-- The TOD a transaction in its prepare phase holds after the calls of a log, when it
held `tod0` before them: the first `EnlistTheOnlyDurable` made while there is no TOD
stores its argument. -/
def todAfter (tod0 : Option Participant) : List NestedResult → Option Participant
  | [] => tod0
  | x :: log =>
    todAfter
      (match tod0 with
        | some d => some d
        | none => x.todOf) log

/-- The TOD during the prepare phase of a `Commit` that started with the TOD `tod0`:
the status is in the Preparing family, the TOD is the one the log determines, and a
logged `EnlistTheOnlyDurable` has returned nil exactly when there was no TOD at that
moment. -/
structure TodLog (tod0 : Option Participant) (tx : CommittableTransaction)
    (log : List NestedResult) : Prop where
  fam : tx.isPreparing = true
  tod : tx.tod = todAfter tod0 log
  errs : ∀ (i : Nat) (x : NestedResult), log[i]? = some x → x.isTodCall = true →
    x.err = if todAfter tod0 (log.take i) = none then none else some .ErrTxError

/-- Participant 1 enlists the TOD 9 from inside `Prepare`, participant 2 calls
`Rollback` from inside `Prepare`; both answer `Prepared`. -/
def exampleNestedTodAndRollback : Env :=
  { Env.quiet with
    onPrepare := fun p _ =>
      if p = 1 then { nested := [.enlist (.EnlistTheOnlyDurable 9)], verb := .Prepared }
      else { nested := [.Rollback], verb := .Prepared } }

/-- An Active transaction with the volatiles 1 and 2 and no TOD. -/
def exampleVolatiles : CommittableTransaction :=
  { status := .txStatusActive, tod := none, vrms := [1, 2] }

/-- Participant 1 enlists the volatile 2 from inside `Prepare` and answers `Prepared`;
participant 2 answers `Done`. -/
def exampleNestedDone : Env :=
  { Env.quiet with
    onPrepare := fun p _ =>
      if p = 1 then { nested := [.enlist (.EnlistVolatile 2)], verb := .Prepared }
      else { nested := [], verb := .Done } }

/-- An Active transaction with the volatile 1 and no TOD. -/
def exampleOneVolatile : CommittableTransaction :=
  { status := .txStatusActive, tod := none, vrms := [1] }

/-! ## Notifications as the participants find them

The functions of this section follow `Commit` and `Rollback` once more and record, for
every notification other than `Prepare`, the transaction as it is when the notification
is invoked and what the enlistment attempts made from inside it return. -/

/-- A notification as the participant finds it: the call, the transaction at the
moment of the call, and the results of the enlistment attempts made from inside. -/
structure Seen where
  call : Call
  tx : CommittableTransaction
  attempts : List NestedResult
  deriving DecidableEq, Repr

/-- The enlistment attempts made from inside a notification other than `Prepare`. -/
def lateAttempts (env : Env) (c : Call) : List EnlistCall :=
  if c.what = .SinglePhaseCommit then (env.onSinglePhaseCommit c.trm).nested
  else terminalNested env c

/-- The notification `c` invoked in the state `r`. -/
def seenAt (env : Env) (c : Call) (r : Run) : Seen :=
  { call := c, tx := r.tx,
    attempts := (runEnlists (lateAttempts env c) { r with nested := [] }).nested }

/-- The notification that `singlePhase` invokes in the state `r`. -/
def singlePhaseSeen (env : Env) (r : Run) : List Seen :=
  match r.tod with
  | none => []
  | some d =>
    if !r.shouldAbort then [seenAt env { trm := d, what := .SinglePhaseCommit, id := -1 } r]
    else []

/-- The notification that `commitTodRollback` invokes in the state `r`. -/
def commitTodRollbackSeen (env : Env) (r : Run) : List Seen :=
  match r.tod with
  | none => []
  | some d =>
    if r.shouldAbort then [seenAt env { trm := d, what := .Rollback, id := -1 } r] else []

/-- The notifications that `commitTerminal` invokes, each in the state reached after
the ones before it. -/
def commitTerminalSeen (env : Env) : Nat → List (Option Participant) → Run → List Seen
  | _, [], _ => []
  | i, none :: rest, r => commitTerminalSeen env (i + 1) rest r
  | i, some vrm :: rest, r =>
    seenAt env { trm := vrm, what := if r.shouldAbort then .Rollback else .Commit, id := i } r ::
      match notifyTerminal env vrm (if r.shouldAbort then .Rollback else .Commit) i r with
      | .stop _ => []
      | .ret r1 =>
        commitTerminalSeen env (i + 1) rest { r1 with pendingRespsNo := r1.pendingRespsNo + 1 }

/-- The notifications that `commitFinish` invokes. -/
def commitFinishSeen (env : Env) (r1 : Run) : List Seen :=
  singlePhaseSeen env { r1 with tx := { r1.tx with status := .txStatusFinalizing } } ++
    match singlePhase env { r1 with tx := { r1.tx with status := .txStatusFinalizing } } with
    | .stop _ => []
    | .ret r2 =>
      commitTodRollbackSeen env
          { r2 with tx := ({ r2.tx with status :=
              if r2.shouldAbort then .txStatusAborted else .txStatusCommitted }).clear } ++
        match commitTodRollback env
            { r2 with tx := ({ r2.tx with status :=
                if r2.shouldAbort then .txStatusAborted else .txStatusCommitted }).clear } with
        | .stop _ => []
        | .ret r3 => commitTerminalSeen env 0 r3.vrms r3

/-- The notifications other than `Prepare` that `Commit` invokes. -/
def CommitSeen (fuel : Nat) (env : Env) (tx : CommittableTransaction) : List Seen :=
  if !(tx.isTerminated || tx.status == .txStatusActive) then
    []
  else if tx.status == .txStatusAborted then
    []
  else if tx.isTerminated then
    []
  else if tx.tod == none && tx.vrms.length == 0 then
    []
  else
    match prepareLoop env fuel (commitStart tx) with
    | .stop _ => []
    | .ret r1 => commitFinishSeen env r1

/-- The notification that `rollbackTod` invokes in the state `r`. -/
def rollbackTodSeen (env : Env) (r : Run) : List Seen :=
  match r.tod with
  | none => []
  | some d => [seenAt env { trm := d, what := .Rollback, id := -1 } r]

/-- The notifications that `rollbackTerminal` invokes. -/
def rollbackTerminalSeen (env : Env) : Nat → List Participant → Run → List Seen
  | _, [], _ => []
  | i, vrm :: rest, r =>
    seenAt env { trm := vrm, what := .Rollback, id := i } r ::
      match notifyTerminal env vrm .Rollback i r with
      | .stop _ => []
      | .ret r1 => rollbackTerminalSeen env (i + 1) rest r1

/-- The notifications that `Rollback` invokes. -/
def RollbackSeen (env : Env) (tx : CommittableTransaction) : List Seen :=
  match tx.RollbackNested with
  | some _ => []
  | none =>
    if !(tx.isTerminated || tx.status == .txStatusActive) then
      []
    else if tx.status == .txStatusAborted then
      []
    else if tx.isTerminated then
      []
    else if tx.tod == none && tx.vrms.length == 0 then
      []
    else
      rollbackTodSeen env
          { tx := ({ tx with status := .txStatusAborted }).clear,
            tod := tx.tod, vrms := tx.vrms.map some,
            responses := Chan.make (tx.vrms.length + 1),
            shouldAbort := false, processed := 0, pendingRespsNo := 0,
            calls := [], nested := [] } ++
        match rollbackTod env
            { tx := ({ tx with status := .txStatusAborted }).clear,
              tod := tx.tod, vrms := tx.vrms.map some,
              responses := Chan.make (tx.vrms.length + 1),
              shouldAbort := false, processed := 0, pendingRespsNo := 0,
              calls := [], nested := [] } with
        | .stop _ => []
        | .ret r1 => rollbackTerminalSeen env 0 tx.vrms r1

/-- The documented state at the time of a notification other than `Prepare`: the
status is Finalizing at `SinglePhaseCommit`; at a terminal `Commit` (respectively
`Rollback`) the status is Committed (respectively Aborted) and the registry is cleared;
and every enlistment attempted from inside returns `ErrTxError`. -/
def Seen.asDocumented (s : Seen) : Prop :=
  (s.call.what = .SinglePhaseCommit → s.tx.status = .txStatusFinalizing) ∧
  (s.call.what = .Commit →
    s.tx = { status := .txStatusCommitted, tod := none, vrms := [] }) ∧
  (s.call.what = .Rollback →
    s.tx = { status := .txStatusAborted, tod := none, vrms := [] }) ∧
  s.call.what ≠ .Prepare ∧
  ∀ x ∈ s.attempts, x.err = some .ErrTxError

/-- Participant 1 calls `EnlistTheOnlyDurable` from inside `Prepare`; everybody answers
`Prepared` and `Committed`. -/
def exampleSecondTod : Env :=
  { Env.quiet with
    onPrepare := fun p _ =>
      if p = 1 then { nested := [.enlist (.EnlistTheOnlyDurable 7)], verb := .Prepared }
      else { nested := [], verb := .Prepared } }

/-! ## Concurrent calls of `Commit` and `Rollback`

Several calls of `Commit` and `Rollback` on one transaction, run by different
goroutines.  A call advances by the sections of its code between two points where `mu`
or `ctlMu` is taken; what the participants answer during a section is a choice of the
environment. -/

/-- Which method a call invokes. -/
inductive CallKind where
  | Commit
  | Rollback
  deriving DecidableEq, Repr

/-- How a call came to its result: it performed the terminal transition itself, it
took the reentrant shortcut of `Rollback`, or it found the transaction terminated. -/
inductive How where
  | transition
  | shortcut
  | observed
  deriving DecidableEq, Repr

/-- Where a call stands.  `commitPass lenW shouldAbort` is a prepare pass in flight
(lines 100-117 of committable.go, `mu` released) for a working set of `lenW` slots;
`commitSpc` is the `SinglePhaseCommit` in flight (lines 140-149); `commitNotify` and
`rollbackNotify` are the terminal notifications after the terminal transition. -/
inductive Pc where
  | commitStart
  | commitLocked
  | commitPass (lenW : Nat) (shouldAbort : Bool)
  | commitSpc
  | commitNotify (shouldAbort : Bool)
  | rollbackStart
  | rollbackWait
  | rollbackLocked
  | rollbackNotify
  | returned (err : Option Error) (how : How)
  | panicked
  deriving DecidableEq, Repr

/-- The transaction, the call that holds `ctlMu` (`none` when it is unlocked), and the
position of every call. -/
structure World where
  tx : CommittableTransaction
  ctlMu : Option Nat
  pcs : Nat → Pc

/-- Move call `i` to the position `pc`. -/
def World.setPc (w : World) (i : Nat) (pc : Pc) : World :=
  { w with pcs := fun j => if j = i then pc else w.pcs j }

/-- A step of the system: call `i` runs its next section, where `vote` tells whether
an abort was voted in the notifications of that section; or some goroutine calls an
enlistment method. -/
inductive Choice where
  | call (i : Nat) (vote : Bool)
  | enlist (e : EnlistCall)
  deriving DecidableEq, Repr

/-- The code of `Commit` from the exit of the prepare loop (line 136) to the next
release of `mu`: the status becomes Finalizing; then either `mu` is released for the
`SinglePhaseCommit`, or the terminal status is set and the registry cleared. -/
def afterLoop (w : World) (i : Nat) (shouldAbort : Bool) : World :=
  if w.tx.tod != none && !shouldAbort then
    ({ w with tx := { w.tx with status := .txStatusFinalizing } }).setPc i .commitSpc
  else
    ({ w with tx := ({ w.tx with status :=
        if shouldAbort then .txStatusAborted else .txStatusCommitted }).clear }).setPc i
      (.commitNotify shouldAbort)

/-- The next section of call `i`. -/
def stepCall (w : World) (i : Nat) (vote : Bool) : World :=
  match w.pcs i with
  | .commitStart =>
    if w.ctlMu = none then ({ w with ctlMu := some i }).setPc i .commitLocked else w
  | .commitLocked =>
    if !(w.tx.isTerminated || w.tx.status == .txStatusActive) then
      w.setPc i .panicked
    else if w.tx.status == .txStatusAborted then
      ({ w with ctlMu := none }).setPc i (.returned (some .ErrTxAborted) .observed)
    else if w.tx.isTerminated then
      ({ w with ctlMu := none }).setPc i (.returned (some .ErrTxError) .observed)
    else if w.tx.tod == none && w.tx.vrms.length == 0 then
      ({ w with tx := ({ w.tx with status := .txStatusCommitted }).clear,
                ctlMu := none }).setPc i (.returned none .transition)
    else if 0 < w.tx.vrms.length then
      ({ w with tx := { w.tx with status := .txStatusPreparing } }).setPc i
        (.commitPass w.tx.vrms.length false)
    else
      afterLoop { w with tx := { w.tx with status := .txStatusPreparing } } i false
  | .commitPass lenW shouldAbort =>
    let lenW1 := if w.tx.vrms.length > lenW then w.tx.vrms.length else lenW
    let shouldAbort1 := (shouldAbort || vote) || w.tx.status == .txStatusPrepareAborted
    if !shouldAbort1 && lenW < lenW1 then
      w.setPc i (.commitPass lenW1 shouldAbort1)
    else
      afterLoop w i shouldAbort1
  | .commitSpc =>
    ({ w with tx := ({ w.tx with status :=
        if vote then .txStatusAborted else .txStatusCommitted }).clear }).setPc i
      (.commitNotify vote)
  | .commitNotify shouldAbort =>
    ({ w with ctlMu := none }).setPc i
      (.returned (if shouldAbort then some .ErrTxAborted else none) .transition)
  | .rollbackStart =>
    if w.tx.isPreparing then
      ({ w with tx := { w.tx with status := .txStatusPrepareAborted } }).setPc i
        (.returned none .shortcut)
    else
      w.setPc i .rollbackWait
  | .rollbackWait =>
    if w.ctlMu = none then ({ w with ctlMu := some i }).setPc i .rollbackLocked else w
  | .rollbackLocked =>
    if !(w.tx.isTerminated || w.tx.status == .txStatusActive) then
      w.setPc i .panicked
    else if w.tx.status == .txStatusAborted then
      ({ w with ctlMu := none }).setPc i (.returned (some .ErrTxAborted) .observed)
    else if w.tx.isTerminated then
      ({ w with ctlMu := none }).setPc i (.returned (some .ErrTxError) .observed)
    else if w.tx.tod == none && w.tx.vrms.length == 0 then
      ({ w with tx := { w.tx with status := .txStatusAborted },
                ctlMu := none }).setPc i (.returned none .transition)
    else
      ({ w with tx := ({ w.tx with status := .txStatusAborted }).clear }).setPc i
        .rollbackNotify
  | .rollbackNotify =>
    ({ w with ctlMu := none }).setPc i (.returned none .transition)
  | .returned _ _ => w
  | .panicked => w

/-- One step of the system. -/
def step (w : World) : Choice → World
  | .call i vote => stepCall w i vote
  | .enlist e => { w with tx := (runEnlist w.tx e).2 }

/-- The system after a sequence of steps. -/
def runWorld : List Choice → World → World
  | [], w => w
  | c :: cs, w => runWorld cs (step w c)

/-- The calls `kinds` on the transaction `tx`, none of them started. -/
def World.start (tx : CommittableTransaction) (kinds : Nat → CallKind) : World :=
  { tx := tx, ctlMu := none,
    pcs := fun i =>
      match kinds i with
      | .Commit => .commitStart
      | .Rollback => .rollbackStart }

/-- Whether a call at this position holds `ctlMu`. -/
def Pc.holds : Pc → Bool
  | .commitLocked => true
  | .commitPass _ _ => true
  | .commitSpc => true
  | .commitNotify _ => true
  | .rollbackLocked => true
  | .rollbackNotify => true
  | _ => false

/-- Whether a call at this position has performed the terminal transition. -/
def Pc.performed : Pc → Bool
  | .commitNotify _ => true
  | .rollbackNotify => true
  | .returned _ .transition => true
  | _ => false

/-- The statuses the transaction can have while the call that holds `ctlMu` is at the
given position. -/
def Pc.statusOk : Pc → txStatus → Bool
  | .commitLocked, st => st == .txStatusActive || st == .txStatusCommitted ||
      st == .txStatusAborted
  | .rollbackLocked, st => st == .txStatusActive || st == .txStatusCommitted ||
      st == .txStatusAborted
  | .commitPass _ _, st => st == .txStatusPreparing || st == .txStatusPrepareAborted
  | .commitSpc, st => st == .txStatusFinalizing
  | .commitNotify _, st => st == .txStatusCommitted || st == .txStatusAborted
  | .rollbackNotify, st => st == .txStatusAborted
  | _, _ => false

/-- The invariant of the system of concurrent calls. -/
structure WorldInv (w : World) : Prop where
  holder : ∀ i, (w.pcs i).holds = true ↔ w.ctlMu = some i
  free : w.ctlMu = none → w.tx.status = .txStatusActive ∨ w.tx.isTerminated = true
  held : ∀ i, w.ctlMu = some i → (w.pcs i).statusOk w.tx.status = true
  sound : ∀ i, w.pcs i ≠ .panicked
  ended : ∀ i, (w.pcs i).performed = true → w.tx.isTerminated = true
  once : ∀ i j, (w.pcs i).performed = true → (w.pcs j).performed = true → i = j
  performer : w.tx.isTerminated = true → ∃ i, (w.pcs i).performed = true
  result : ∀ i err how, w.pcs i = .returned err how →
    w.tx.status ≠ .txStatusActive ∧
    (how = .transition → err = none ∨ err = some .ErrTxAborted) ∧
    (how = .shortcut → err = none) ∧
    (how = .observed → w.tx.isTerminated = true ∧
      err = if w.tx.status = .txStatusAborted then some .ErrTxAborted
        else some .ErrTxError)

/-- A bound on the number of sections call `i` still has to run while it holds `ctlMu`,
when every section to come reports an abort vote. -/
def Pc.rank : Pc → Nat
  | .commitLocked => 3
  | .commitPass _ _ => 2
  | .commitSpc => 2
  | .commitNotify _ => 1
  | .rollbackLocked => 2
  | .rollbackNotify => 1
  | _ => 0

/-- Whether a call has returned. -/
def Pc.isReturned : Pc → Bool
  | .returned _ _ => true
  | _ => false

/-- Call 0 is a `Commit`, every other call a `Rollback`. -/
def exampleKinds : Nat → CallKind :=
  fun i => if i = 0 then .Commit else .Rollback

/-- An interleaving on `exampleTx`: the `Commit` 0 takes the locks and starts its
prepare pass; the `Rollback`s 1 and 2 arrive during the pass; the pass ends with no
abort vote; the `Rollback` 3 arrives after the terminal transition and waits for
`ctlMu`; the `Commit` returns; the `Rollback` 3 goes on. -/
def exampleSchedule : List Choice :=
  [.call 0 false, .call 0 false, .call 1 false, .call 2 false, .call 0 false,
   .call 3 false, .call 3 false, .call 0 false, .call 3 false, .call 3 false]

/-- The test "Rollback may be used during the prepare phase": the participants answer
`Prepared` and call nothing; another goroutine calls `Rollback` while the first
`Prepare` is in flight, before the participant answers. -/
def exampleOutsideRollback : Env :=
  { Env.quiet with
    sched := fun _ => [1],
    outside := fun i => if i = 0 then [.Rollback] else [] }

/-! ## Theorems -/

/-- C1: `EnlistVolatile(v)` returns nil exactly when the status is Active, Preparing or
PrepareAborted; on success `v` is appended at the end of `vrms` while the existing
elements, `tod` and `status` are unchanged; otherwise it returns `ErrTxError` and the
whole state is unchanged. -/
theorem C1_EnlistVolatile_contract (tx : CommittableTransaction) (v : Participant) :
    ((tx.EnlistVolatile v).1 = none ↔
        (tx.status = .txStatusActive ∨ tx.status = .txStatusPreparing ∨
          tx.status = .txStatusPrepareAborted)) ∧
    ((tx.EnlistVolatile v).1 = none →
        (tx.EnlistVolatile v).2.vrms = tx.vrms ++ [v] ∧
        (tx.EnlistVolatile v).2.tod = tx.tod ∧
        (tx.EnlistVolatile v).2.status = tx.status) ∧
    ((tx.EnlistVolatile v).1 ≠ none →
        (tx.EnlistVolatile v).1 = some .ErrTxError ∧ (tx.EnlistVolatile v).2 = tx) := by
  obtain ⟨st, tod, vrms⟩ := tx
  cases st <;>
    simp [CommittableTransaction.EnlistVolatile, CommittableTransaction.isPreparing]

/-- C2: `EnlistTheOnlyDurable(d)` returns `ErrTxError` exactly when a TOD is already
present or the status is not one of Active, Preparing, PrepareAborted, and then the
state is unchanged; otherwise it returns nil, `tod` becomes `d` and `vrms` and `status`
are unchanged. -/
theorem C2_EnlistTheOnlyDurable_contract (tx : CommittableTransaction) (d : Participant) :
    ((tx.EnlistTheOnlyDurable d).1 = some .ErrTxError ↔
        (tx.tod ≠ none ∨ ¬ (tx.status = .txStatusActive ∨ tx.status = .txStatusPreparing ∨
          tx.status = .txStatusPrepareAborted))) ∧
    ((tx.EnlistTheOnlyDurable d).1 = some .ErrTxError →
        (tx.EnlistTheOnlyDurable d).2 = tx) ∧
    ((tx.EnlistTheOnlyDurable d).1 ≠ some .ErrTxError →
        (tx.EnlistTheOnlyDurable d).1 = none ∧
        (tx.EnlistTheOnlyDurable d).2.tod = some d ∧
        (tx.EnlistTheOnlyDurable d).2.vrms = tx.vrms ∧
        (tx.EnlistTheOnlyDurable d).2.status = tx.status) := by
  obtain ⟨st, tod, vrms⟩ := tx
  cases st <;> cases tod <;>
    simp [CommittableTransaction.EnlistTheOnlyDurable, CommittableTransaction.isPreparing]

/-- C4: terminal states are absorbing.  When the status is Committed or Aborted (and
the registry is empty, as it is after every terminal transition), each of
`EnlistTheOnlyDurable`, `EnlistVolatile`, `Commit` and `Rollback` returns and leaves the
same terminal status and an empty registry. -/
theorem C4_terminal_absorbing (tx : CommittableTransaction) (env : Env) (fuel : Nat)
    (p : Participant)
    (hterm : tx.status = .txStatusCommitted ∨ tx.status = .txStatusAborted)
    (hempty : tx.tod = none ∧ tx.vrms = []) :
    ((tx.EnlistTheOnlyDurable p).2.status = tx.status ∧
      (tx.EnlistTheOnlyDurable p).2.tod = none ∧ (tx.EnlistTheOnlyDurable p).2.vrms = []) ∧
    ((tx.EnlistVolatile p).2.status = tx.status ∧
      (tx.EnlistVolatile p).2.tod = none ∧ (tx.EnlistVolatile p).2.vrms = []) ∧
    ((Commit fuel env tx).err ≠ none ∧ (Commit fuel env tx).run.tx.status = tx.status ∧
      (Commit fuel env tx).run.tx.tod = none ∧ (Commit fuel env tx).run.tx.vrms = []) ∧
    ((Rollback env tx).err ≠ none ∧ (Rollback env tx).run.tx.status = tx.status ∧
      (Rollback env tx).run.tx.tod = none ∧ (Rollback env tx).run.tx.vrms = []) := by
  obtain ⟨st, tod, vrms⟩ := tx
  obtain ⟨h1, h2⟩ := hempty
  simp only at h1 h2 hterm
  subst h1 h2
  rcases hterm with h | h <;> subst h <;>
    simp [CommittableTransaction.EnlistTheOnlyDurable, CommittableTransaction.EnlistVolatile,
      CommittableTransaction.isPreparing, CommittableTransaction.isTerminated, Commit, Rollback,
      CommittableTransaction.RollbackNested, Outcome.err, Outcome.run, Run.idle]

/-- Witness for C4: a committed transaction with an empty registry. -/
theorem C4_terminal_absorbing_witness :
    (((⟨.txStatusCommitted, none, []⟩ : CommittableTransaction).EnlistTheOnlyDurable 7).2.status
        = .txStatusCommitted ∧
      ((⟨.txStatusCommitted, none, []⟩ : CommittableTransaction).EnlistTheOnlyDurable 7).2.tod
        = none ∧
      ((⟨.txStatusCommitted, none, []⟩ : CommittableTransaction).EnlistTheOnlyDurable 7).2.vrms
        = []) :=
  (C4_terminal_absorbing ⟨.txStatusCommitted, none, []⟩
    ⟨fun _ _ => ⟨[], .Prepared⟩, fun _ => ⟨[], .Committed⟩, fun _ _ => [], fun _ _ => [],
      fun _ => [], fun _ => []⟩ 1 7 (Or.inl rfl) ⟨rfl, rfl⟩).1

/-- C6: for an Active transaction with no TOD and no volatile participants, `Commit`
returns nil and leaves the status Committed, and `Rollback` returns nil and leaves the
status Aborted; in both cases no participant is notified and the registry stays empty. -/
theorem C6_empty_commit_and_rollback (tx : CommittableTransaction) (env : Env) (fuel : Nat)
    (hact : tx.status = .txStatusActive) (hempty : tx.tod = none ∧ tx.vrms = []) :
    ((Commit fuel env tx).err = some none ∧
      (Commit fuel env tx).run.tx.status = .txStatusCommitted ∧
      (Commit fuel env tx).run.calls = [] ∧
      (Commit fuel env tx).run.tx.tod = none ∧ (Commit fuel env tx).run.tx.vrms = []) ∧
    ((Rollback env tx).err = some none ∧
      (Rollback env tx).run.tx.status = .txStatusAborted ∧
      (Rollback env tx).run.calls = [] ∧
      (Rollback env tx).run.tx.tod = none ∧ (Rollback env tx).run.tx.vrms = []) := by
  obtain ⟨st, tod, vrms⟩ := tx
  obtain ⟨h1, h2⟩ := hempty
  simp only at h1 h2 hact
  subst h1 h2 hact
  simp [CommittableTransaction.isPreparing, CommittableTransaction.isTerminated, Commit,
    Rollback, CommittableTransaction.RollbackNested, CommittableTransaction.clear,
    Outcome.err, Outcome.run, Run.idle]

/-- Witness for C6: the fresh transaction. -/
theorem C6_empty_commit_and_rollback_witness :
    (Commit 0 ⟨fun _ _ => ⟨[], .Prepared⟩, fun _ => ⟨[], .Committed⟩, fun _ _ => [],
        fun _ _ => [], fun _ => [], fun _ => []⟩ CommittableTransaction.fresh).err = some none :=
  (C6_empty_commit_and_rollback CommittableTransaction.fresh
    ⟨fun _ _ => ⟨[], .Prepared⟩, fun _ => ⟨[], .Committed⟩, fun _ _ => [], fun _ _ => [],
      fun _ => [], fun _ => []⟩ 0 rfl ⟨rfl, rfl⟩).1.1

/-! ## The scheduler -/

theorem popTask_perm {α : Type} : ∀ (k : Nat) (ts : List (List α)) (a : α)
    (ts1 : List (List α)), popTask k ts = some (a, ts1) →
    ts.flatten.Perm (a :: ts1.flatten)
  | _, [], a, ts1, h => by simp [popTask] at h
  | 0, [] :: ts, a, ts1, h => by simp [popTask] at h
  | 0, (b :: t) :: ts, a, ts1, h => by
    simp only [popTask, Option.some.injEq, Prod.mk.injEq] at h
    obtain ⟨h1, h2⟩ := h
    subst h1 h2
    simp
  | k + 1, t :: ts, a, ts1, h => by
    simp only [popTask] at h
    cases hp : popTask k ts with
    | none => simp [hp] at h
    | some q =>
      obtain ⟨b, ts2⟩ := q
      simp only [hp, Option.some.injEq, Prod.mk.injEq] at h
      obtain ⟨h1, h2⟩ := h
      subst h1 h2
      have ih := popTask_perm k ts b ts2 hp
      simp only [List.flatten_cons]
      exact (List.Perm.append_left t ih).trans List.perm_middle

theorem interleave_perm {α : Type} : ∀ (cs : List Nat) (ts : List (List α)),
    (interleave cs ts).Perm ts.flatten
  | [], ts => by simp [interleave]
  | c :: cs, ts => by
    simp only [interleave]
    cases hp : popTask c ts with
    | none => exact interleave_perm cs ts
    | some q =>
      obtain ⟨a, ts1⟩ := q
      exact ((interleave_perm cs ts1).cons a).trans (popTask_perm c ts a ts1 hp).symm

/-! ## Enlistment -/

theorem runEnlist_status (tx : CommittableTransaction) (e : EnlistCall) :
    (runEnlist tx e).2.status = tx.status := by
  cases e <;> simp only [runEnlist, CommittableTransaction.EnlistVolatile,
    CommittableTransaction.EnlistTheOnlyDurable] <;> split <;> try rfl
  all_goals (split <;> rfl)

theorem runEnlist_refused (tx : CommittableTransaction) (e : EnlistCall)
    (h : tx.status = .txStatusFinalizing ∨ tx.status = .txStatusCommitted ∨
      tx.status = .txStatusAborted) :
    runEnlist tx e = (some .ErrTxError, tx) := by
  obtain ⟨st, tod, vrms⟩ := tx
  simp only at h
  rcases h with h | h | h <;> subst h <;> cases e <;> cases tod <;>
    simp [runEnlist, CommittableTransaction.EnlistVolatile,
      CommittableTransaction.EnlistTheOnlyDurable, CommittableTransaction.isPreparing]

theorem runEnlist_vrms (tx : CommittableTransaction) (e : EnlistCall)
    (h : tx.isPreparing = true) :
    (runEnlist tx e).2.vrms = tx.vrms ++ (Action.volatile (.call (.enlist e))).toList := by
  cases e <;> simp only [runEnlist, CommittableTransaction.EnlistVolatile,
    CommittableTransaction.EnlistTheOnlyDurable, h, Action.volatile] <;> simp
  split <;> simp

theorem runEnlist_isPreparing (tx : CommittableTransaction) (e : EnlistCall) :
    (runEnlist tx e).2.isPreparing = tx.isPreparing := by
  simp [CommittableTransaction.isPreparing, runEnlist_status]

/-! ## Actions of a prepare pass -/

/-- Running the actions of a pass on a transaction in the Preparing family, with room
in the channel for every post: nothing blocks, the locals are untouched, the posts are
queued in order, the volatile list only grows, and the status records a nested
Rollback. -/
theorem runActions_spec : ∀ (acts : List Action) (r : Run),
    r.tx.isPreparing = true →
    r.responses.buf.length + (acts.filterMap Action.posted).length ≤ r.responses.cap →
    ∃ r1, runActions acts r = .ret r1 ∧
      r1.tx.isPreparing = true ∧
      r1.tx.vrms = r.tx.vrms ++ acts.filterMap Action.volatile ∧
      (r1.tx.status = .txStatusPrepareAborted ↔
        (r.tx.status = .txStatusPrepareAborted ∨ Action.call .Rollback ∈ acts)) ∧
      r1.responses = { cap := r.responses.cap,
                       buf := r.responses.buf ++ acts.filterMap Action.posted } ∧
      r1.vrms = r.vrms ∧ r1.tod = r.tod ∧ r1.shouldAbort = r.shouldAbort ∧
      r1.processed = r.processed ∧ r1.calls = r.calls ∧
      r1.pendingRespsNo = r.pendingRespsNo
  | [], r, hp, _ => by
    exact ⟨r, rfl, hp, by simp, by simp, by simp, rfl, rfl, rfl, rfl, rfl, rfl⟩
  | a :: acts, r, hp, hcap => by
    cases a with
    | post m =>
      have hlt : r.responses.buf.length < r.responses.cap := by
        simp [Action.posted] at hcap; omega
      have hstep : stepAction r (.post m) =
          .ret { r with responses := { r.responses with buf := r.responses.buf ++ [m] } } := by
        simp [stepAction, Chan.send, hlt]
      obtain ⟨r1, h1, h2, h3, h4, h5, h6⟩ := runActions_spec acts
        { r with responses := { r.responses with buf := r.responses.buf ++ [m] } } hp
        (by simp [Action.posted] at hcap ⊢; omega)
      refine ⟨r1, by simp [runActions, hstep, h1], h2, ?_, ?_, ?_, h6⟩
      · simpa [Action.volatile] using h3
      · simpa using h4
      · simpa [Action.posted] using h5
    | call c =>
      cases c with
      | enlist e =>
        have hstep : stepAction r (.call (.enlist e)) =
            .ret { r with tx := (runEnlist r.tx e).2,
                          nested := r.nested ++
                            [{ call := .enlist e, err := (runEnlist r.tx e).1 }] } := rfl
        obtain ⟨r1, h1, h2, h3, h4, h5, h6⟩ := runActions_spec acts
          { r with tx := (runEnlist r.tx e).2,
                   nested := r.nested ++ [{ call := .enlist e, err := (runEnlist r.tx e).1 }] }
          (by simpa [runEnlist_isPreparing] using hp)
          (by simpa [Action.posted] using hcap)
        refine ⟨r1, by simp [runActions, hstep, h1], h2, ?_, ?_, ?_, h6⟩
        · rw [h3]
          simp only [runEnlist_vrms r.tx e hp]
          cases e <;> simp [Action.volatile, List.filterMap_cons]
        · simpa [runEnlist_status] using h4
        · simpa [Action.posted] using h5
      | Rollback =>
        have hstep : stepAction r (.call .Rollback) =
            .ret { r with tx := { r.tx with status := .txStatusPrepareAborted },
                          nested := r.nested ++ [{ call := .Rollback, err := none }] } := by
          simp [stepAction, CommittableTransaction.RollbackNested, hp]
        obtain ⟨r1, h1, h2, h3, h4, h5, h6⟩ := runActions_spec acts
          { r with tx := { r.tx with status := .txStatusPrepareAborted },
                   nested := r.nested ++ [{ call := .Rollback, err := none }] }
          (by simp [CommittableTransaction.isPreparing])
          (by simpa [Action.posted] using hcap)
        refine ⟨r1, by simp [runActions, hstep, h1], h2, ?_, ?_, ?_, h6⟩
        · simpa [Action.volatile] using h3
        · simpa using h4
        · simpa [Action.posted] using h5

/-! ## Collecting the votes -/

theorem markDone_length : ∀ (msgs : List trmResponse) (w : List (Option Participant)),
    (markDone msgs w).length = w.length
  | [], w => rfl
  | m :: ms, w => by
    simp only [markDone]
    rw [markDone_length ms]
    split <;> simp

theorem markDone_untouched : ∀ (msgs : List trmResponse) (w : List (Option Participant))
    (i : Nat), (∀ m ∈ msgs, m.code = .trmResponseCodeDone → m.enlId.toNat ≠ i) →
    (markDone msgs w)[i]? = w[i]?
  | [], w, i, _ => rfl
  | m :: ms, w, i, h => by
    simp only [markDone]
    rw [markDone_untouched ms _ i (fun m1 hm1 => h m1 (List.mem_cons_of_mem _ hm1))]
    split
    · next hc =>
      have := h m (List.mem_cons_self _ _) hc
      simp [List.getElem?_set, this]
    · rfl

theorem set_none_same (w : List (Option Participant)) (i : Nat) :
    (w.set i none)[i]? = (w[i]?).map (fun _ => none) := by
  by_cases h : i < w.length
  · simp [List.getElem?_set, h, List.getElem?_eq_getElem h]
  · have h1 : w.length ≤ i := by omega
    simp [List.getElem?_set, h, List.getElem?_eq_none h1]

theorem set_none_map (w : List (Option Participant)) (i j : Nat) :
    ((w.set j none)[i]?).map (fun _ => (none : Option Participant)) =
      (w[i]?).map (fun _ => none) := by
  by_cases hij : j = i
  · subst hij
    rw [set_none_same]
    cases w[j]? <;> rfl
  · simp [List.getElem?_set, hij]

theorem markDone_marked : ∀ (msgs : List trmResponse) (w : List (Option Participant))
    (i : Nat), (∃ m ∈ msgs, m.code = .trmResponseCodeDone ∧ m.enlId.toNat = i) →
    (markDone msgs w)[i]? = (w[i]?).map (fun _ => none)
  | [], w, i, h => by simp at h
  | m :: ms, w, i, h => by
    simp only [markDone]
    by_cases ht : ∃ m1 ∈ ms, m1.code = .trmResponseCodeDone ∧ m1.enlId.toNat = i
    · rw [markDone_marked ms _ i ht]
      split
      · exact set_none_map w i _
      · rfl
    · have hhead : m.code = .trmResponseCodeDone ∧ m.enlId.toNat = i := by
        obtain ⟨m1, hm1, hc⟩ := h
        rcases List.mem_cons.1 hm1 with rfl | hm1
        · exact hc
        · exact absurd ⟨m1, hm1, hc⟩ ht
      rw [markDone_untouched ms _ i (fun m1 hm1 hc1 hi => ht ⟨m1, hm1, hc1, hi⟩)]
      simp only [hhead.1, if_true, hhead.2]
      exact set_none_same w i

/-- Collecting the responses `msgs` that are at the head of the channel: nothing
blocks, every `Done` marks its slot, every `Abort` latches `shouldAbort`. -/
theorem collect_spec : ∀ (msgs : List trmResponse) (r : Run) (rest : List trmResponse),
    r.responses.buf = msgs ++ rest →
    (∀ m ∈ msgs, m.code = .trmResponseCodeDone →
      0 ≤ m.enlId ∧ m.enlId.toNat < r.vrms.length) →
    ∃ r1, collect msgs.length r = .ret r1 ∧
      r1.vrms = markDone msgs r.vrms ∧
      r1.responses = { cap := r.responses.cap, buf := rest } ∧
      r1.processed = r.processed + msgs.length ∧
      r1.shouldAbort = (r.shouldAbort || msgs.any (fun m => m.code = .trmResponseCodeAbort)) ∧
      r1.tx = r.tx ∧ r1.tod = r.tod ∧ r1.calls = r.calls ∧ r1.nested = r.nested ∧
      r1.pendingRespsNo = r.pendingRespsNo
  | [], r, rest, hb, _ => by
    refine ⟨r, rfl, rfl, ?_, rfl, by simp, rfl, rfl, rfl, rfl, rfl⟩
    cases hr : r.responses
    simp_all
  | m :: ms, r, rest, hb, hr => by
    have hrecv : r.responses.recv = some (m, { r.responses with buf := ms ++ rest }) := by
      simp [Chan.recv, hb]
    have hms : ∀ (w : List (Option Participant)), w.length = r.vrms.length →
        ∀ m1 ∈ ms, m1.code = .trmResponseCodeDone →
          0 ≤ m1.enlId ∧ m1.enlId.toNat < w.length := by
      intro w hw m1 hm1 hc
      rw [hw]
      exact hr m1 (List.mem_cons_of_mem _ hm1) hc
    cases hc : m.code with
    | trmResponseCodeDone =>
      have hm := hr m (List.mem_cons_self _ _) hc
      obtain ⟨r1, h1, h2, h3, h4, h5, h6⟩ := collect_spec ms
        { r with responses := { r.responses with buf := ms ++ rest },
                 processed := r.processed + 1,
                 vrms := r.vrms.set m.enlId.toNat none } rest rfl
        (hms _ (by simp))
      refine ⟨r1, ?_, ?_, h3, ?_, ?_, h6⟩
      · simp only [List.length_cons, collect, hrecv, hc]
        rw [if_pos hm]
        exact h1
      · rw [h2]
        simp [markDone, hc]
      · rw [h4]
        simp only [List.length_cons]
        omega
      · rw [h5]
        simp [hc]
    | trmResponseCodeAbort =>
      obtain ⟨r1, h1, h2, h3, h4, h5, h6⟩ := collect_spec ms
        { r with responses := { r.responses with buf := ms ++ rest },
                 processed := r.processed + 1, shouldAbort := true } rest rfl
        (hms _ rfl)
      refine ⟨r1, ?_, ?_, h3, ?_, ?_, h6⟩
      · simp only [List.length_cons, collect, hrecv, hc]
        exact h1
      · rw [h2]
        simp [markDone, hc]
      · rw [h4]
        simp only [List.length_cons]
        omega
      · rw [h5]
        simp [hc]
    | trmResponseCodeCommit =>
      obtain ⟨r1, h1, h2, h3, h4, h5, h6⟩ := collect_spec ms
        { r with responses := { r.responses with buf := ms ++ rest },
                 processed := r.processed + 1 } rest rfl
        (hms _ rfl)
      refine ⟨r1, ?_, ?_, h3, ?_, ?_, h6⟩
      · simp only [List.length_cons, collect, hrecv, hc]
        exact h1
      · rw [h2]
        simp [markDone, hc]
      · rw [h4]
        simp only [List.length_cons]
        omega
      · rw [h5]
        simp [hc]

/-! ## The notifications of a prepare pass -/

theorem prepareCalls_map_some (env : Env) : ∀ (ps : List Participant) (i : Nat),
    prepareCalls env i (ps.map some) = some (prepList i ps, taskList env i ps)
  | [], _ => rfl
  | p :: ps, i => by
    simp [prepareCalls, prepareCalls_map_some env ps (i + 1), prepList, taskList]

theorem prepList_append : ∀ (a b : List Participant) (i : Nat),
    prepList i (a ++ b) = prepList i a ++ prepList (i + a.length) b
  | [], b, i => by simp [prepList]
  | p :: a, b, i => by
    have ih := prepList_append a b (i + 1)
    rw [show i + 1 + a.length = i + (a.length + 1) by omega] at ih
    simp [prepList, ih]

theorem prepList_length : ∀ (ps : List Participant) (i : Nat),
    (prepList i ps).length = ps.length
  | [], _ => rfl
  | p :: ps, i => by simp [prepList, prepList_length ps (i + 1)]

theorem taskList_posted (env : Env) : ∀ (ps : List Participant) (i : Nat),
    (taskList env i ps).flatten.filterMap Action.posted = postList env i ps
  | [], _ => rfl
  | p :: ps, i => by
    have h : ∀ (l : List NestedCall), (l.map Action.call).filterMap Action.posted = [] := by
      intro l
      induction l with
      | nil => rfl
      | cons c l ih => simp [Action.posted]
    simp [taskList, postList, prepareTask, outsideTask, taskList_posted env ps (i + 1),
      List.filterMap_append, h, Action.posted]

theorem postList_length (env : Env) : ∀ (ps : List Participant) (i : Nat),
    (postList env i ps).length = ps.length
  | [], _ => rfl
  | p :: ps, i => by simp [postList, postList_length env ps (i + 1)]

theorem mem_postList (env : Env) : ∀ (ps : List Participant) (i : Nat) (m : trmResponse),
    m ∈ postList env i ps ↔
      ∃ j p, ps[j]? = some p ∧ m = (env.onPrepare p ((i + j : Nat) : Int)).verb.post
        { id := ((i + j : Nat) : Int) }
  | [], i, m => by simp [postList]
  | q :: ps, i, m => by
    simp only [postList, List.mem_cons, mem_postList env ps (i + 1) m]
    constructor
    · rintro (h | ⟨j, p, hj, hm⟩)
      · exact ⟨0, q, by simp, by simp [h]⟩
      · refine ⟨j + 1, p, by simpa using hj, ?_⟩
        rw [hm]
        have : i + 1 + j = i + (j + 1) := by omega
        rw [this]
    · rintro ⟨j, p, hj, hm⟩
      cases j with
      | zero =>
        simp only [List.getElem?_cons_zero, Option.some.injEq] at hj
        subst hj
        left
        simpa using hm
      | succ j =>
        right
        refine ⟨j, p, by simpa using hj, ?_⟩
        rw [hm]
        have : i + 1 + j = i + (j + 1) := by omega
        rw [this]

theorem mem_taskList_call (env : Env) : ∀ (ps : List Participant) (i : Nat) (c : NestedCall),
    Action.call c ∈ (taskList env i ps).flatten ↔
      ∃ j p, ps[j]? = some p ∧ c ∈ env.during p ((i + j : Nat) : Int)
  | [], i, c => by simp [taskList]
  | q :: ps, i, c => by
    simp only [taskList, List.flatten_cons, List.mem_append, mem_taskList_call env ps (i + 1) c]
    have hq : (Action.call c ∈ prepareTask env q i ∨ Action.call c ∈ outsideTask env i) ↔
        c ∈ env.during q (i : Int) := by
      simp [prepareTask, outsideTask, Env.during]
    rw [← or_assoc, hq]
    constructor
    · rintro (h | ⟨j, p, hj, hm⟩)
      · exact ⟨0, q, by simp, by simp [h]⟩
      · refine ⟨j + 1, p, by simpa using hj, ?_⟩
        have : i + 1 + j = i + (j + 1) := by omega
        rw [← this]
        exact hm
    · rintro ⟨j, p, hj, hm⟩
      cases j with
      | zero =>
        simp only [List.getElem?_cons_zero, Option.some.injEq] at hj
        subst hj
        left
        simpa using hm
      | succ j =>
        right
        refine ⟨j, p, by simpa using hj, ?_⟩
        have : i + 1 + j = i + (j + 1) := by omega
        rw [this]
        exact hm

/-! ## The working set -/

theorem slots_length (env : Env) (k : Nat) : ∀ (ps : List Participant) (i : Nat),
    (slots env k i ps).length = ps.length
  | [], _ => rfl
  | p :: ps, i => by simp [slots, slots_length env k ps (i + 1)]

theorem slots_getElem? (env : Env) (k : Nat) : ∀ (ps : List Participant) (i j : Nat),
    (slots env k i ps)[j]? = (ps[j]?).map (fun p =>
      if i + j < k ∧ (env.onPrepare p ((i + j : Nat) : Int)).verb = .Done then none else some p)
  | [], i, j => by simp [slots]
  | p :: ps, i, j => by
    cases j with
    | zero => simp [slots]
    | succ j =>
      simp only [slots, List.getElem?_cons_succ, slots_getElem? env k ps (i + 1) j]
      have : i + 1 + j = i + (j + 1) := by omega
      rw [this]

theorem slots_ge (env : Env) (k : Nat) : ∀ (ps : List Participant) (i : Nat), k ≤ i →
    slots env k i ps = ps.map some
  | [], _, _ => rfl
  | p :: ps, i, h => by
    have : ¬ i < k := by omega
    simp [slots, this, slots_ge env k ps (i + 1) (by omega)]

theorem slots_append (env : Env) (k : Nat) : ∀ (a b : List Participant) (i : Nat),
    slots env k i (a ++ b) = slots env k i a ++ slots env k (i + a.length) b
  | [], b, i => by simp [slots]
  | p :: a, b, i => by
    have ih := slots_append env k a b (i + 1)
    rw [show i + 1 + a.length = i + (a.length + 1) by omega] at ih
    simp [slots, ih]

theorem slots_drop (env : Env) (k : Nat) : ∀ (ps : List Participant) (i j : Nat),
    (slots env k i ps).drop j = slots env k (i + j) (ps.drop j)
  | ps, i, 0 => by simp
  | [], i, j + 1 => by simp [slots]
  | p :: ps, i, j + 1 => by
    simp only [slots, List.drop_succ_cons, slots_drop env k ps (i + 1) j]
    congr 1
    omega

theorem forced_iff (env : Env) (k : Nat) : ∀ (ps : List Participant) (i : Nat),
    forced env k i ps = true ↔
      ∃ j p, ps[j]? = some p ∧ i + j < k ∧
        (env.onPrepare p ((i + j : Nat) : Int)).verb.isForceRollback = true
  | [], i => by simp [forced]
  | q :: ps, i => by
    simp only [forced, Bool.or_eq_true, Bool.and_eq_true, decide_eq_true_eq,
      forced_iff env k ps (i + 1)]
    constructor
    · rintro (h | ⟨j, p, hj, hk, hm⟩)
      · exact ⟨0, q, by simp, by simpa using h⟩
      · refine ⟨j + 1, p, by simpa using hj, by omega, ?_⟩
        have : i + 1 + j = i + (j + 1) := by omega
        rw [← this]
        exact hm
    · rintro ⟨j, p, hj, hk, hm⟩
      cases j with
      | zero =>
        simp only [List.getElem?_cons_zero, Option.some.injEq] at hj
        subst hj
        left
        simpa using And.intro hk hm
      | succ j =>
        right
        refine ⟨j, p, by simpa using hj, by omega, ?_⟩
        have : i + 1 + j = i + (j + 1) := by omega
        rw [this]
        exact hm

theorem rolled_iff (env : Env) (k : Nat) : ∀ (ps : List Participant) (i : Nat),
    rolled env k i ps = true ↔
      ∃ j p, ps[j]? = some p ∧ i + j < k ∧
        NestedCall.Rollback ∈ env.during p ((i + j : Nat) : Int)
  | [], i => by simp [rolled]
  | q :: ps, i => by
    simp only [rolled, Bool.or_eq_true, Bool.and_eq_true, decide_eq_true_eq,
      rolled_iff env k ps (i + 1)]
    constructor
    · rintro (h | ⟨j, p, hj, hk, hm⟩)
      · exact ⟨0, q, by simp, by simpa using h⟩
      · refine ⟨j + 1, p, by simpa using hj, by omega, ?_⟩
        have : i + 1 + j = i + (j + 1) := by omega
        rw [← this]
        exact hm
    · rintro ⟨j, p, hj, hk, hm⟩
      cases j with
      | zero =>
        simp only [List.getElem?_cons_zero, Option.some.injEq] at hj
        subst hj
        left
        simpa using And.intro hk hm
      | succ j =>
        right
        refine ⟨j, p, by simpa using hj, by omega, ?_⟩
        have : i + 1 + j = i + (j + 1) := by omega
        rw [this]
        exact hm

/-! ## One prepare pass -/

theorem post_enlId (v : PreparingVerb) (en : enlistment) : (v.post en).enlId = en.id := by
  cases v <;> rfl

theorem post_code_done (v : PreparingVerb) (en : enlistment) :
    (v.post en).code = .trmResponseCodeDone ↔ v = .Done := by
  cases v <;> simp [PreparingVerb.post, enlistment.Done, enlistment.Prepared,
    enlistment.ForceRollback]

theorem post_code_abort (v : PreparingVerb) (en : enlistment) :
    (v.post en).code = .trmResponseCodeAbort ↔ v.isForceRollback = true := by
  cases v <;> simp [PreparingVerb.post, enlistment.Done, enlistment.Prepared,
    enlistment.ForceRollback, PreparingVerb.isForceRollback]

theorem relock_spec (r : Run) (h : r.vrms.length ≤ r.tx.vrms.length) :
    (relock r).vrms = r.vrms ++ (r.tx.vrms.drop r.vrms.length).map some ∧
    (relock r).responses =
      (if r.tx.vrms.length > r.vrms.length then Chan.make (r.tx.vrms.length + 1)
        else r.responses) ∧
    (relock r).tod = r.tx.tod ∧
    (relock r).shouldAbort =
      (r.shouldAbort || decide (r.tx.status = .txStatusPrepareAborted)) ∧
    (relock r).tx = r.tx ∧ (relock r).processed = r.processed ∧
    (relock r).calls = r.calls ∧ (relock r).pendingRespsNo = r.pendingRespsNo ∧
    (relock r).nested = r.nested := by
  unfold relock
  by_cases hg : r.tx.vrms.length > r.vrms.length
  · have hl : r.vrms.length + (r.tx.vrms.length - r.vrms.length) = r.tx.vrms.length := by
      omega
    by_cases hs : r.tx.status = .txStatusPrepareAborted <;> simp [hg, hs, hl]
  · have hd : List.drop r.vrms.length r.tx.vrms = [] := by
      apply List.drop_eq_nil_of_le
      omega
    by_cases hs : r.tx.status = .txStatusPrepareAborted <;> simp [hg, hs, hd]

/-- Marking the answers of the slots `k ..` on the working set prepared up to `k`
gives the working set prepared up to the end, whatever the order of arrival. -/
theorem markDone_slots (env : Env) (ps : List Participant) (k : Nat)
    (msgs : List trmResponse) (hperm : msgs.Perm (postList env k (ps.drop k))) :
    markDone msgs (slots env k 0 ps) = slots env ps.length 0 ps := by
  apply List.ext_getElem?
  intro j
  rw [slots_getElem?]
  by_cases hm : ∃ m ∈ msgs, m.code = .trmResponseCodeDone ∧ m.enlId.toNat = j
  · rw [markDone_marked _ _ _ hm, slots_getElem?]
    obtain ⟨m, hmem, hc, hid⟩ := hm
    obtain ⟨i, p, hi, hmp⟩ := (mem_postList env _ k m).1 (hperm.mem_iff.1 hmem)
    subst hmp
    rw [post_enlId] at hid
    simp only [Int.toNat_ofNat] at hid
    subst hid
    rw [post_code_done] at hc
    have hp : ps[k + i]? = some p := by simpa [List.getElem?_drop] using hi
    have hlt : k + i < ps.length := by
      rcases Nat.lt_or_ge (k + i) ps.length with h | h
      · exact h
      · rw [List.getElem?_eq_none h] at hp
        exact absurd hp (by simp)
    simp only [hp, Option.map_some', Nat.zero_add, hlt, true_and, hc, if_true]
  · rw [markDone_untouched _ _ _ (fun m hmem hc hid => hm ⟨m, hmem, hc, hid⟩), slots_getElem?]
    cases hp : ps[j]? with
    | none => rfl
    | some p =>
      have hlt : j < ps.length := by
        rcases Nat.lt_or_ge j ps.length with h | h
        · exact h
        · rw [List.getElem?_eq_none h] at hp
          exact absurd hp (by simp)
      simp only [Option.map_some', Nat.zero_add]
      by_cases hd : (env.onPrepare p (j : Int)).verb = .Done
      · by_cases hjk : j < k
        · simp [hd, hjk, hlt]
        · exfalso
          apply hm
          refine ⟨(env.onPrepare p (j : Int)).verb.post { id := (j : Int) }, ?_, ?_, ?_⟩
          · apply hperm.mem_iff.2
            apply (mem_postList env _ k _).2
            refine ⟨j - k, p, ?_, ?_⟩
            · rw [List.getElem?_drop]
              rw [show k + (j - k) = j by omega]
              exact hp
            · rw [show k + (j - k) = j by omega]
          · exact (post_code_done _ _).2 hd
          · rw [post_enlId]
            simp
      · simp [hd]

theorem any_abort_iff (env : Env) (ps : List Participant) (k : Nat)
    (msgs : List trmResponse) (hperm : msgs.Perm (postList env k ps)) :
    msgs.any (fun m => m.code = .trmResponseCodeAbort) = true ↔
      ∃ j p, ps[j]? = some p ∧
        (env.onPrepare p ((k + j : Nat) : Int)).verb.isForceRollback = true := by
  simp only [List.any_eq_true, decide_eq_true_eq]
  constructor
  · rintro ⟨m, hmem, hc⟩
    obtain ⟨i, p, hi, hmp⟩ := (mem_postList env _ k m).1 (hperm.mem_iff.1 hmem)
    subst hmp
    exact ⟨i, p, hi, (post_code_abort _ _).1 hc⟩
  · rintro ⟨j, p, hj, hf⟩
    exact ⟨_, hperm.mem_iff.2 ((mem_postList env _ k _).2 ⟨j, p, hj, rfl⟩),
      (post_code_abort _ _).2 hf⟩

theorem lt_length_of_getElem? {α : Type} (l : List α) (j : Nat) (a : α)
    (h : l[j]? = some a) : j < l.length := by
  rcases Nat.lt_or_ge j l.length with h1 | h1
  · exact h1
  · rw [List.getElem?_eq_none h1] at h
    exact absurd h (by simp)

theorem forced_step (env : Env) (ps newV : List Participant) (k : Nat)
    (h0 : forced env k 0 ps = false) (msgs : List trmResponse)
    (hperm : msgs.Perm (postList env k (ps.drop k))) :
    forced env ps.length 0 (ps ++ newV) =
      msgs.any (fun m => m.code = .trmResponseCodeAbort) := by
  apply Bool.eq_iff_iff.2
  rw [forced_iff, any_abort_iff env _ k msgs hperm]
  constructor
  · rintro ⟨j, p, hj, hlt, hf⟩
    simp only [Nat.zero_add] at hlt hf
    rw [List.getElem?_append_left hlt] at hj
    have hkj : k ≤ j := by
      by_contra hc
      have : forced env k 0 ps = true :=
        (forced_iff env k ps 0).2 ⟨j, p, hj, by omega, by simpa using hf⟩
      rw [h0] at this
      exact absurd this (by simp)
    refine ⟨j - k, p, ?_, ?_⟩
    · rw [List.getElem?_drop, show k + (j - k) = j by omega]
      exact hj
    · rw [show k + (j - k) = j by omega]
      exact hf
  · rintro ⟨j, p, hj, hf⟩
    rw [List.getElem?_drop] at hj
    have hlt := lt_length_of_getElem? _ _ _ hj
    refine ⟨k + j, p, ?_, by omega, by simpa using hf⟩
    rw [List.getElem?_append_left hlt]
    exact hj

theorem rolled_step (env : Env) (ps newV : List Participant) (k : Nat)
    (h0 : rolled env k 0 ps = false) (acts : List Action)
    (hperm : acts.Perm (taskList env k (ps.drop k)).flatten) :
    rolled env ps.length 0 (ps ++ newV) = decide (Action.call .Rollback ∈ acts) := by
  apply Bool.eq_iff_iff.2
  rw [rolled_iff, decide_eq_true_iff, hperm.mem_iff, mem_taskList_call]
  constructor
  · rintro ⟨j, p, hj, hlt, hf⟩
    simp only [Nat.zero_add] at hlt hf
    rw [List.getElem?_append_left hlt] at hj
    have hkj : k ≤ j := by
      by_contra hc
      have : rolled env k 0 ps = true :=
        (rolled_iff env k ps 0).2 ⟨j, p, hj, by omega, by simpa using hf⟩
      rw [h0] at this
      exact absurd this (by simp)
    refine ⟨j - k, p, ?_, ?_⟩
    · rw [List.getElem?_drop, show k + (j - k) = j by omega]
      exact hj
    · rw [show k + (j - k) = j by omega]
      exact hf
  · rintro ⟨j, p, hj, hf⟩
    rw [List.getElem?_drop] at hj
    have hlt := lt_length_of_getElem? _ _ _ hj
    refine ⟨k + j, p, ?_, by omega, by simpa using hf⟩
    rw [List.getElem?_append_left hlt]
    exact hj

/-- One pass of the prepare loop, entered at the loop head with no abort latched and
slots left to prepare: the pass returns, the invariant holds again, every slot of the
old working set has been prepared, and the volatile list has grown by the nested
enlistments of this pass. -/
theorem preparePass_spec (env : Env) (r : Run) (hi : LoopInv env r)
    (hsa : r.shouldAbort = false) :
    ∃ r1 newV, preparePass env r = .ret r1 ∧ LoopInv env r1 ∧
      r1.processed = r.tx.vrms.length ∧
      r1.tx.vrms = r.tx.vrms ++ newV ∧
      newV.Perm ((taskList env r.processed
        (r.tx.vrms.drop r.processed)).flatten.filterMap Action.volatile) := by
  have hk := hi.bound
  have hlen : r.vrms.length = r.tx.vrms.length := by rw [hi.working, slots_length]
  have hdrop : r.vrms.drop r.processed = (r.tx.vrms.drop r.processed).map some := by
    rw [hi.working, slots_drop, slots_ge _ _ _ _ (by omega)]
  have hperm := interleave_perm (env.sched r.processed)
    (taskList env r.processed (r.tx.vrms.drop r.processed))
  have hpass : preparePass env r =
      match runActions (interleave (env.sched r.processed)
          (taskList env r.processed (r.tx.vrms.drop r.processed)))
          { r with calls := r.calls ++ prepList r.processed (r.tx.vrms.drop r.processed) } with
      | .stop r1 => .stop r1
      | .ret r1 =>
        match collect (r1.vrms.length - r1.processed) r1 with
        | .stop r2 => .stop r2
        | .ret r2 => .ret (relock r2) := by
    unfold preparePass
    rw [hdrop, prepareCalls_map_some]
  generalize interleave (env.sched r.processed)
    (taskList env r.processed (r.tx.vrms.drop r.processed)) = acts at hperm hpass
  have hposts := hperm.filterMap Action.posted
  rw [taskList_posted] at hposts
  have hpl := hposts.length_eq
  rw [postList_length, List.length_drop] at hpl
  have h00 : forced env r.processed 0 r.tx.vrms = false ∧
      rolled env r.processed 0 r.tx.vrms = false := by
    have := hi.abort
    rw [hsa] at this
    simpa using this.symm
  have hstat : r.tx.status = .txStatusPreparing := by
    rw [hi.status, h00.2]
    simp
  have hprep : r.tx.isPreparing = true := by
    simp [CommittableTransaction.isPreparing, hstat]
  obtain ⟨r1, e1, p1, v1, s1, c1, w1, t1, a1, k1, l1, n1⟩ :=
    runActions_spec acts
      { r with calls := r.calls ++ prepList r.processed (r.tx.vrms.drop r.processed) }
      hprep (by simp only [hi.chan, Chan.make, List.length_nil]; omega)
  simp only [hi.chan, Chan.make, List.nil_append] at c1
  dsimp only at v1 s1 w1 t1 a1 k1 l1 n1
  obtain ⟨r2, e2, w2, c2, k2, a2, x2, t2, l2, g2, n2⟩ :=
    collect_spec (acts.filterMap Action.posted) r1 [] (by rw [c1]; simp) (by
      intro m hm hc
      obtain ⟨i, p, hip, hmp⟩ := (mem_postList env _ _ m).1 (hposts.mem_iff.1 hm)
      have hlt := lt_length_of_getElem? _ _ _ hip
      rw [List.length_drop] at hlt
      subst hmp
      rw [post_enlId, w1, hlen]
      simp only [Int.toNat_ofNat]
      constructor
      · exact Int.ofNat_nonneg _
      · omega)
  have hw2 : r2.vrms = slots env r.tx.vrms.length 0 r.tx.vrms := by
    rw [w2, w1, hi.working]
    exact markDone_slots env _ _ _ hposts
  have hlen2 : r2.vrms.length = r.tx.vrms.length := by rw [hw2, slots_length]
  have hx2 : r2.tx.vrms = r.tx.vrms ++ acts.filterMap Action.volatile := by
    rw [x2, v1]
  obtain ⟨rw3, rc3, rt3, ra3, rx3, rk3, rl3, rn3, -⟩ :=
    relock_spec r2 (by rw [hlen2, hx2]; simp)
  have hk3 : (relock r2).processed = r.tx.vrms.length := by
    rw [rk3, k2, k1, hpl]
    omega
  refine ⟨relock r2, _, ?_, ?_, hk3, ?_, hperm.filterMap Action.volatile⟩
  · rw [hpass]
    simp only [e1]
    have : r1.vrms.length - r1.processed = (List.filterMap Action.posted acts).length := by
      rw [w1, k1, hpl, hlen]
    rw [this]
    simp only [e2]
  · have hdropn : List.drop r.tx.vrms.length (relock r2).tx.vrms =
        acts.filterMap Action.volatile := by
      rw [rx3, hx2]
      simp
    constructor
    · rw [hk3, rx3, hx2]
      simp
    · rw [hk3, rw3, hlen2, ← rx3, hdropn, hw2, rx3, hx2, slots_append,
        slots_ge env _ _ (0 + r.tx.vrms.length) (by omega)]
    · rw [rc3, hlen2, rx3]
      split
      · rfl
      · next hng =>
        have : r2.tx.vrms.length = r.tx.vrms.length := by
          have : r.tx.vrms.length ≤ r2.tx.vrms.length := by rw [hx2]; simp
          omega
        rw [c2, c1, this]
        rfl
    · rw [rt3, rx3]
    · rw [hk3, rl3, l2, l1, rx3, hx2, List.take_left' rfl, hi.calls]
      have := prepList_append (r.tx.vrms.take r.processed) (r.tx.vrms.drop r.processed) 0
      rw [List.take_append_drop, List.length_take, Nat.zero_add, Nat.min_eq_left hk] at this
      exact this.symm
    · rw [hk3, ra3, a2, a1, rx3, hx2, forced_step env _ _ _ h00.1 _ hposts,
        rolled_step env _ _ _ h00.2 _ hperm]
      simp only [hsa, Bool.false_or]
      congr 1
      rw [x2]
      apply Bool.eq_iff_iff.2
      simp only [decide_eq_true_iff]
      rw [s1]
      simp [hstat]
    · rw [hk3, rx3, hx2, rolled_step env _ _ _ h00.2 _ hperm, x2]
      by_cases hr : Action.call NestedCall.Rollback ∈ acts
      · simp only [hr, decide_True, if_true]
        exact s1.2 (Or.inr hr)
      · simp only [hr, decide_False]
        have hne : r1.tx.status ≠ .txStatusPrepareAborted := by
          intro hc
          rcases s1.1 hc with h | h
          · rw [hstat] at h
            exact absurd h (by decide)
          · exact hr h
        have hp1 := p1
        simp only [CommittableTransaction.isPreparing, Bool.or_eq_true, beq_iff_eq] at hp1
        rcases hp1 with h | h
        · simpa using h
        · exact absurd h hne
    · rw [rn3, n2, n1]
      exact hi.pending
  · rw [rx3, hx2]

/-! ## The prepare loop -/

theorem prepareLoop_exit (env : Env) (fuel : Nat) (r : Run)
    (h : ¬ (r.shouldAbort = false ∧ r.processed < r.vrms.length)) :
    prepareLoop env fuel r = .ret r := by
  unfold prepareLoop
  have : (!r.shouldAbort && decide (r.processed < r.vrms.length)) = false := by
    cases hs : r.shouldAbort <;> simp_all
  simp [this]

theorem prepareLoop_step (env : Env) (fuel : Nat) (r : Run)
    (h : r.shouldAbort = false ∧ r.processed < r.vrms.length) :
    prepareLoop env (fuel + 1) r =
      match preparePass env r with
      | .stop r1 => .stop r1
      | .ret r1 => prepareLoop env fuel r1 := by
  rw [prepareLoop]
  simp [h.1, h.2]

theorem prepareLoop_zero (env : Env) (r : Run)
    (h : r.shouldAbort = false ∧ r.processed < r.vrms.length) :
    prepareLoop env 0 r = .stop r := by
  rw [prepareLoop]
  simp [h.1, h.2]

/-- The prepare loop keeps its invariant.  If it returns, an abort is latched or every
slot of the volatile list has been prepared; it stops only when the fuel is used up,
at a loop head where the loop would go on. -/
theorem prepareLoop_spec (env : Env) : ∀ (fuel : Nat) (r : Run), LoopInv env r →
    (∀ r1, prepareLoop env fuel r = .ret r1 →
      LoopInv env r1 ∧ (r1.shouldAbort = true ∨ r1.processed = r1.tx.vrms.length) ∧
      (∃ more, r1.tx.vrms = r.tx.vrms ++ more)) ∧
    (∀ r1, prepareLoop env fuel r = .stop r1 →
      LoopInv env r1 ∧ r1.shouldAbort = false ∧ r1.processed < r1.tx.vrms.length ∧
      (∃ more, r1.tx.vrms = r.tx.vrms ++ more))
  | fuel, r, hi => by
    have hlen : r.vrms.length = r.tx.vrms.length := by rw [hi.working, slots_length]
    by_cases hc : r.shouldAbort = false ∧ r.processed < r.vrms.length
    · cases fuel with
      | zero =>
        rw [prepareLoop_zero env r hc]
        constructor
        · intro r1 h
          cases h
        · intro r1 h
          cases h
          exact ⟨hi, hc.1, by rw [← hlen]; exact hc.2, [], by simp⟩
      | succ fuel =>
        rw [prepareLoop_step env fuel r hc]
        obtain ⟨r1, newV, e1, hi1, -, hv1, -⟩ := preparePass_spec env r hi hc.1
        simp only [e1]
        obtain ⟨ih1, ih2⟩ := prepareLoop_spec env fuel r1 hi1
        constructor
        · intro r2 h
          obtain ⟨a, b, more, hm⟩ := ih1 r2 h
          exact ⟨a, b, newV ++ more, by rw [hm, hv1, List.append_assoc]⟩
        · intro r2 h
          obtain ⟨a, b, c, more, hm⟩ := ih2 r2 h
          exact ⟨a, b, c, newV ++ more, by rw [hm, hv1, List.append_assoc]⟩
    · rw [prepareLoop_exit env fuel r hc]
      constructor
      · intro r1 h
        cases h
        refine ⟨hi, ?_, [], by simp⟩
        by_cases hs : r.shouldAbort = true
        · exact Or.inl hs
        · right
          have hb := hi.bound
          have : ¬ r.processed < r.vrms.length := fun h => hc ⟨by simpa using hs, h⟩
          omega
      · intro r1 h
        cases h

theorem taskList_no_volatile (env : Env) (ps : List Participant) (i : Nat)
    (h : ∀ j p, ps[j]? = some p → ∀ v : Participant,
      NestedCall.enlist (.EnlistVolatile v) ∉ env.during p ((i + j : Nat) : Int)) :
    (taskList env i ps).flatten.filterMap Action.volatile = [] := by
  rw [List.filterMap_eq_nil_iff]
  intro a ha
  cases a with
  | post m => rfl
  | call c =>
    obtain ⟨j, p, hj, hc⟩ := (mem_taskList_call env ps i c).1 ha
    cases c with
    | Rollback => rfl
    | enlist e =>
      cases e with
      | EnlistTheOnlyDurable d => rfl
      | EnlistVolatile v => exact absurd hc (h j p hj v)

/-- With bounded nesting the prepare loop returns, given one more pass than there are
handle ids that may enlist volatiles. -/
theorem prepareLoop_returns (env : Env) (N : Nat) (hb : boundedNesting env N) :
    ∀ (fuel : Nat) (r : Run), LoopInv env r → N - r.processed < fuel →
      ∃ r1, prepareLoop env fuel r = .ret r1
  | 0, r, _, hf => by omega
  | fuel + 1, r, hi, hf => by
    have hlen : r.vrms.length = r.tx.vrms.length := by rw [hi.working, slots_length]
    by_cases hc : r.shouldAbort = false ∧ r.processed < r.vrms.length
    · rw [prepareLoop_step env fuel r hc]
      obtain ⟨r1, newV, e1, hi1, hk1, hv1, hperm⟩ := preparePass_spec env r hi hc.1
      simp only [e1]
      have hlen1 : r1.vrms.length = r1.tx.vrms.length := by rw [hi1.working, slots_length]
      by_cases hN : N ≤ r.processed
      · have hnil : newV = [] := by
          rw [taskList_no_volatile env _ _ (fun j p _ v => hb p _ (by omega) v)] at hperm
          exact List.Perm.eq_nil hperm
        refine ⟨r1, prepareLoop_exit env fuel r1 ?_⟩
        rintro ⟨-, h2⟩
        rw [hlen1, hv1, hnil, hk1] at h2
        simp at h2
      · exact prepareLoop_returns env N hb fuel r1 hi1 (by omega)
    · exact ⟨r, prepareLoop_exit env _ r hc⟩

/-! ## After the prepare loop -/

/-- The statuses in which every enlistment is refused. -/
theorem runEnlists_refused : ∀ (es : List EnlistCall) (r : Run),
    (r.tx.status = .txStatusFinalizing ∨ r.tx.status = .txStatusCommitted ∨
      r.tx.status = .txStatusAborted) →
    runEnlists es r = { r with nested := r.nested ++ refusedLog es }
  | [], r, _ => by simp [runEnlists, refusedLog]
  | e :: es, r, h => by
    have ih := runEnlists_refused es
      { r with nested := r.nested ++ [{ call := .enlist e, err := some .ErrTxError }] } h
    rw [runEnlists, runEnlist_refused r.tx e h]
    exact ih.trans (by simp [refusedLog])

theorem notifyTerminal_spec (env : Env) (p : Participant) (what : Notification) (id : Int)
    (r : Run)
    (hst : r.tx.status = .txStatusFinalizing ∨ r.tx.status = .txStatusCommitted ∨
      r.tx.status = .txStatusAborted)
    (hcap : r.responses.buf.length < r.responses.cap) :
    notifyTerminal env p what id r =
      .ret { r with
        calls := r.calls ++ [{ trm := p, what := what, id := id }],
        nested := r.nested ++ refusedLog (terminalNested env { trm := p, what := what, id := id }),
        responses := { r.responses with
          buf := r.responses.buf ++ [enlistment.Done { id := id }] } } := by
  unfold notifyTerminal
  have he := runEnlists_refused
    (if what = .Commit then env.onCommit p id else env.onRollback p id)
    { r with calls := r.calls ++ [{ trm := p, what := what, id := id }] } hst
  simp only [he]
  simp [Chan.send, hcap, terminalNested]

/-- The terminal loop of `Commit` on a terminated transaction with room in the channel
for one answer per slot: it returns, it notifies exactly the non-nil slots in index
order, and it changes neither the transaction nor the verdict. -/
theorem commitTerminal_spec (env : Env) : ∀ (w : List (Option Participant)) (i : Nat)
    (r : Run),
    (r.tx.status = .txStatusFinalizing ∨ r.tx.status = .txStatusCommitted ∨
      r.tx.status = .txStatusAborted) →
    r.responses.buf.length + w.length ≤ r.responses.cap →
    ∃ r1, commitTerminal env i w r = .ret r1 ∧
      r1.calls = r.calls ++ termList (if r.shouldAbort then .Rollback else .Commit) i w ∧
      r1.tx = r.tx ∧ r1.shouldAbort = r.shouldAbort ∧ r1.vrms = r.vrms ∧ r1.tod = r.tod ∧
      r1.processed = r.processed ∧
      r1.pendingRespsNo = r.pendingRespsNo +
        (termList (if r.shouldAbort then .Rollback else .Commit) i w).length ∧
      r1.responses =
        { cap := r.responses.cap,
          buf := r.responses.buf ++
            doneList (termList (if r.shouldAbort then .Rollback else .Commit) i w) } ∧
      ∃ es, r1.nested = r.nested ++ refusedLog es
  | [], i, r, _, _ => by
    refine ⟨r, rfl, by simp [termList], rfl, rfl, rfl, rfl, rfl, by simp [termList], ?_,
      [], by simp [refusedLog]⟩
    simp [termList, doneList]
  | none :: w, i, r, hst, hcap => by
    obtain ⟨r1, h1, h2⟩ := commitTerminal_spec env w (i + 1) r hst
      (by simp only [List.length_cons] at hcap; omega)
    exact ⟨r1, by rw [commitTerminal, h1], by simpa [termList] using h2⟩
  | some p :: w, i, r, hst, hcap => by
    simp only [List.length_cons] at hcap
    have hn := notifyTerminal_spec env p (if r.shouldAbort then .Rollback else .Commit) i r hst
      (by omega)
    obtain ⟨r1, h1, h2, h3, h4, h5, h6, h7, h8, h9, es, h10⟩ := commitTerminal_spec env w (i + 1)
      { r with
        calls := r.calls ++ [{ trm := p, what := (if r.shouldAbort then .Rollback else .Commit),
                               id := i }],
        nested := r.nested ++ refusedLog (terminalNested env
          { trm := p, what := (if r.shouldAbort then .Rollback else .Commit), id := i }),
        responses := { r.responses with
          buf := r.responses.buf ++ [enlistment.Done { id := i }] },
        pendingRespsNo := r.pendingRespsNo + 1 } hst
      (by simp only [List.length_append, List.length_singleton]; omega)
    refine ⟨r1, ?_, ?_, h3, h4, h5, h6, h7, ?_, ?_, ?_⟩
    · rw [commitTerminal, hn]
      exact h1
    · rw [h2]
      simp [termList]
    · rw [h8]
      simp only [termList, List.length_cons]
      omega
    · rw [h9]
      simp [termList, doneList]
    · exact ⟨terminalNested env { trm := p, what := (if r.shouldAbort then .Rollback else .Commit), id := i } ++ es,
        by rw [h10]; simp [refusedLog]⟩

/-- The step "SPC Commit" at the exit of the prepare loop, with the status already
Finalizing and an empty channel of capacity at least one. -/
theorem singlePhase_spec (env : Env) (r : Run) (hst : r.tx.status = .txStatusFinalizing)
    (hch : r.responses.buf = []) (hcap : 0 < r.responses.cap) :
    singlePhase env r = .ret
      (match r.tod with
        | none => r
        | some d =>
          if r.shouldAbort then r
          else { r with
            calls := r.calls ++ [{ trm := d, what := .SinglePhaseCommit, id := -1 }],
            nested := r.nested ++ refusedLog (env.onSinglePhaseCommit d).nested,
            shouldAbort := (env.onSinglePhaseCommit d).verb.isAborted }) := by
  unfold singlePhase
  cases htod : r.tod with
  | none => rfl
  | some d =>
    cases hsa : r.shouldAbort with
    | true => simp
    | false =>
      simp only [Bool.not_false, if_true]
      have he := runEnlists_refused (env.onSinglePhaseCommit d).nested
        { r with calls := r.calls ++ [{ trm := d, what := .SinglePhaseCommit, id := -1 }] }
        (Or.inl hst)
      rw [htod, hsa] at he
      simp only [he]
      have hlt : r.responses.buf.length < r.responses.cap := by rw [hch]; exact hcap
      cases hv : (env.onSinglePhaseCommit d).verb with
      | Committed =>
        simp [Chan.send, Chan.recv, hlt, hch, hv, SinglePhaseVerb.post, enlistment.Committed,
          SinglePhaseVerb.isAborted, hsa]
        cases hr : r.responses
        simp_all
      | Aborted cause =>
        simp [Chan.send, Chan.recv, hlt, hch, hv, SinglePhaseVerb.post, enlistment.Aborted,
          SinglePhaseVerb.isAborted]
        cases hr : r.responses
        simp_all

theorem termList_length_le (what : Notification) : ∀ (w : List (Option Participant))
    (i : Nat), (termList what i w).length ≤ w.length
  | [], _ => by simp [termList]
  | none :: w, i => by
    have := termList_length_le what w (i + 1)
    simp only [termList, List.length_cons]
    omega
  | some p :: w, i => by
    have := termList_length_le what w (i + 1)
    simp only [termList, List.length_cons]
    omega

/-- The part of `Commit` after the prepare loop, entered at a loop head satisfying the
invariant: it returns; the verdict is abort exactly when an abort was latched in the
prepare phase or the TOD answered `SinglePhaseCommit` with `Aborted`; the transaction
ends terminated and cleared; the notifications are the `SinglePhaseCommit` (when due)
followed by the terminal notifications. -/
theorem commitFinish_spec (env : Env) (r1 : Run) (hi : LoopInv env r1) :
    ∃ r, commitFinish env r1 =
        .ret (if (r1.shouldAbort || spcAborts env r1.tod) then some .ErrTxAborted else none, r) ∧
      r.shouldAbort = (r1.shouldAbort || spcAborts env r1.tod) ∧
      r.tx = { status := if (r1.shouldAbort || spcAborts env r1.tod) then .txStatusAborted
                         else .txStatusCommitted,
               tod := none, vrms := [] } ∧
      r.calls = r1.calls ++ spcList r1.tod r1.shouldAbort ++
        terminalList r1.tod (r1.shouldAbort || spcAborts env r1.tod) r1.vrms ∧
      r.vrms = r1.vrms ∧ r.tod = r1.tod ∧ r.processed = r1.processed ∧
      r.pendingRespsNo =
        (terminalList r1.tod (r1.shouldAbort || spcAborts env r1.tod) r1.vrms).length ∧
      r.responses =
        { cap := r1.tx.vrms.length + 1,
          buf := doneList
            (terminalList r1.tod (r1.shouldAbort || spcAborts env r1.tod) r1.vrms) } ∧
      ∃ es, r.nested = r1.nested ++ refusedLog es := by
  have hlen : r1.vrms.length = r1.tx.vrms.length := by rw [hi.working, slots_length]
  have hsp := singlePhase_spec env
    { r1 with tx := { r1.tx with status := .txStatusFinalizing } } rfl
    (by simp [hi.chan, Chan.make]) (by simp [hi.chan, Chan.make])
  unfold commitFinish
  rw [hsp]
  cases htod : r1.tod with
  | none =>
    simp only [spcAborts, Bool.or_false, spcList, terminalList, todRollbackList,
      List.append_nil, List.nil_append]
    obtain ⟨r, h1, h2, h3, h4, h5, h6, h7, h8, h9, es, h10⟩ := commitTerminal_spec env r1.vrms 0
      { r1 with tx := ({ r1.tx with status :=
          if r1.shouldAbort then .txStatusAborted else .txStatusCommitted }).clear }
      (by cases r1.shouldAbort <;> simp [CommittableTransaction.clear])
      (by simp [hi.chan, Chan.make, hlen])
    refine ⟨r, ?_, h4, ?_, ?_, h5, ?_, h7, ?_, ?_, ?_⟩
    · rw [htod] at h1
      simp only [commitTodRollback, h1, h4]
    · rw [h3]
      cases r1.shouldAbort <;> simp [CommittableTransaction.clear]
    · rw [h2]
    · rw [h6, htod]
    · rw [h8, hi.pending]
      simp
    · rw [h9]
      simp [hi.chan, Chan.make]
    · exact ⟨es, by rw [h10]⟩
  | some d =>
    cases hsa : r1.shouldAbort with
    | true =>
      simp only [Bool.true_or, if_true, spcList, terminalList, todRollbackList]
      have hn := notifyTerminal_spec env d .Rollback (-1)
        { r1 with tx := ({ r1.tx with status := .txStatusAborted }).clear }
        (by simp [CommittableTransaction.clear]) (by simp [hi.chan, Chan.make])
      obtain ⟨r, h1, h2, h3, h4, h5, h6, h7, h8, h9, es, h10⟩ := commitTerminal_spec env r1.vrms 0
        { r1 with
          tx := ({ r1.tx with status := .txStatusAborted }).clear,
          calls := r1.calls ++ [{ trm := d, what := .Rollback, id := -1 }],
          nested := r1.nested ++ refusedLog (terminalNested env
            { trm := d, what := .Rollback, id := -1 }),
          responses := { r1.responses with
            buf := r1.responses.buf ++ [enlistment.Done { id := -1 }] },
          pendingRespsNo := r1.pendingRespsNo + 1 }
        (by simp [CommittableTransaction.clear])
        (by simp [hi.chan, Chan.make, hlen]; omega)
      rw [hsa] at h1 h2 h4 h8 h9
      simp only [if_true] at h1 h2 h8 h9
      refine ⟨r, ?_, h4, ?_, ?_, h5, ?_, h7, ?_, ?_, ?_⟩
      · rw [htod] at h1 hn
        rw [hsa] at hn
        simp only [commitTodRollback, if_true, hn, h1, h4]
      · rw [h3]
        simp [CommittableTransaction.clear]
      · rw [h2]
        simp
      · rw [h6, htod]
      · rw [h8, hi.pending]
        simp
        omega
      · rw [h9]
        simp [hi.chan, Chan.make, doneList]
      · exact ⟨terminalNested env { trm := d, what := .Rollback, id := -1 } ++ es,
          by rw [h10]; simp [refusedLog]⟩
    | false =>
      simp only [Bool.false_or, spcAborts, spcList, terminalList, todRollbackList]
      cases hv : (env.onSinglePhaseCommit d).verb.isAborted with
      | true =>
        have hn := notifyTerminal_spec env d .Rollback (-1)
          { r1 with
            tx := ({ r1.tx with status := .txStatusAborted }).clear,
            calls := r1.calls ++ [{ trm := d, what := .SinglePhaseCommit, id := -1 }],
            nested := r1.nested ++ refusedLog (env.onSinglePhaseCommit d).nested,
            shouldAbort := true }
          (by simp [CommittableTransaction.clear]) (by simp [hi.chan, Chan.make])
        obtain ⟨r, h1, h2, h3, h4, h5, h6, h7, h8, h9, es, h10⟩ := commitTerminal_spec env r1.vrms 0
          { r1 with
            tx := ({ r1.tx with status := .txStatusAborted }).clear,
            calls := r1.calls ++ [{ trm := d, what := .SinglePhaseCommit, id := -1 }] ++
              [{ trm := d, what := .Rollback, id := -1 }],
            nested := r1.nested ++ refusedLog (env.onSinglePhaseCommit d).nested ++
              refusedLog (terminalNested env { trm := d, what := .Rollback, id := -1 }),
            shouldAbort := true,
            responses := { r1.responses with
              buf := r1.responses.buf ++ [enlistment.Done { id := -1 }] },
            pendingRespsNo := r1.pendingRespsNo + 1 }
          (by simp [CommittableTransaction.clear])
          (by simp [hi.chan, Chan.make, hlen]; omega)
        simp only [if_true] at h1 h2 h8 h9
        refine ⟨r, ?_, h4, ?_, ?_, h5, ?_, h7, ?_, ?_, ?_⟩
        · rw [htod] at h1 hn
          simp only [commitTodRollback, Bool.false_eq_true, if_false, if_true, hn, h1, h4]
        · rw [h3]
          simp [CommittableTransaction.clear]
        · rw [h2]
          simp
        · rw [h6, htod]
        · rw [h8, hi.pending]
          simp
          omega
        · rw [h9]
          simp [hi.chan, Chan.make, doneList]
        · exact ⟨(env.onSinglePhaseCommit d).nested ++
            terminalNested env { trm := d, what := .Rollback, id := -1 } ++ es,
            by rw [h10]; simp [refusedLog]⟩
      | false =>
        obtain ⟨r, h1, h2, h3, h4, h5, h6, h7, h8, h9, es, h10⟩ := commitTerminal_spec env r1.vrms 0
          { r1 with
            tx := ({ r1.tx with status := .txStatusCommitted }).clear,
            calls := r1.calls ++ [{ trm := d, what := .SinglePhaseCommit, id := -1 }],
            nested := r1.nested ++ refusedLog (env.onSinglePhaseCommit d).nested,
            shouldAbort := false }
          (by simp [CommittableTransaction.clear])
          (by simp [hi.chan, Chan.make, hlen])
        simp only [Bool.false_eq_true, if_false] at h1 h2 h8 h9
        refine ⟨r, ?_, h4, ?_, ?_, h5, ?_, h7, ?_, ?_, ?_⟩
        · rw [htod] at h1
          simp only [commitTodRollback, h1, h4, Bool.false_eq_true, if_false]
        · rw [h3]
          simp [CommittableTransaction.clear]
        · rw [h2]
          simp
        · rw [h6, htod]
        · rw [h8, hi.pending]
          simp
        · rw [h9]
          simp [hi.chan, Chan.make, doneList]
        · exact ⟨(env.onSinglePhaseCommit d).nested ++ es, by rw [h10]; simp [refusedLog]⟩

/-! ## The TOD during the prepare phase -/

theorem runEnlist_tod (tx : CommittableTransaction) (e : EnlistCall) (d : Participant)
    (h : tx.tod = some d) : (runEnlist tx e).2.tod = some d := by
  cases e <;> simp [runEnlist, CommittableTransaction.EnlistVolatile,
    CommittableTransaction.EnlistTheOnlyDurable, h]
  split <;> simp [h]

theorem stepAction_tod (r r1 : Run) (a : Action) (d : Participant)
    (h : stepAction r a = .ret r1) (hd : r.tx.tod = some d) : r1.tx.tod = some d := by
  cases a with
  | post m =>
    simp only [stepAction] at h
    split at h
    · cases h
    · cases h
      exact hd
  | call c =>
    cases c with
    | enlist e =>
      simp only [stepAction] at h
      cases h
      exact runEnlist_tod r.tx e d hd
    | Rollback =>
      simp only [stepAction, CommittableTransaction.RollbackNested] at h
      split at h
      · cases h
      · next err tx1 heq =>
        cases h
        split at heq
        · cases heq
          exact hd
        · cases heq

theorem runActions_tod : ∀ (acts : List Action) (r r1 : Run) (d : Participant),
    runActions acts r = .ret r1 → r.tx.tod = some d → r1.tx.tod = some d
  | [], r, r1, d, h, hd => by
    cases h
    exact hd
  | a :: acts, r, r1, d, h, hd => by
    simp only [runActions] at h
    split at h
    · cases h
    · next r2 h2 => exact runActions_tod acts r2 r1 d h (stepAction_tod r r2 a d h2 hd)

theorem collect_tx : ∀ (n : Nat) (r r1 : Run), collect n r = .ret r1 → r1.tx = r.tx
  | 0, r, r1, h => by
    cases h
    rfl
  | n + 1, r, r1, h => by
    simp only [collect] at h
    split at h
    · cases h
    · split at h
      · split at h
        · have h1 := collect_tx n _ r1 h
          exact h1
        · cases h
      · have h1 := collect_tx n _ r1 h
        exact h1
      · have h1 := collect_tx n _ r1 h
        exact h1

theorem relock_tx (r : Run) : (relock r).tx = r.tx := by
  unfold relock
  simp only
  split <;> split <;> rfl

theorem preparePass_tod (env : Env) (r r1 : Run) (d : Participant)
    (h : preparePass env r = .ret r1) (hd : r.tx.tod = some d) : r1.tx.tod = some d := by
  unfold preparePass at h
  split at h
  · cases h
  · split at h
    · cases h
    · next r2 h2 =>
      split at h
      · cases h
      · next r3 h3 =>
        cases h
        rw [relock_tx, collect_tx _ _ _ h3]
        exact runActions_tod _ _ _ d h2 hd

theorem prepareLoop_tod (env : Env) : ∀ (fuel : Nat) (r r1 : Run) (d : Participant),
    prepareLoop env fuel r = .ret r1 → r.tx.tod = some d → r1.tx.tod = some d
  | fuel, r, r1, d, h, hd => by
    by_cases hc : r.shouldAbort = false ∧ r.processed < r.vrms.length
    · cases fuel with
      | zero =>
        rw [prepareLoop_zero env r hc] at h
        cases h
      | succ fuel =>
        rw [prepareLoop_step env fuel r hc] at h
        split at h
        · cases h
        · next r2 h2 =>
          exact prepareLoop_tod env fuel r2 r1 d h (preparePass_tod env r r2 d h2 hd)
    · rw [prepareLoop_exit env fuel r hc] at h
      cases h
      exact hd

/-! ## At most one TOD -/

theorem todWins_append (a b : List NestedResult) : todWins (a ++ b) = todWins a + todWins b := by
  simp [todWins]

theorem todWins_refusedLog (es : List EnlistCall) : todWins (refusedLog es) = 0 := by
  induction es with
  | nil => rfl
  | cons e es ih =>
    simp only [refusedLog, List.map_cons, todWins, List.length_eq_zero,
      List.filter_eq_nil_iff] at ih ⊢
    intro x hx
    rcases List.mem_cons.1 hx with rfl | hx
    · cases e <;> simp [NestedResult.todWin]
    · exact ih x hx

theorem not_mem_refusedLog (es : List EnlistCall) (d : Participant) :
    ({ call := .enlist (.EnlistTheOnlyDurable d), err := none } : NestedResult) ∉
      refusedLog es := by
  simp [refusedLog]

/-- The invariant only looks at the transaction and at the log. -/
theorem TodInv.congr {b : Nat} {r r1 : Run} (h : TodInv b r) (htx : r1.tx = r.tx)
    (hlog : r1.nested = r.nested) : TodInv b r1 := by
  constructor
  · rw [hlog]; exact h.once
  · rw [hlog, htx]; exact h.held
  · rw [hlog, htx]; exact h.kept

/-- A change of the transaction that keeps the TOD and does not leave a terminal
status, together with refused enlistment attempts, keeps the invariant. -/
theorem TodInv.frame {b : Nat} {r r1 : Run} (h : TodInv b r) (es : List EnlistCall)
    (hlog : r1.nested = r.nested ++ refusedLog es)
    (htx : (r1.tx.tod = r.tx.tod ∧ (r.tx.isTerminated = true → r1.tx.isTerminated = true)) ∨
      r1.tx.isTerminated = true) : TodInv b r1 := by
  have hw : todWins r1.nested = todWins r.nested := by
    rw [hlog, todWins_append, todWins_refusedLog]
    rfl
  constructor
  · rw [hw]; exact h.once
  · rw [hw]
    intro h1
    rcases htx with ⟨ht, hs⟩ | ht
    · rcases h.held h1 with h2 | h2
      · left; rw [ht]; exact h2
      · right; exact hs h2
    · right; exact ht
  · intro d hd
    rw [hlog, List.mem_append] at hd
    rcases hd with hd | hd
    · rcases htx with ⟨ht, hs⟩ | ht
      · rcases h.kept d hd with h2 | h2
        · left; rw [ht]; exact h2
        · right; exact hs h2
      · right; exact ht
    · exact absurd hd (not_mem_refusedLog es d)

theorem TodInv.enlist {b : Nat} {r : Run} (h : TodInv b r) (e : EnlistCall) :
    TodInv b { r with tx := (runEnlist r.tx e).2,
                      nested := r.nested ++ [{ call := .enlist e, err := (runEnlist r.tx e).1 }] } := by
  cases e with
  | EnlistVolatile v =>
    have hw : todWins (r.nested ++
        [⟨.enlist (.EnlistVolatile v), (runEnlist r.tx (.EnlistVolatile v)).1⟩]) =
        todWins r.nested := by
      simp [todWins, NestedResult.todWin]
    have htod : (runEnlist r.tx (.EnlistVolatile v)).2.tod = r.tx.tod := by
      simp only [runEnlist, CommittableTransaction.EnlistVolatile]
      split <;> rfl
    have hterm : (runEnlist r.tx (.EnlistVolatile v)).2.isTerminated = r.tx.isTerminated := by
      simp [CommittableTransaction.isTerminated, runEnlist_status]
    constructor
    · simp only [hw]; exact h.once
    · simp only [hw, htod, hterm]; exact h.held
    · intro d hd
      simp only [List.mem_append, List.mem_singleton] at hd
      simp only [htod, hterm]
      rcases hd with hd | hd
      · exact h.kept d hd
      · cases hd
  | EnlistTheOnlyDurable d0 =>
    by_cases hok : r.tx.tod = none ∧
        (r.tx.status = .txStatusActive ∨ r.tx.isPreparing = true)
    · have hrun : runEnlist r.tx (.EnlistTheOnlyDurable d0) =
          (none, { r.tx with tod := some d0 }) := by
        obtain ⟨h1, h2⟩ := hok
        simp only [runEnlist, CommittableTransaction.EnlistTheOnlyDurable, h1]
        rcases h2 with h2 | h2 <;> simp [h2]
      have hnt : r.tx.isTerminated = false := by
        obtain ⟨-, h2⟩ := hok
        rcases h2 with h2 | h2
        · simp [CommittableTransaction.isTerminated, h2]
        · simp only [CommittableTransaction.isPreparing, Bool.or_eq_true, beq_iff_eq] at h2
          rcases h2 with h2 | h2 <;> simp [CommittableTransaction.isTerminated, h2]
      have hzero : b + todWins r.nested = 0 := by
        have h1 := h.once
        have h2 := h.held
        by_contra hc
        have h3 : b + todWins r.nested = 1 := by omega
        rcases h2 h3 with h4 | h4
        · exact h4 hok.1
        · rw [hnt] at h4
          cases h4
      have hw : todWins (r.nested ++ [⟨.enlist (.EnlistTheOnlyDurable d0), none⟩]) =
          todWins r.nested + 1 := by
        simp [todWins, NestedResult.todWin]
      rw [hrun]
      constructor
      · simp only [hw]; omega
      · intro _
        left
        simp
      · intro d hd
        simp only [List.mem_append, List.mem_singleton] at hd
        rcases hd with hd | hd
        · rcases h.kept d hd with h4 | h4
          · rw [hok.1] at h4
            cases h4
          · rw [hnt] at h4
            cases h4
        · left
          cases hd
          rfl
    · have hrun : runEnlist r.tx (.EnlistTheOnlyDurable d0) = (some .ErrTxError, r.tx) := by
        simp only [runEnlist, CommittableTransaction.EnlistTheOnlyDurable]
        by_cases h1 : r.tx.tod = none
        · have h2 : ¬ (r.tx.status = .txStatusActive ∨ r.tx.isPreparing = true) :=
            fun h2 => hok ⟨h1, h2⟩
          simp only [not_or] at h2
          simp [h1, h2.1, h2.2]
        · simp [h1]
      rw [hrun]
      have hw : todWins (r.nested ++
          [⟨.enlist (.EnlistTheOnlyDurable d0), some .ErrTxError⟩]) = todWins r.nested := by
        simp [todWins, NestedResult.todWin]
      constructor
      · simp only [hw]; exact h.once
      · simp only [hw]; exact h.held
      · intro d hd
        simp only [List.mem_append, List.mem_singleton] at hd
        rcases hd with hd | hd
        · exact h.kept d hd
        · cases hd

theorem TodInv.rollbackNested {b : Nat} {r : Run} (h : TodInv b r)
    (hp : r.tx.isPreparing = true) :
    TodInv b { r with tx := { r.tx with status := .txStatusPrepareAborted },
                      nested := r.nested ++ [{ call := .Rollback, err := none }] } := by
  have hnt : r.tx.isTerminated = false := by
    simp only [CommittableTransaction.isPreparing, Bool.or_eq_true, beq_iff_eq] at hp
    rcases hp with h2 | h2 <;> simp [CommittableTransaction.isTerminated, h2]
  have hw : todWins (r.nested ++ [⟨.Rollback, none⟩]) = todWins r.nested := by
    simp [todWins, NestedResult.todWin]
  constructor
  · simp only [hw]; exact h.once
  · simp only [hw]
    intro h1
    rcases h.held h1 with h2 | h2
    · exact Or.inl h2
    · rw [hnt] at h2
      cases h2
  · intro d hd
    simp only [List.mem_append, List.mem_singleton] at hd
    rcases hd with hd | hd
    · rcases h.kept d hd with h2 | h2
      · exact Or.inl h2
      · rw [hnt] at h2
        cases h2
    · cases hd

theorem stepAction_todInv (b : Nat) (r : Run) (a : Action)
    (h : TodInv b r ∧ r.tx.isPreparing = true) :
    TodInv b (stepAction r a).state ∧ (stepAction r a).state.tx.isPreparing = true := by
  cases a with
  | post m =>
    simp only [stepAction]
    split
    · exact h
    · exact ⟨h.1.congr rfl rfl, h.2⟩
  | call c =>
    cases c with
    | enlist e =>
      simp only [stepAction, Outcome.state]
      exact ⟨h.1.enlist e, by rw [runEnlist_isPreparing]; exact h.2⟩
    | Rollback =>
      simp only [stepAction, CommittableTransaction.RollbackNested, h.2, if_true, Outcome.state]
      exact ⟨h.1.rollbackNested h.2, by simp [CommittableTransaction.isPreparing]⟩

theorem runActions_todInv (b : Nat) : ∀ (acts : List Action) (r : Run),
    (TodInv b r ∧ r.tx.isPreparing = true) →
    TodInv b (runActions acts r).state ∧ (runActions acts r).state.tx.isPreparing = true
  | [], r, h => h
  | a :: acts, r, h => by
    have hs := stepAction_todInv b r a h
    simp only [runActions]
    cases hstep : stepAction r a with
    | stop r1 =>
      rw [hstep] at hs
      exact hs
    | ret r1 =>
      rw [hstep] at hs
      exact runActions_todInv b acts r1 hs

theorem collect_frame : ∀ (n : Nat) (r : Run),
    (collect n r).state.tx = r.tx ∧ (collect n r).state.nested = r.nested
  | 0, r => ⟨rfl, rfl⟩
  | n + 1, r => by
    simp only [collect]
    split
    · exact ⟨rfl, rfl⟩
    · split
      · split
        · exact collect_frame n _
        · exact ⟨rfl, rfl⟩
      · exact collect_frame n _
      · exact collect_frame n _

theorem relock_nested (r : Run) : (relock r).nested = r.nested := by
  unfold relock
  simp only
  split <;> split <;> rfl

theorem preparePass_todInv (b : Nat) (env : Env) (r : Run)
    (h : TodInv b r ∧ r.tx.isPreparing = true) :
    TodInv b (preparePass env r).state ∧ (preparePass env r).state.tx.isPreparing = true := by
  unfold preparePass
  split
  · exact h
  · next cs ts _ =>
    have ha := runActions_todInv b (interleave (env.sched r.processed) ts)
      { r with calls := r.calls ++ cs } ⟨h.1.congr rfl rfl, h.2⟩
    split
    · next r1 h1 =>
      rw [h1] at ha
      exact ha
    · next r1 h1 =>
      rw [h1] at ha
      simp only [Outcome.state] at ha
      have hc := collect_frame (r1.vrms.length - r1.processed) r1
      split
      · next r2 h2 =>
        rw [h2] at hc
        simp only [Outcome.state] at hc ⊢
        exact ⟨ha.1.congr hc.1 hc.2, by rw [hc.1]; exact ha.2⟩
      · next r2 h2 =>
        rw [h2] at hc
        simp only [Outcome.state] at hc ⊢
        exact ⟨ha.1.congr (by rw [relock_tx, hc.1]) (by rw [relock_nested, hc.2]),
          by rw [relock_tx, hc.1]; exact ha.2⟩

theorem prepareLoop_todInv (b : Nat) (env : Env) : ∀ (fuel : Nat) (r : Run),
    (TodInv b r ∧ r.tx.isPreparing = true) →
    TodInv b (prepareLoop env fuel r).state ∧
      (prepareLoop env fuel r).state.tx.isPreparing = true
  | fuel, r, h => by
    by_cases hc : r.shouldAbort = false ∧ r.processed < r.vrms.length
    · cases fuel with
      | zero =>
        rw [prepareLoop_zero env r hc]
        exact h
      | succ fuel =>
        rw [prepareLoop_step env fuel r hc]
        have hp := preparePass_todInv b env r h
        cases hpass : preparePass env r with
        | stop r1 =>
          rw [hpass] at hp
          exact hp
        | ret r1 =>
          rw [hpass] at hp
          exact prepareLoop_todInv b env fuel r1 hp
    · rw [prepareLoop_exit env fuel r hc]
      exact h

theorem runEnlists_todInv (b : Nat) : ∀ (es : List EnlistCall) (r : Run),
    TodInv b r → TodInv b (runEnlists es r)
  | [], _, h => h
  | e :: es, r, h => by
    rw [runEnlists]
    exact runEnlists_todInv b es _ (h.enlist e)

theorem notifyTerminal_todInv (b : Nat) (env : Env) (p : Participant) (what : Notification)
    (id : Int) (r : Run) (h : TodInv b r) :
    TodInv b (notifyTerminal env p what id r).state := by
  unfold notifyTerminal
  have h1 := runEnlists_todInv b
    (if what = .Commit then env.onCommit p id else env.onRollback p id)
    { r with calls := r.calls ++ [{ trm := p, what := what, id := id }] } (h.congr rfl rfl)
  simp only
  split
  · exact h1
  · exact h1.congr rfl rfl

theorem singlePhase_todInv (b : Nat) (env : Env) (r : Run) (h : TodInv b r) :
    TodInv b (singlePhase env r).state := by
  unfold singlePhase
  split
  · exact h
  · next d _ =>
    split
    · have h1 := runEnlists_todInv b (env.onSinglePhaseCommit d).nested
        { r with calls := r.calls ++ [{ trm := d, what := .SinglePhaseCommit, id := -1 }] }
        (h.congr rfl rfl)
      simp only
      split
      · exact h1
      · split
        · exact h1.congr rfl rfl
        · split
          · exact h1.congr rfl rfl
          · exact h1.congr rfl rfl
    · exact h

theorem commitTodRollback_todInv (b : Nat) (env : Env) (r : Run) (h : TodInv b r) :
    TodInv b (commitTodRollback env r).state := by
  unfold commitTodRollback
  split
  · exact h
  · next d _ =>
    split
    · have h1 := notifyTerminal_todInv b env d .Rollback (-1) r h
      split
      · next r1 e1 =>
        rw [e1] at h1
        simp only [Outcome.state, Outcome.run] at h1
        exact h1
      · next r1 e1 =>
        rw [e1] at h1
        simp only [Outcome.state, Outcome.run] at h1
        exact h1.congr rfl rfl
    · exact h

theorem commitTerminal_todInv (b : Nat) (env : Env) : ∀ (w : List (Option Participant))
    (i : Nat) (r : Run), TodInv b r → TodInv b (commitTerminal env i w r).state
  | [], _, _, h => h
  | none :: w, i, r, h => by
    rw [commitTerminal]
    exact commitTerminal_todInv b env w (i + 1) r h
  | some p :: w, i, r, h => by
    rw [commitTerminal]
    have h1 := notifyTerminal_todInv b env p (if r.shouldAbort then .Rollback else .Commit) i r h
    split
    · next r1 e1 =>
      rw [e1] at h1
      simp only [Outcome.state, Outcome.run] at h1
      exact h1
    · next r1 e1 =>
      rw [e1] at h1
      simp only [Outcome.state, Outcome.run] at h1
      exact commitTerminal_todInv b env w (i + 1) _ (h1.congr rfl rfl)

theorem rollbackTerminal_todInv (b : Nat) (env : Env) : ∀ (ps : List Participant)
    (i : Nat) (r : Run), TodInv b r → TodInv b (rollbackTerminal env i ps r).state
  | [], _, _, h => h
  | p :: ps, i, r, h => by
    rw [rollbackTerminal]
    have h1 := notifyTerminal_todInv b env p .Rollback i r h
    split
    · next r1 e1 =>
      rw [e1] at h1
      simp only [Outcome.state, Outcome.run] at h1
      exact h1
    · next r1 e1 =>
      rw [e1] at h1
      simp only [Outcome.state, Outcome.run] at h1
      exact rollbackTerminal_todInv b env ps (i + 1) r1 h1

theorem rollbackTod_todInv (b : Nat) (env : Env) (r : Run) (h : TodInv b r) :
    TodInv b (rollbackTod env r).state := by
  unfold rollbackTod
  split
  · exact h
  · next d _ =>
    have h1 := notifyTerminal_todInv b env d .Rollback (-1) r h
    split
    · next r1 e1 =>
      rw [e1] at h1
      simp only [Outcome.state, Outcome.run] at h1
      exact h1
    · next r1 e1 =>
      rw [e1] at h1
      simp only [Outcome.state, Outcome.run] at h1
      exact h1.congr rfl rfl

theorem commitFinish_todInv (b : Nat) (env : Env) (r1 : Run) (h : TodInv b r1)
    (hp : r1.tx.isPreparing = true) : TodInv b (commitFinish env r1).run := by
  have hnt : r1.tx.isTerminated = false := by
    simp only [CommittableTransaction.isPreparing, Bool.or_eq_true, beq_iff_eq] at hp
    rcases hp with h2 | h2 <;> simp [CommittableTransaction.isTerminated, h2]
  have h1 : TodInv b { r1 with tx := { r1.tx with status := .txStatusFinalizing } } :=
    h.frame [] (by simp [refusedLog]) (Or.inl ⟨rfl, fun h2 => by rw [hnt] at h2; cases h2⟩)
  have h2 := singlePhase_todInv b env _ h1
  unfold commitFinish
  split
  · next r e =>
    rw [e] at h2
    simp only [Outcome.state, Outcome.run] at h2
    exact h2
  · next r2 e =>
    rw [e] at h2
    simp only [Outcome.state, Outcome.run] at h2
    have h3 : TodInv b { r2 with tx := ({ r2.tx with status :=
        if r2.shouldAbort then .txStatusAborted else .txStatusCommitted }).clear } :=
      TodInv.frame h2 [] (by simp [refusedLog]) (Or.inr (by
        cases r2.shouldAbort <;>
          simp [CommittableTransaction.isTerminated, CommittableTransaction.clear]))
    have h4 := commitTodRollback_todInv b env _ h3
    simp only
    split
    · next r e3 =>
      rw [e3] at h4
      simp only [Outcome.state, Outcome.run] at h4
      exact h4
    · next r3 e3 =>
      rw [e3] at h4
      simp only [Outcome.state, Outcome.run] at h4
      have h5 := commitTerminal_todInv b env r3.vrms 0 r3 h4
      split
      · next r e4 =>
        rw [e4] at h5
        simp only [Outcome.state, Outcome.run] at h5
        exact h5
      · next r4 e4 =>
        rw [e4] at h5
        simp only [Outcome.state, Outcome.run] at h5
        exact h5

/-- `Commit` keeps the TOD invariant, whether or not it returns. -/
theorem Commit_todInv (b fuel : Nat) (env : Env) (tx : CommittableTransaction)
    (h : TodInv b (Run.idle tx)) : TodInv b (Commit fuel env tx).run := by
  unfold Commit
  split
  · exact h
  · next hA =>
    split
    · exact h
    · next hB =>
      split
      · exact h
      · next hC =>
        have hact : tx.status = .txStatusActive := by
          simp only [Bool.not_eq_true] at hC
          simpa [hC] using hA
        split
        · exact h.frame [] (by simp [refusedLog, Run.idle, Outcome.run]) (Or.inr (by
            simp [Run.idle, CommittableTransaction.isTerminated, CommittableTransaction.clear,
              Outcome.run]))
        · have h0 : TodInv b (commitStart tx) :=
            h.frame [] (by simp [refusedLog, Run.idle, commitStart]) (Or.inl ⟨rfl, by
              simp [Run.idle, CommittableTransaction.isTerminated, hact]⟩)
          have h1 := prepareLoop_todInv b env fuel (commitStart tx)
            ⟨h0, by simp [commitStart, CommittableTransaction.isPreparing]⟩
          split
          · next r e =>
            rw [e] at h1
            simp only [Outcome.state, Outcome.run] at h1
            exact h1.1
          · next r1 e =>
            rw [e] at h1
            simp only [Outcome.state, Outcome.run] at h1
            exact commitFinish_todInv b env r1 h1.1 h1.2

/-- `Rollback` keeps the TOD invariant, whether or not it returns. -/
theorem Rollback_todInv (b : Nat) (env : Env) (tx : CommittableTransaction)
    (h : TodInv b (Run.idle tx)) : TodInv b (Rollback env tx).run := by
  unfold Rollback
  split
  · next err tx1 e =>
    simp only [CommittableTransaction.RollbackNested] at e
    split at e
    · next hp =>
      cases e
      have hnt : tx.isTerminated = false := by
        simp only [CommittableTransaction.isPreparing, Bool.or_eq_true, beq_iff_eq] at hp
        rcases hp with h2 | h2 <;> simp [CommittableTransaction.isTerminated, h2]
      exact h.frame [] (by simp [refusedLog, Run.idle, Outcome.run]) (Or.inl ⟨rfl, fun h2 => by
        simp only [Run.idle] at h2
        rw [hnt] at h2
        cases h2⟩)
    · cases e
  · split
    · exact h
    · split
      · exact h
      · split
        · exact h
        · split
          · exact h.frame [] (by simp [refusedLog, Run.idle, Outcome.run]) (Or.inr (by
              simp [Run.idle, CommittableTransaction.isTerminated, Outcome.run]))
          · have h0 : TodInv b
                { tx := ({ tx with status := .txStatusAborted }).clear,
                  tod := tx.tod, vrms := tx.vrms.map some,
                  responses := Chan.make (tx.vrms.length + 1),
                  shouldAbort := false, processed := 0, pendingRespsNo := 0,
                  calls := [], nested := [] } :=
              h.frame [] (by simp [refusedLog, Run.idle, Outcome.run]) (Or.inr (by
                simp [CommittableTransaction.isTerminated, CommittableTransaction.clear]))
            have h1 := rollbackTod_todInv b env _ h0
            split
            · next r e =>
              rw [e] at h1
              simp only [Outcome.state, Outcome.run] at h1
              exact h1
            · next r1 e =>
              rw [e] at h1
              simp only [Outcome.state, Outcome.run] at h1
              have h2 := rollbackTerminal_todInv b env tx.vrms 0 r1 h1
              split
              · next r e2 =>
                rw [e2] at h2
                simp only [Outcome.state, Outcome.run] at h2
                exact h2
              · next r2 e2 =>
                rw [e2] at h2
                simp only [Outcome.state, Outcome.run] at h2
                exact h2.congr rfl rfl

theorem TodInv.rebase {b : Nat} {r : Run} (h : TodInv b r) :
    TodInv (b + todWins r.nested) (Run.idle r.tx) := by
  constructor
  · simpa [Run.idle, todWins] using h.once
  · simpa [Run.idle, todWins] using h.held
  · intro d hd
    simp [Run.idle] at hd

theorem runOps_todInv : ∀ (ops : List Op) (tx : CommittableTransaction)
    (log : List NestedResult), TodInv (todWins log) (Run.idle tx) →
    TodInv (todWins (runOps ops tx log).2) (Run.idle (runOps ops tx log).1)
  | [], _, _, h => h
  | .EnlistTheOnlyDurable drm :: ops, tx, log, h => by
    rw [runOps]
    apply runOps_todInv ops
    have h1 := (h.enlist (.EnlistTheOnlyDurable drm)).rebase
    simpa [todWins_append, Run.idle, runEnlist] using h1
  | .EnlistVolatile vrm :: ops, tx, log, h => by
    rw [runOps]
    apply runOps_todInv ops
    have h1 := (h.enlist (.EnlistVolatile vrm)).rebase
    simpa [todWins_append, Run.idle, runEnlist] using h1
  | .Commit fuel env :: ops, tx, log, h => by
    rw [runOps]
    have h1 := (Commit_todInv (todWins log) fuel env tx h).rebase
    rw [← todWins_append] at h1
    cases hc : Commit fuel env tx with
    | stop r =>
      rw [hc] at h1
      exact h1
    | ret a =>
      obtain ⟨e, r⟩ := a
      rw [hc] at h1
      exact runOps_todInv ops r.tx _ h1
  | .Rollback env :: ops, tx, log, h => by
    rw [runOps]
    have h1 := (Rollback_todInv (todWins log) env tx h).rebase
    rw [← todWins_append] at h1
    cases hc : Rollback env tx with
    | stop r =>
      rw [hc] at h1
      exact h1
    | ret a =>
      obtain ⟨e, r⟩ := a
      rw [hc] at h1
      exact runOps_todInv ops r.tx _ h1

/-- C3: in every sequence of operations applied to a fresh transaction (enlistments,
`Commit`, `Rollback`, with enlistments and `Rollback` nested inside notifications), at
most one `EnlistTheOnlyDurable` call returns nil.  Once one has returned nil the TOD
stays in the registry until the status is terminal, and in a terminal status every
enlistment is refused. -/
theorem C3_at_most_one_tod (ops : List Op) :
    todWins (runOps ops CommittableTransaction.fresh []).2 ≤ 1 ∧
    (todWins (runOps ops CommittableTransaction.fresh []).2 = 1 →
      (runOps ops CommittableTransaction.fresh []).1.tod ≠ none ∨
      (runOps ops CommittableTransaction.fresh []).1.isTerminated = true) ∧
    ((runOps ops CommittableTransaction.fresh []).1.isTerminated = true →
      ∀ p : Participant,
        ((runOps ops CommittableTransaction.fresh []).1.EnlistTheOnlyDurable p).1
          = some .ErrTxError ∧
        ((runOps ops CommittableTransaction.fresh []).1.EnlistVolatile p).1
          = some .ErrTxError) := by
  have h0 : TodInv (todWins []) (Run.idle CommittableTransaction.fresh) := by
    constructor
    · simp [todWins, Run.idle]
    · simp [todWins, Run.idle]
    · intro d hd
      simp [Run.idle] at hd
  have h := runOps_todInv ops CommittableTransaction.fresh [] h0
  refine ⟨by simpa [Run.idle, todWins] using h.once, by simpa [Run.idle, todWins] using h.held, ?_⟩
  intro ht p
  generalize (runOps ops CommittableTransaction.fresh []).1 = tx at ht
  obtain ⟨st, tod, vrms⟩ := tx
  simp only [CommittableTransaction.isTerminated, Bool.or_eq_true, beq_iff_eq] at ht
  rcases ht with ht | ht <;> subst ht <;> cases tod <;>
    simp [CommittableTransaction.EnlistTheOnlyDurable, CommittableTransaction.EnlistVolatile,
      CommittableTransaction.isPreparing]

/-! ## The log of the prepare phase -/

theorem volWins_append (a b : List NestedResult) : volWins (a ++ b) = volWins a ++ volWins b := by
  simp [volWins]

theorem volWins_refusedLog (es : List EnlistCall) : volWins (refusedLog es) = [] := by
  induction es with
  | nil => rfl
  | cons e es ih =>
    simp only [refusedLog, List.map_cons, volWins, List.filterMap_cons] at ih ⊢
    cases e <;> simp [NestedResult.volWin, ih]

theorem stepAction_prepLog (vs0 : List Participant) (r : Run) (a : Action)
    (h : PrepLog vs0 r.tx r.nested ∧ r.tx.isPreparing = true) :
    PrepLog vs0 (stepAction r a).state.tx (stepAction r a).state.nested ∧
      (stepAction r a).state.tx.isPreparing = true := by
  obtain ⟨⟨hv, ha⟩, hp⟩ := h
  cases a with
  | post m =>
    simp only [stepAction]
    split
    · exact ⟨⟨hv, ha⟩, hp⟩
    · exact ⟨⟨hv, ha⟩, hp⟩
  | call c =>
    cases c with
    | Rollback =>
      simp only [stepAction, CommittableTransaction.RollbackNested, hp, if_true, Outcome.state]
      refine ⟨⟨?_, ?_⟩, by simp [CommittableTransaction.isPreparing]⟩
      · rw [volWins_append]
        simpa [volWins, NestedResult.volWin] using hv
      · intro x hx _
        rcases List.mem_append.1 hx with hx | hx
        · exact ha x hx ‹_›
        · simp only [List.mem_singleton] at hx
          rw [hx]
    | enlist e =>
      simp only [stepAction, Outcome.state]
      refine ⟨⟨?_, ?_⟩, by rw [runEnlist_isPreparing]; exact hp⟩
      · rw [runEnlist_vrms r.tx e hp, volWins_append, hv, List.append_assoc]
        congr 1
        cases e with
        | EnlistVolatile v =>
          simp [volWins, NestedResult.volWin, Action.volatile, runEnlist,
            CommittableTransaction.EnlistVolatile, hp]
        | EnlistTheOnlyDurable d =>
          simp [volWins, NestedResult.volWin, Action.volatile]
      · intro x hx hnt
        rcases List.mem_append.1 hx with hx | hx
        · exact ha x hx hnt
        · simp only [List.mem_singleton] at hx
          subst hx
          cases e with
          | EnlistVolatile v =>
            simp [runEnlist, CommittableTransaction.EnlistVolatile, hp]
          | EnlistTheOnlyDurable d => simp [NestedResult.isTodCall] at hnt

theorem runActions_prepLog (vs0 : List Participant) : ∀ (acts : List Action) (r : Run),
    (PrepLog vs0 r.tx r.nested ∧ r.tx.isPreparing = true) →
    PrepLog vs0 (runActions acts r).state.tx (runActions acts r).state.nested ∧
      (runActions acts r).state.tx.isPreparing = true
  | [], r, h => h
  | a :: acts, r, h => by
    have hs := stepAction_prepLog vs0 r a h
    simp only [runActions]
    cases hstep : stepAction r a with
    | stop r1 =>
      rw [hstep] at hs
      exact hs
    | ret r1 =>
      rw [hstep] at hs
      exact runActions_prepLog vs0 acts r1 hs

theorem preparePass_prepLog (vs0 : List Participant) (env : Env) (r : Run)
    (h : PrepLog vs0 r.tx r.nested ∧ r.tx.isPreparing = true) :
    PrepLog vs0 (preparePass env r).state.tx (preparePass env r).state.nested ∧
      (preparePass env r).state.tx.isPreparing = true := by
  unfold preparePass
  split
  · exact h
  · next cs ts _ =>
    have ha := runActions_prepLog vs0 (interleave (env.sched r.processed) ts)
      { r with calls := r.calls ++ cs } h
    split
    · next r1 h1 =>
      rw [h1] at ha
      exact ha
    · next r1 h1 =>
      rw [h1] at ha
      simp only [Outcome.state] at ha
      have hc := collect_frame (r1.vrms.length - r1.processed) r1
      split
      · next r2 h2 =>
        rw [h2] at hc
        simp only [Outcome.state] at hc ⊢
        rw [hc.1, hc.2]
        exact ha
      · next r2 h2 =>
        rw [h2] at hc
        simp only [Outcome.state] at hc ⊢
        rw [relock_tx, relock_nested, hc.1, hc.2]
        exact ha

theorem prepareLoop_prepLog (vs0 : List Participant) (env : Env) : ∀ (fuel : Nat) (r : Run),
    (PrepLog vs0 r.tx r.nested ∧ r.tx.isPreparing = true) →
    PrepLog vs0 (prepareLoop env fuel r).state.tx (prepareLoop env fuel r).state.nested ∧
      (prepareLoop env fuel r).state.tx.isPreparing = true
  | fuel, r, h => by
    by_cases hc : r.shouldAbort = false ∧ r.processed < r.vrms.length
    · cases fuel with
      | zero =>
        rw [prepareLoop_zero env r hc]
        exact h
      | succ fuel =>
        rw [prepareLoop_step env fuel r hc]
        have hp := preparePass_prepLog vs0 env r h
        cases hpass : preparePass env r with
        | stop r1 =>
          rw [hpass] at hp
          exact hp
        | ret r1 =>
          rw [hpass] at hp
          exact prepareLoop_prepLog vs0 env fuel r1 hp
    · rw [prepareLoop_exit env fuel r hc]
      exact h

theorem commitStart_prepLog (tx : CommittableTransaction) :
    PrepLog tx.vrms (commitStart tx).tx (commitStart tx).nested ∧
      (commitStart tx).tx.isPreparing = true :=
  ⟨⟨by simp [commitStart, volWins], by simp [commitStart]⟩,
    by simp [commitStart, CommittableTransaction.isPreparing]⟩

/-! ## Commit on an Active transaction with participants -/

theorem forced_zero (env : Env) : ∀ (ps : List Participant) (i : Nat),
    forced env 0 i ps = false
  | [], _ => rfl
  | p :: ps, i => by simp [forced, forced_zero env ps (i + 1)]

theorem rolled_zero (env : Env) : ∀ (ps : List Participant) (i : Nat),
    rolled env 0 i ps = false
  | [], _ => rfl
  | p :: ps, i => by simp [rolled, rolled_zero env ps (i + 1)]

theorem commitStart_inv (env : Env) (tx : CommittableTransaction) :
    LoopInv env (commitStart tx) := by
  constructor
  · simp [commitStart]
  · simp [commitStart, slots_ge]
  · simp [commitStart]
  · rfl
  · simp [commitStart, prepList]
  · simp [commitStart, forced_zero, rolled_zero]
  · simp [commitStart, rolled_zero]
  · rfl

theorem Commit_active (fuel : Nat) (env : Env) (tx : CommittableTransaction)
    (hact : tx.status = .txStatusActive) (hne : tx.tod ≠ none ∨ tx.vrms ≠ []) :
    Commit fuel env tx =
      match prepareLoop env fuel (commitStart tx) with
      | .stop r => .stop r
      | .ret r1 => commitFinish env r1 := by
  unfold Commit
  have h1 : (tx.tod == none && tx.vrms.length == 0) = false := by
    rcases hne with h | h
    · cases htod : tx.tod with
      | none => exact absurd htod h
      | some d => rfl
    · cases hv : tx.vrms with
      | nil => exact absurd hv h
      | cons a l => simp
  simp [hact, CommittableTransaction.isTerminated, h1]

/-- `Commit` on an Active transaction with a non-empty registry.  It stops only when
the fuel is used up inside the prepare loop, with no terminal notification issued; and
when it returns, what it has done is described by `CommitReturn`. -/
theorem Commit_spec (fuel : Nat) (env : Env) (tx : CommittableTransaction)
    (hact : tx.status = .txStatusActive) (hne : tx.tod ≠ none ∨ tx.vrms ≠ []) :
    (∀ r, Commit fuel env tx = .stop r →
      LoopInv env r ∧ r.shouldAbort = false ∧ r.processed < r.tx.vrms.length ∧
      (∃ more, r.tx.vrms = tx.vrms ++ more)) ∧
    (∀ e r, Commit fuel env tx = .ret (e, r) → ∃ ps, CommitReturn env tx e r ps) := by
  rw [Commit_active fuel env tx hact hne]
  obtain ⟨hret, hstop⟩ := prepareLoop_spec env fuel (commitStart tx) (commitStart_inv env tx)
  cases hl : prepareLoop env fuel (commitStart tx) with
  | stop r1 =>
    simp only
    constructor
    · intro r h
      cases h
      exact hstop r1 hl
    · intro e r h
      cases h
  | ret r1 =>
    simp only
    obtain ⟨hi, hex, more, hmore⟩ := hret r1 hl
    obtain ⟨r, h1, h2, h3, h4, h5, h6, h7, h8, h9, es, h10⟩ := commitFinish_spec env r1 hi
    rw [h1]
    constructor
    · intro r2 h
      cases h
    · intro e r2 h
      cases h
      have hab := hi.abort
      have h0 : TodInv 0 (commitStart tx) := by
        constructor
        · simp [commitStart, todWins]
        · simp [commitStart, todWins]
        · intro d hd
          simp [commitStart] at hd
      have hk := prepareLoop_todInv 0 env fuel (commitStart tx)
        ⟨h0, by simp [commitStart, CommittableTransaction.isPreparing]⟩
      rw [hl] at hk
      simp only [Outcome.state] at hk
      refine ⟨r1.tx.vrms, ?_⟩
      constructor
      · exact ⟨more, hmore⟩
      · rw [h7]
        exact hi.bound
      · rw [h7, ← hab]
        intro hf
        rcases hex with hx | hx
        · rw [hf] at hx
          cases hx
        · exact hx
      · rw [h5, h7]
        exact hi.working
      · rw [h2, h6, h7, ← hab]
      · rw [h2]
      · rw [h3, h2]
      · rw [h4, h7, h6, h2, h5, ← hab, hi.calls]
      · rw [h8, h6, h2, h5]
      · rw [h9, h6, h2, h5]
      · intro d hd
        rw [h6, hi.tod]
        exact prepareLoop_tod env fuel _ r1 d hl hd
      · intro d hd
        rw [h10, List.mem_append] at hd
        rcases hd with hd | hd
        · rw [h6, hi.tod]
          rcases hk.1.kept d hd with h11 | h11
          · exact h11
          · have hp := hk.2
            simp only [CommittableTransaction.isPreparing, Bool.or_eq_true, beq_iff_eq] at hp
            rcases hp with h12 | h12 <;>
              simp [CommittableTransaction.isTerminated, h12] at h11
        · exact absurd hd (not_mem_refusedLog es d)
      · have hpl := prepareLoop_prepLog tx.vrms env fuel (commitStart tx)
          (commitStart_prepLog tx)
        rw [hl] at hpl
        simp only [Outcome.state] at hpl
        exact ⟨r1.nested, es, h10, hpl.1.vols, hpl.1.accepted⟩

/-! ## Rollback on an Active transaction with participants -/

theorem rollbackTerminal_spec (env : Env) : ∀ (ps : List Participant) (i : Nat) (r : Run),
    (r.tx.status = .txStatusFinalizing ∨ r.tx.status = .txStatusCommitted ∨
      r.tx.status = .txStatusAborted) →
    r.responses.buf.length + ps.length ≤ r.responses.cap →
    ∃ r1, rollbackTerminal env i ps r = .ret r1 ∧
      r1.calls = r.calls ++ termList .Rollback i (ps.map some) ∧
      r1.tx = r.tx ∧ r1.shouldAbort = r.shouldAbort ∧ r1.vrms = r.vrms ∧ r1.tod = r.tod ∧
      r1.processed = r.processed ∧ r1.pendingRespsNo = r.pendingRespsNo ∧
      r1.responses =
        { cap := r.responses.cap,
          buf := r.responses.buf ++ doneList (termList .Rollback i (ps.map some)) }
  | [], i, r, _, _ => by
    refine ⟨r, rfl, by simp [termList], rfl, rfl, rfl, rfl, rfl, rfl, ?_⟩
    simp [termList, doneList]
  | p :: ps, i, r, hst, hcap => by
    simp only [List.length_cons] at hcap
    have hn := notifyTerminal_spec env p .Rollback i r hst (by omega)
    obtain ⟨r1, h1, h2, h3, h4, h5, h6, h7, h8, h9⟩ := rollbackTerminal_spec env ps (i + 1)
      { r with
        calls := r.calls ++ [{ trm := p, what := .Rollback, id := i }],
        nested := r.nested ++ refusedLog (terminalNested env
          { trm := p, what := .Rollback, id := i }),
        responses := { r.responses with
          buf := r.responses.buf ++ [enlistment.Done { id := i }] } } hst
      (by simp only [List.length_append, List.length_singleton]; omega)
    refine ⟨r1, ?_, ?_, h3, h4, h5, h6, h7, h8, ?_⟩
    · rw [rollbackTerminal, hn]
      exact h1
    · rw [h2]
      simp [termList]
    · rw [h9]
      simp [termList, doneList]

theorem termList_map_some_length (what : Notification) : ∀ (ps : List Participant) (i : Nat),
    (termList what i (ps.map some)).length = ps.length
  | [], _ => rfl
  | p :: ps, i => by simp [termList, termList_map_some_length what ps (i + 1)]

theorem Rollback_active (env : Env) (tx : CommittableTransaction)
    (hact : tx.status = .txStatusActive) (hne : tx.tod ≠ none ∨ tx.vrms ≠ []) :
    Rollback env tx =
      match rollbackTod env
          { tx := ({ tx with status := .txStatusAborted }).clear,
            tod := tx.tod, vrms := tx.vrms.map some,
            responses := Chan.make (tx.vrms.length + 1),
            shouldAbort := false, processed := 0, pendingRespsNo := 0,
            calls := [], nested := [] } with
      | .stop r => .stop r
      | .ret r1 =>
        match rollbackTerminal env 0 tx.vrms r1 with
        | .stop r => .stop r
        | .ret r2 =>
          .ret (none, { r2 with pendingRespsNo := r2.pendingRespsNo + tx.vrms.length }) := by
  have h1 : (tx.tod == none && tx.vrms.length == 0) = false := by
    rcases hne with h | h
    · cases htod : tx.tod with
      | none => exact absurd htod h
      | some d => rfl
    · cases hv : tx.vrms with
      | nil => exact absurd hv h
      | cons a l => simp
  unfold Rollback
  simp [CommittableTransaction.RollbackNested, CommittableTransaction.isPreparing, hact,
    CommittableTransaction.isTerminated, h1]

/-- `Rollback` on an Active transaction with a non-empty registry: it returns nil, the
transaction ends Aborted and cleared, and `Rollback` is notified to the TOD (handle id
-1) and then to every volatile in enlistment order (handle id = index). -/
theorem Rollback_spec (env : Env) (tx : CommittableTransaction)
    (hact : tx.status = .txStatusActive) (hne : tx.tod ≠ none ∨ tx.vrms ≠ []) :
    ∃ r, Rollback env tx = .ret (none, r) ∧
      r.tx = { status := .txStatusAborted, tod := none, vrms := [] } ∧
      r.calls = todRollbackList tx.tod true ++ termList .Rollback 0 (tx.vrms.map some) ∧
      r.pendingRespsNo = r.calls.length ∧
      r.responses = { cap := tx.vrms.length + 1, buf := doneList r.calls } := by
  rw [Rollback_active env tx hact hne]
  cases htod : tx.tod with
  | none =>
    obtain ⟨r, e1, e2, e3, -, -, -, -, e8, e9⟩ := rollbackTerminal_spec env tx.vrms 0
      { tx := ({ tx with status := .txStatusAborted }).clear,
        tod := none, vrms := tx.vrms.map some,
        responses := Chan.make (tx.vrms.length + 1),
        shouldAbort := false, processed := 0, pendingRespsNo := 0,
        calls := [], nested := [] }
      (by simp [CommittableTransaction.clear]) (by simp [Chan.make])
    refine ⟨{ r with pendingRespsNo := r.pendingRespsNo + tx.vrms.length }, ?_, ?_, ?_, ?_, ?_⟩
    · simp only [CommittableTransaction.clear] at e1 ⊢
      simp only [rollbackTod, e1]
    · rw [e3]
      simp [CommittableTransaction.clear]
    · rw [e2]
      simp [todRollbackList]
    · simp only [e8, e2, List.nil_append, termList_map_some_length]
      omega
    · simp only [e9, e2]
      simp [Chan.make]
  | some d =>
    have hn := notifyTerminal_spec env d .Rollback (-1)
      { tx := ({ tx with status := .txStatusAborted }).clear,
        tod := some d, vrms := tx.vrms.map some,
        responses := Chan.make (tx.vrms.length + 1),
        shouldAbort := false, processed := 0, pendingRespsNo := 0,
        calls := [], nested := [] }
      (by simp [CommittableTransaction.clear]) (by simp [Chan.make])
    obtain ⟨r, e1, e2, e3, -, -, -, -, e8, e9⟩ := rollbackTerminal_spec env tx.vrms 0
      { tx := ({ tx with status := .txStatusAborted }).clear,
        tod := some d, vrms := tx.vrms.map some,
        responses := { cap := tx.vrms.length + 1, buf := [enlistment.Done { id := -1 }] },
        shouldAbort := false, processed := 0, pendingRespsNo := 1,
        calls := [{ trm := d, what := .Rollback, id := -1 }],
        nested := refusedLog (terminalNested env { trm := d, what := .Rollback, id := -1 }) }
      (by simp [CommittableTransaction.clear]) (by simp only [List.length_singleton]; omega)
    refine ⟨{ r with pendingRespsNo := r.pendingRespsNo + tx.vrms.length }, ?_, ?_, ?_, ?_, ?_⟩
    · simp only [CommittableTransaction.clear, Chan.make, List.nil_append] at e1 hn ⊢
      simp only [rollbackTod, hn, Nat.zero_add, e1]
    · rw [e3]
      simp [CommittableTransaction.clear]
    · rw [e2]
      simp [todRollbackList]
    · simp only [e8, e2, List.length_append, List.length_singleton, termList_map_some_length,
        List.length_cons, List.length_nil]
    · simp only [e9, e2]
      simp [doneList]

/-! ## Calls on a terminated transaction -/

theorem Commit_nil_status (fuel : Nat) (env : Env) (tx : CommittableTransaction) (r : Run)
    (h : Commit fuel env tx = .ret (none, r)) : r.tx.status = .txStatusCommitted := by
  by_cases hact : tx.status = .txStatusActive
  · by_cases hne : tx.tod ≠ none ∨ tx.vrms ≠ []
    · obtain ⟨ps, hc⟩ := (Commit_spec fuel env tx hact hne).2 none r h
      have he := hc.err
      have hf := hc.final
      cases hsa : r.shouldAbort with
      | true => simp [hsa] at he
      | false => simp [hf, hsa]
    · simp only [not_or, not_not] at hne
      obtain ⟨st, tod, vrms⟩ := tx
      simp only at hne hact
      obtain ⟨h1, h2⟩ := hne
      subst h1 h2 hact
      simp [Commit, CommittableTransaction.isTerminated, Run.idle,
        CommittableTransaction.clear] at h
      rw [← h]
  · obtain ⟨st, tod, vrms⟩ := tx
    simp only at hact
    cases st <;> simp [Commit, CommittableTransaction.isTerminated] at h hact

theorem Rollback_nil_status (env : Env) (tx : CommittableTransaction) (r : Run)
    (hp : tx.isPreparing = false) (h : Rollback env tx = .ret (none, r)) :
    r.tx.status = .txStatusAborted := by
  by_cases hact : tx.status = .txStatusActive
  · by_cases hne : tx.tod ≠ none ∨ tx.vrms ≠ []
    · obtain ⟨r1, h1, h2, -⟩ := Rollback_spec env tx hact hne
      rw [h1] at h
      cases h
      rw [h2]
    · simp only [not_or, not_not] at hne
      obtain ⟨st, tod, vrms⟩ := tx
      simp only at hne hact
      obtain ⟨h1, h2⟩ := hne
      subst h1 h2 hact
      simp [Rollback, CommittableTransaction.RollbackNested, CommittableTransaction.isPreparing,
        CommittableTransaction.isTerminated, Run.idle] at h
      rw [← h]
  · obtain ⟨st, tod, vrms⟩ := tx
    simp only at hact
    cases st <;> simp [Rollback, CommittableTransaction.RollbackNested,
      CommittableTransaction.isPreparing, CommittableTransaction.isTerminated] at h hact hp

/-- C5: on a terminated transaction both `Commit` and `Rollback` return `ErrTxAborted`
when the status is Aborted and `ErrTxError` when it is Committed, notify no participant
and leave the state unchanged.  In particular, after a `Commit` that returned nil a
second `Commit` returns `ErrTxError`, and after a `Rollback` that returned nil on a
transaction outside the prepare phase a second `Rollback` returns `ErrTxAborted`. -/
theorem C5_terminated_calls (tx : CommittableTransaction) (env env2 : Env)
    (fuel fuel2 : Nat) :
    (tx.status = .txStatusAborted →
      (Commit fuel env tx).err = some (some .ErrTxAborted) ∧
      (Commit fuel env tx).run.calls = [] ∧ (Commit fuel env tx).run.tx = tx ∧
      (Rollback env tx).err = some (some .ErrTxAborted) ∧
      (Rollback env tx).run.calls = [] ∧ (Rollback env tx).run.tx = tx) ∧
    (tx.status = .txStatusCommitted →
      (Commit fuel env tx).err = some (some .ErrTxError) ∧
      (Commit fuel env tx).run.calls = [] ∧ (Commit fuel env tx).run.tx = tx ∧
      (Rollback env tx).err = some (some .ErrTxError) ∧
      (Rollback env tx).run.calls = [] ∧ (Rollback env tx).run.tx = tx) ∧
    (∀ r, Commit fuel env tx = .ret (none, r) →
      (Commit fuel2 env2 r.tx).err = some (some .ErrTxError) ∧
      (Commit fuel2 env2 r.tx).run.calls = [] ∧ (Commit fuel2 env2 r.tx).run.tx = r.tx) ∧
    (∀ r, tx.isPreparing = false → Rollback env tx = .ret (none, r) →
      (Rollback env2 r.tx).err = some (some .ErrTxAborted) ∧
      (Rollback env2 r.tx).run.calls = [] ∧ (Rollback env2 r.tx).run.tx = r.tx) := by
  have hA : ∀ (t : CommittableTransaction) (f : Nat) (e : Env),
      t.status = .txStatusAborted →
      (Commit f e t).err = some (some .ErrTxAborted) ∧
      (Commit f e t).run.calls = [] ∧ (Commit f e t).run.tx = t ∧
      (Rollback e t).err = some (some .ErrTxAborted) ∧
      (Rollback e t).run.calls = [] ∧ (Rollback e t).run.tx = t := by
    intro t f e h
    simp [Commit, Rollback, CommittableTransaction.RollbackNested,
      CommittableTransaction.isPreparing, CommittableTransaction.isTerminated, h,
      Outcome.err, Outcome.run, Run.idle]
  have hC : ∀ (t : CommittableTransaction) (f : Nat) (e : Env),
      t.status = .txStatusCommitted →
      (Commit f e t).err = some (some .ErrTxError) ∧
      (Commit f e t).run.calls = [] ∧ (Commit f e t).run.tx = t ∧
      (Rollback e t).err = some (some .ErrTxError) ∧
      (Rollback e t).run.calls = [] ∧ (Rollback e t).run.tx = t := by
    intro t f e h
    simp [Commit, Rollback, CommittableTransaction.RollbackNested,
      CommittableTransaction.isPreparing, CommittableTransaction.isTerminated, h,
      Outcome.err, Outcome.run, Run.idle]
  refine ⟨hA tx fuel env, hC tx fuel env, ?_, ?_⟩
  · intro r h
    have h1 := hC r.tx fuel2 env2 (Commit_nil_status fuel env tx r h)
    exact ⟨h1.1, h1.2.1, h1.2.2.1⟩
  · intro r hp h
    have h1 := hA r.tx 0 env2 (Rollback_nil_status env tx r hp h)
    exact ⟨h1.2.2.2.1, h1.2.2.2.2.1, h1.2.2.2.2.2⟩

/-! ## Reading the trace of a Commit -/

theorem mem_prepList : ∀ (ps : List Participant) (i : Nat) (c : Call),
    c ∈ prepList i ps ↔
      ∃ j p, ps[j]? = some p ∧ c = { trm := p, what := .Prepare, id := ((i + j : Nat) : Int) }
  | [], i, c => by simp [prepList]
  | q :: ps, i, c => by
    simp only [prepList, List.mem_cons, mem_prepList ps (i + 1) c]
    constructor
    · rintro (h | ⟨j, p, hj, hm⟩)
      · exact ⟨0, q, by simp, by simp [h]⟩
      · refine ⟨j + 1, p, by simpa using hj, ?_⟩
        rw [hm, show i + 1 + j = i + (j + 1) by omega]
    · rintro ⟨j, p, hj, hm⟩
      cases j with
      | zero =>
        simp only [List.getElem?_cons_zero, Option.some.injEq] at hj
        subst hj
        left
        simpa using hm
      | succ j =>
        right
        refine ⟨j, p, by simpa using hj, ?_⟩
        rw [hm, show i + 1 + j = i + (j + 1) by omega]

theorem mem_termList (what : Notification) : ∀ (w : List (Option Participant)) (i : Nat)
    (c : Call), c ∈ termList what i w ↔
      ∃ j p, w[j]? = some (some p) ∧ c = { trm := p, what := what, id := ((i + j : Nat) : Int) }
  | [], i, c => by simp [termList]
  | none :: w, i, c => by
    simp only [termList, mem_termList what w (i + 1) c]
    constructor
    · rintro ⟨j, p, hj, hm⟩
      refine ⟨j + 1, p, by simpa using hj, ?_⟩
      rw [hm, show i + 1 + j = i + (j + 1) by omega]
    · rintro ⟨j, p, hj, hm⟩
      cases j with
      | zero => simp at hj
      | succ j =>
        refine ⟨j, p, by simpa using hj, ?_⟩
        rw [hm, show i + 1 + j = i + (j + 1) by omega]
  | some q :: w, i, c => by
    simp only [termList, List.mem_cons, mem_termList what w (i + 1) c]
    constructor
    · rintro (h | ⟨j, p, hj, hm⟩)
      · exact ⟨0, q, by simp, by simp [h]⟩
      · refine ⟨j + 1, p, by simpa using hj, ?_⟩
        rw [hm, show i + 1 + j = i + (j + 1) by omega]
    · rintro ⟨j, p, hj, hm⟩
      cases j with
      | zero =>
        simp only [List.getElem?_cons_zero, Option.some.injEq] at hj
        subst hj
        left
        simpa using hm
      | succ j =>
        right
        refine ⟨j, p, by simpa using hj, ?_⟩
        rw [hm, show i + 1 + j = i + (j + 1) by omega]

theorem mem_spcList (tod : Option Participant) (latched : Bool) (c : Call) :
    c ∈ spcList tod latched ↔
      ∃ d, tod = some d ∧ latched = false ∧
        c = { trm := d, what := .SinglePhaseCommit, id := -1 } := by
  cases tod with
  | none => simp [spcList]
  | some d => cases latched <;> simp [spcList]

theorem mem_todRollbackList (tod : Option Participant) (abort : Bool) (c : Call) :
    c ∈ todRollbackList tod abort ↔
      ∃ d, tod = some d ∧ abort = true ∧ c = { trm := d, what := .Rollback, id := -1 } := by
  cases tod with
  | none => simp [todRollbackList]
  | some d => cases abort <;> simp [todRollbackList]

theorem mem_terminalList (tod : Option Participant) (abort : Bool)
    (w : List (Option Participant)) (c : Call) :
    c ∈ terminalList tod abort w ↔
      (∃ d, tod = some d ∧ abort = true ∧ c = { trm := d, what := .Rollback, id := -1 }) ∨
      (∃ (j : Nat) (p : Participant), w[j]? = some (some p) ∧
        c = { trm := p, what := if abort then .Rollback else .Commit, id := (j : Int) }) := by
  simp only [terminalList, List.mem_append, mem_todRollbackList, mem_termList, Nat.zero_add]

theorem getElem?_take_some {α : Type} (l : List α) (k j : Nat) (a : α) :
    (l.take k)[j]? = some a ↔ j < k ∧ l[j]? = some a := by
  rw [List.getElem?_take]
  by_cases h : j < k <;> simp [h]

/-- The `Prepare` notifications of a returning `Commit`: one per prepared slot. -/
theorem CommitReturn.prepare_iff {env : Env} {tx : CommittableTransaction}
    {e : Option Error} {r : Run} {ps : List Participant} (hc : CommitReturn env tx e r ps)
    (c : Call) :
    (c ∈ r.calls ∧ c.what = .Prepare) ↔
      ∃ (j : Nat) (p : Participant), ps[j]? = some p ∧ j < r.processed ∧
        c = { trm := p, what := .Prepare, id := (j : Int) } := by
  rw [hc.calls]
  simp only [List.mem_append, mem_prepList, mem_spcList, mem_terminalList, Nat.zero_add,
    getElem?_take_some]
  constructor
  · rintro ⟨(⟨j, p, ⟨hj, hp⟩, hcj⟩ | ⟨d, -, -, hcd⟩) | (⟨d, -, -, hcd⟩ | ⟨j, p, -, hcj⟩), hw⟩
    · exact ⟨j, p, hp, hj, hcj⟩
    · rw [hcd] at hw
      cases hw
    · rw [hcd] at hw
      cases hw
    · rw [hcj] at hw
      cases hsa : r.shouldAbort <;> simp [hsa] at hw
  · rintro ⟨j, p, hp, hj, hcj⟩
    exact ⟨Or.inl (Or.inl ⟨j, p, ⟨hj, hp⟩, hcj⟩), by rw [hcj]⟩

/-- The `SinglePhaseCommit` notification of a returning `Commit`. -/
theorem CommitReturn.spc_iff {env : Env} {tx : CommittableTransaction}
    {e : Option Error} {r : Run} {ps : List Participant} (hc : CommitReturn env tx e r ps)
    (c : Call) :
    (c ∈ r.calls ∧ c.what = .SinglePhaseCommit) ↔
      ∃ d, r.tod = some d ∧
        (forced env r.processed 0 ps || rolled env r.processed 0 ps) = false ∧
        c = { trm := d, what := .SinglePhaseCommit, id := -1 } := by
  rw [hc.calls]
  simp only [List.mem_append, mem_prepList, mem_spcList, mem_terminalList, Nat.zero_add]
  constructor
  · rintro ⟨(⟨j, p, -, hcj⟩ | ⟨d, hd, hl, hcd⟩) | (⟨d, -, -, hcd⟩ | ⟨j, p, -, hcj⟩), hw⟩
    · rw [hcj] at hw
      cases hw
    · exact ⟨d, hd, hl, hcd⟩
    · rw [hcd] at hw
      cases hw
    · rw [hcj] at hw
      cases hsa : r.shouldAbort <;> simp [hsa] at hw
  · rintro ⟨d, hd, hl, hcd⟩
    exact ⟨Or.inl (Or.inr ⟨d, hd, hl, hcd⟩), by rw [hcd]⟩

/-- The verdict of a returning `Commit` in terms of what the trace shows. -/
theorem CommitReturn.verdict_iff {env : Env} {tx : CommittableTransaction}
    {e : Option Error} {r : Run} {ps : List Participant} (hc : CommitReturn env tx e r ps) :
    r.shouldAbort = true ↔ (votedAbort env r.calls ∨ nestedRollback env r.calls) := by
  rw [hc.verdict]
  simp only [Bool.or_eq_true, forced_iff, rolled_iff, Nat.zero_add]
  constructor
  · rintro ((⟨j, p, hp, hj, hf⟩ | ⟨j, p, hp, hj, hf⟩) | hs)
    · exact Or.inl (Or.inl ⟨_, ((hc.prepare_iff _).2 ⟨j, p, hp, hj, rfl⟩).1, rfl, hf⟩)
    · exact Or.inr ⟨_, ((hc.prepare_iff _).2 ⟨j, p, hp, hj, rfl⟩).1, rfl, hf⟩
    · by_cases hl : (forced env r.processed 0 ps || rolled env r.processed 0 ps) = true
      · simp only [Bool.or_eq_true, forced_iff, rolled_iff, Nat.zero_add] at hl
        rcases hl with ⟨j, p, hp, hj, hf⟩ | ⟨j, p, hp, hj, hf⟩
        · exact Or.inl (Or.inl ⟨_, ((hc.prepare_iff _).2 ⟨j, p, hp, hj, rfl⟩).1, rfl, hf⟩)
        · exact Or.inr ⟨_, ((hc.prepare_iff _).2 ⟨j, p, hp, hj, rfl⟩).1, rfl, hf⟩
      · cases htod : r.tod with
        | none => simp [htod, spcAborts] at hs
        | some d =>
          rw [htod] at hs
          exact Or.inl (Or.inr ⟨_, ((hc.spc_iff _).2 ⟨d, htod, by simpa using hl, rfl⟩).1,
            rfl, hs⟩)
  · rintro ((⟨c, hcm, hw, hf⟩ | ⟨c, hcm, hw, hf⟩) | ⟨c, hcm, hw, hf⟩)
    · obtain ⟨j, p, hp, hj, hcj⟩ := (hc.prepare_iff c).1 ⟨hcm, hw⟩
      subst hcj
      exact Or.inl (Or.inl ⟨j, p, hp, hj, hf⟩)
    · obtain ⟨d, hd, hl, hcd⟩ := (hc.spc_iff c).1 ⟨hcm, hw⟩
      subst hcd
      right
      rw [hd]
      exact hf
    · obtain ⟨j, p, hp, hj, hcj⟩ := (hc.prepare_iff c).1 ⟨hcm, hw⟩
      subst hcj
      exact Or.inl (Or.inr ⟨j, p, hp, hj, hf⟩)

/-- With bounded nesting, `Commit` on an Active transaction with participants returns. -/
theorem Commit_returns (fuel N : Nat) (env : Env) (tx : CommittableTransaction)
    (hact : tx.status = .txStatusActive) (hne : tx.tod ≠ none ∨ tx.vrms ≠ [])
    (hb : boundedNesting env N) (hf : N < fuel) :
    ∃ e r, Commit fuel env tx = .ret (e, r) := by
  rw [Commit_active fuel env tx hact hne]
  obtain ⟨r1, h1⟩ := prepareLoop_returns env N hb fuel (commitStart tx)
    (commitStart_inv env tx) (by simp only [commitStart]; omega)
  rw [h1]
  obtain ⟨hi, -⟩ := (prepareLoop_spec env fuel (commitStart tx) (commitStart_inv env tx)).1 r1 h1
  obtain ⟨r, h2, -⟩ := commitFinish_spec env r1 hi
  exact ⟨_, r, h2⟩

/-! ## No notification is issued twice -/

theorem prepList_id_ge (ps : List Participant) (i : Nat) (c : Call) (h : c ∈ prepList i ps) :
    (i : Int) ≤ c.id ∧ c.what = .Prepare := by
  obtain ⟨j, p, -, hc⟩ := (mem_prepList ps i c).1 h
  subst hc
  exact ⟨by simp, rfl⟩

theorem termList_id_ge (what : Notification) (w : List (Option Participant)) (i : Nat)
    (c : Call) (h : c ∈ termList what i w) : (i : Int) ≤ c.id ∧ c.what = what := by
  obtain ⟨j, p, -, hc⟩ := (mem_termList what w i c).1 h
  subst hc
  exact ⟨by simp, rfl⟩

theorem prepList_nodup : ∀ (ps : List Participant) (i : Nat), (prepList i ps).Nodup
  | [], _ => by simp [prepList]
  | p :: ps, i => by
    rw [prepList, List.nodup_cons]
    refine ⟨fun h => ?_, prepList_nodup ps (i + 1)⟩
    have := (prepList_id_ge ps (i + 1) _ h).1
    simp at this

theorem termList_nodup (what : Notification) : ∀ (w : List (Option Participant)) (i : Nat),
    (termList what i w).Nodup
  | [], _ => by simp [termList]
  | none :: w, i => by
    rw [termList]
    exact termList_nodup what w (i + 1)
  | some p :: w, i => by
    rw [termList, List.nodup_cons]
    refine ⟨fun h => ?_, termList_nodup what w (i + 1)⟩
    have := (termList_id_ge what w (i + 1) _ h).1
    simp at this

theorem spcList_nodup (tod : Option Participant) (latched : Bool) :
    (spcList tod latched).Nodup := by
  cases tod with
  | none => simp [spcList]
  | some d => cases latched <;> simp [spcList]

theorem terminalList_nodup (tod : Option Participant) (abort : Bool)
    (w : List (Option Participant)) : (terminalList tod abort w).Nodup := by
  rw [terminalList, List.nodup_append]
  refine ⟨?_, termList_nodup _ w 0, ?_⟩
  · cases tod with
    | none => simp [todRollbackList]
    | some d => cases abort <;> simp [todRollbackList]
  · intro c h1 h2
    obtain ⟨d, -, -, hc⟩ := (mem_todRollbackList tod abort c).1 h1
    have := (termList_id_ge _ w 0 c h2).1
    rw [hc] at this
    simp at this

theorem terminalList_what (tod : Option Participant) (abort : Bool)
    (w : List (Option Participant)) (c : Call) (h : c ∈ terminalList tod abort w) :
    c.what = if abort then .Rollback else .Commit := by
  rcases (mem_terminalList tod abort w c).1 h with ⟨d, -, ha, hc⟩ | ⟨j, p, -, hc⟩
  · rw [hc, ha]
    rfl
  · rw [hc]

/-- In a returning `Commit` no notification is issued twice. -/
theorem CommitReturn.calls_nodup {env : Env} {tx : CommittableTransaction}
    {e : Option Error} {r : Run} {ps : List Participant} (hc : CommitReturn env tx e r ps) :
    r.calls.Nodup := by
  rw [hc.calls, List.nodup_append, List.nodup_append]
  refine ⟨⟨prepList_nodup _ 0, spcList_nodup _ _, ?_⟩, terminalList_nodup _ _ _, ?_⟩
  · intro c h1 h2
    have ha := (prepList_id_ge _ 0 c h1).2
    obtain ⟨d, -, -, hd⟩ := (mem_spcList _ _ c).1 h2
    rw [hd] at ha
    cases ha
  · intro c h1 h2
    have hw := terminalList_what _ _ _ c h2
    rcases List.mem_append.1 h1 with h | h
    · have ha := (prepList_id_ge _ 0 c h).2
      rw [ha] at hw
      cases hs : r.shouldAbort <;> simp [hs] at hw
    · obtain ⟨d, -, -, hd⟩ := (mem_spcList _ _ c).1 h
      rw [hd] at hw
      cases hs : r.shouldAbort <;> simp [hs] at hw

/-! ## A prepare pass without nested calls -/

theorem preparePass_unfold (env : Env) (r : Run) (hi : LoopInv env r) :
    preparePass env r =
      match runActions (interleave (env.sched r.processed)
          (taskList env r.processed (r.tx.vrms.drop r.processed)))
          { r with calls := r.calls ++ prepList r.processed (r.tx.vrms.drop r.processed) } with
      | .stop r1 => .stop r1
      | .ret r1 =>
        match collect (r1.vrms.length - r1.processed) r1 with
        | .stop r2 => .stop r2
        | .ret r2 => .ret (relock r2) := by
  have hk := hi.bound
  have hdrop : r.vrms.drop r.processed = (r.tx.vrms.drop r.processed).map some := by
    rw [hi.working, slots_drop, slots_ge _ _ _ _ (by omega)]
  unfold preparePass
  rw [hdrop, prepareCalls_map_some]

theorem runActions_quiet : ∀ (acts : List Action) (r r1 : Run),
    (∀ a ∈ acts, ∃ m, a = Action.post m) → runActions acts r = .ret r1 → r1.tx = r.tx
  | [], r, r1, _, h => by
    cases h
    rfl
  | a :: acts, r, r1, hq, h => by
    obtain ⟨m, hm⟩ := hq a (List.mem_cons_self _ _)
    subst hm
    simp only [runActions, stepAction] at h
    split at h
    · cases h
    · next r2 h2 =>
      split at h2
      · cases h2
      · cases h2
        have h3 := runActions_quiet acts _ r1 (fun a ha => hq a (List.mem_cons_of_mem _ ha)) h
        exact h3

theorem preparePass_quiet (env : Env) (r r1 : Run) (hi : LoopInv env r)
    (hq : ∀ (j : Nat) (p : Participant), (r.tx.vrms.drop r.processed)[j]? = some p →
      env.during p ((r.processed + j : Nat) : Int) = [])
    (h : preparePass env r = .ret r1) : r1.tx = r.tx := by
  rw [preparePass_unfold env r hi] at h
  split at h
  · cases h
  · next r2 h2 =>
    split at h
    · cases h
    · next r3 h3 =>
      cases h
      rw [relock_tx, collect_tx _ _ _ h3]
      have h4 := runActions_quiet _ _ r2 (fun a ha => by
        have ha2 := (interleave_perm _ _).mem_iff.1 ha
        cases a with
        | post m => exact ⟨m, rfl⟩
        | call c =>
          obtain ⟨j, p, hj, hc⟩ := (mem_taskList_call env _ _ c).1 ha2
          rw [hq j p hj] at hc
          cases hc) h2
      exact h4

theorem slots_all_some (env : Env) (k : Nat) (ps : List Participant) (i : Nat)
    (h : ∀ (j : Nat) (p : Participant), ps[j]? = some p →
      (env.onPrepare p ((i + j : Nat) : Int)).verb ≠ .Done) :
    slots env k i ps = ps.map some := by
  apply List.ext_getElem?
  intro j
  rw [slots_getElem?, List.getElem?_map]
  cases hp : ps[j]? with
  | none => rfl
  | some p =>
    have hn := h j p hp
    simp only [Option.map_some', Option.some.injEq, ite_eq_right_iff, reduceCtorEq, imp_false,
      not_and]
    exact fun _ => hn

/-! ## The happy path -/

theorem prepareLoop_happy (fuel : Nat) (env : Env) (tx : CommittableTransaction)
    (hfuel : 0 < fuel)
    (hprep : ∀ (j : Nat) (p : Participant), tx.vrms[j]? = some p →
      env.onPrepare p (j : Int) = { nested := [], verb := .Prepared })
    (hout : ∀ j : Nat, j < tx.vrms.length → env.outside (j : Int) = []) :
    ∃ r1, prepareLoop env fuel (commitStart tx) = .ret r1 ∧ LoopInv env r1 ∧
      r1.tx = { tx with status := .txStatusPreparing } ∧ r1.processed = tx.vrms.length := by
  have hi := commitStart_inv env tx
  by_cases hc : (commitStart tx).shouldAbort = false ∧
      (commitStart tx).processed < (commitStart tx).vrms.length
  · obtain ⟨f, rfl⟩ : ∃ f, fuel = f + 1 := ⟨fuel - 1, by omega⟩
    rw [prepareLoop_step env f _ hc]
    obtain ⟨r1, newV, e1, hi1, hk1, hv1, -⟩ := preparePass_spec env _ hi hc.1
    have hq := preparePass_quiet env _ r1 hi (fun j p hj => by
      simp only [commitStart, List.drop_zero, Nat.zero_add] at hj ⊢
      simp only [Env.during, hprep j p hj, hout j (lt_length_of_getElem? _ _ _ hj),
        List.append_nil]) e1
    simp only [e1]
    have hlen1 : r1.vrms.length = r1.tx.vrms.length := by rw [hi1.working, slots_length]
    refine ⟨r1, prepareLoop_exit env f r1 ?_, hi1, hq, hk1⟩
    rintro ⟨-, h2⟩
    rw [hlen1, hq, hk1] at h2
    simp [commitStart] at h2
  · refine ⟨commitStart tx, prepareLoop_exit env fuel _ hc, hi, rfl, ?_⟩
    have : ¬ (0 < tx.vrms.length) := by
      intro h
      exact hc ⟨rfl, by simpa [commitStart] using h⟩
    simp only [commitStart]
    omega

/-- `Commit` when every volatile answers `Prepared` without calling the transaction,
no other goroutine calls it and the TOD answers `Committed`: it returns nil with the status Committed, and the
notifications are the `Prepare`s in enlistment order, the `SinglePhaseCommit`, and the
`Commit`s in enlistment order. -/
theorem Commit_happy (fuel : Nat) (env : Env) (tx : CommittableTransaction)
    (hact : tx.status = .txStatusActive) (hne : tx.tod ≠ none ∨ tx.vrms ≠ [])
    (hfuel : 0 < fuel)
    (hprep : ∀ (j : Nat) (p : Participant), tx.vrms[j]? = some p →
      env.onPrepare p (j : Int) = { nested := [], verb := .Prepared })
    (hout : ∀ j : Nat, j < tx.vrms.length → env.outside (j : Int) = [])
    (hspc : ∀ d, tx.tod = some d → (env.onSinglePhaseCommit d).verb = .Committed) :
    ∃ r, Commit fuel env tx = .ret (none, r) ∧
      r.tx = { status := .txStatusCommitted, tod := none, vrms := [] } ∧
      r.calls = prepList 0 tx.vrms ++ spcList tx.tod false ++
        termList .Commit 0 (tx.vrms.map some) := by
  rw [Commit_active fuel env tx hact hne]
  obtain ⟨r1, h1, hi, htx, hk⟩ := prepareLoop_happy fuel env tx hfuel hprep hout
  rw [h1]
  have hvr : r1.tx.vrms = tx.vrms := by rw [htx]
  have htod : r1.tod = tx.tod := by rw [hi.tod, htx]
  have hforced : forced env r1.processed 0 r1.tx.vrms = false := by
    cases hf : forced env r1.processed 0 r1.tx.vrms with
    | false => rfl
    | true =>
      obtain ⟨j, p, hj, -, hv⟩ := (forced_iff env _ _ 0).1 hf
      rw [hvr] at hj
      simp only [Nat.zero_add] at hv
      rw [hprep j p hj] at hv
      cases hv
  have hrolled : rolled env r1.processed 0 r1.tx.vrms = false := by
    cases hf : rolled env r1.processed 0 r1.tx.vrms with
    | false => rfl
    | true =>
      obtain ⟨j, p, hj, -, hv⟩ := (rolled_iff env _ _ 0).1 hf
      rw [hvr] at hj
      simp only [Nat.zero_add] at hv
      simp [Env.during, hprep j p hj, hout j (lt_length_of_getElem? _ _ _ hj)] at hv
  have hsa : r1.shouldAbort = false := by rw [hi.abort, hforced, hrolled]; rfl
  have hspcA : spcAborts env r1.tod = false := by
    rw [htod]
    cases hd : tx.tod with
    | none => rfl
    | some d => simp [spcAborts, hspc d hd, SinglePhaseVerb.isAborted]
  have hw : r1.vrms = tx.vrms.map some := by
    rw [hi.working, hvr]
    apply slots_all_some
    intro j p hj
    simp only [Nat.zero_add]
    rw [hprep j p hj]
    simp
  obtain ⟨r, e1, -, e3, e4, -⟩ := commitFinish_spec env r1 hi
  rw [hsa, hspcA] at e1 e3 e4
  simp only [Bool.or_false, Bool.false_eq_true, if_false] at e1 e3 e4
  refine ⟨r, e1, e3, ?_⟩
  rw [e4, hi.calls, hvr, hk, List.take_length, htod, hw, terminalList]
  cases tx.tod <;> simp [todRollbackList]

/-- C8: for an Active transaction with volatiles V1..Vn and an optional TOD D, not
both absent, where every volatile answers `Prepare` with `Prepared` without calling
the transaction, no other goroutine calls the transaction during the prepare phase
and D answers `SinglePhaseCommit` with `Committed`: `Commit` returns
nil, the status ends Committed, and the notifications are V1.Prepare .. Vn.Prepare,
then D.SinglePhaseCommit (if D is present), then V1.Commit .. Vn.Commit, each once; no
`Rollback` is issued and the TOD handle gets nothing but `SinglePhaseCommit`.  Error,
final transaction and notifications are the same under every schedule of the answers
as in the synchronous run. -/
theorem C8_happy_path (fuel : Nat) (env : Env) (tx : CommittableTransaction)
    (hact : tx.status = .txStatusActive) (hne : tx.tod ≠ none ∨ tx.vrms ≠ [])
    (hfuel : 0 < fuel)
    (hprep : ∀ (j : Nat) (p : Participant), tx.vrms[j]? = some p →
      env.onPrepare p (j : Int) = { nested := [], verb := .Prepared })
    (hout : ∀ j : Nat, j < tx.vrms.length → env.outside (j : Int) = [])
    (hspc : ∀ d, tx.tod = some d → (env.onSinglePhaseCommit d).verb = .Committed) :
    (Commit fuel env tx).err = some none ∧
    (Commit fuel env tx).run.tx.status = .txStatusCommitted ∧
    (Commit fuel env tx).run.calls =
      prepList 0 tx.vrms ++ spcList tx.tod false ++ termList .Commit 0 (tx.vrms.map some) ∧
    (Commit fuel env tx).run.calls.Nodup ∧
    (∀ c ∈ (Commit fuel env tx).run.calls, c.what ≠ .Rollback) ∧
    (∀ c ∈ (Commit fuel env tx).run.calls, c.id = -1 → c.what = .SinglePhaseCommit) ∧
    (Commit fuel { env with sched := fun _ => [] } tx).err = (Commit fuel env tx).err ∧
    (Commit fuel { env with sched := fun _ => [] } tx).run.tx = (Commit fuel env tx).run.tx ∧
    (Commit fuel { env with sched := fun _ => [] } tx).run.calls =
      (Commit fuel env tx).run.calls := by
  obtain ⟨r, h1, h2, h3⟩ := Commit_happy fuel env tx hact hne hfuel hprep hout hspc
  obtain ⟨r', h1', h2', h3'⟩ := Commit_happy fuel { env with sched := fun _ => [] } tx hact hne
    hfuel hprep hout hspc
  obtain ⟨ps, hc⟩ := (Commit_spec fuel env tx hact hne).2 none r h1
  rw [h1, h1']
  refine ⟨rfl, ?_, h3, hc.calls_nodup, ?_, ?_, rfl, ?_, ?_⟩
  · show r.tx.status = _
    rw [h2]
  · intro c hcm
    change c ∈ r.calls at hcm
    rw [h3] at hcm
    simp only [List.mem_append] at hcm
    rcases hcm with (h | h) | h
    · rw [(prepList_id_ge _ _ c h).2]
      decide
    · obtain ⟨d, -, -, hd⟩ := (mem_spcList _ _ c).1 h
      rw [hd]
      simp
    · rw [(termList_id_ge _ _ _ c h).2]
      decide
  · intro c hcm hid
    change c ∈ r.calls at hcm
    rw [h3] at hcm
    simp only [List.mem_append] at hcm
    rcases hcm with (h | h) | h
    · have := (prepList_id_ge _ _ c h).1
      rw [hid] at this
      simp at this
    · obtain ⟨d, -, -, hd⟩ := (mem_spcList _ _ c).1 h
      rw [hd]
    · have := (termList_id_ge _ _ _ c h).1
      rw [hid] at this
      simp at this
  · show r'.tx = r.tx
    rw [h2, h2']
  · show r'.calls = r.calls
    rw [h3, h3']

set_option maxHeartbeats 4000000 in
/-- Witness for C8: the test "commits everything" with an asynchronous schedule, in
which participant 2 answers before participant 1. -/
theorem C8_happy_path_witness :
    (Commit 1 { Env.quiet with sched := fun _ => [2, 0] } exampleTx).run.calls =
      [{ trm := 1, what := .Prepare, id := 0 }, { trm := 2, what := .Prepare, id := 1 },
       { trm := 9, what := .SinglePhaseCommit, id := -1 },
       { trm := 1, what := .Commit, id := 0 }, { trm := 2, what := .Commit, id := 1 }] :=
  (C8_happy_path 1 { Env.quiet with sched := fun _ => [2, 0] } exampleTx rfl
    (Or.inl (by decide)) (by decide) (fun _ _ _ => rfl) (fun _ _ => rfl)
    (fun _ _ => rfl)).2.2.1

/-! ## The working set at the end of a Commit -/

theorem slots_some (env : Env) (k : Nat) (ps : List Participant) (i j : Nat)
    (p : Participant) (h : (slots env k i ps)[j]? = some (some p)) : ps[j]? = some p := by
  rw [slots_getElem?] at h
  cases hp : ps[j]? with
  | none => simp [hp] at h
  | some q =>
    rw [hp] at h
    simp only [Option.map_some', Option.some.injEq] at h
    split at h
    · cases h
    · cases h
      rfl

theorem slots_some_iff (env : Env) (k : Nat) (ps : List Participant) (j : Nat)
    (p : Participant) :
    (slots env k 0 ps)[j]? = some (some p) ↔
      ps[j]? = some p ∧ ¬ (j < k ∧ (env.onPrepare p (j : Int)).verb = .Done) := by
  rw [slots_getElem?]
  cases hp : ps[j]? with
  | none => simp
  | some q =>
    simp only [Option.map_some', Option.some.injEq, Nat.zero_add]
    constructor
    · intro h
      split at h
      · cases h
      · next hn =>
        cases h
        exact ⟨rfl, hn⟩
    · rintro ⟨rfl, hn⟩
      rw [if_neg hn]

theorem slots_none_iff (env : Env) (k : Nat) (ps : List Participant) (j : Nat) :
    (slots env k 0 ps)[j]? = some none ↔
      ∃ p, ps[j]? = some p ∧ j < k ∧ (env.onPrepare p (j : Int)).verb = .Done := by
  rw [slots_getElem?]
  cases hp : ps[j]? with
  | none => simp
  | some q =>
    simp only [Option.map_some', Option.some.injEq, Nat.zero_add]
    constructor
    · intro h
      split at h
      · next hn => exact ⟨q, rfl, hn⟩
      · cases h
    · rintro ⟨p, hq, hn⟩
      cases hq
      rw [if_pos hn]

/-! ## Rollback: the trace -/

theorem termList_map_some (what : Notification) : ∀ (ps : List Participant) (i : Nat)
    (c : Call), c ∈ termList what i (ps.map some) ↔
      ∃ j p, ps[j]? = some p ∧ c = { trm := p, what := what, id := ((i + j : Nat) : Int) } := by
  intro ps i c
  rw [mem_termList]
  constructor
  · rintro ⟨j, p, hj, hc⟩
    refine ⟨j, p, ?_, hc⟩
    rw [List.getElem?_map] at hj
    cases hp : ps[j]? with
    | none => simp [hp] at hj
    | some q =>
      rw [hp] at hj
      simp only [Option.map_some', Option.some.injEq] at hj
      rw [hj]
  · rintro ⟨j, p, hj, hc⟩
    exact ⟨j, p, by rw [List.getElem?_map, hj]; rfl, hc⟩

theorem termList_rollbackList : ∀ (ps : List Participant) (i : Nat),
    termList .Rollback i (ps.map some) = rollbackList i ps
  | [], _ => rfl
  | p :: ps, i => by
    simp [termList, rollbackList, termList_rollbackList ps (i + 1)]

/-- C12: for every Active transaction with a non-empty registry, `Rollback` returns
nil, sets the status to Aborted, clears the registry, and notifies `Rollback` once to
each enlisted participant and nothing else: the TOD first (handle id -1) if present,
then each volatile in enlistment order with the handle id equal to its index. -/
theorem C12_rollback_active (env : Env) (tx : CommittableTransaction)
    (hact : tx.status = .txStatusActive) (hne : tx.tod ≠ none ∨ tx.vrms ≠ []) :
    (Rollback env tx).err = some none ∧
    (Rollback env tx).run.tx = { status := .txStatusAborted, tod := none, vrms := [] } ∧
    (Rollback env tx).run.calls =
      (match tx.tod with
        | none => []
        | some d => [{ trm := d, what := .Rollback, id := -1 }]) ++ rollbackList 0 tx.vrms ∧
    (Rollback env tx).run.calls.Nodup ∧
    (∀ c ∈ (Rollback env tx).run.calls, c.what = .Rollback) ∧
    (∀ (i : Nat) (p : Participant), tx.vrms[i]? = some p →
      ({ trm := p, what := .Rollback, id := (i : Int) } : Call) ∈ (Rollback env tx).run.calls) := by
  obtain ⟨r, h1, h2, h3, -, -⟩ := Rollback_spec env tx hact hne
  rw [h1]
  have hcalls : r.calls = terminalList tx.tod true (tx.vrms.map some) := by
    rw [h3, terminalList]
    rfl
  refine ⟨rfl, h2, ?_, ?_, ?_, ?_⟩
  · show r.calls = _
    rw [h3, termList_rollbackList]
    cases tx.tod <;> rfl
  · show r.calls.Nodup
    rw [hcalls]
    exact terminalList_nodup _ _ _
  · intro c hc
    change c ∈ r.calls at hc
    rw [hcalls] at hc
    rw [terminalList_what _ _ _ c hc]
    rfl
  · intro i p hp
    show _ ∈ r.calls
    rw [h3]
    apply List.mem_append_right
    exact (termList_map_some _ _ 0 _).2 ⟨i, p, hp, by simp⟩

/-- Witness for C12: the test "rolls back everything". -/
theorem C12_rollback_active_witness :
    (Rollback Env.quiet exampleTx).run.calls =
      [{ trm := 9, what := .Rollback, id := -1 }, { trm := 1, what := .Rollback, id := 0 },
       { trm := 2, what := .Rollback, id := 1 }] :=
  (C12_rollback_active Env.quiet exampleTx rfl (Or.inl (by decide))).2.2.1

/-- C13: when the status is Preparing or PrepareAborted, `Rollback` returns nil, sets
the status to PrepareAborted, leaves `tod` and `vrms` unchanged and notifies nobody;
applying it twice gives the same state as applying it once. -/
theorem C13_rollback_reentrant (env env2 : Env) (tx : CommittableTransaction)
    (hp : tx.status = .txStatusPreparing ∨ tx.status = .txStatusPrepareAborted) :
    (Rollback env tx).err = some none ∧
    (Rollback env tx).run.tx.status = .txStatusPrepareAborted ∧
    (Rollback env tx).run.tx.tod = tx.tod ∧ (Rollback env tx).run.tx.vrms = tx.vrms ∧
    (Rollback env tx).run.calls = [] ∧
    (Rollback env2 (Rollback env tx).run.tx).err = some none ∧
    (Rollback env2 (Rollback env tx).run.tx).run.tx = (Rollback env tx).run.tx ∧
    (Rollback env2 (Rollback env tx).run.tx).run.calls = [] := by
  obtain ⟨st, tod, vrms⟩ := tx
  simp only at hp
  rcases hp with h | h <;> subst h <;>
    simp [Rollback, CommittableTransaction.RollbackNested, CommittableTransaction.isPreparing,
      Outcome.err, Outcome.run, Run.idle]

/-- Witness for C13: a transaction in the prepare phase with two volatiles. -/
theorem C13_rollback_reentrant_witness :
    (Rollback Env.quiet { status := .txStatusPreparing, tod := some 9, vrms := [1, 2] }).run.tx =
      { status := .txStatusPrepareAborted, tod := some 9, vrms := [1, 2] } := by
  have h := C13_rollback_reentrant Env.quiet Env.quiet
    { status := .txStatusPreparing, tod := some 9, vrms := [1, 2] } (Or.inl rfl)
  generalize (Rollback Env.quiet
    { status := .txStatusPreparing, tod := some 9, vrms := [1, 2] }).run.tx = t at h ⊢
  obtain ⟨st, tod, vrms⟩ := t
  obtain ⟨-, h1, h2, h3, -⟩ := h
  simp only at h1 h2 h3
  subst h1 h2 h3
  rfl

/-! ## The errors at the boundary -/

theorem commitFinish_err (env : Env) (r1 : Run) (e : Option Error) (r : Run)
    (h : commitFinish env r1 = .ret (e, r)) : e = none ∨ e = some .ErrTxAborted := by
  unfold commitFinish at h
  split at h
  · cases h
  · split at h
    · cases h
    · split at h
      · cases h
      · cases h
        cases r.shouldAbort <;> simp

theorem Commit_err (fuel : Nat) (env : Env) (tx : CommittableTransaction)
    (e : Option Error) (r : Run) (h : Commit fuel env tx = .ret (e, r)) :
    e = none ∨ e = some .ErrTxError ∨ e = some .ErrTxAborted := by
  unfold Commit at h
  split at h
  · cases h
  · split at h
    · cases h
      exact Or.inr (Or.inr rfl)
    · split at h
      · cases h
        exact Or.inr (Or.inl rfl)
      · split at h
        · cases h
          exact Or.inl rfl
        · split at h
          · cases h
          · next r1 _ =>
            rcases commitFinish_err env r1 e r h with h1 | h1
            · exact Or.inl h1
            · exact Or.inr (Or.inr h1)

theorem Rollback_err (env : Env) (tx : CommittableTransaction)
    (e : Option Error) (r : Run) (h : Rollback env tx = .ret (e, r)) :
    e = none ∨ e = some .ErrTxError ∨ e = some .ErrTxAborted := by
  unfold Rollback at h
  split at h
  · next err tx1 heq =>
    cases h
    simp only [CommittableTransaction.RollbackNested] at heq
    split at heq
    · cases heq
      exact Or.inl rfl
    · cases heq
  · split at h
    · cases h
    · split at h
      · cases h
        exact Or.inr (Or.inr rfl)
      · split at h
        · cases h
          exact Or.inr (Or.inl rfl)
        · split at h
          · cases h
            exact Or.inl rfl
          · split at h
            · cases h
            · split at h
              · cases h
              · cases h
                exact Or.inl rfl

/-- C14: the error kinds form the documented hierarchy.  `ErrTxAborted` matches
`ErrTxError` under `errors.Is` (it wraps it), `ErrTxError` does not match
`ErrTxAborted`, and `ErrInvalidOperation` matches neither of them nor is matched by
them; hence every error returned by `EnlistTheOnlyDurable`, `EnlistVolatile`, `Commit`
and `Rollback` matches `ErrTxError`. -/
theorem C14_error_hierarchy (depth fuel : Nat) (env : Env) (tx : CommittableTransaction)
    (p : Participant) (err : Error) :
    errorsIs (depth + 2) .ErrTxAborted .ErrTxError = true ∧
    errorsIs (depth + 2) .ErrTxAborted .ErrTxAborted = true ∧
    errorsIs (depth + 2) .ErrTxError .ErrTxError = true ∧
    errorsIs (depth + 2) .ErrTxError .ErrTxAborted = false ∧
    errorsIs (depth + 2) .ErrInvalidOperation .ErrTxError = false ∧
    errorsIs (depth + 2) .ErrInvalidOperation .ErrTxAborted = false ∧
    errorsIs (depth + 2) .ErrTxError .ErrInvalidOperation = false ∧
    errorsIs (depth + 2) .ErrTxAborted .ErrInvalidOperation = false ∧
    ((tx.EnlistTheOnlyDurable p).1 = some err → errorsIs (depth + 2) err .ErrTxError = true) ∧
    ((tx.EnlistVolatile p).1 = some err → errorsIs (depth + 2) err .ErrTxError = true) ∧
    ((Commit fuel env tx).err = some (some err) →
      errorsIs (depth + 2) err .ErrTxError = true) ∧
    ((Rollback env tx).err = some (some err) →
      errorsIs (depth + 2) err .ErrTxError = true) := by
  have hE : errorsIs (depth + 2) .ErrTxError .ErrTxError = true := by
    simp [errorsIs]
  have hA : errorsIs (depth + 2) .ErrTxAborted .ErrTxError = true := by
    simp [errorsIs, Error.Unwrap]
  have hboth : ∀ e : Option Error,
      (e = none ∨ e = some .ErrTxError ∨ e = some .ErrTxAborted) → e = some err →
      errorsIs (depth + 2) err .ErrTxError = true := by
    intro e h1 h2
    subst h2
    rcases h1 with h | h | h
    · cases h
    · cases h
      exact hE
    · cases h
      exact hA
  refine ⟨hA, by simp [errorsIs], hE, by simp [errorsIs, Error.Unwrap],
    by simp [errorsIs, Error.Unwrap], by simp [errorsIs, Error.Unwrap],
    by simp [errorsIs, Error.Unwrap], by simp [errorsIs, Error.Unwrap], ?_, ?_, ?_, ?_⟩
  · intro h
    apply hboth _ _ h
    simp only [CommittableTransaction.EnlistTheOnlyDurable]
    split
    · exact Or.inr (Or.inl rfl)
    · split
      · exact Or.inr (Or.inl rfl)
      · exact Or.inl rfl
  · intro h
    apply hboth _ _ h
    simp only [CommittableTransaction.EnlistVolatile]
    split
    · exact Or.inr (Or.inl rfl)
    · exact Or.inl rfl
  · intro h
    cases hc : Commit fuel env tx with
    | stop r =>
      rw [hc] at h
      cases h
    | ret a =>
      obtain ⟨e, r⟩ := a
      rw [hc] at h
      simp only [Outcome.err, Option.some.injEq] at h
      exact hboth e (Commit_err fuel env tx e r hc) h
  · intro h
    cases hc : Rollback env tx with
    | stop r =>
      rw [hc] at h
      cases h
    | ret a =>
      obtain ⟨e, r⟩ := a
      rw [hc] at h
      simp only [Outcome.err, Option.some.injEq] at h
      exact hboth e (Rollback_err env tx e r hc) h

/-- C15: for every handle with identifier `id`, each verb posts one message with
`enlId = id` and the documented code: `Done` posts the code Done, `Prepared` and
`Committed` post the code Commit, `ForceRollback(e)` and `Aborted(e)` post the code
Abort with the cause `e`; `Done`, `Prepared` and `Committed` carry no cause.  The post
adds exactly that message at the end of the channel. -/
theorem C15_handle_verbs (en : enlistment) (cause : Option Nat) (ch : Chan)
    (m : trmResponse) :
    en.Done = { code := .trmResponseCodeDone, enlId := en.id, cause := none } ∧
    en.Prepared = { code := .trmResponseCodeCommit, enlId := en.id, cause := none } ∧
    en.Committed = { code := .trmResponseCodeCommit, enlId := en.id, cause := none } ∧
    en.ForceRollback cause =
      { code := .trmResponseCodeAbort, enlId := en.id, cause := cause } ∧
    en.Aborted cause = { code := .trmResponseCodeAbort, enlId := en.id, cause := cause } ∧
    (ch.buf.length < ch.cap →
      ch.send m = some { cap := ch.cap, buf := ch.buf ++ [m] }) ∧
    (PreparingVerb.Done.post en = en.Done ∧ PreparingVerb.Prepared.post en = en.Prepared ∧
      (PreparingVerb.ForceRollback cause).post en = en.ForceRollback cause ∧
      SinglePhaseVerb.Committed.post en = en.Committed ∧
      (SinglePhaseVerb.Aborted cause).post en = en.Aborted cause) := by
  refine ⟨rfl, rfl, rfl, rfl, rfl, ?_, rfl, rfl, rfl, rfl, rfl⟩
  intro h
  simp [Chan.send, h]

/-! ## Nested Rollback -/

theorem CommitReturn.enlisted {env : Env} {tx : CommittableTransaction}
    {e : Option Error} {r : Run} {ps : List Participant} (hc : CommitReturn env tx e r ps) :
    ps = tx.vrms ++ volWins r.nested := by
  obtain ⟨log1, es, h1, h2, -⟩ := hc.prepLog
  rw [h1, volWins_append, volWins_refusedLog, List.append_nil]
  exact h2

theorem CommitReturn.rollback_nil {env : Env} {tx : CommittableTransaction}
    {e : Option Error} {r : Run} {ps : List Participant} (hc : CommitReturn env tx e r ps) :
    ∀ x ∈ r.nested, x.call = .Rollback → x.err = none := by
  obtain ⟨log1, es, h1, -, h3⟩ := hc.prepLog
  intro x hx hcall
  rw [h1] at hx
  rcases List.mem_append.1 hx with hx | hx
  · apply h3 x hx
    simp [NestedResult.isTodCall, hcall]
  · simp only [refusedLog, List.mem_map] at hx
    obtain ⟨e1, -, he⟩ := hx
    rw [← he] at hcall
    cases hcall

theorem CommitReturn.rolled_of_nested {env : Env} {tx : CommittableTransaction}
    {e : Option Error} {r : Run} {ps : List Participant} (hc : CommitReturn env tx e r ps)
    (h : nestedRollback env r.calls) : rolled env r.processed 0 ps = true := by
  obtain ⟨c, hcm, hw, hf⟩ := h
  obtain ⟨j, p, hp, hj, hcj⟩ := (hc.prepare_iff c).1 ⟨hcm, hw⟩
  subst hcj
  exact (rolled_iff env _ _ 0).2 ⟨j, p, hp, by omega, by simpa using hf⟩

/-! ## The ambient transaction -/

theorem CurrentTransaction_WithTransaction (ctx : Context) (tx : Transaction) :
    CurrentTransaction (WithTransaction ctx tx) = tx := by
  cases tx <;> simp [CurrentTransaction, WithTransaction, Context.Value]

theorem Value_of_not_sets : ∀ ctx : Context, ctx.setsTransaction = false →
    ctx.Value .transaction = .nil
  | .background, _ => rfl
  | .withValue parent key val, h => by
    simp only [Context.setsTransaction, Bool.or_eq_false_iff, beq_eq_false_iff_ne] at h
    simp only [Context.Value, if_neg h.1]
    exact Value_of_not_sets parent h.2

/-- C20: `CurrentTransaction (WithTransaction ctx tx)` is `tx` for every context and
every non-nil transaction; the innermost `WithTransaction` wins over outer ones, and
values set under other keys do not matter; `CurrentTransaction` is nil for the
background context, for every context in which no transaction was set, and for
`WithTransaction ctx nil`, also when an outer context carries a transaction. -/
theorem C20_ambient_transaction (ctx : Context) :
    (∀ t : TxRef, CurrentTransaction (WithTransaction ctx (some t)) = some t) ∧
    (∀ t u : TxRef,
      CurrentTransaction (WithTransaction (WithTransaction ctx (some u)) (some t)) = some t) ∧
    (∀ (tx : Transaction) (k : Nat) (v : Any),
      CurrentTransaction (.withValue (WithTransaction ctx tx) (.other k) v) = tx) ∧
    CurrentTransaction .background = none ∧
    (ctx.setsTransaction = false → CurrentTransaction ctx = none) ∧
    CurrentTransaction (WithTransaction ctx none) = none ∧
    (∀ u : TxRef, CurrentTransaction (WithTransaction (WithTransaction ctx (some u)) none) =
      none) := by
  refine ⟨fun t => CurrentTransaction_WithTransaction _ _,
    fun t u => CurrentTransaction_WithTransaction _ _, ?_, rfl, ?_,
    CurrentTransaction_WithTransaction _ _, fun u => CurrentTransaction_WithTransaction _ _⟩
  · intro tx k v
    cases tx <;> simp [CurrentTransaction, WithTransaction, Context.Value]
  · intro h
    simp [CurrentTransaction, Value_of_not_sets ctx h]

/-! ## Creating a scope -/

theorem foldl_apply_createScope : ∀ (opts : List ScopeOption) (o : ScopeOption)
    (options : scopeOptions),
    ((opts ++ [o]).foldl ScopeOption.apply options).createScope =
      (ScopeOption.apply { tx := none, createScope := none } o).createScope ∧
    ∀ t, o = .WithScopeTransaction t →
      ((opts ++ [o]).foldl ScopeOption.apply options).tx = some t := by
  intro opts o options
  rw [List.foldl_append]
  cases o <;> simp [ScopeOption.apply]

theorem WithTransactionScope_last (h : Heap) (ctx : Context) (opts : List ScopeOption)
    (o : ScopeOption) :
    WithTransactionScope h ctx (opts ++ [o]) = WithTransactionScope h ctx [o] := by
  have h1 := foldl_apply_createScope opts o { tx := none, createScope := none }
  simp only [WithTransactionScope]
  rw [h1.1]
  cases o with
  | WithScopeTransaction t =>
    have h2 := h1.2 t rfl
    simp [ScopeOption.apply, CreateScope.call, createTransactionScope, h2]
  | WithTxRequired => simp [ScopeOption.apply, CreateScope.call, createRequiresScope]
  | WithRequiresNewTx => simp [ScopeOption.apply, CreateScope.call, createRequiresNewScope]
  | WithSuppressTx => simp [ScopeOption.apply, CreateScope.call, createSuppressScope]

/-- C19: `WithTransactionScope` selects the transaction as documented, for every list
`opts` of options given before the deciding one.  With no option it behaves as with
`WithTxRequired`.  `WithTxRequired` returns the input context and a scope bound to
`CurrentTransaction ctx` when that is non-nil, and otherwise creates a fresh Active
transaction with an empty registry, owned by the scope and current in the returned
context.  `WithRequiresNewTx` always creates such a transaction, different from the
ambient one.  `WithSuppressTx` returns a context whose `CurrentTransaction` is nil.
`WithScopeTransaction tx` makes `tx` current and binds the scope to it.  The last
option decides.  No existing transaction is changed. -/
theorem C19_scope_selection (h : Heap) (ctx : Context) (opts : List ScopeOption)
    (hamb : ∀ t, CurrentTransaction ctx = some t → t < h.next) :
    WithTransactionScope h ctx [] = WithTransactionScope h ctx [.WithTxRequired] ∧
    (∀ t, CurrentTransaction ctx = some t →
      WithTransactionScope h ctx (opts ++ [.WithTxRequired]) =
        { ctx := ctx, scope := .transaction { tx := some t, terminated := false },
          heap := h }) ∧
    (CurrentTransaction ctx = none →
      ∃ t, (WithTransactionScope h ctx (opts ++ [.WithTxRequired])).scope =
          .committable { tx := t, terminated := false } ∧
        (WithTransactionScope h ctx (opts ++ [.WithTxRequired])).ctx =
          WithTransaction ctx (some t) ∧
        CurrentTransaction (WithTransactionScope h ctx (opts ++ [.WithTxRequired])).ctx =
          some t ∧
        h.next ≤ t ∧
        (WithTransactionScope h ctx (opts ++ [.WithTxRequired])).heap.cell t =
          { status := .txStatusActive, tod := none, vrms := [] } ∧
        ∀ u, u ≠ t →
          (WithTransactionScope h ctx (opts ++ [.WithTxRequired])).heap.cell u = h.cell u) ∧
    (∃ t, (WithTransactionScope h ctx (opts ++ [.WithRequiresNewTx])).scope =
          .committable { tx := t, terminated := false } ∧
        (WithTransactionScope h ctx (opts ++ [.WithRequiresNewTx])).ctx =
          WithTransaction ctx (some t) ∧
        CurrentTransaction (WithTransactionScope h ctx (opts ++ [.WithRequiresNewTx])).ctx =
          some t ∧
        h.next ≤ t ∧ CurrentTransaction ctx ≠ some t ∧
        (WithTransactionScope h ctx (opts ++ [.WithRequiresNewTx])).heap.cell t =
          { status := .txStatusActive, tod := none, vrms := [] } ∧
        ∀ u, u ≠ t →
          (WithTransactionScope h ctx (opts ++ [.WithRequiresNewTx])).heap.cell u =
            h.cell u) ∧
    (WithTransactionScope h ctx (opts ++ [.WithSuppressTx]) =
        { ctx := WithTransaction ctx none, scope := .empty { terminated := false },
          heap := h } ∧
      CurrentTransaction (WithTransactionScope h ctx (opts ++ [.WithSuppressTx])).ctx =
        none) ∧
    (∀ tx : TxRef,
      WithTransactionScope h ctx (opts ++ [.WithScopeTransaction tx]) =
        { ctx := WithTransaction ctx (some tx),
          scope := .transaction { tx := some tx, terminated := false }, heap := h } ∧
      CurrentTransaction (WithTransactionScope h ctx (opts ++ [.WithScopeTransaction tx])).ctx =
        some tx) ∧
    (∀ o : ScopeOption,
      WithTransactionScope h ctx (opts ++ [o]) = WithTransactionScope h ctx [o]) := by
  refine ⟨rfl, ?_, ?_, ?_, ?_, ?_, fun o => WithTransactionScope_last h ctx opts o⟩
  · intro t ht
    rw [WithTransactionScope_last]
    simp [WithTransactionScope, ScopeOption.apply, CreateScope.call, createRequiresScope, ht]
  · intro hn
    rw [WithTransactionScope_last]
    refine ⟨h.next, ?_, ?_, ?_, le_refl _, ?_, ?_⟩
    · simp [WithTransactionScope, ScopeOption.apply, CreateScope.call, createRequiresScope, hn,
        Heap.alloc]
    · simp [WithTransactionScope, ScopeOption.apply, CreateScope.call, createRequiresScope, hn,
        Heap.alloc]
    · simp [WithTransactionScope, ScopeOption.apply, CreateScope.call, createRequiresScope, hn,
        Heap.alloc, CurrentTransaction_WithTransaction]
    · simp [WithTransactionScope, ScopeOption.apply, CreateScope.call, createRequiresScope, hn,
        Heap.alloc, CommittableTransaction.fresh]
    · intro u hu
      simp [WithTransactionScope, ScopeOption.apply, CreateScope.call, createRequiresScope, hn,
        Heap.alloc, hu]
  · rw [WithTransactionScope_last]
    refine ⟨h.next, ?_, ?_, ?_, le_refl _, ?_, ?_, ?_⟩
    · simp [WithTransactionScope, ScopeOption.apply, CreateScope.call, createRequiresNewScope,
        Heap.alloc]
    · simp [WithTransactionScope, ScopeOption.apply, CreateScope.call, createRequiresNewScope,
        Heap.alloc]
    · simp [WithTransactionScope, ScopeOption.apply, CreateScope.call, createRequiresNewScope,
        Heap.alloc, CurrentTransaction_WithTransaction]
    · intro hc
      exact absurd (hamb _ hc) (lt_irrefl _)
    · simp [WithTransactionScope, ScopeOption.apply, CreateScope.call, createRequiresNewScope,
        Heap.alloc, CommittableTransaction.fresh]
    · intro u hu
      simp [WithTransactionScope, ScopeOption.apply, CreateScope.call, createRequiresNewScope,
        Heap.alloc, hu]
  · rw [WithTransactionScope_last]
    simp [WithTransactionScope, ScopeOption.apply, CreateScope.call, createSuppressScope,
      CurrentTransaction_WithTransaction]
  · intro tx
    rw [WithTransactionScope_last]
    simp [WithTransactionScope, ScopeOption.apply, CreateScope.call, createTransactionScope,
      CurrentTransaction_WithTransaction]

/-- Witness for C19: a Required scope inside a RequiresNew scope opened on the
background context, as in the example of the package. -/
theorem C19_scope_selection_witness :
    WithTransactionScope (WithTransactionScope Heap.empty .background [.WithRequiresNewTx]).heap
        (WithTransactionScope Heap.empty .background [.WithRequiresNewTx]).ctx
        ([] ++ [.WithTxRequired]) =
      { ctx := (WithTransactionScope Heap.empty .background [.WithRequiresNewTx]).ctx,
        scope := .transaction { tx := some 0, terminated := false },
        heap := (WithTransactionScope Heap.empty .background [.WithRequiresNewTx]).heap } :=
  (C19_scope_selection
    (WithTransactionScope Heap.empty .background [.WithRequiresNewTx]).heap
    (WithTransactionScope Heap.empty .background [.WithRequiresNewTx]).ctx []
    (by decide)).2.1 0 (by decide)

/-! ## The functions `complete` and `dispose` of a scope -/

theorem Commit_total (fuel N : Nat) (env : Env) (tx : CommittableTransaction)
    (hst : tx.status = .txStatusActive ∨ tx.status = .txStatusCommitted ∨
      tx.status = .txStatusAborted)
    (hb : boundedNesting env N) (hf : N < fuel) :
    ∃ e r, Commit fuel env tx = .ret (e, r) := by
  rcases hst with h | h | h
  · by_cases hne : tx.tod ≠ none ∨ tx.vrms ≠ []
    · exact Commit_returns fuel N env tx h hne hb hf
    · have h1 : tx.tod = none := by
        by_contra hc
        exact hne (Or.inl hc)
      have h2 : tx.vrms = [] := by
        by_contra hc
        exact hne (Or.inr hc)
      exact ⟨_, _, by simp [Commit, h, h1, h2, CommittableTransaction.isTerminated]; exact ⟨rfl, rfl⟩⟩
  · exact ⟨_, _, by simp [Commit, h, CommittableTransaction.isTerminated]; exact ⟨rfl, rfl⟩⟩
  · exact ⟨_, _, by simp [Commit, h, CommittableTransaction.isTerminated]; exact ⟨rfl, rfl⟩⟩

theorem Rollback_total (env : Env) (tx : CommittableTransaction)
    (hst : tx.status ≠ .txStatusFinalizing) :
    ∃ e r, Rollback env tx = .ret (e, r) := by
  by_cases hne : tx.status = .txStatusActive ∧ (tx.tod ≠ none ∨ tx.vrms ≠ [])
  · obtain ⟨r, h, -⟩ := Rollback_spec env tx hne.1 hne.2
    exact ⟨_, _, h⟩
  · obtain ⟨st, tod, vrms⟩ := tx
    simp only at hst hne
    cases st
    · have h1 : tod = none := by
        by_contra hc
        exact hne ⟨rfl, Or.inl hc⟩
      have h2 : vrms = [] := by
        by_contra hc
        exact hne ⟨rfl, Or.inr hc⟩
      subst h1 h2
      exact ⟨_, _, by simp [Rollback, CommittableTransaction.RollbackNested,
        CommittableTransaction.isPreparing, CommittableTransaction.isTerminated]; exact ⟨rfl, rfl⟩⟩
    · exact ⟨_, _, by simp [Rollback, CommittableTransaction.RollbackNested,
        CommittableTransaction.isPreparing]; exact ⟨rfl, rfl⟩⟩
    · exact ⟨_, _, by simp [Rollback, CommittableTransaction.RollbackNested,
        CommittableTransaction.isPreparing]; exact ⟨rfl, rfl⟩⟩
    · exact absurd rfl hst
    · exact ⟨_, _, by simp [Rollback, CommittableTransaction.RollbackNested,
        CommittableTransaction.isPreparing, CommittableTransaction.isTerminated]; exact ⟨rfl, rfl⟩⟩
    · exact ⟨_, _, by simp [Rollback, CommittableTransaction.RollbackNested,
        CommittableTransaction.isPreparing, CommittableTransaction.isTerminated]; exact ⟨rfl, rfl⟩⟩

theorem Scope.complete_committable (fuel : Nat) (env : Env) (h : Heap) (t : TxRef)
    (e : Option Error) (r : Run) (hc : Commit fuel env (h.cell t) = .ret (e, r)) :
    (Scope.committable { tx := t, terminated := false }).complete fuel env h =
      some { err := e, scope := .committable { tx := t, terminated := true },
             heap := h.store t r.tx, called := [.Commit t] } := by
  simp [Scope.complete, committableScope.complete, hc, ScopeReturn.lift]

theorem Scope.dispose_committable (env : Env) (h : Heap) (t : TxRef)
    (e : Option Error) (r : Run) (hc : Rollback env (h.cell t) = .ret (e, r)) :
    (Scope.committable { tx := t, terminated := false }).dispose env h =
      some { err := e, scope := .committable { tx := t, terminated := true },
             heap := h.store t r.tx, called := [.Rollback t] } := by
  simp [Scope.dispose, committableScope.dispose, hc, ScopeReturn.lift]

theorem Scope.dispose_transaction (env : Env) (h : Heap) (t : TxRef)
    (e : Option Error) (r : Run) (hc : Rollback env (h.cell t) = .ret (e, r)) :
    (Scope.transaction { tx := some t, terminated := false }).dispose env h =
      some { err := e, scope := .transaction { tx := some t, terminated := true },
             heap := h.store t r.tx, called := [.Rollback t] } := by
  simp [Scope.dispose, transactionScope.dispose, hc, ScopeReturn.lift]

/-- After a `complete` that returned, the scope is terminated. -/
theorem Scope.complete_terminates (fuel : Nat) (env : Env) (s : Scope) (h : Heap)
    (res : ScopeReturn Scope) (hfirst : s.complete fuel env h = some res) :
    ∀ (fuel2 : Nat) (env2 : Env) (h2 : Heap),
      res.scope.complete fuel2 env2 h2 =
        some { err := some .ErrInvalidOperation, scope := res.scope, heap := h2,
               called := [] } ∧
      res.scope.dispose env2 h2 =
        some { err := none, scope := res.scope, heap := h2, called := [] } := by
  intro fuel2 env2 h2
  rcases s with ⟨t, b⟩ | ⟨tx, b⟩ | ⟨⟨b⟩⟩
  · cases b
    · simp only [Scope.complete, committableScope.complete, Bool.false_eq_true, if_false] at hfirst
      cases hc : Commit fuel env (h.cell t) with
      | stop r => simp [hc] at hfirst
      | ret a =>
        obtain ⟨e, r⟩ := a
        simp only [hc, Option.map_some', Option.some.injEq] at hfirst
        subst hfirst
        simp [Scope.complete, committableScope.complete, Scope.dispose, committableScope.dispose,
          ScopeReturn.lift]
    · simp only [Scope.complete, committableScope.complete, if_true, Option.map_some',
        Option.some.injEq] at hfirst
      subst hfirst
      simp [Scope.complete, committableScope.complete, Scope.dispose, committableScope.dispose,
        ScopeReturn.lift]
  · cases b <;>
    · simp only [Scope.complete, transactionScope.complete, if_true, Bool.false_eq_true, if_false,
        Option.map_some', Option.some.injEq] at hfirst
      subst hfirst
      simp [Scope.complete, transactionScope.complete, Scope.dispose, transactionScope.dispose,
        ScopeReturn.lift]
  · cases b <;>
    · simp only [Scope.complete, emptyScope.complete, if_true, Bool.false_eq_true, if_false,
        Option.map_some', Option.some.injEq] at hfirst
      subst hfirst
      simp [Scope.complete, emptyScope.complete, Scope.dispose, emptyScope.dispose,
        ScopeReturn.lift]

/-- After a `dispose` that returned, a scope with a transaction is terminated. -/
theorem Scope.dispose_terminates (env : Env) (s : Scope) (h : Heap)
    (hs : ∀ e, s ≠ .empty e)
    (res : ScopeReturn Scope) (hfirst : s.dispose env h = some res) :
    ∀ (fuel2 : Nat) (env2 : Env) (h2 : Heap),
      res.scope.complete fuel2 env2 h2 =
        some { err := some .ErrInvalidOperation, scope := res.scope, heap := h2,
               called := [] } ∧
      res.scope.dispose env2 h2 =
        some { err := none, scope := res.scope, heap := h2, called := [] } := by
  intro fuel2 env2 h2
  rcases s with ⟨t, b⟩ | ⟨tx, b⟩ | ⟨⟨b⟩⟩
  · cases b
    · simp only [Scope.dispose, committableScope.dispose, Bool.false_eq_true, if_false] at hfirst
      cases hc : Rollback env (h.cell t) with
      | stop r => simp [hc] at hfirst
      | ret a =>
        obtain ⟨e, r⟩ := a
        simp only [hc, Option.map_some', Option.some.injEq] at hfirst
        subst hfirst
        simp [Scope.complete, committableScope.complete, Scope.dispose, committableScope.dispose,
          ScopeReturn.lift]
    · simp only [Scope.dispose, committableScope.dispose, if_true, Option.map_some',
        Option.some.injEq] at hfirst
      subst hfirst
      simp [Scope.complete, committableScope.complete, Scope.dispose, committableScope.dispose,
        ScopeReturn.lift]
  · cases b
    · cases tx with
      | none => simp [Scope.dispose, transactionScope.dispose] at hfirst
      | some t =>
        simp only [Scope.dispose, transactionScope.dispose, Bool.false_eq_true, if_false] at hfirst
        cases hc : Rollback env (h.cell t) with
        | stop r => simp [hc] at hfirst
        | ret a =>
          obtain ⟨e, r⟩ := a
          simp only [hc, Option.map_some', Option.some.injEq] at hfirst
          subst hfirst
          simp [Scope.complete, transactionScope.complete, Scope.dispose,
            transactionScope.dispose, ScopeReturn.lift]
    · simp only [Scope.dispose, transactionScope.dispose, if_true, Option.map_some',
        Option.some.injEq] at hfirst
      subst hfirst
      simp [Scope.complete, transactionScope.complete, Scope.dispose, transactionScope.dispose,
        ScopeReturn.lift]
  · exact absurd rfl (hs _)
/-- C16: for every scope (each of the three kinds that `WithTransactionScope` creates,
in any state), once a call of `complete` has returned, whatever it returned, every
later call of `complete` returns `ErrInvalidOperation`, calls neither `Commit` nor
`Rollback`, and changes neither the scope nor any transaction. -/
theorem C16_complete_twice (fuel fuel2 : Nat) (env env2 : Env) (s : Scope) (h h2 : Heap)
    (res : ScopeReturn Scope) (hfirst : s.complete fuel env h = some res) :
    res.scope.complete fuel2 env2 h2 =
      some { err := some .ErrInvalidOperation, scope := res.scope, heap := h2,
             called := [] } :=
  (Scope.complete_terminates fuel env s h res hfirst fuel2 env2 h2).1

/-- Witness for C16: the scope created with `WithRequiresNewTx` on the background
context; the first `complete` commits the fresh transaction. -/
theorem C16_complete_twice_witness :
    ((Scope.committable { tx := 0, terminated := true }).complete 1 Env.quiet
        (Heap.empty.alloc.2.store 0 (Commit 1 Env.quiet CommittableTransaction.fresh).run.tx)).map
      (fun x => x.err) = some (some .ErrInvalidOperation) := by
  have h := C16_complete_twice 1 1 Env.quiet Env.quiet
    (WithTransactionScope Heap.empty .background [.WithRequiresNewTx]).scope
    (WithTransactionScope Heap.empty .background [.WithRequiresNewTx]).heap
    (Heap.empty.alloc.2.store 0 (Commit 1 Env.quiet CommittableTransaction.fresh).run.tx)
    { err := none, scope := .committable { tx := 0, terminated := true },
      heap := Heap.empty.alloc.2.store 0 (Commit 1 Env.quiet CommittableTransaction.fresh).run.tx,
      called := [.Commit 0] }
    rfl
  rw [h]
  rfl

/-- C17, where it holds and where it fails.  For a scope with a transaction (created
with `WithTxRequired`, `WithRequiresNewTx` or `WithScopeTransaction`), once `dispose`
has returned, `complete` returns `ErrInvalidOperation` and calls nothing.  For the
scope created with `WithSuppressTx`, `dispose` returns nil and leaves the scope
unchanged, and the `complete` that follows returns nil, not `ErrInvalidOperation`. -/
theorem C17_complete_after_dispose (fuel : Nat) (env env2 : Env) (h h2 : Heap)
    (ctx : Context) (opts : List ScopeOption) :
    (∀ (s : Scope) (res : ScopeReturn Scope), (∀ e, s ≠ .empty e) →
      s.dispose env h = some res →
      res.scope.complete fuel env2 h2 =
        some { err := some .ErrInvalidOperation, scope := res.scope, heap := h2,
               called := [] }) ∧
    ((WithTransactionScope h ctx (opts ++ [.WithSuppressTx])).scope.dispose env h =
        some { err := none, scope := (WithTransactionScope h ctx (opts ++ [.WithSuppressTx])).scope,
               heap := h, called := [] } ∧
      (WithTransactionScope h ctx (opts ++ [.WithSuppressTx])).scope.complete fuel env2 h2 =
        some { err := none, scope := .empty { terminated := true }, heap := h2,
               called := [] }) := by
  refine ⟨fun s res hs hd => (Scope.dispose_terminates env s h hs res hd fuel env2 h2).1, ?_⟩
  rw [WithTransactionScope_last]
  simp [WithTransactionScope, ScopeOption.apply, CreateScope.call, createSuppressScope,
    Scope.dispose, emptyScope.dispose, Scope.complete, emptyScope.complete, ScopeReturn.lift]

/-- C18: the scope that owns the transaction at the address `t` and the scope bound to
it.  For the owning scope, not yet terminated: `complete` calls `Commit` on the
transaction exactly once and returns its result, and it returns whenever the `Commit`
does (status Active with bounded nesting, or terminal); `dispose` calls `Rollback`
exactly once and returns its result, and it returns unless the status is Finalizing;
after a `complete` or a `dispose` that returned, `dispose` returns nil, calls nothing
and changes nothing.  For the bound scope, not yet terminated: `complete` returns nil,
calls nothing and changes no transaction; `dispose` calls `Rollback` on the bound
transaction and returns its result. -/
theorem C18_scope_complete_dispose (fuel : Nat) (env : Env) (h : Heap) (t : TxRef) :
    (∀ e r, Commit fuel env (h.cell t) = .ret (e, r) →
      (Scope.committable { tx := t, terminated := false }).complete fuel env h =
        some { err := e, scope := .committable { tx := t, terminated := true },
               heap := h.store t r.tx, called := [.Commit t] }) ∧
    (∀ N, boundedNesting env N → N < fuel →
      ((h.cell t).status = .txStatusActive ∨ (h.cell t).status = .txStatusCommitted ∨
        (h.cell t).status = .txStatusAborted) →
      ∃ res, (Scope.committable { tx := t, terminated := false }).complete fuel env h =
        some res) ∧
    (∀ e r, Rollback env (h.cell t) = .ret (e, r) →
      (Scope.committable { tx := t, terminated := false }).dispose env h =
        some { err := e, scope := .committable { tx := t, terminated := true },
               heap := h.store t r.tx, called := [.Rollback t] }) ∧
    ((h.cell t).status ≠ .txStatusFinalizing →
      ∃ res, (Scope.committable { tx := t, terminated := false }).dispose env h = some res) ∧
    (∀ (res : ScopeReturn Scope) (env2 : Env) (h2 : Heap),
      (Scope.committable { tx := t, terminated := false }).complete fuel env h = some res →
      res.scope.dispose env2 h2 =
        some { err := none, scope := res.scope, heap := h2, called := [] }) ∧
    (∀ (res : ScopeReturn Scope) (env2 : Env) (h2 : Heap),
      (Scope.committable { tx := t, terminated := false }).dispose env h = some res →
      res.scope.dispose env2 h2 =
        some { err := none, scope := res.scope, heap := h2, called := [] }) ∧
    (∀ tx : Transaction,
      (Scope.transaction { tx := tx, terminated := false }).complete fuel env h =
        some { err := none, scope := .transaction { tx := tx, terminated := true },
               heap := h, called := [] }) ∧
    (∀ e r, Rollback env (h.cell t) = .ret (e, r) →
      (Scope.transaction { tx := some t, terminated := false }).dispose env h =
        some { err := e, scope := .transaction { tx := some t, terminated := true },
               heap := h.store t r.tx, called := [.Rollback t] }) ∧
    ((h.cell t).status ≠ .txStatusFinalizing →
      ∃ res, (Scope.transaction { tx := some t, terminated := false }).dispose env h =
        some res) := by
  refine ⟨fun e r hc => Scope.complete_committable fuel env h t e r hc, ?_,
    fun e r hc => Scope.dispose_committable env h t e r hc, ?_, ?_, ?_, ?_,
    fun e r hc => Scope.dispose_transaction env h t e r hc, ?_⟩
  · intro N hb hf hst
    obtain ⟨e, r, hc⟩ := Commit_total fuel N env (h.cell t) hst hb hf
    exact ⟨_, Scope.complete_committable fuel env h t e r hc⟩
  · intro hst
    obtain ⟨e, r, hc⟩ := Rollback_total env (h.cell t) hst
    exact ⟨_, Scope.dispose_committable env h t e r hc⟩
  · intro res env2 h2 hc
    exact (Scope.complete_terminates fuel env _ h res hc 0 env2 h2).2
  · intro res env2 h2 hc
    exact (Scope.dispose_terminates env _ h (fun e hh => by cases hh) res hc 0 env2 h2).2
  · intro tx
    simp [Scope.complete, transactionScope.complete, ScopeReturn.lift]
  · intro hst
    obtain ⟨e, r, hc⟩ := Rollback_total env (h.cell t) hst
    exact ⟨_, Scope.dispose_transaction env h t e r hc⟩

/-! ## Terminal notifications and the `Done` vote -/

theorem CommitReturn.terminal_of_id {env : Env} {tx : CommittableTransaction}
    {e : Option Error} {r : Run} {ps : List Participant} (hc : CommitReturn env tx e r ps)
    (c : Call) (i : Nat) (hm : c ∈ r.calls) (hid : c.id = (i : Int))
    (hw : c.what ≠ .Prepare) :
    ∃ q, r.vrms[i]? = some (some q) ∧
      c = { trm := q, what := if r.shouldAbort then .Rollback else .Commit, id := (i : Int) } := by
  rw [hc.calls] at hm
  simp only [List.mem_append] at hm
  rcases hm with (h1 | h1) | h1
  · exact absurd (prepList_id_ge _ _ _ h1).2 hw
  · obtain ⟨d, -, -, hd⟩ := (mem_spcList _ _ _).1 h1
    rw [hd] at hid
    simp only at hid
    omega
  · rcases (mem_terminalList _ _ _ _).1 h1 with ⟨d, -, -, hd⟩ | ⟨j, q, hj, hd⟩
    · rw [hd] at hid
      simp only at hid
      omega
    · rw [hd] at hid
      simp only [Nat.cast_inj] at hid
      subst hid
      exact ⟨q, hj, hd⟩

theorem CommitReturn.mem_terminal {env : Env} {tx : CommittableTransaction}
    {e : Option Error} {r : Run} {ps : List Participant} (hc : CommitReturn env tx e r ps)
    (i : Nat) (q : Participant) (h : r.vrms[i]? = some (some q)) :
    ({ trm := q, what := if r.shouldAbort then .Rollback else .Commit, id := (i : Int) } : Call) ∈
      r.calls := by
  rw [hc.calls]
  apply List.mem_append_right
  exact (mem_terminalList _ _ _ _).2 (Or.inr ⟨i, q, h, rfl⟩)

/-- C22: for every returning `Commit` on an Active transaction with participants (it
returns whenever nested volatile enlistments are bounded), and every slot `i` of the
volatile list at the end of the prepare phase, holding `p`.  If `p` was notified
`Prepare` for this slot and answered `Done`, the slot of the working set is nil and no
`Commit` or `Rollback` is issued with handle id `i`, whatever the verdict.  Otherwise
the slot still holds `p` and exactly one terminal notification is issued with handle
id `i`: to `p`, `Rollback` when the verdict is abort and `Commit` otherwise.  A `Done`
vote latches no abort: the verdict is abort exactly when some prepared participant
answered `ForceRollback`, or `Rollback` was called on the transaction during a
`Prepare` (by the participant or by another goroutine), or the TOD answered `Aborted`;
so a run in which every prepared participant answers `Done` or `Prepared`, nobody
calls `Rollback` and the TOD, if asked, answers `Committed`, returns nil. -/
theorem C22_done_forfeits (fuel : Nat) (env : Env) (tx : CommittableTransaction)
    (hact : tx.status = .txStatusActive) (hne : tx.tod ≠ none ∨ tx.vrms ≠ []) :
    (∀ N, boundedNesting env N → N < fuel → ∃ e r, Commit fuel env tx = .ret (e, r)) ∧
    (∀ e r, Commit fuel env tx = .ret (e, r) →
      r.vrms.length = (tx.vrms ++ volWins r.nested).length ∧
      (∀ (i : Nat) (p : Participant), (tx.vrms ++ volWins r.nested)[i]? = some p →
        ({ trm := p, what := .Prepare, id := (i : Int) } : Call) ∈ r.calls →
        (env.onPrepare p (i : Int)).verb = .Done →
        r.vrms[i]? = some none ∧ ∀ c ∈ r.calls, c.id = (i : Int) → c.what = .Prepare) ∧
      (∀ (i : Nat) (p : Participant), (tx.vrms ++ volWins r.nested)[i]? = some p →
        ¬ (({ trm := p, what := .Prepare, id := (i : Int) } : Call) ∈ r.calls ∧
          (env.onPrepare p (i : Int)).verb = .Done) →
        r.vrms[i]? = some (some p) ∧
        r.calls.count
          { trm := p, what := if r.shouldAbort then .Rollback else .Commit, id := (i : Int) } = 1 ∧
        ∀ c ∈ r.calls, c.id = (i : Int) → c.what ≠ .Prepare →
          c = { trm := p, what := if r.shouldAbort then .Rollback else .Commit,
                id := (i : Int) }) ∧
      (r.shouldAbort = true ↔ (votedAbort env r.calls ∨ nestedRollback env r.calls)) ∧
      ((∀ c ∈ r.calls, c.what = .Prepare →
          (env.onPrepare c.trm c.id).verb = .Done ∨
            (env.onPrepare c.trm c.id).verb = .Prepared) →
        ¬ nestedRollback env r.calls →
        (∀ c ∈ r.calls, c.what = .SinglePhaseCommit →
          (env.onSinglePhaseCommit c.trm).verb = .Committed) →
        e = none ∧ r.tx.status = .txStatusCommitted)) := by
  refine ⟨fun N hb hf => Commit_returns fuel N env tx hact hne hb hf, ?_⟩
  intro e r h
  obtain ⟨ps, hc⟩ := (Commit_spec fuel env tx hact hne).2 e r h
  rw [← hc.enlisted]
  refine ⟨by rw [hc.working, slots_length], ?_, ?_, hc.verdict_iff, ?_⟩
  · intro i p hp hpr hdone
    obtain ⟨j, q, hq, hj, hcj⟩ := (hc.prepare_iff _).1 ⟨hpr, rfl⟩
    simp only [Call.mk.injEq, Nat.cast_inj, true_and] at hcj
    obtain ⟨rfl, rfl⟩ := hcj
    have hnone : r.vrms[i]? = some none := by
      rw [hc.working]
      exact (slots_none_iff env _ ps i).2 ⟨p, hp, hj, hdone⟩
    refine ⟨hnone, ?_⟩
    intro c hm hid
    by_contra hw
    obtain ⟨q, hq2, -⟩ := hc.terminal_of_id c i hm hid hw
    rw [hnone] at hq2
    cases hq2
  · intro i p hp hnd
    have hsome : r.vrms[i]? = some (some p) := by
      rw [hc.working]
      refine (slots_some_iff env _ ps i p).2 ⟨hp, ?_⟩
      rintro ⟨hlt, hdone⟩
      exact hnd ⟨((hc.prepare_iff _).2 ⟨i, p, hp, hlt, rfl⟩).1, hdone⟩
    refine ⟨hsome, List.count_eq_one_of_mem hc.calls_nodup (hc.mem_terminal i p hsome), ?_⟩
    intro c hm hid hw
    obtain ⟨q, hq2, hcq⟩ := hc.terminal_of_id c i hm hid hw
    rw [hsome] at hq2
    simp only [Option.some.injEq] at hq2
    subst hq2
    exact hcq
  · intro hvotes hnr hspc
    have hsa : r.shouldAbort = false := by
      by_contra hne2
      have ht : r.shouldAbort = true := by simpa using hne2
      rcases hc.verdict_iff.1 ht with hv | hv
      · rcases hv with ⟨c, hm, hw, hf⟩ | ⟨c, hm, hw, hf⟩
        · rcases hvotes c hm hw with h1 | h1 <;> rw [h1] at hf <;> cases hf
        · rw [hspc c hm hw] at hf
          cases hf
      · exact hnr hv
    rw [hc.err, hc.final, hsa]
    exact ⟨rfl, rfl⟩

set_option maxHeartbeats 4000000 in
/-- Witness for C22: participant 1 answers `Done`, participant 2 calls `Rollback`; the
slot of participant 1 is nil at the end. -/
theorem C22_done_forfeits_witness :
    (Commit 1 exampleDoneAndRollback exampleTx).run.vrms[0]? = some none :=
  (((C22_done_forfeits 1 exampleDoneAndRollback exampleTx rfl (Or.inl (by decide))).2
    (some .ErrTxAborted) (Commit 1 exampleDoneAndRollback exampleTx).run
    (by decide)).2.1 0 1 (by decide) (by decide) (by decide)).1

/-! ## The capacity of the response channel -/

theorem drain_spec : ∀ (n : Nat) (ch : Chan), n ≤ ch.buf.length →
    drain n ch = some { cap := ch.cap, buf := ch.buf.drop n }
  | 0, ch, _ => by simp [drain]
  | n + 1, ch, h => by
    obtain ⟨cap, buf⟩ := ch
    cases buf with
    | nil => simp at h
    | cons m ms =>
      simp only [List.length_cons, Nat.add_le_add_iff_right] at h
      simp only [drain, Chan.recv]
      rw [drain_spec n _ h]
      simp

theorem filter_terminal_prepList (ps : List Participant) (i : Nat) :
    (prepList i ps).filter (fun c => c.what.isTerminal) = [] := by
  apply List.filter_eq_nil_iff.2
  intro c hm
  rw [(prepList_id_ge _ _ _ hm).2]
  simp [Notification.isTerminal]

theorem filter_terminal_of_what (l : List Call) (w : Notification) (hw : w.isTerminal = true)
    (h : ∀ c ∈ l, c.what = w) : l.filter (fun c => c.what.isTerminal) = l := by
  apply List.filter_eq_self.2
  intro c hc
  rw [h c hc]
  exact hw

theorem CommitReturn.filter_terminal {env : Env} {tx : CommittableTransaction}
    {e : Option Error} {r : Run} {ps : List Participant} (hc : CommitReturn env tx e r ps) :
    r.calls.filter (fun c => c.what.isTerminal) = terminalList r.tod r.shouldAbort r.vrms := by
  rw [hc.calls, List.filter_append, List.filter_append, filter_terminal_prepList]
  have h1 : (spcList r.tod (forced env r.processed 0 ps || rolled env r.processed 0 ps)).filter
      (fun c => c.what.isTerminal) = [] := by
    apply List.filter_eq_nil_iff.2
    intro c hm
    obtain ⟨d, -, -, hd⟩ := (mem_spcList _ _ _).1 hm
    rw [hd]
    simp [Notification.isTerminal]
  rw [h1]
  simp only [List.nil_append]
  apply filter_terminal_of_what _ (if r.shouldAbort then .Rollback else .Commit)
  · cases r.shouldAbort <;> rfl
  · intro c hm
    exact terminalList_what _ _ _ c hm

theorem terminalList_length_le (tod : Option Participant) (abort : Bool)
    (w : List (Option Participant)) : (terminalList tod abort w).length ≤ w.length + 1 := by
  have h := termList_length_le (if abort then .Rollback else .Commit) w 0
  have h1 : (todRollbackList tod abort).length ≤ 1 := by
    cases tod with
    | none => simp [todRollbackList]
    | some d => cases abort <;> simp [todRollbackList]
  simp only [terminalList, List.length_append]
  omega

/-- C25: the response channel never overflows.  For every Active transaction with
participants and every behaviour of the participants and the scheduler (each reaction
posts exactly one response).  A `Commit` stops only at the head of a prepare pass with
the fuel used up, never on a post or a receive; since the fuel is arbitrary, these
states are all the loop heads of the run, and at each of them the channel is empty and
its capacity is the size of the working set plus one, more than the requests the pass
issues.  A `Commit` that returns leaves a channel of capacity size of the working set
plus one holding one response per terminal notification, their number is
`pendingRespsNo` and at most the capacity, and the drainer that consumes
`pendingRespsNo` responses empties the channel without blocking.  `Rollback` always
returns, and the same holds for its channel. -/
theorem C25_channel_capacity (fuel : Nat) (env : Env) (tx : CommittableTransaction)
    (hact : tx.status = .txStatusActive) (hne : tx.tod ≠ none ∨ tx.vrms ≠ []) :
    (∀ r, Commit fuel env tx = .stop r →
      prepareLoop env 0 r = .stop r ∧
      r.responses = Chan.make (r.vrms.length + 1) ∧
      r.vrms.length - r.processed < r.responses.cap) ∧
    (∀ N, boundedNesting env N → N < fuel → ∃ e r, Commit fuel env tx = .ret (e, r)) ∧
    (∀ e r, Commit fuel env tx = .ret (e, r) →
      r.responses.cap = r.vrms.length + 1 ∧
      r.pendingRespsNo = (r.calls.filter (fun c => c.what.isTerminal)).length ∧
      r.responses.buf.length = r.pendingRespsNo ∧
      r.pendingRespsNo ≤ r.responses.cap ∧
      drain r.pendingRespsNo r.responses = some { cap := r.responses.cap, buf := [] }) ∧
    (∃ r, Rollback env tx = .ret (none, r) ∧
      r.responses.cap = tx.vrms.length + 1 ∧
      r.pendingRespsNo = (r.calls.filter (fun c => c.what.isTerminal)).length ∧
      r.pendingRespsNo = r.calls.length ∧
      r.responses.buf.length = r.pendingRespsNo ∧
      r.pendingRespsNo ≤ r.responses.cap ∧
      drain r.pendingRespsNo r.responses = some { cap := r.responses.cap, buf := [] }) := by
  refine ⟨?_, fun N hb hf => Commit_returns fuel N env tx hact hne hb hf, ?_, ?_⟩
  · intro r h
    obtain ⟨hi, hsa, hlt, -⟩ := (Commit_spec fuel env tx hact hne).1 r h
    have hlen : r.vrms.length = r.tx.vrms.length := by rw [hi.working, slots_length]
    refine ⟨prepareLoop_zero env r ⟨hsa, by rw [hlen]; exact hlt⟩, by rw [hi.chan, hlen], ?_⟩
    rw [hi.chan, hlen]
    simp only [Chan.make]
    omega
  · intro e r h
    obtain ⟨ps, hc⟩ := (Commit_spec fuel env tx hact hne).2 e r h
    have hlen : r.vrms.length = ps.length := by rw [hc.working, slots_length]
    have hle := terminalList_length_le r.tod r.shouldAbort r.vrms
    have hbuf : r.responses.buf.length = r.pendingRespsNo := by
      rw [hc.chan, hc.pending]
      simp [doneList]
    refine ⟨by rw [hc.chan, hlen], by rw [hc.filter_terminal, hc.pending], hbuf, ?_, ?_⟩
    · rw [hc.pending, hc.chan, ← hlen]
      exact hle
    · rw [drain_spec _ _ (by rw [hbuf]), ← hbuf]
      simp
  · obtain ⟨r, h1, -, h3, h4, h5⟩ := Rollback_spec env tx hact hne
    have hbuf : r.responses.buf.length = r.pendingRespsNo := by
      rw [h5, h4]
      simp [doneList]
    have hw : ∀ c ∈ r.calls, c.what = .Rollback := by
      intro c hm
      have : r.calls = terminalList tx.tod true (tx.vrms.map some) := by
        rw [h3, terminalList]
        rfl
      rw [this] at hm
      exact terminalList_what _ _ _ c hm
    have hlen : r.calls.length ≤ tx.vrms.length + 1 := by
      have := terminalList_length_le tx.tod true (tx.vrms.map some)
      have h6 : r.calls = terminalList tx.tod true (tx.vrms.map some) := by
        rw [h3, terminalList]
        rfl
      rw [h6]
      simpa using this
    refine ⟨r, h1, by rw [h5], ?_, h4, hbuf, ?_, ?_⟩
    · rw [filter_terminal_of_what r.calls .Rollback rfl hw, h4]
    · rw [h4, h5]
      exact hlen
    · rw [drain_spec _ _ (by rw [hbuf]), ← hbuf]
      simp

set_option maxHeartbeats 4000000 in
/-- Witness for C25: the test scenario with two volatiles and a TOD that all agree;
two terminal responses are pending in a channel of capacity three. -/
theorem C25_channel_capacity_witness :
    (Commit 1 Env.quiet exampleTx).run.pendingRespsNo = 2 ∧
    (Commit 1 Env.quiet exampleTx).run.responses.cap = 3 :=
  have h := (C25_channel_capacity 1 Env.quiet exampleTx rfl (Or.inl (by decide))).2.2.1 none
    (Commit 1 Env.quiet exampleTx).run (by decide)
  ⟨by decide, h.1.trans (by decide)⟩

/-! ## A Required scope inside a scope that owns its transaction -/

theorem Rollback_of_active (env : Env) (tx : CommittableTransaction)
    (hact : tx.status = .txStatusActive) :
    ∃ r, Rollback env tx = .ret (none, r) ∧ r.tx.status = .txStatusAborted := by
  by_cases hne : tx.tod ≠ none ∨ tx.vrms ≠ []
  · obtain ⟨r, h1, h2, -⟩ := Rollback_spec env tx hact hne
    exact ⟨r, h1, by rw [h2]⟩
  · obtain ⟨st, tod, vrms⟩ := tx
    simp only at hact hne
    subst hact
    have h1 : tod = none := by
      by_contra hc
      exact hne (Or.inl hc)
    have h2 : vrms = [] := by
      by_contra hc
      exact hne (Or.inr hc)
    subst h1 h2
    exact ⟨_, by simp [Rollback, CommittableTransaction.RollbackNested,
      CommittableTransaction.isPreparing, CommittableTransaction.isTerminated]; rfl, rfl⟩

theorem Commit_of_aborted (fuel : Nat) (env : Env) (tx : CommittableTransaction)
    (h : tx.status = .txStatusAborted) :
    Commit fuel env tx = .ret (some .ErrTxAborted, Run.idle tx) := by
  simp [Commit, h, CommittableTransaction.isTerminated]

/-- C28: an outer scope created with `WithRequiresNewTx`, or with `WithTxRequired` on a
context without a current transaction, owns a new transaction at the address `t`, and
a scope opened with `WithTxRequired` on the context of the outer scope is bound to
that transaction and returns the same context.  If the inner scope is disposed without
`complete` while the transaction is Active, its `dispose` calls `Rollback`, which
returns nil and leaves the transaction Aborted, and the `complete` of the outer scope
that follows calls `Commit`, returns `ErrTxAborted` and leaves the transaction Aborted.
If the inner scope is completed first, its `complete` and the `dispose` that follows
return nil, call nothing and change no transaction, and the `complete` of the outer
scope returns the result of `Commit` on the transaction: nil, with the transaction
Committed, when the transaction is still as it was created. -/
theorem C28_nested_required_scope (fuel : Nat) (env env2 : Env) (h0 h1 h2 : Heap)
    (ctx : Context) (opts opts2 : List ScopeOption) (o : ScopeOption)
    (ho : o = .WithRequiresNewTx ∨ (o = .WithTxRequired ∧ CurrentTransaction ctx = none))
    (hact : (h2.cell h0.next).status = .txStatusActive) :
    (WithTransactionScope h0 ctx (opts ++ [o])).scope =
      .committable { tx := h0.next, terminated := false } ∧
    WithTransactionScope h1 (WithTransactionScope h0 ctx (opts ++ [o])).ctx
        (opts2 ++ [.WithTxRequired]) =
      { ctx := (WithTransactionScope h0 ctx (opts ++ [o])).ctx,
        scope := .transaction { tx := some h0.next, terminated := false }, heap := h1 } ∧
    (∃ res res2,
      (Scope.transaction { tx := some h0.next, terminated := false }).dispose env h2 =
        some res ∧
      res.err = none ∧ res.called = [.Rollback h0.next] ∧
      (res.heap.cell h0.next).status = .txStatusAborted ∧
      (Scope.committable { tx := h0.next, terminated := false }).complete fuel env2 res.heap =
        some res2 ∧
      res2.err = some .ErrTxAborted ∧ res2.called = [.Commit h0.next] ∧
      (res2.heap.cell h0.next).status = .txStatusAborted) ∧
    ((Scope.transaction { tx := some h0.next, terminated := false }).complete fuel env h2 =
        some { err := none, scope := .transaction { tx := some h0.next, terminated := true },
               heap := h2, called := [] } ∧
      (Scope.transaction { tx := some h0.next, terminated := true }).dispose env h2 =
        some { err := none, scope := .transaction { tx := some h0.next, terminated := true },
               heap := h2, called := [] } ∧
      (∀ e r, Commit fuel env2 (h2.cell h0.next) = .ret (e, r) →
        (Scope.committable { tx := h0.next, terminated := false }).complete fuel env2 h2 =
          some { err := e, scope := .committable { tx := h0.next, terminated := true },
                 heap := h2.store h0.next r.tx, called := [.Commit h0.next] }) ∧
      (h2.cell h0.next = CommittableTransaction.fresh →
        ∃ res, (Scope.committable { tx := h0.next, terminated := false }).complete fuel env2 h2 =
            some res ∧
          res.err = none ∧ (res.heap.cell h0.next).status = .txStatusCommitted)) := by
  have houter : (WithTransactionScope h0 ctx (opts ++ [o])).scope =
        .committable { tx := h0.next, terminated := false } ∧
      (WithTransactionScope h0 ctx (opts ++ [o])).ctx = WithTransaction ctx (some h0.next) := by
    rw [WithTransactionScope_last]
    rcases ho with ho | ⟨ho, hn⟩
    · subst ho
      simp [WithTransactionScope, ScopeOption.apply, CreateScope.call, createRequiresNewScope,
        Heap.alloc]
    · subst ho
      simp [WithTransactionScope, ScopeOption.apply, CreateScope.call, createRequiresScope, hn,
        Heap.alloc]
  refine ⟨houter.1, ?_, ?_, ?_, ?_, ?_, ?_⟩
  · rw [WithTransactionScope_last, houter.2]
    simp [WithTransactionScope, ScopeOption.apply, CreateScope.call, createRequiresScope,
      CurrentTransaction_WithTransaction]
  · obtain ⟨r, hr, hst⟩ := Rollback_of_active env (h2.cell h0.next) hact
    have hcell : ((h2.store h0.next r.tx).cell h0.next) = r.tx := by simp [Heap.store]
    have hc := Commit_of_aborted fuel env2 ((h2.store h0.next r.tx).cell h0.next)
      (by rw [hcell]; exact hst)
    refine ⟨_, _, Scope.dispose_transaction env h2 h0.next none r hr, rfl, rfl, ?_,
      Scope.complete_committable fuel env2 _ h0.next _ _ hc, rfl, rfl, ?_⟩
    · rw [hcell]
      exact hst
    · simp only [Heap.store, if_true, Run.idle]
      exact hst
  · simp [Scope.complete, transactionScope.complete, ScopeReturn.lift]
  · simp [Scope.dispose, transactionScope.dispose, ScopeReturn.lift]
  · intro e r hc
    exact Scope.complete_committable fuel env2 h2 h0.next e r hc
  · intro hf
    have hc : Commit fuel env2 (h2.cell h0.next) =
        .ret (none, Run.idle { status := .txStatusCommitted, tod := none, vrms := [] }) := by
      rw [hf]
      simp [Commit, CommittableTransaction.fresh, CommittableTransaction.isTerminated,
        CommittableTransaction.clear]
    refine ⟨_, Scope.complete_committable fuel env2 h2 h0.next _ _ hc, rfl, ?_⟩
    simp [Heap.store, Run.idle]

/-- Witness for C28: the outer scope is created with `WithRequiresNewTx` on the
background context and the inner one right after it. -/
theorem C28_nested_required_scope_witness :
    WithTransactionScope Heap.empty.alloc.2
        (WithTransactionScope Heap.empty .background ([] ++ [.WithRequiresNewTx])).ctx
        ([] ++ [.WithTxRequired]) =
      { ctx := (WithTransactionScope Heap.empty .background ([] ++ [.WithRequiresNewTx])).ctx,
        scope := .transaction { tx := some 0, terminated := false },
        heap := Heap.empty.alloc.2 } :=
  (C28_nested_required_scope 1 Env.quiet Env.quiet Heap.empty Heap.empty.alloc.2
    Heap.empty.alloc.2 .background [] [] .WithRequiresNewTx (Or.inl rfl) rfl).2.1

/-! ## Invariants of the transaction and the log during the prepare phase -/

theorem runActions_txlog (P : CommittableTransaction → List NestedResult → Prop)
    (hstep : ∀ (r : Run) (a : Action), P r.tx r.nested →
      P (stepAction r a).state.tx (stepAction r a).state.nested) :
    ∀ (acts : List Action) (r : Run), P r.tx r.nested →
      P (runActions acts r).state.tx (runActions acts r).state.nested
  | [], _, h => h
  | a :: acts, r, h => by
    have hs := hstep r a h
    simp only [runActions]
    cases hst : stepAction r a with
    | stop r1 =>
      rw [hst] at hs
      exact hs
    | ret r1 =>
      rw [hst] at hs
      exact runActions_txlog P hstep acts r1 hs

theorem preparePass_txlog (P : CommittableTransaction → List NestedResult → Prop)
    (hstep : ∀ (r : Run) (a : Action), P r.tx r.nested →
      P (stepAction r a).state.tx (stepAction r a).state.nested)
    (env : Env) (r : Run) (h : P r.tx r.nested) :
    P (preparePass env r).state.tx (preparePass env r).state.nested := by
  unfold preparePass
  split
  · exact h
  · next cs ts _ =>
    have ha := runActions_txlog P hstep (interleave (env.sched r.processed) ts)
      { r with calls := r.calls ++ cs } h
    split
    · next r1 h1 =>
      rw [h1] at ha
      exact ha
    · next r1 h1 =>
      rw [h1] at ha
      simp only [Outcome.state] at ha
      have hc := collect_frame (r1.vrms.length - r1.processed) r1
      split
      · next r2 h2 =>
        rw [h2] at hc
        simp only [Outcome.state] at hc ⊢
        rw [hc.1, hc.2]
        exact ha
      · next r2 h2 =>
        rw [h2] at hc
        simp only [Outcome.state] at hc ⊢
        rw [relock_tx, relock_nested, hc.1, hc.2]
        exact ha

theorem prepareLoop_txlog (P : CommittableTransaction → List NestedResult → Prop)
    (hstep : ∀ (r : Run) (a : Action), P r.tx r.nested →
      P (stepAction r a).state.tx (stepAction r a).state.nested)
    (env : Env) : ∀ (fuel : Nat) (r : Run), P r.tx r.nested →
      P (prepareLoop env fuel r).state.tx (prepareLoop env fuel r).state.nested
  | fuel, r, h => by
    by_cases hc : r.shouldAbort = false ∧ r.processed < r.vrms.length
    · cases fuel with
      | zero =>
        rw [prepareLoop_zero env r hc]
        exact h
      | succ fuel =>
        rw [prepareLoop_step env fuel r hc]
        have hp := preparePass_txlog P hstep env r h
        cases hpass : preparePass env r with
        | stop r1 =>
          rw [hpass] at hp
          exact hp
        | ret r1 =>
          rw [hpass] at hp
          exact prepareLoop_txlog P hstep env fuel r1 hp
    · rw [prepareLoop_exit env fuel r hc]
      exact h

theorem todAfter_some (d : Participant) : ∀ log : List NestedResult,
    todAfter (some d) log = some d
  | [] => rfl
  | _ :: log => by
    simp only [todAfter]
    exact todAfter_some d log

theorem todAfter_append (tod0 : Option Participant) (a b : List NestedResult) :
    todAfter tod0 (a ++ b) = todAfter (todAfter tod0 a) b := by
  induction a generalizing tod0 with
  | nil => rfl
  | cons x a ih => exact ih _

theorem todAfter_snoc (tod0 : Option Participant) (log : List NestedResult)
    (x : NestedResult) :
    todAfter tod0 (log ++ [x]) =
      match todAfter tod0 log with
      | some d => some d
      | none => x.todOf := by
  rw [todAfter_append]
  rfl

theorem todOf_eq_none (x : NestedResult) (h : x.isTodCall = false) : x.todOf = none := by
  obtain ⟨c, e⟩ := x
  cases c with
  | Rollback => rfl
  | enlist e1 =>
    cases e1 with
    | EnlistVolatile v => rfl
    | EnlistTheOnlyDurable d => simp [NestedResult.isTodCall] at h

theorem TodLog.snoc_other {tod0 : Option Participant} {tx tx1 : CommittableTransaction}
    {log : List NestedResult} (h : TodLog tod0 tx log) (x : NestedResult)
    (hx : x.isTodCall = false) (hp : tx1.isPreparing = true) (ht : tx1.tod = tx.tod) :
    TodLog tod0 tx1 (log ++ [x]) := by
  refine ⟨hp, ?_, ?_⟩
  · rw [ht, h.tod, todAfter_snoc, todOf_eq_none x hx]
    cases todAfter tod0 log <;> rfl
  · intro i y hy hty
    by_cases hi : i < log.length
    · rw [List.getElem?_append_left hi] at hy
      rw [List.take_append_of_le_length (by omega)]
      exact h.errs i y hy hty
    · have hlen := lt_length_of_getElem? _ _ _ hy
      simp only [List.length_append, List.length_singleton] at hlen
      have hi2 : i = log.length := by omega
      subst hi2
      simp only [List.getElem?_concat_length, Option.some.injEq] at hy
      subst hy
      rw [hx] at hty
      cases hty

theorem stepAction_todLog (tod0 : Option Participant) (r : Run) (a : Action)
    (h : TodLog tod0 r.tx r.nested) :
    TodLog tod0 (stepAction r a).state.tx (stepAction r a).state.nested := by
  cases a with
  | post m =>
    simp only [stepAction]
    split
    · exact h
    · exact h
  | call c =>
    cases c with
    | Rollback =>
      simp only [stepAction, CommittableTransaction.RollbackNested, h.fam, if_true,
        Outcome.state]
      exact h.snoc_other _ rfl (by simp [CommittableTransaction.isPreparing]) rfl
    | enlist e =>
      simp only [stepAction, Outcome.state]
      cases e with
      | EnlistVolatile v =>
        refine h.snoc_other _ rfl (by rw [runEnlist_isPreparing]; exact h.fam) ?_
        simp only [runEnlist, CommittableTransaction.EnlistVolatile]
        split <;> rfl
      | EnlistTheOnlyDurable d =>
        have hfam := h.fam
        have hst : (tx : CommittableTransaction) → tx.isPreparing = true →
            (!(tx.status == .txStatusActive || tx.isPreparing)) = false := by
          intro tx ht
          simp [ht]
        refine ⟨by rw [runEnlist_isPreparing]; exact h.fam, ?_, ?_⟩
        · rw [todAfter_snoc, ← h.tod]
          simp only [runEnlist, CommittableTransaction.EnlistTheOnlyDurable, hst _ hfam]
          cases htod : r.tx.tod with
          | none => simp [NestedResult.todOf]
          | some d0 => simp [htod]
        · intro i y hy hty
          by_cases hi : i < r.nested.length
          · rw [List.getElem?_append_left hi] at hy
            rw [List.take_append_of_le_length (by omega)]
            exact h.errs i y hy hty
          · have hlen := lt_length_of_getElem? _ _ _ hy
            simp only [List.length_append, List.length_singleton] at hlen
            have hi2 : i = r.nested.length := by omega
            subst hi2
            simp only [List.getElem?_concat_length, Option.some.injEq] at hy
            subst hy
            rw [List.take_left, ← h.tod]
            simp only [runEnlist, CommittableTransaction.EnlistTheOnlyDurable, hst _ hfam]
            cases htod : r.tx.tod with
            | none => simp
            | some d0 => simp

theorem commitStart_todLog (tx : CommittableTransaction) :
    TodLog tx.tod (commitStart tx).tx (commitStart tx).nested :=
  ⟨by simp [commitStart, CommittableTransaction.isPreparing], by simp [commitStart, todAfter],
    by simp [commitStart]⟩

/-- The two phases of a returning `Commit` on an Active transaction with participants:
`r1` is the state at the exit of the prepare loop, and its log holds the calls made
during the prepare phase, from inside the `Prepare` notifications and by other
goroutines; the calls made later are all refused. -/
theorem Commit_phases (fuel : Nat) (env : Env) (tx : CommittableTransaction)
    (hact : tx.status = .txStatusActive) (hne : tx.tod ≠ none ∨ tx.vrms ≠ [])
    (e : Option Error) (r : Run) (h : Commit fuel env tx = .ret (e, r)) :
    ∃ r1 es, prepareLoop env fuel (commitStart tx) = .ret r1 ∧
      commitFinish env r1 = .ret (e, r) ∧ LoopInv env r1 ∧
      r.nested = r1.nested ++ refusedLog es ∧ r.tod = r1.tod ∧
      r.processed = r1.processed ∧
      PrepLog tx.vrms r1.tx r1.nested ∧ TodLog tx.tod r1.tx r1.nested ∧
      r.tod = todAfter tx.tod r1.nested := by
  rw [Commit_active fuel env tx hact hne] at h
  cases hl : prepareLoop env fuel (commitStart tx) with
  | stop r1 => simp [hl] at h
  | ret r1 =>
    simp only [hl] at h
    have hi := ((prepareLoop_spec env fuel (commitStart tx) (commitStart_inv env tx)).1 r1 hl).1
    obtain ⟨r2, h1, -, -, -, -, h6, h7, -, -, es, h10⟩ := commitFinish_spec env r1 hi
    rw [h1] at h
    simp only [Outcome.ret.injEq, Prod.mk.injEq] at h
    obtain ⟨he, hr⟩ := h
    subst hr
    have hpl := prepareLoop_prepLog tx.vrms env fuel (commitStart tx) (commitStart_prepLog tx)
    have htl := prepareLoop_txlog (TodLog tx.tod) (stepAction_todLog tx.tod) env fuel
      (commitStart tx) (commitStart_todLog tx)
    rw [hl] at hpl htl
    simp only [Outcome.state] at hpl htl
    refine ⟨r1, es, rfl, ?_, hi, h10, h6, h7, hpl.1, htl, ?_⟩
    · rw [h1, he]
    · rw [h6, hi.tod, htl.tod]

/-! ## The single-phase commit -/

theorem todAfter_src : ∀ (log : List NestedResult) (tod0 : Option Participant)
    (d : Participant), todAfter tod0 log = some d →
    tod0 = some d ∨ ∃ (i : Nat) (x : NestedResult), log[i]? = some x ∧ x.todOf = some d ∧
      todAfter tod0 (log.take i) = none
  | [], tod0, d, h => Or.inl h
  | x :: rest, tod0, d, h => by
    simp only [todAfter] at h
    cases htod : tod0 with
    | some d0 =>
      rw [htod] at h
      simp only at h
      rw [todAfter_some] at h
      exact Or.inl h
    | none =>
      rw [htod] at h
      simp only at h
      right
      rcases todAfter_src rest _ d h with h1 | ⟨i, y, hy, hd, ht⟩
      · exact ⟨0, x, by simp, h1, by simp [todAfter]⟩
      · exact ⟨i + 1, y, by simpa using hy, hd, by simpa [todAfter] using ht⟩

theorem todOf_some (x : NestedResult) (d : Participant) (h : x.todOf = some d) :
    x.call = .enlist (.EnlistTheOnlyDurable d) ∧ x.isTodCall = true := by
  obtain ⟨c, e⟩ := x
  cases c with
  | Rollback => cases h
  | enlist e1 =>
    cases e1 with
    | EnlistVolatile v => cases h
    | EnlistTheOnlyDurable d1 =>
      simp only [NestedResult.todOf, Option.some.injEq] at h
      subst h
      exact ⟨rfl, rfl⟩

theorem TodLog.winner {tod0 : Option Participant} {tx : CommittableTransaction}
    {log : List NestedResult} (h : TodLog tod0 tx log) (d : Participant)
    (hd : tx.tod = some d) :
    tod0 = some d ∨
      ({ call := .enlist (.EnlistTheOnlyDurable d), err := none } : NestedResult) ∈ log := by
  rw [h.tod] at hd
  rcases todAfter_src log tod0 d hd with h1 | ⟨i, x, hx, hxd, ht⟩
  · exact Or.inl h1
  · right
    obtain ⟨hcall, htc⟩ := todOf_some x d hxd
    have herr := h.errs i x hx htc
    rw [ht] at herr
    simp only [if_true] at herr
    have hx2 : x = { call := .enlist (.EnlistTheOnlyDurable d), err := none } := by
      obtain ⟨c, e⟩ := x
      simp only at hcall herr
      rw [hcall, herr]
    rw [← hx2]
    exact List.mem_iff_getElem?.2 ⟨i, hx⟩

theorem filter_spc_prepList (ps : List Participant) (i : Nat) :
    (prepList i ps).filter (fun c => c.what = .SinglePhaseCommit) = [] := by
  apply List.filter_eq_nil_iff.2
  intro c hm
  rw [(prepList_id_ge _ _ _ hm).2]
  simp

theorem filter_spc_terminalList (tod : Option Participant) (abort : Bool)
    (w : List (Option Participant)) :
    (terminalList tod abort w).filter (fun c => c.what = .SinglePhaseCommit) = [] := by
  apply List.filter_eq_nil_iff.2
  intro c hm
  rw [terminalList_what _ _ _ c hm]
  cases abort <;> simp

theorem spcList_length_le (tod : Option Participant) (latched : Bool) :
    (spcList tod latched).length ≤ 1 := by
  cases tod with
  | none => simp [spcList]
  | some d => cases latched <;> simp [spcList]

theorem CommitReturn.latched_iff {env : Env} {tx : CommittableTransaction}
    {e : Option Error} {r : Run} {ps : List Participant} (hc : CommitReturn env tx e r ps) :
    (forced env r.processed 0 ps || rolled env r.processed 0 ps) = true ↔
      ((∃ c ∈ r.calls, c.what = .Prepare ∧
          (env.onPrepare c.trm c.id).verb.isForceRollback = true) ∨
        nestedRollback env r.calls) := by
  rw [Bool.or_eq_true, forced_iff, rolled_iff]
  constructor
  · rintro (⟨j, p, hp, hj, hf⟩ | ⟨j, p, hp, hj, hf⟩)
    · left
      simp only [Nat.zero_add] at hj hf
      exact ⟨_, ((hc.prepare_iff _).2 ⟨j, p, hp, hj, rfl⟩).1, rfl, hf⟩
    · right
      simp only [Nat.zero_add] at hj hf
      exact ⟨_, ((hc.prepare_iff _).2 ⟨j, p, hp, hj, rfl⟩).1, rfl, hf⟩
  · rintro (⟨c, hm, hw, hf⟩ | ⟨c, hm, hw, hf⟩)
    · left
      obtain ⟨j, p, hp, hj, hcj⟩ := (hc.prepare_iff c).1 ⟨hm, hw⟩
      subst hcj
      exact ⟨j, p, hp, by omega, by simpa using hf⟩
    · right
      obtain ⟨j, p, hp, hj, hcj⟩ := (hc.prepare_iff c).1 ⟨hm, hw⟩
      subst hcj
      exact ⟨j, p, hp, by omega, by simpa using hf⟩

/-- C21: `SinglePhaseCommit` in a `Commit` run.  A `Commit` on a transaction that is
not Active or has no participant notifies nobody, and a run that does not return has
issued `Prepare` notifications only.  In a run that returns (on an Active transaction
with participants; it returns whenever nested volatile enlistments are bounded),
`SinglePhaseCommit` is issued at most once; when it is issued, it has the handle id
-1 and goes to the TOD the coordinator holds, which was enlisted before the `Commit`
or by a call during the prepare phase that returned nil; no prepared participant has
answered `ForceRollback` and `Rollback` has not been called on the transaction during
a `Prepare`; and it comes after all `Prepare`
notifications, whose number is the number of responses collected, and before all
terminal notifications.  It is issued exactly when there is a TOD and no abort is
latched at the end of the prepare phase. -/
theorem C21_single_phase_commit (fuel : Nat) (env : Env) (tx : CommittableTransaction)
    (hact : tx.status = .txStatusActive) (hne : tx.tod ≠ none ∨ tx.vrms ≠ []) :
    (∀ tx2 : CommittableTransaction,
      ¬ (tx2.status = .txStatusActive ∧ (tx2.tod ≠ none ∨ tx2.vrms ≠ [])) →
      (Commit fuel env tx2).run.calls = []) ∧
    (∀ r, Commit fuel env tx = .stop r → ∀ c ∈ r.calls, c.what = .Prepare) ∧
    (∀ N, boundedNesting env N → N < fuel → ∃ e r, Commit fuel env tx = .ret (e, r)) ∧
    (∀ e r, Commit fuel env tx = .ret (e, r) →
      (r.calls.filter (fun c => c.what = .SinglePhaseCommit)).length ≤ 1 ∧
      (∀ c ∈ r.calls, c.what = .SinglePhaseCommit →
        c.id = -1 ∧ r.tod = some c.trm ∧
        (tx.tod = some c.trm ∨
          ({ call := .enlist (.EnlistTheOnlyDurable c.trm), err := none } : NestedResult) ∈
            r.nested) ∧
        (¬ ∃ c1 ∈ r.calls, c1.what = .Prepare ∧
          (env.onPrepare c1.trm c1.id).verb.isForceRollback = true) ∧
        ¬ nestedRollback env r.calls ∧
        ∃ pre post, r.calls = pre ++ c :: post ∧ (∀ x ∈ pre, x.what = .Prepare) ∧
          pre.length = r.processed ∧ (∀ x ∈ post, x.what.isTerminal = true)) ∧
      (∀ d, r.tod = some d →
        (({ trm := d, what := .SinglePhaseCommit, id := -1 } : Call) ∈ r.calls ↔
          ¬ ((∃ c1 ∈ r.calls, c1.what = .Prepare ∧
              (env.onPrepare c1.trm c1.id).verb.isForceRollback = true) ∨
            nestedRollback env r.calls))) ∧
      (r.tod = none → ∀ c ∈ r.calls, c.what ≠ .SinglePhaseCommit)) := by
  refine ⟨?_, ?_, fun N hb hf => Commit_returns fuel N env tx hact hne hb hf, ?_⟩
  · intro tx2 h2
    obtain ⟨st, tod, vrms⟩ := tx2
    simp only [not_and_or, not_or, not_not] at h2
    unfold Commit
    simp only [CommittableTransaction.isTerminated]
    cases st <;> simp [Outcome.run, Run.idle] at h2 ⊢
    obtain ⟨h3, h4⟩ := h2
    subst h3 h4
    simp [Outcome.run, Run.idle]
  · intro r h c hm
    obtain ⟨hi, -, -, -⟩ := (Commit_spec fuel env tx hact hne).1 r h
    rw [hi.calls] at hm
    exact (prepList_id_ge _ _ _ hm).2
  · intro e r h
    obtain ⟨ps, hc⟩ := (Commit_spec fuel env tx hact hne).2 e r h
    obtain ⟨r1, es, -, -, hi, hn, ht, -, -, htl, -⟩ :=
      Commit_phases fuel env tx hact hne e r h
    refine ⟨?_, ?_, ?_, ?_⟩
    · rw [hc.calls, List.filter_append, List.filter_append, filter_spc_prepList,
        filter_spc_terminalList]
      simp only [List.nil_append, List.append_nil]
      exact (List.length_filter_le _ _).trans (spcList_length_le _ _)
    · intro c hm hw
      obtain ⟨d, hd, hl, hcd⟩ := (hc.spc_iff c).1 ⟨hm, hw⟩
      subst hcd
      have hnl : ¬ ((∃ c1 ∈ r.calls, c1.what = .Prepare ∧
            (env.onPrepare c1.trm c1.id).verb.isForceRollback = true) ∨
          nestedRollback env r.calls) := by
        intro hx
        rw [hc.latched_iff.2 hx] at hl
        cases hl
      refine ⟨rfl, hd, ?_, fun hx => hnl (Or.inl hx), fun hx => hnl (Or.inr hx), ?_⟩
      · have h1 : r1.tx.tod = some d := by rw [← hi.tod, ← ht, hd]
        rcases htl.winner d h1 with h2 | h2
        · exact Or.inl h2
        · right
          rw [hn]
          exact List.mem_append_left _ h2
      · refine ⟨prepList 0 (ps.take r.processed), terminalList r.tod r.shouldAbort r.vrms,
          ?_, fun x hx => (prepList_id_ge _ _ _ hx).2, ?_, ?_⟩
        · rw [hc.calls, hd, hl]
          simp [spcList]
        · rw [prepList_length, List.length_take]
          exact Nat.min_eq_left hc.bound
        · intro x hx
          rw [terminalList_what _ _ _ x hx]
          cases r.shouldAbort <;> rfl
    · intro d hd
      constructor
      · intro hm hx
        obtain ⟨d1, -, hl, -⟩ := (hc.spc_iff _).1 ⟨hm, rfl⟩
        rw [hc.latched_iff.2 hx] at hl
        cases hl
      · intro hx
        refine ((hc.spc_iff _).2 ⟨d, hd, ?_, rfl⟩).1
        by_contra hl
        rw [Bool.not_eq_false] at hl
        exact hx (hc.latched_iff.1 hl)
    · intro hnone c hm hw
      obtain ⟨d, hd, -, -⟩ := (hc.spc_iff c).1 ⟨hm, hw⟩
      rw [hnone] at hd
      cases hd

set_option maxHeartbeats 4000000 in
/-- Witness for C21: the test scenario with two volatiles and a TOD that all agree. -/
theorem C21_single_phase_commit_witness :
    ({ trm := 9, what := .SinglePhaseCommit, id := -1 } : Call) ∈
      (Commit 1 Env.quiet exampleTx).run.calls :=
  ((((C21_single_phase_commit 1 Env.quiet exampleTx rfl (Or.inl (by decide))).2.2.2 none
    (Commit 1 Env.quiet exampleTx).run (by decide)).2.2.1 9 (by decide)).2
    (by
      rintro (⟨c, -, -, hf⟩ | ⟨c, -, -, hf⟩)
      · simp [Env.quiet, PreparingVerb.isForceRollback] at hf
      · simp [Env.quiet, Env.during] at hf))

/-! ## A TOD enlisted during the prepare phase -/

theorem todAfter_none_iff : ∀ (log : List NestedResult) (tod0 : Option Participant),
    todAfter tod0 log = none ↔ tod0 = none ∧ ∀ x ∈ log, x.todOf = none
  | [], tod0 => by simp [todAfter]
  | x :: rest, tod0 => by
    simp only [todAfter]
    rw [todAfter_none_iff rest]
    cases tod0 with
    | some d => simp
    | none => simp

theorem todOf_isTodCall (x : NestedResult) : x.todOf = none ↔ x.isTodCall = false := by
  obtain ⟨c, e⟩ := x
  cases c with
  | Rollback => simp [NestedResult.todOf, NestedResult.isTodCall]
  | enlist e1 => cases e1 <;> simp [NestedResult.todOf, NestedResult.isTodCall]

theorem todAfter_take_none (log : List NestedResult) (i : Nat) :
    todAfter none (log.take i) = none ↔
      ∀ (j : Nat) (y : NestedResult), j < i → log[j]? = some y → y.isTodCall = false := by
  rw [todAfter_none_iff]
  constructor
  · rintro ⟨-, h⟩ j y hj hy
    exact (todOf_isTodCall y).1 (h y (List.mem_iff_getElem?.2
      ⟨j, (getElem?_take_some log i j y).2 ⟨hj, hy⟩⟩))
  · intro h
    refine ⟨rfl, fun x hx => ?_⟩
    obtain ⟨j, hj⟩ := List.mem_iff_getElem?.1 hx
    obtain ⟨hlt, hy⟩ := (getElem?_take_some log i j x).1 hj
    exact (todOf_isTodCall x).2 (h j x hlt hy)

/-- C24 (as amended): `Commit` on an Active transaction with at least one volatile and
no TOD (it returns whenever the volatile enlistments during the prepare phase are
bounded), where `r1` is the state at the exit of the prepare loop and its log holds
the calls made on the transaction during the prepare phase, from inside the `Prepare`
notifications and by other goroutines.  The first `EnlistTheOnlyDurable` of that log
returns nil and the coordinator holds its argument as the TOD; every later one returns
`ErrTxError`.  For a TOD `d` enlisted that way: when no prepared participant answers
`ForceRollback` and `Rollback` is not called on the transaction during a `Prepare`,
neither by the notified participant nor by another goroutine, `SinglePhaseCommit` is
issued to `d` after all `Prepare` notifications and the verdict is the answer of `d`;
otherwise no `SinglePhaseCommit` is issued, `d` receives `Rollback` and `Commit`
returns `ErrTxAborted`. -/
theorem C24_nested_tod (fuel : Nat) (env : Env) (tx : CommittableTransaction)
    (hact : tx.status = .txStatusActive) (hvol : tx.vrms ≠ []) (htod : tx.tod = none) :
    (∀ N, boundedNesting env N → N < fuel → ∃ e r, Commit fuel env tx = .ret (e, r)) ∧
    (∀ e r, Commit fuel env tx = .ret (e, r) →
      ∃ r1 es, prepareLoop env fuel (commitStart tx) = .ret r1 ∧
        r.nested = r1.nested ++ refusedLog es ∧
        (∀ (i : Nat) (x : NestedResult) (d : Participant), r1.nested[i]? = some x →
          x.call = .enlist (.EnlistTheOnlyDurable d) →
          (∀ (j : Nat) (y : NestedResult), j < i → r1.nested[j]? = some y →
            y.isTodCall = false) →
          x.err = none ∧ r.tod = some d) ∧
        (∀ (i : Nat) (x : NestedResult), r1.nested[i]? = some x → x.isTodCall = true →
          (∃ (j : Nat) (y : NestedResult), j < i ∧ r1.nested[j]? = some y ∧
            y.isTodCall = true) →
          x.err = some .ErrTxError) ∧
        (∀ d : Participant,
          ({ call := .enlist (.EnlistTheOnlyDurable d), err := none } : NestedResult) ∈
            r1.nested →
          r.tod = some d ∧
          (¬ ((∃ c ∈ r.calls, c.what = .Prepare ∧
                (env.onPrepare c.trm c.id).verb.isForceRollback = true) ∨
              nestedRollback env r.calls) →
            (∃ pre post, r.calls = pre ++ { trm := d, what := .SinglePhaseCommit, id := -1 } ::
                post ∧ (∀ x ∈ pre, x.what = .Prepare) ∧
              (∀ x ∈ post, x.what.isTerminal = true)) ∧
            r.shouldAbort = (env.onSinglePhaseCommit d).verb.isAborted ∧
            e = (if (env.onSinglePhaseCommit d).verb.isAborted then some .ErrTxAborted
              else none) ∧
            r.tx.status = (if (env.onSinglePhaseCommit d).verb.isAborted then .txStatusAborted
              else .txStatusCommitted)) ∧
          (((∃ c ∈ r.calls, c.what = .Prepare ∧
                (env.onPrepare c.trm c.id).verb.isForceRollback = true) ∨
              nestedRollback env r.calls) →
            (∀ c ∈ r.calls, c.what ≠ .SinglePhaseCommit) ∧
            ({ trm := d, what := .Rollback, id := -1 } : Call) ∈ r.calls ∧
            e = some .ErrTxAborted ∧ r.tx.status = .txStatusAborted))) := by
  have hne : tx.tod ≠ none ∨ tx.vrms ≠ [] := Or.inr hvol
  refine ⟨fun N hb hf => Commit_returns fuel N env tx hact hne hb hf, ?_⟩
  intro e r h
  obtain ⟨ps, hc⟩ := (Commit_spec fuel env tx hact hne).2 e r h
  obtain ⟨r1, es, hl, -, hi, hn, ht, -, -, htl, -⟩ := Commit_phases fuel env tx hact hne e r h
  rw [htod] at htl
  refine ⟨r1, es, hl, hn, ?_, ?_, ?_⟩
  · intro i x d hx hcall hfirst
    have htc : x.isTodCall = true := by simp [NestedResult.isTodCall, hcall]
    have herr := htl.errs i x hx htc
    rw [(todAfter_take_none r1.nested i).2 hfirst] at herr
    simp only [if_true] at herr
    refine ⟨herr, hc.todNested d ?_⟩
    rw [hn]
    apply List.mem_append_left
    have hx2 : x = { call := .enlist (.EnlistTheOnlyDurable d), err := none } := by
      obtain ⟨c, e1⟩ := x
      simp only at hcall herr
      rw [hcall, herr]
    rw [← hx2]
    exact List.mem_iff_getElem?.2 ⟨i, hx⟩
  · rintro i x hx htc ⟨j, y, hj, hy, hty⟩
    have herr := htl.errs i x hx htc
    have hnn : todAfter none (r1.nested.take i) ≠ none := by
      intro h0
      have := (todAfter_take_none r1.nested i).1 h0 j y hj hy
      rw [hty] at this
      cases this
    rw [if_neg hnn] at herr
    exact herr
  · intro d hd
    have hrd : r.tod = some d := hc.todNested d (by rw [hn]; exact List.mem_append_left _ hd)
    refine ⟨hrd, ?_, ?_⟩
    · intro hnl
      have hl0 : (forced env r.processed 0 ps || rolled env r.processed 0 ps) = false := by
        cases hb : (forced env r.processed 0 ps || rolled env r.processed 0 ps) with
        | false => rfl
        | true => exact absurd (hc.latched_iff.1 hb) hnl
      have hsa : r.shouldAbort = (env.onSinglePhaseCommit d).verb.isAborted := by
        rw [hc.verdict, hl0, hrd]
        simp [spcAborts]
      refine ⟨⟨prepList 0 (ps.take r.processed), terminalList r.tod r.shouldAbort r.vrms,
        ?_, fun x hx => (prepList_id_ge _ _ _ hx).2, ?_⟩, hsa, ?_, ?_⟩
      · rw [hc.calls, hrd, hl0]
        simp [spcList]
      · intro x hx
        rw [terminalList_what _ _ _ x hx]
        cases r.shouldAbort <;> rfl
      · rw [hc.err, hsa]
      · rw [hc.final, hsa]
    · intro hlat
      have hl1 := hc.latched_iff.2 hlat
      have hsa : r.shouldAbort = true := by
        rw [hc.verdict, hl1]
        rfl
      refine ⟨?_, ?_, by rw [hc.err, hsa]; rfl, by rw [hc.final, hsa]; rfl⟩
      · intro c hm hw
        obtain ⟨d1, -, hl0, -⟩ := (hc.spc_iff c).1 ⟨hm, hw⟩
        rw [hl1] at hl0
        cases hl0
      · rw [hc.calls, hsa]
        apply List.mem_append_right
        exact (mem_terminalList _ _ _ _).2 (Or.inl ⟨d, hrd, rfl, rfl⟩)

set_option maxHeartbeats 1000000 in
/-- The run of `Commit` in which participant 1 enlists the TOD 9 from inside `Prepare`
and participant 2 calls `Rollback`, evaluated stage by stage. -/
theorem exampleNestedTodAndRollback_run :
    Commit 1 exampleNestedTodAndRollback exampleVolatiles =
      .ret (some .ErrTxAborted,
        { tx := { status := .txStatusAborted, tod := none, vrms := [] },
          tod := some 9, vrms := [some 1, some 2],
          responses := { cap := 3, buf := [enlistment.Done ⟨-1⟩, enlistment.Done ⟨0⟩,
            enlistment.Done ⟨1⟩] },
          shouldAbort := true, processed := 2, pendingRespsNo := 3,
          calls := [{ trm := 1, what := .Prepare, id := 0 }, { trm := 2, what := .Prepare, id := 1 },
            { trm := 9, what := .Rollback, id := -1 }, { trm := 1, what := .Rollback, id := 0 },
            { trm := 2, what := .Rollback, id := 1 }],
          nested := [{ call := .enlist (.EnlistTheOnlyDurable 9), err := none },
                     { call := .Rollback, err := none }] }) := by
  have hpass : preparePass exampleNestedTodAndRollback (commitStart exampleVolatiles) =
      .ret { tx := { status := .txStatusPrepareAborted, tod := some 9, vrms := [1, 2] },
             tod := some 9, vrms := [some 1, some 2], responses := { cap := 3, buf := [] },
             shouldAbort := true, processed := 2, pendingRespsNo := 0,
             calls := [{ trm := 1, what := .Prepare, id := 0 },
               { trm := 2, what := .Prepare, id := 1 }],
             nested := [{ call := .enlist (.EnlistTheOnlyDurable 9), err := none },
                        { call := .Rollback, err := none }] } := by
    decide
  rw [Commit_active 1 _ _ rfl (Or.inr (by decide)),
    prepareLoop_step _ 0 _ (by decide), hpass]
  simp only []
  rw [prepareLoop_exit _ 0 _ (by decide)]
  decide

/-- Witness for C24: participant 1 enlists the TOD 9 from inside `Prepare`, participant
2 calls `Rollback`; the coordinator holds 9 as the TOD. -/
theorem C24_nested_tod_witness :
    ∃ r1 es, prepareLoop exampleNestedTodAndRollback 1 (commitStart exampleVolatiles) =
        .ret r1 ∧
      [{ call := .enlist (.EnlistTheOnlyDurable 9), err := none },
        ({ call := .Rollback, err := none } : NestedResult)] = r1.nested ++ refusedLog es := by
  obtain ⟨r1, es, h1, h2, -⟩ :=
    (C24_nested_tod 1 exampleNestedTodAndRollback exampleVolatiles rfl (by decide) rfl).2
      (some .ErrTxAborted) _ exampleNestedTodAndRollback_run
  exact ⟨r1, es, h1, h2⟩

/-- C24 as stated fails: participant 1 enlists the TOD 9 from inside `Prepare` and the
call returns nil, participant 2 calls `Rollback` from inside `Prepare`, and both vote
`Prepared`; yet no `SinglePhaseCommit` is issued, the TOD receives `Rollback` and
`Commit` returns `ErrTxAborted`. -/
theorem C24_counterexample :
    (∀ c ∈ (Commit 1 exampleNestedTodAndRollback exampleVolatiles).run.calls,
      c.what = .Prepare → (exampleNestedTodAndRollback.onPrepare c.trm c.id).verb = .Prepared) ∧
    ({ call := .enlist (.EnlistTheOnlyDurable 9), err := none } : NestedResult) ∈
      (Commit 1 exampleNestedTodAndRollback exampleVolatiles).run.nested ∧
    (∀ c ∈ (Commit 1 exampleNestedTodAndRollback exampleVolatiles).run.calls,
      c.what ≠ .SinglePhaseCommit) ∧
    ({ trm := 9, what := .Rollback, id := -1 } : Call) ∈
      (Commit 1 exampleNestedTodAndRollback exampleVolatiles).run.calls ∧
    (Commit 1 exampleNestedTodAndRollback exampleVolatiles).err =
      some (some .ErrTxAborted) := by
  rw [exampleNestedTodAndRollback_run]
  simp only [Outcome.run, Outcome.err]
  refine ⟨by decide, by decide, by decide, by decide, trivial⟩

/-! ## Volatiles enlisted during the prepare phase -/

theorem filter_prepare_prepList (ps : List Participant) (i : Nat) :
    (prepList i ps).filter (fun c => c.what = .Prepare) = prepList i ps := by
  apply List.filter_eq_self.2
  intro c hm
  rw [(prepList_id_ge _ _ _ hm).2]
  simp

theorem CommitReturn.filter_prepare {env : Env} {tx : CommittableTransaction}
    {e : Option Error} {r : Run} {ps : List Participant} (hc : CommitReturn env tx e r ps) :
    r.calls.filter (fun c => c.what = .Prepare) = prepList 0 (ps.take r.processed) := by
  rw [hc.calls, List.filter_append, List.filter_append, filter_prepare_prepList]
  have h1 : (spcList r.tod (forced env r.processed 0 ps || rolled env r.processed 0 ps)).filter
      (fun c => c.what = .Prepare) = [] := by
    apply List.filter_eq_nil_iff.2
    intro c hm
    obtain ⟨d, -, -, hd⟩ := (mem_spcList _ _ _).1 hm
    rw [hd]
    simp
  have h2 : (terminalList r.tod r.shouldAbort r.vrms).filter
      (fun c => c.what = .Prepare) = [] := by
    apply List.filter_eq_nil_iff.2
    intro c hm
    rw [terminalList_what _ _ _ c hm]
    cases r.shouldAbort <;> simp
  rw [h1, h2]
  simp

/-- C23 (as amended): volatiles enlisted during the prepare phase (from inside
`Prepare`, or by another goroutine), for `Commit` on an Active transaction with
participants (it returns whenever these enlistments are bounded).  At every head of the prepare loop (the state in which a run with less
fuel stops) the pass that follows returns, prepares exactly the slots of the volatile
list that are not yet prepared, and takes the volatiles enlisted meanwhile into the
working set without preparing them in that pass.  In a run that returns with no abort
latched, where `r1` is the state at the exit of the prepare loop: every
`EnlistVolatile` called during the prepare phase has returned nil; the volatile list is
the initial one followed by the volatiles so enlisted, and the working set has its
length; the `Prepare` notifications are exactly one per slot, in index order, with the
handle id equal to the index; and a participant that does not answer `Done` receives
`Commit` with the same handle id after its `Prepare`, while one that answers `Done`
receives no terminal notification. -/
theorem C23_nested_volatile (fuel : Nat) (env : Env) (tx : CommittableTransaction)
    (hact : tx.status = .txStatusActive) (hne : tx.tod ≠ none ∨ tx.vrms ≠ []) :
    (∀ N, boundedNesting env N → N < fuel → ∃ e r, Commit fuel env tx = .ret (e, r)) ∧
    (∀ (k : Nat) (r : Run), Commit k env tx = .stop r →
      ∃ r1 newV, preparePass env r = .ret r1 ∧ r1.tx.vrms = r.tx.vrms ++ newV ∧
        r1.calls = r.calls ++ prepList r.processed (r.tx.vrms.drop r.processed) ∧
        r1.processed = r.tx.vrms.length ∧ r1.vrms.length = (r.tx.vrms ++ newV).length) ∧
    (∀ e r, Commit fuel env tx = .ret (e, r) → r.shouldAbort = false →
      ∃ r1 es, prepareLoop env fuel (commitStart tx) = .ret r1 ∧
        r.nested = r1.nested ++ refusedLog es ∧
        (∀ x ∈ r1.nested, ∀ v : Participant, x.call = .enlist (.EnlistVolatile v) →
          x.err = none) ∧
        r1.tx.vrms = tx.vrms ++ volWins r1.nested ∧
        r.vrms.length = (tx.vrms ++ volWins r1.nested).length ∧
        r.processed = (tx.vrms ++ volWins r1.nested).length ∧
        r.calls.filter (fun c => c.what = .Prepare) =
          prepList 0 (tx.vrms ++ volWins r1.nested) ∧
        (∀ (i : Nat) (p : Participant), (tx.vrms ++ volWins r1.nested)[i]? = some p →
          ((env.onPrepare p (i : Int)).verb ≠ .Done →
            r.vrms[i]? = some (some p) ∧
            ∃ pre mid post, r.calls = pre ++ { trm := p, what := .Prepare, id := (i : Int) } ::
              mid ++ { trm := p, what := .Commit, id := (i : Int) } :: post) ∧
          ((env.onPrepare p (i : Int)).verb = .Done →
            r.vrms[i]? = some none ∧ ∀ c ∈ r.calls, c.id = (i : Int) → c.what = .Prepare))) := by
  refine ⟨fun N hb hf => Commit_returns fuel N env tx hact hne hb hf, ?_, ?_⟩
  · intro k r h
    obtain ⟨hi, hsa, hlt, -⟩ := (Commit_spec k env tx hact hne).1 r h
    obtain ⟨r1, newV, e1, hi1, hp1, hv1, -⟩ := preparePass_spec env r hi hsa
    refine ⟨r1, newV, e1, hv1, ?_, hp1, by rw [hi1.working, slots_length, hv1]⟩
    rw [hi1.calls, hi.calls, hp1, hv1, List.take_left]
    have h2 := prepList_append (r.tx.vrms.take r.processed) (r.tx.vrms.drop r.processed) 0
    rw [List.take_append_drop, List.length_take, Nat.min_eq_left hi.bound, Nat.zero_add] at h2
    exact h2
  · intro e r h hsa
    obtain ⟨ps, hc⟩ := (Commit_spec fuel env tx hact hne).2 e r h
    obtain ⟨r1, es, hl, -, hi, hn, -, -, hpl, -, -⟩ := Commit_phases fuel env tx hact hne e r h
    have hps : ps = tx.vrms ++ volWins r1.nested := by
      rw [hc.enlisted, hn, volWins_append, volWins_refusedLog, List.append_nil]
    have hl0 : (forced env r.processed 0 ps || rolled env r.processed 0 ps) = false := by
      have hv := hc.verdict
      rw [hsa] at hv
      cases hb : (forced env r.processed 0 ps || rolled env r.processed 0 ps) with
      | false => rfl
      | true =>
        rw [hb] at hv
        cases hv
    have hproc : r.processed = ps.length := hc.complete hl0
    refine ⟨r1, es, hl, hn, ?_, hpl.vols, by rw [← hps, hc.working, slots_length],
      by rw [← hps]; exact hproc, ?_, ?_⟩
    · intro x hx v hcall
      exact hpl.accepted x hx (by simp [NestedResult.isTodCall, hcall])
    · rw [← hps, hc.filter_prepare, hproc, List.take_length]
    · rw [← hps]
      intro i p hp
      have hlt : i < r.processed := by
        rw [hproc]
        exact lt_length_of_getElem? _ _ _ hp
      constructor
      · intro hnd
        have hsome : r.vrms[i]? = some (some p) := by
          rw [hc.working]
          exact (slots_some_iff env _ ps i p).2 ⟨hp, fun hx => hnd hx.2⟩
        refine ⟨hsome, ?_⟩
        have h1 : ({ trm := p, what := .Prepare, id := (i : Int) } : Call) ∈
            prepList 0 (ps.take r.processed) := by
          apply (mem_prepList _ _ _).2
          exact ⟨i, p, (getElem?_take_some ps _ i p).2 ⟨hlt, hp⟩, by simp⟩
        have h2 : ({ trm := p, what := .Commit, id := (i : Int) } : Call) ∈
            terminalList r.tod r.shouldAbort r.vrms := by
          apply (mem_terminalList _ _ _ _).2
          right
          exact ⟨i, p, hsome, by rw [hsa]; rfl⟩
        obtain ⟨a1, b1, e1⟩ := List.append_of_mem h1
        obtain ⟨a2, b2, e2⟩ := List.append_of_mem h2
        refine ⟨a1, b1 ++ spcList r.tod
          (forced env r.processed 0 ps || rolled env r.processed 0 ps) ++ a2, b2, ?_⟩
        rw [hc.calls, e1, e2]
        simp
      · intro hd
        have hnone : r.vrms[i]? = some none := by
          rw [hc.working]
          exact (slots_none_iff env _ ps i).2 ⟨p, hp, hlt, hd⟩
        refine ⟨hnone, ?_⟩
        intro c hm hid
        by_contra hw
        obtain ⟨q, hq2, -⟩ := hc.terminal_of_id c i hm hid hw
        rw [hnone] at hq2
        cases hq2

set_option maxHeartbeats 1000000 in
/-- The run of `Commit` in which participant 1 enlists the volatile 2 from inside
`Prepare` and participant 2 answers `Done`, evaluated stage by stage. -/
theorem exampleNestedDone_run :
    Commit 2 exampleNestedDone exampleOneVolatile =
      .ret (none,
        { tx := { status := .txStatusCommitted, tod := none, vrms := [] },
          tod := none, vrms := [some 1, none],
          responses := { cap := 3, buf := [enlistment.Done ⟨0⟩] },
          shouldAbort := false, processed := 2, pendingRespsNo := 1,
          calls := [{ trm := 1, what := .Prepare, id := 0 }, { trm := 2, what := .Prepare, id := 1 },
            { trm := 1, what := .Commit, id := 0 }],
          nested := [{ call := .enlist (.EnlistVolatile 2), err := none }] }) := by
  have hpass1 : preparePass exampleNestedDone (commitStart exampleOneVolatile) =
      .ret { tx := { status := .txStatusPreparing, tod := none, vrms := [1, 2] },
             tod := none, vrms := [some 1, some 2], responses := { cap := 3, buf := [] },
             shouldAbort := false, processed := 1, pendingRespsNo := 0,
             calls := [{ trm := 1, what := .Prepare, id := 0 }],
             nested := [{ call := .enlist (.EnlistVolatile 2), err := none }] } := by
    decide
  have hpass2 : preparePass exampleNestedDone
        { tx := { status := .txStatusPreparing, tod := none, vrms := [1, 2] },
          tod := none, vrms := [some 1, some 2], responses := { cap := 3, buf := [] },
          shouldAbort := false, processed := 1, pendingRespsNo := 0,
          calls := [{ trm := 1, what := .Prepare, id := 0 }],
          nested := [{ call := .enlist (.EnlistVolatile 2), err := none }] } =
      .ret { tx := { status := .txStatusPreparing, tod := none, vrms := [1, 2] },
             tod := none, vrms := [some 1, none], responses := { cap := 3, buf := [] },
             shouldAbort := false, processed := 2, pendingRespsNo := 0,
             calls := [{ trm := 1, what := .Prepare, id := 0 },
               { trm := 2, what := .Prepare, id := 1 }],
             nested := [{ call := .enlist (.EnlistVolatile 2), err := none }] } := by
    decide
  rw [Commit_active 2 _ _ rfl (Or.inr (by decide)),
    prepareLoop_step _ 1 _ (by decide), hpass1]
  simp only []
  rw [prepareLoop_step _ 0 _ (by decide), hpass2]
  simp only []
  rw [prepareLoop_exit _ 0 _ (by decide)]
  decide

/-- Witness for C23: participant 1 enlists the volatile 2 from inside `Prepare`; the
working set has two slots at the end. -/
theorem C23_nested_volatile_witness :
    ∃ r1 es, prepareLoop exampleNestedDone 2 (commitStart exampleOneVolatile) = .ret r1 ∧
      [({ call := .enlist (.EnlistVolatile 2), err := none } : NestedResult)] =
        r1.nested ++ refusedLog es ∧
      r1.tx.vrms = exampleOneVolatile.vrms ++ volWins r1.nested := by
  obtain ⟨r1, es, h1, h2, -, h4, -⟩ :=
    (C23_nested_volatile 2 exampleNestedDone exampleOneVolatile rfl (Or.inr (by decide))).2.2
      none _ exampleNestedDone_run rfl
  exact ⟨r1, es, h1, h2, h4⟩

/-- C23 as stated fails: participant 1 enlists the volatile 2 from inside `Prepare`,
the call returns nil and no abort is latched; participant 2 is prepared in the second
pass with the handle id 1 and answers `Done`; `Commit` returns nil, yet participant 2
receives no `Commit` notification. -/
theorem C23_counterexample :
    (Commit 2 exampleNestedDone exampleOneVolatile).err = some none ∧
    (Commit 2 exampleNestedDone exampleOneVolatile).run.shouldAbort = false ∧
    ({ call := .enlist (.EnlistVolatile 2), err := none } : NestedResult) ∈
      (Commit 2 exampleNestedDone exampleOneVolatile).run.nested ∧
    ({ trm := 2, what := .Prepare, id := 1 } : Call) ∈
      (Commit 2 exampleNestedDone exampleOneVolatile).run.calls ∧
    (∀ c ∈ (Commit 2 exampleNestedDone exampleOneVolatile).run.calls,
      c.what = .Commit → c.trm ≠ 2) := by
  rw [exampleNestedDone_run]
  simp only [Outcome.run, Outcome.err]
  refine ⟨trivial, trivial, by decide, by decide, by decide⟩

/-! ## The status at the time of a notification -/

theorem seenAt_refusing (env : Env) (c : Call) (r : Run)
    (hst : r.tx.status = .txStatusFinalizing ∨ r.tx.status = .txStatusCommitted ∨
      r.tx.status = .txStatusAborted) :
    seenAt env c r = { call := c, tx := r.tx, attempts := refusedLog (lateAttempts env c) } := by
  have h := runEnlists_refused (lateAttempts env c) { r with nested := [] } hst
  simp only [seenAt, h, List.nil_append]

theorem lateAttempts_terminal (env : Env) (c : Call) (h : c.what ≠ .SinglePhaseCommit) :
    lateAttempts env c = terminalNested env c := by
  simp [lateAttempts, h]

theorem notifyTerminal_frame (env : Env) (p : Participant) (what : Notification) (id : Int)
    (r r1 : Run)
    (hst : r.tx.status = .txStatusFinalizing ∨ r.tx.status = .txStatusCommitted ∨
      r.tx.status = .txStatusAborted)
    (h : notifyTerminal env p what id r = .ret r1) :
    r1.tx = r.tx ∧ r1.shouldAbort = r.shouldAbort ∧ r1.vrms = r.vrms ∧ r1.tod = r.tod ∧
      r1.calls = r.calls ++ [{ trm := p, what := what, id := id }] ∧
      r1.nested = r.nested ++
        refusedLog (terminalNested env { trm := p, what := what, id := id }) := by
  have he := runEnlists_refused (terminalNested env { trm := p, what := what, id := id })
    { r with calls := r.calls ++ [{ trm := p, what := what, id := id }] } hst
  simp only [terminalNested] at he
  simp only [notifyTerminal, he] at h
  split at h
  · cases h
  · cases h
    exact ⟨rfl, rfl, rfl, rfl, rfl, rfl⟩

theorem commitTerminalSeen_spec (env : Env) : ∀ (w : List (Option Participant)) (i : Nat)
    (r : Run),
    (r.tx.status = .txStatusFinalizing ∨ r.tx.status = .txStatusCommitted ∨
      r.tx.status = .txStatusAborted) →
    (∀ s ∈ commitTerminalSeen env i w r, s.tx = r.tx ∧
      s.call.what = (if r.shouldAbort then .Rollback else .Commit) ∧
      s.attempts = refusedLog (lateAttempts env s.call)) ∧
    (∀ r1, commitTerminal env i w r = .ret r1 →
      r1.calls = r.calls ++ (commitTerminalSeen env i w r).map Seen.call ∧
      r1.nested = r.nested ++ ((commitTerminalSeen env i w r).map Seen.attempts).flatten)
  | [], i, r, _ => by
    refine ⟨by simp [commitTerminalSeen], ?_⟩
    intro r1 h
    simp only [commitTerminal, Outcome.ret.injEq] at h
    subst h
    simp [commitTerminalSeen]
  | none :: w, i, r, hst => by
    simp only [commitTerminalSeen, commitTerminal]
    exact commitTerminalSeen_spec env w (i + 1) r hst
  | some p :: w, i, r, hst => by
    simp only [commitTerminalSeen, commitTerminal]
    have hhead := seenAt_refusing env
      { trm := p, what := if r.shouldAbort then .Rollback else .Commit, id := (i : Int) } r hst
    have hwhat : (if r.shouldAbort then Notification.Rollback else Notification.Commit) ≠
        .SinglePhaseCommit := by
      cases r.shouldAbort <;> simp
    cases hn : notifyTerminal env p (if r.shouldAbort then .Rollback else .Commit) i r with
    | stop r1 =>
      simp only [List.mem_singleton]
      refine ⟨?_, fun r1 h => by cases h⟩
      intro s hs
      subst hs
      rw [hhead]
      exact ⟨rfl, rfl, rfl⟩
    | ret r1 =>
      obtain ⟨f1, f2, f3, f4, f5, f6⟩ := notifyTerminal_frame env p _ i r r1 hst hn
      have ih := commitTerminalSeen_spec env w (i + 1)
        { r1 with pendingRespsNo := r1.pendingRespsNo + 1 } (by rw [f1]; exact hst)
      simp only [List.mem_cons]
      refine ⟨?_, ?_⟩
      · intro s hs
        rcases hs with hs | hs
        · subst hs
          rw [hhead]
          exact ⟨rfl, rfl, rfl⟩
        · have := ih.1 s hs
          simp only [f1, f2] at this
          exact this
      · intro r2 h
        obtain ⟨h1, h2⟩ := ih.2 r2 h
        have hla := lateAttempts_terminal env
          { trm := p, what := if r.shouldAbort then .Rollback else .Commit, id := (i : Int) }
          hwhat
        rw [h1, h2, hhead]
        simp only [f5, f6, List.map_cons, List.flatten_cons, List.append_assoc,
          List.singleton_append, hla]
        exact ⟨trivial, trivial⟩

theorem singlePhase_frame (env : Env) (r r2 : Run) (hst : r.tx.status = .txStatusFinalizing)
    (h : singlePhase env r = .ret r2) :
    r2.tx = r.tx ∧ r2.vrms = r.vrms ∧ r2.tod = r.tod ∧
      r2.calls = r.calls ++ (singlePhaseSeen env r).map Seen.call ∧
      r2.nested = r.nested ++ ((singlePhaseSeen env r).map Seen.attempts).flatten := by
  obtain ⟨tx, tod, vrms, responses, sa, processed, pend, calls, nested⟩ := r
  simp only at hst
  cases tod with
  | none =>
    simp only [singlePhase, Outcome.ret.injEq] at h
    subst h
    simp [singlePhaseSeen]
  | some d =>
    cases sa with
    | true =>
      simp only [singlePhase, Bool.not_true, Bool.false_eq_true, if_false,
        Outcome.ret.injEq] at h
      subst h
      simp [singlePhaseSeen]
    | false =>
      have he := runEnlists_refused (env.onSinglePhaseCommit d).nested
        ⟨tx, some d, vrms, responses, false, processed, pend,
          calls ++ [{ trm := d, what := .SinglePhaseCommit, id := -1 }], nested⟩
        (Or.inl hst)
      have hs := seenAt_refusing env { trm := d, what := .SinglePhaseCommit, id := -1 }
        ⟨tx, some d, vrms, responses, false, processed, pend, calls, nested⟩ (Or.inl hst)
      simp only [singlePhase, Bool.not_false, if_true, he] at h
      simp only [singlePhaseSeen, Bool.not_false, if_true, hs, List.map_cons, List.map_nil,
        List.flatten_cons, List.flatten_nil, List.append_nil, lateAttempts]
      split at h
      · cases h
      · split at h
        · cases h
        · split at h
          · cases h
            exact ⟨rfl, rfl, rfl, rfl, rfl⟩
          · cases h
            exact ⟨rfl, rfl, rfl, rfl, rfl⟩

theorem commitTodRollback_frame (env : Env) (r r3 : Run)
    (hst : r.tx.status = .txStatusFinalizing ∨ r.tx.status = .txStatusCommitted ∨
      r.tx.status = .txStatusAborted)
    (h : commitTodRollback env r = .ret r3) :
    r3.tx = r.tx ∧ r3.shouldAbort = r.shouldAbort ∧ r3.vrms = r.vrms ∧
      r3.calls = r.calls ++ (commitTodRollbackSeen env r).map Seen.call ∧
      r3.nested = r.nested ++ ((commitTodRollbackSeen env r).map Seen.attempts).flatten := by
  unfold commitTodRollback at h
  unfold commitTodRollbackSeen
  cases htod : r.tod with
  | none =>
    rw [htod] at h
    simp only [Outcome.ret.injEq] at h
    subst h
    simp
  | some d =>
    rw [htod] at h
    cases hsa : r.shouldAbort with
    | false =>
      rw [hsa] at h
      simp only [Bool.false_eq_true, if_false, Outcome.ret.injEq] at h
      subst h
      simp [hsa]
    | true =>
      rw [hsa] at h
      simp only [if_true] at h
      cases hn : notifyTerminal env d .Rollback (-1) r with
      | stop r1 => simp [hn] at h
      | ret r1 =>
        obtain ⟨f1, f2, f3, f4, f5, f6⟩ := notifyTerminal_frame env d _ _ r r1 hst hn
        simp only [hn, Outcome.ret.injEq] at h
        subst h
        have hs := seenAt_refusing env { trm := d, what := .Rollback, id := -1 } r hst
        simp only [if_true, hs, List.map_cons, List.map_nil, List.flatten_cons,
          List.flatten_nil, List.append_nil]
        rw [lateAttempts_terminal env _ (by simp)]
        exact ⟨f1, f2.trans hsa, f3, f5, f6⟩

theorem refusedLog_err (es : List EnlistCall) : ∀ x ∈ refusedLog es, x.err = some .ErrTxError := by
  intro x hx
  simp only [refusedLog, List.mem_map] at hx
  obtain ⟨e, -, he⟩ := hx
  rw [← he]

theorem Seen.documented_spc (s : Seen) (es : List EnlistCall)
    (a : s.call.what = .SinglePhaseCommit) (b : s.tx.status = .txStatusFinalizing)
    (c : s.attempts = refusedLog es) : s.asDocumented := by
  refine ⟨fun _ => b, ?_, ?_, ?_, ?_⟩
  · intro h
    rw [a] at h
    cases h
  · intro h
    rw [a] at h
    cases h
  · rw [a]
    simp
  · rw [c]
    exact refusedLog_err es

theorem Seen.documented_terminal (s : Seen) (es : List EnlistCall) (abort : Bool)
    (a : s.call.what = if abort then .Rollback else .Commit)
    (b : s.tx = { status := if abort then .txStatusAborted else .txStatusCommitted,
                  tod := none, vrms := [] })
    (c : s.attempts = refusedLog es) : s.asDocumented := by
  refine ⟨?_, ?_, ?_, ?_, ?_⟩
  · intro h
    rw [a] at h
    cases abort <;> cases h
  · intro h
    rw [a] at h
    rw [b]
    cases abort
    · rfl
    · cases h
  · intro h
    rw [a] at h
    rw [b]
    cases abort
    · cases h
    · rfl
  · rw [a]
    cases abort <;> simp
  · rw [c]
    exact refusedLog_err es

theorem commitFinishSeen_tail (env : Env) (s2 : Run)
    (htx : s2.tx = { status := if s2.shouldAbort then .txStatusAborted else .txStatusCommitted,
                     tod := none, vrms := [] }) :
    (∀ s ∈ commitTodRollbackSeen env s2 ++
        (match commitTodRollback env s2 with
          | .stop _ => []
          | .ret r3 => commitTerminalSeen env 0 r3.vrms r3), s.asDocumented) ∧
    (∀ e r,
      (match commitTodRollback env s2 with
        | .stop r => Outcome.stop r
        | .ret r3 =>
          match commitTerminal env 0 r3.vrms r3 with
          | .stop r => Outcome.stop r
          | .ret r4 => Outcome.ret (if r4.shouldAbort then some Error.ErrTxAborted else none, r4)) =
        .ret (e, r) →
      r.calls = s2.calls ++
        (commitTodRollbackSeen env s2 ++
          (match commitTodRollback env s2 with
            | .stop _ => []
            | .ret r3 => commitTerminalSeen env 0 r3.vrms r3)).map Seen.call ∧
      r.nested = s2.nested ++
        ((commitTodRollbackSeen env s2 ++
          (match commitTodRollback env s2 with
            | .stop _ => []
            | .ret r3 => commitTerminalSeen env 0 r3.vrms r3)).map Seen.attempts).flatten) := by
  have hst2 : s2.tx.status = .txStatusFinalizing ∨ s2.tx.status = .txStatusCommitted ∨
      s2.tx.status = .txStatusAborted := by
    rw [htx]
    cases s2.shouldAbort <;> simp
  have htr : ∀ s ∈ commitTodRollbackSeen env s2, s.asDocumented := by
    intro s hs
    unfold commitTodRollbackSeen at hs
    split at hs
    · cases hs
    · split at hs
      · next hsa =>
        simp only [List.mem_singleton] at hs
        subst hs
        rw [seenAt_refusing env _ _ hst2]
        refine Seen.documented_terminal _ _ true rfl ?_ rfl
        simp only [if_true]
        rw [htx, hsa]
        rfl
      · cases hs
  cases h2 : commitTodRollback env s2 with
  | stop r3 =>
    simp only [List.append_nil]
    exact ⟨htr, fun e r h => by cases h⟩
  | ret r3 =>
    obtain ⟨g1, g2, g3, g4, g5⟩ := commitTodRollback_frame env _ r3 hst2 h2
    have hst3 : r3.tx.status = .txStatusFinalizing ∨ r3.tx.status = .txStatusCommitted ∨
        r3.tx.status = .txStatusAborted := by
      rw [g1]
      exact hst2
    obtain ⟨k1, k2⟩ := commitTerminalSeen_spec env r3.vrms 0 r3 hst3
    simp only []
    refine ⟨?_, ?_⟩
    · intro s hs
      rcases List.mem_append.1 hs with hs | hs
      · exact htr s hs
      · obtain ⟨a, b, c⟩ := k1 s hs
        rw [g1, htx] at a
        rw [g2] at b
        exact Seen.documented_terminal s _ s2.shouldAbort b a c
    · intro e r h
      cases h3 : commitTerminal env 0 r3.vrms r3 with
      | stop r4 => simp [h3] at h
      | ret r4 =>
        simp only [h3, Outcome.ret.injEq, Prod.mk.injEq] at h
        obtain ⟨-, hr⟩ := h
        subst hr
        obtain ⟨m1, m2⟩ := k2 r4 h3
        rw [m1, m2, g4, g5]
        simp [List.append_assoc]

/-- What a participant finds when a notification other than `Prepare` is invoked by
the part of `Commit` after the prepare loop, and how these notifications make up the
trace and the log of that part. -/
theorem commitFinishSeen_spec (env : Env) (r1 : Run) :
    (∀ s ∈ commitFinishSeen env r1, s.asDocumented) ∧
    (∀ e r, commitFinish env r1 = .ret (e, r) →
      r.calls = r1.calls ++ (commitFinishSeen env r1).map Seen.call ∧
      r.nested = r1.nested ++ ((commitFinishSeen env r1).map Seen.attempts).flatten) := by
  have hsp : ∀ s ∈ singlePhaseSeen env
      { r1 with tx := { r1.tx with status := .txStatusFinalizing } }, s.asDocumented := by
    intro s hs
    unfold singlePhaseSeen at hs
    split at hs
    · cases hs
    · split at hs
      · simp only [List.mem_singleton] at hs
        subst hs
        rw [seenAt_refusing env _ _ (Or.inl rfl)]
        exact Seen.documented_spc _ _ rfl rfl rfl
      · cases hs
  unfold commitFinishSeen commitFinish
  cases h1 : singlePhase env { r1 with tx := { r1.tx with status := .txStatusFinalizing } } with
  | stop r2 =>
    simp only [List.append_nil]
    exact ⟨hsp, fun e r h => by cases h⟩
  | ret r2 =>
    obtain ⟨f1, f2, f3, f4, f5⟩ := singlePhase_frame env _ r2 rfl h1
    simp only at f1 f2 f3 f4 f5
    obtain ⟨t1, t2⟩ := commitFinishSeen_tail env
      { r2 with tx := ({ r2.tx with status :=
          if r2.shouldAbort then .txStatusAborted else .txStatusCommitted }).clear }
      (by simp [CommittableTransaction.clear])
    refine ⟨?_, ?_⟩
    · intro s hs
      rcases List.mem_append.1 hs with hs | hs
      · exact hsp s hs
      · exact t1 s hs
    · intro e r h
      obtain ⟨m1, m2⟩ := t2 e r h
      rw [m1, m2]
      simp only [f4, f5, List.map_append, List.flatten_append, List.append_assoc]
      exact ⟨trivial, trivial⟩
theorem CommitSeen_active (fuel : Nat) (env : Env) (tx : CommittableTransaction)
    (hact : tx.status = .txStatusActive) (hne : tx.tod ≠ none ∨ tx.vrms ≠ []) :
    CommitSeen fuel env tx =
      match prepareLoop env fuel (commitStart tx) with
      | .stop _ => []
      | .ret r1 => commitFinishSeen env r1 := by
  unfold CommitSeen
  have h1 : (tx.tod == none && tx.vrms.length == 0) = false := by
    rcases hne with h | h
    · cases htod : tx.tod with
      | none => exact absurd htod h
      | some d => rfl
    · cases hv : tx.vrms with
      | nil => exact absurd hv h
      | cons a l => simp
  simp [hact, CommittableTransaction.isTerminated, h1]

theorem CommitSeen_documented (fuel : Nat) (env : Env) (tx : CommittableTransaction) :
    ∀ s ∈ CommitSeen fuel env tx, s.asDocumented := by
  intro s hs
  unfold CommitSeen at hs
  split at hs
  · cases hs
  · split at hs
    · cases hs
    · split at hs
      · cases hs
      · split at hs
        · cases hs
        · split at hs
          · cases hs
          · next r1 _ => exact (commitFinishSeen_spec env r1).1 s hs

theorem rollbackTod_frame (env : Env) (r r1 : Run)
    (hst : r.tx.status = .txStatusFinalizing ∨ r.tx.status = .txStatusCommitted ∨
      r.tx.status = .txStatusAborted)
    (h : rollbackTod env r = .ret r1) :
    r1.tx = r.tx ∧
      r1.calls = r.calls ++ (rollbackTodSeen env r).map Seen.call ∧
      r1.nested = r.nested ++ ((rollbackTodSeen env r).map Seen.attempts).flatten := by
  unfold rollbackTod at h
  unfold rollbackTodSeen
  cases htod : r.tod with
  | none =>
    rw [htod] at h
    simp only [Outcome.ret.injEq] at h
    subst h
    simp
  | some d =>
    rw [htod] at h
    simp only at h
    cases hn : notifyTerminal env d .Rollback (-1) r with
    | stop r2 => simp [hn] at h
    | ret r2 =>
      obtain ⟨f1, f2, f3, f4, f5, f6⟩ := notifyTerminal_frame env d _ _ r r2 hst hn
      simp only [hn, Outcome.ret.injEq] at h
      subst h
      have hs := seenAt_refusing env { trm := d, what := .Rollback, id := -1 } r hst
      simp only [hs, List.map_cons, List.map_nil, List.flatten_cons, List.flatten_nil,
        List.append_nil]
      rw [lateAttempts_terminal env _ (by simp)]
      exact ⟨f1, f5, f6⟩

theorem rollbackTerminalSeen_spec (env : Env) : ∀ (ps : List Participant) (i : Nat) (r : Run),
    (r.tx.status = .txStatusFinalizing ∨ r.tx.status = .txStatusCommitted ∨
      r.tx.status = .txStatusAborted) →
    (∀ s ∈ rollbackTerminalSeen env i ps r, s.tx = r.tx ∧ s.call.what = .Rollback ∧
      s.attempts = refusedLog (lateAttempts env s.call)) ∧
    (∀ r1, rollbackTerminal env i ps r = .ret r1 →
      r1.calls = r.calls ++ (rollbackTerminalSeen env i ps r).map Seen.call ∧
      r1.nested = r.nested ++ ((rollbackTerminalSeen env i ps r).map Seen.attempts).flatten)
  | [], i, r, _ => by
    refine ⟨by simp [rollbackTerminalSeen], ?_⟩
    intro r1 h
    simp only [rollbackTerminal, Outcome.ret.injEq] at h
    subst h
    simp [rollbackTerminalSeen]
  | p :: ps, i, r, hst => by
    simp only [rollbackTerminalSeen, rollbackTerminal]
    have hhead := seenAt_refusing env { trm := p, what := .Rollback, id := (i : Int) } r hst
    have hla := lateAttempts_terminal env { trm := p, what := .Rollback, id := (i : Int) }
      (by simp)
    cases hn : notifyTerminal env p .Rollback i r with
    | stop r1 =>
      simp only [List.mem_singleton]
      refine ⟨?_, fun r1 h => by cases h⟩
      intro s hs
      subst hs
      rw [hhead]
      exact ⟨rfl, rfl, rfl⟩
    | ret r1 =>
      obtain ⟨f1, f2, f3, f4, f5, f6⟩ := notifyTerminal_frame env p _ i r r1 hst hn
      have ih := rollbackTerminalSeen_spec env ps (i + 1) r1 (by rw [f1]; exact hst)
      simp only [List.mem_cons]
      refine ⟨?_, ?_⟩
      · intro s hs
        rcases hs with hs | hs
        · subst hs
          rw [hhead]
          exact ⟨rfl, rfl, rfl⟩
        · have := ih.1 s hs
          simp only [f1] at this
          exact this
      · intro r2 h
        obtain ⟨h1, h2⟩ := ih.2 r2 h
        rw [h1, h2, hhead]
        simp only [f5, f6, List.map_cons, List.flatten_cons, List.append_assoc,
          List.singleton_append, hla]
        exact ⟨trivial, trivial⟩

theorem rollbackSeen_tail (env : Env) (r0 : Run) (ps : List Participant) (n : Nat)
    (htx : r0.tx = { status := .txStatusAborted, tod := none, vrms := [] }) :
    (∀ s ∈ rollbackTodSeen env r0 ++
        (match rollbackTod env r0 with
          | .stop _ => []
          | .ret r1 => rollbackTerminalSeen env 0 ps r1),
      s.asDocumented ∧ s.call.what = .Rollback) ∧
    (∀ e r,
      (match rollbackTod env r0 with
        | .stop r => Outcome.stop r
        | .ret r1 =>
          match rollbackTerminal env 0 ps r1 with
          | .stop r => Outcome.stop r
          | .ret r2 =>
            Outcome.ret ((none : Option Error),
              { r2 with pendingRespsNo := r2.pendingRespsNo + n })) = .ret (e, r) →
      r.calls = r0.calls ++
        (rollbackTodSeen env r0 ++
          (match rollbackTod env r0 with
            | .stop _ => []
            | .ret r1 => rollbackTerminalSeen env 0 ps r1)).map Seen.call ∧
      r.nested = r0.nested ++
        ((rollbackTodSeen env r0 ++
          (match rollbackTod env r0 with
            | .stop _ => []
            | .ret r1 => rollbackTerminalSeen env 0 ps r1)).map Seen.attempts).flatten) := by
  have hst : r0.tx.status = .txStatusFinalizing ∨ r0.tx.status = .txStatusCommitted ∨
      r0.tx.status = .txStatusAborted := by
    rw [htx]
    simp
  have htr : ∀ s ∈ rollbackTodSeen env r0, s.asDocumented ∧ s.call.what = .Rollback := by
    intro s hs
    unfold rollbackTodSeen at hs
    split at hs
    · cases hs
    · simp only [List.mem_singleton] at hs
      subst hs
      rw [seenAt_refusing env _ _ hst]
      exact ⟨Seen.documented_terminal _ _ true rfl htx rfl, rfl⟩
  cases h1 : rollbackTod env r0 with
  | stop r1 =>
    simp only [List.append_nil]
    exact ⟨htr, fun e r h => by cases h⟩
  | ret r1 =>
    obtain ⟨g1, g4, g5⟩ := rollbackTod_frame env _ r1 hst h1
    obtain ⟨k1, k2⟩ := rollbackTerminalSeen_spec env ps 0 r1 (by rw [g1]; exact hst)
    simp only []
    refine ⟨?_, ?_⟩
    · intro s hs
      rcases List.mem_append.1 hs with hs | hs
      · exact htr s hs
      · obtain ⟨a, b, c⟩ := k1 s hs
        rw [g1, htx] at a
        exact ⟨Seen.documented_terminal s _ true b a c, b⟩
    · intro e r h
      cases h3 : rollbackTerminal env 0 ps r1 with
      | stop r2 => simp [h3] at h
      | ret r2 =>
        simp only [h3, Outcome.ret.injEq, Prod.mk.injEq] at h
        obtain ⟨-, hr⟩ := h
        subst hr
        obtain ⟨m1, m2⟩ := k2 r2 h3
        simp only []
        rw [m1, m2, g4, g5]
        simp [List.append_assoc]

theorem RollbackSeen_documented (env : Env) (tx : CommittableTransaction) :
    ∀ s ∈ RollbackSeen env tx, s.asDocumented ∧ s.call.what = .Rollback := by
  intro s hs
  unfold RollbackSeen at hs
  split at hs
  · cases hs
  · split at hs
    · cases hs
    · split at hs
      · cases hs
      · split at hs
        · cases hs
        · split at hs
          · cases hs
          · exact (rollbackSeen_tail env _ tx.vrms tx.vrms.length
              (by simp [CommittableTransaction.clear])).1 s hs

theorem RollbackSeen_link (env : Env) (tx : CommittableTransaction)
    (hact : tx.status = .txStatusActive) (hne : tx.tod ≠ none ∨ tx.vrms ≠ [])
    (e : Option Error) (r : Run) (h : Rollback env tx = .ret (e, r)) :
    r.calls = (RollbackSeen env tx).map Seen.call ∧
      r.nested = ((RollbackSeen env tx).map Seen.attempts).flatten := by
  have h1 : (tx.tod == none && tx.vrms.length == 0) = false := by
    rcases hne with h | h
    · cases htod : tx.tod with
      | none => exact absurd htod h
      | some d => rfl
    · cases hv : tx.vrms with
      | nil => exact absurd hv h
      | cons a l => simp
  have hs : RollbackSeen env tx =
      rollbackTodSeen env
          { tx := ({ tx with status := .txStatusAborted }).clear,
            tod := tx.tod, vrms := tx.vrms.map some,
            responses := Chan.make (tx.vrms.length + 1),
            shouldAbort := false, processed := 0, pendingRespsNo := 0,
            calls := [], nested := [] } ++
        match rollbackTod env
            { tx := ({ tx with status := .txStatusAborted }).clear,
              tod := tx.tod, vrms := tx.vrms.map some,
              responses := Chan.make (tx.vrms.length + 1),
              shouldAbort := false, processed := 0, pendingRespsNo := 0,
              calls := [], nested := [] } with
        | .stop _ => []
        | .ret r1 => rollbackTerminalSeen env 0 tx.vrms r1 := by
    unfold RollbackSeen
    simp [CommittableTransaction.RollbackNested, CommittableTransaction.isPreparing, hact,
      CommittableTransaction.isTerminated, h1]
  rw [Rollback_active env tx hact hne] at h
  have ht := (rollbackSeen_tail env
    { tx := ({ tx with status := .txStatusAborted }).clear,
      tod := tx.tod, vrms := tx.vrms.map some,
      responses := Chan.make (tx.vrms.length + 1),
      shouldAbort := false, processed := 0, pendingRespsNo := 0,
      calls := [], nested := [] } tx.vrms tx.vrms.length
    (by simp [CommittableTransaction.clear])).2 e r h
  rw [hs]
  simpa using ht

/-- C26 (as amended): the transaction at the time of a notification.  `CommitSeen` and
`RollbackSeen` list the notifications other than `Prepare` that `Commit` and `Rollback`
invoke, each with the transaction as it is at that moment and with the results of the
enlistments attempted from inside.  For every transaction and every behaviour of the
participants: whenever `SinglePhaseCommit` is invoked the status is Finalizing;
whenever a terminal `Commit` (respectively `Rollback`) is invoked, by `Commit` or by
`Rollback`, the status is Committed (respectively Aborted) and the registry is
cleared; and every `EnlistVolatile` and `EnlistTheOnlyDurable` attempted from inside
one of these notifications returns `ErrTxError`.  For a returning `Commit` on an Active
transaction with participants, where `r1` is the state at the exit of the prepare
loop: the trace is the `Prepare` notifications followed by the notifications of
`CommitSeen`, and the log is the calls made during the prepare phase (from inside
`Prepare` or by another goroutine) followed by the attempts of `CommitSeen`; during the
prepare phase every `EnlistVolatile` and every `Rollback` returns nil, and an
`EnlistTheOnlyDurable` returns nil when the transaction holds no TOD at that moment and
`ErrTxError` when it holds one. -/
theorem C26_status_at_notification (fuel : Nat) (env : Env) (tx : CommittableTransaction)
    (hact : tx.status = .txStatusActive) (hne : tx.tod ≠ none ∨ tx.vrms ≠ []) :
    (∀ (k : Nat) (tx2 : CommittableTransaction), ∀ s ∈ CommitSeen k env tx2,
      s.asDocumented) ∧
    (∀ tx2 : CommittableTransaction, ∀ s ∈ RollbackSeen env tx2,
      s.asDocumented ∧ s.call.what = .Rollback) ∧
    (∀ N, boundedNesting env N → N < fuel → ∃ e r, Commit fuel env tx = .ret (e, r)) ∧
    (∀ e r, Commit fuel env tx = .ret (e, r) →
      ∃ r1, prepareLoop env fuel (commitStart tx) = .ret r1 ∧
        (∀ c ∈ r1.calls, c.what = .Prepare) ∧
        r.calls = r1.calls ++ (CommitSeen fuel env tx).map Seen.call ∧
        r.nested = r1.nested ++ ((CommitSeen fuel env tx).map Seen.attempts).flatten ∧
        (∀ x ∈ r1.nested, ∀ v : Participant, x.call = .enlist (.EnlistVolatile v) →
          x.err = none) ∧
        (∀ x ∈ r1.nested, x.call = .Rollback → x.err = none) ∧
        (∀ (i : Nat) (x : NestedResult), r1.nested[i]? = some x → x.isTodCall = true →
          x.err = if todAfter tx.tod (r1.nested.take i) = none then none
            else some .ErrTxError)) ∧
    (∃ r, Rollback env tx = .ret (none, r) ∧
      r.calls = (RollbackSeen env tx).map Seen.call ∧
      r.nested = ((RollbackSeen env tx).map Seen.attempts).flatten) := by
  refine ⟨fun k tx2 => CommitSeen_documented k env tx2,
    fun tx2 => RollbackSeen_documented env tx2,
    fun N hb hf => Commit_returns fuel N env tx hact hne hb hf, ?_, ?_⟩
  · intro e r h
    obtain ⟨r1, es, hl, hf, hi, -, -, -, hpl, htl, -⟩ := Commit_phases fuel env tx hact hne e r h
    obtain ⟨m1, m2⟩ := (commitFinishSeen_spec env r1).2 e r hf
    have hs : CommitSeen fuel env tx = commitFinishSeen env r1 := by
      rw [CommitSeen_active fuel env tx hact hne, hl]
    refine ⟨r1, hl, ?_, by rw [hs]; exact m1, by rw [hs]; exact m2, ?_, ?_, htl.errs⟩
    · intro c hm
      rw [hi.calls] at hm
      exact (prepList_id_ge _ _ _ hm).2
    · intro x hx v hcall
      exact hpl.accepted x hx (by simp [NestedResult.isTodCall, hcall])
    · intro x hx hcall
      exact hpl.accepted x hx (by simp [NestedResult.isTodCall, hcall])
  · obtain ⟨r, h1, -⟩ := Rollback_spec env tx hact hne
    obtain ⟨m1, m2⟩ := RollbackSeen_link env tx hact hne none r h1
    exact ⟨r, h1, m1, m2⟩

set_option maxHeartbeats 1000000 in
/-- The run of `Commit` in which participant 1 calls `EnlistTheOnlyDurable` from inside
`Prepare` on a transaction that has a TOD, evaluated stage by stage. -/
theorem exampleSecondTod_run :
    Commit 1 exampleSecondTod exampleTx =
      .ret (none,
        { tx := { status := .txStatusCommitted, tod := none, vrms := [] },
          tod := some 9, vrms := [some 1, some 2],
          responses := { cap := 3, buf := [enlistment.Done ⟨0⟩, enlistment.Done ⟨1⟩] },
          shouldAbort := false, processed := 2, pendingRespsNo := 2,
          calls := [{ trm := 1, what := .Prepare, id := 0 }, { trm := 2, what := .Prepare, id := 1 },
            { trm := 9, what := .SinglePhaseCommit, id := -1 },
            { trm := 1, what := .Commit, id := 0 }, { trm := 2, what := .Commit, id := 1 }],
          nested := [{ call := .enlist (.EnlistTheOnlyDurable 7),
                       err := some .ErrTxError }] }) := by
  have hpass : preparePass exampleSecondTod (commitStart exampleTx) =
      .ret { tx := { status := .txStatusPreparing, tod := some 9, vrms := [1, 2] },
             tod := some 9, vrms := [some 1, some 2], responses := { cap := 3, buf := [] },
             shouldAbort := false, processed := 2, pendingRespsNo := 0,
             calls := [{ trm := 1, what := .Prepare, id := 0 },
               { trm := 2, what := .Prepare, id := 1 }],
             nested := [{ call := .enlist (.EnlistTheOnlyDurable 7),
                          err := some .ErrTxError }] } := by
    decide
  rw [Commit_active 1 _ _ rfl (Or.inl (by decide)),
    prepareLoop_step _ 0 _ (by decide), hpass]
  simp only []
  rw [prepareLoop_exit _ 0 _ (by decide)]
  decide

/-- Witness for C26: participant 1 calls `EnlistTheOnlyDurable` from inside `Prepare`
on a transaction that has a TOD. -/
theorem C26_status_at_notification_witness :
    ∃ r1, prepareLoop exampleSecondTod 1 (commitStart exampleTx) = .ret r1 ∧
      (∀ c ∈ r1.calls, c.what = .Prepare) := by
  obtain ⟨r1, h1, h2, -⟩ :=
    (C26_status_at_notification 1 exampleSecondTod exampleTx rfl (Or.inl (by decide))).2.2.2.1
      none _ exampleSecondTod_run
  exact ⟨r1, h1, h2⟩

/-- C26 as stated fails in its last part: participant 1, notified `Prepare` with the
handle id 0, calls `EnlistTheOnlyDurable` from inside the notification on a
transaction that already has a TOD; the call returns `ErrTxError`, and the `Commit`
goes on and returns nil. -/
theorem C26_counterexample :
    (exampleSecondTod.onPrepare 1 0).nested = [.enlist (.EnlistTheOnlyDurable 7)] ∧
    ({ trm := 1, what := .Prepare, id := 0 } : Call) ∈
      (Commit 1 exampleSecondTod exampleTx).run.calls ∧
    (Commit 1 exampleSecondTod exampleTx).run.nested =
      [{ call := .enlist (.EnlistTheOnlyDurable 7), err := some .ErrTxError }] ∧
    (Commit 1 exampleSecondTod exampleTx).err = some none := by
  rw [exampleSecondTod_run]
  simp only [Outcome.run, Outcome.err]
  refine ⟨by decide, by decide, trivial, trivial⟩

/-! ## Concurrent calls: the invariant -/

theorem WorldInv.update {w : World} (h : WorldInv w) (i : Nat) (pc : Pc)
    (tx1 : CommittableTransaction) (m : Option Nat)
    (c1 : pc.holds = true ↔ m = some i)
    (c2 : ∀ j, j ≠ i → (m = some j ↔ w.ctlMu = some j))
    (c3 : m = none → tx1.status = .txStatusActive ∨ tx1.isTerminated = true)
    (c4 : m = some i → pc.statusOk tx1.status = true)
    (c5 : ∀ j, j ≠ i → w.ctlMu = some j → (w.pcs j).statusOk tx1.status = true)
    (c6 : pc ≠ .panicked)
    (c7 : pc.performed = true → tx1.isTerminated = true ∧
      ((w.pcs i).performed = true ∨ w.tx.isTerminated = false))
    (c8 : tx1.isTerminated = true → pc.performed = true ∨
      (w.tx.isTerminated = true ∧ ((w.pcs i).performed = true → pc.performed = true)))
    (s1 : w.tx.isTerminated = true → tx1.status = w.tx.status)
    (s2 : w.tx.status ≠ .txStatusActive → tx1.status ≠ .txStatusActive)
    (c9 : ∀ err how, pc = .returned err how →
      tx1.status ≠ .txStatusActive ∧
      (how = .transition → err = none ∨ err = some .ErrTxAborted) ∧
      (how = .shortcut → err = none) ∧
      (how = .observed → tx1.isTerminated = true ∧
        err = if tx1.status = .txStatusAborted then some .ErrTxAborted
          else some .ErrTxError)) :
    WorldInv (({ w with tx := tx1, ctlMu := m }).setPc i pc) := by
  have hterm : w.tx.isTerminated = true → tx1.isTerminated = true := by
    intro ht
    have := s1 ht
    simp only [CommittableTransaction.isTerminated] at ht ⊢
    rw [this]
    exact ht
  refine ⟨?_, ?_, ?_, ?_, ?_, ?_, ?_, ?_⟩
  · intro j
    simp only [World.setPc]
    by_cases hj : j = i
    · subst hj
      simpa using c1
    · simp only [hj, if_false]
      rw [h.holder j]
      exact (c2 j hj).symm
  · exact c3
  · intro j hm
    simp only [World.setPc] at hm ⊢
    by_cases hj : j = i
    · subst hj
      simpa using c4 hm
    · simp only [hj, if_false]
      exact c5 j hj ((c2 j hj).1 hm)
  · intro j
    simp only [World.setPc]
    by_cases hj : j = i
    · simpa [hj] using c6
    · simpa [hj] using h.sound j
  · intro j hp
    simp only [World.setPc] at hp ⊢
    by_cases hj : j = i
    · simp only [hj, if_true] at hp
      exact (c7 hp).1
    · simp only [hj, if_false] at hp
      exact hterm (h.ended j hp)
  · intro j k hj hk
    simp only [World.setPc] at hj hk
    by_cases hji : j = i
    · by_cases hki : k = i
      · rw [hji, hki]
      · simp only [hji, if_true] at hj
        simp only [hki, if_false] at hk
        rcases (c7 hj).2 with h1 | h1
        · rw [hji]
          exact h.once i k h1 hk
        · rw [h.ended k hk] at h1
          cases h1
    · simp only [hji, if_false] at hj
      by_cases hki : k = i
      · simp only [hki, if_true] at hk
        rcases (c7 hk).2 with h1 | h1
        · rw [hki]
          exact h.once j i hj h1
        · rw [h.ended j hj] at h1
          cases h1
      · simp only [hki, if_false] at hk
        exact h.once j k hj hk
  · intro ht
    simp only [World.setPc] at ht ⊢
    rcases c8 ht with h1 | ⟨h1, h2⟩
    · exact ⟨i, by simpa using h1⟩
    · obtain ⟨j, hj⟩ := h.performer h1
      by_cases hji : j = i
      · rw [hji] at hj
        exact ⟨i, by simpa using h2 hj⟩
      · exact ⟨j, by simpa [hji] using hj⟩
  · intro j err how hr
    simp only [World.setPc] at hr ⊢
    by_cases hj : j = i
    · simp only [hj, if_true] at hr
      exact c9 err how hr
    · simp only [hj, if_false] at hr
      obtain ⟨r1, r2, r3, r4⟩ := h.result j err how hr
      refine ⟨s2 r1, r2, r3, ?_⟩
      intro ho
      obtain ⟨t1, t2⟩ := r4 ho
      refine ⟨hterm t1, ?_⟩
      rw [s1 t1]
      exact t2

theorem WorldInv.start (tx : CommittableTransaction) (kinds : Nat → CallKind)
    (hact : tx.status = .txStatusActive) : WorldInv (World.start tx kinds) := by
  refine ⟨?_, ?_, ?_, ?_, ?_, ?_, ?_, ?_⟩
  · intro i
    simp only [World.start]
    cases kinds i <;> simp [Pc.holds]
  · intro _
    exact Or.inl hact
  · intro i hm
    simp [World.start] at hm
  · intro i
    simp only [World.start]
    cases kinds i <;> simp
  · intro i hp
    simp only [World.start] at hp
    cases hk : kinds i <;> rw [hk] at hp <;> simp [Pc.performed] at hp
  · intro i j hp
    simp only [World.start] at hp
    cases hk : kinds i <;> rw [hk] at hp <;> simp [Pc.performed] at hp
  · intro ht
    simp [World.start, CommittableTransaction.isTerminated, hact] at ht
  · intro i err how hr
    simp only [World.start] at hr
    cases hk : kinds i <;> rw [hk] at hr <;> cases hr
theorem WorldInv.notHolder {w : World} (h : WorldInv w) (i : Nat)
    (hp : (w.pcs i).holds = false) : w.ctlMu ≠ some i := by
  intro hm
  rw [(h.holder i).2 hm] at hp
  cases hp

theorem WorldInv.acquire {w : World} (h : WorldInv w) (i : Nat) (pc : Pc)
    (hp : (w.pcs i).holds = false) (hq : (w.pcs i).performed = false)
    (hm : w.ctlMu = none)
    (hpc : pc = .commitLocked ∨ pc = .rollbackLocked) :
    WorldInv (({ w with ctlMu := some i }).setPc i pc) := by
  have hst := h.free hm
  have hok : pc.statusOk w.tx.status = true := by
    simp only [CommittableTransaction.isTerminated, Bool.or_eq_true, beq_iff_eq] at hst
    rcases hpc with rfl | rfl <;> rcases hst with h1 | h1 | h1 <;> simp [Pc.statusOk, h1]
  refine h.update i pc w.tx (some i) ?_ ?_ ?_ ?_ ?_ ?_ ?_ ?_ ?_ ?_ ?_
  · rcases hpc with rfl | rfl <;> simp [Pc.holds]
  · intro j hj
    rw [hm]
    simp [Ne.symm hj]
  · intro hc
    cases hc
  · intro _
    exact hok
  · intro j _ hc
    rw [hm] at hc
    cases hc
  · rcases hpc with rfl | rfl <;> simp
  · intro hc
    rcases hpc with rfl | rfl <;> simp [Pc.performed] at hc
  · intro ht
    right
    refine ⟨ht, fun hc => ?_⟩
    rw [hq] at hc
    cases hc
  · intro _
    rfl
  · exact id
  · intro err how hc
    rcases hpc with rfl | rfl <;> cases hc

theorem WorldInv.release {w : World} (h : WorldInv w) (i : Nat) (err : Option Error)
    (how : How) (tx1 : CommittableTransaction)
    (hm : w.ctlMu = some i)
    (ht1 : tx1.isTerminated = true)
    (hs : w.tx.isTerminated = true → tx1.status = w.tx.status)
    (hhow : (how = .transition ∧ (err = none ∨ err = some .ErrTxAborted) ∧
        ((w.pcs i).performed = true ∨ w.tx.isTerminated = false)) ∨
      (how = .observed ∧ w.tx.isTerminated = true ∧ (w.pcs i).performed = false ∧
        err = if tx1.status = .txStatusAborted then some .ErrTxAborted
          else some .ErrTxError)) :
    WorldInv (({ w with tx := tx1, ctlMu := none }).setPc i (.returned err how)) := by
  have hna : tx1.status ≠ .txStatusActive := by
    intro hc
    simp [CommittableTransaction.isTerminated, hc] at ht1
  refine h.update i _ tx1 none ?_ ?_ ?_ ?_ ?_ ?_ ?_ ?_ hs (fun _ => hna) ?_
  · simp [Pc.holds]
  · intro j hj
    rw [hm]
    simp [Ne.symm hj]
  · intro _
    exact Or.inr ht1
  · intro hc
    cases hc
  · intro j hj hc
    rw [hm] at hc
    simp only [Option.some.injEq] at hc
    exact absurd hc.symm hj
  · simp
  · intro hp
    refine ⟨ht1, ?_⟩
    rcases hhow with ⟨-, -, h3⟩ | ⟨h1, -⟩
    · exact h3
    · subst h1
      simp [Pc.performed] at hp
  · intro _
    rcases hhow with ⟨h1, -⟩ | ⟨h1, h2, h3, -⟩
    · left
      subst h1
      rfl
    · right
      refine ⟨h2, fun hc => ?_⟩
      rw [h3] at hc
      cases hc
  · intro e1 how1 hc
    simp only [Pc.returned.injEq] at hc
    obtain ⟨rfl, rfl⟩ := hc
    refine ⟨hna, ?_, ?_, ?_⟩
    · intro hc
      rcases hhow with ⟨-, h2, -⟩ | ⟨h1, -⟩
      · exact h2
      · rw [h1] at hc
        cases hc
    · intro hc
      rcases hhow with ⟨h1, -⟩ | ⟨h1, -⟩ <;> rw [h1] at hc <;> cases hc
    · intro hc
      rcases hhow with ⟨h1, -⟩ | ⟨-, -, -, h4⟩
      · rw [h1] at hc
        cases hc
      · exact ⟨ht1, h4⟩

theorem WorldInv.advance {w : World} (h : WorldInv w) (i : Nat) (pc : Pc)
    (tx1 : CommittableTransaction)
    (hm : w.ctlMu = some i) (hh : pc.holds = true)
    (hok : pc.statusOk tx1.status = true)
    (hnt : w.tx.isTerminated = false)
    (hna : tx1.status ≠ .txStatusActive)
    (hq : pc.performed = true ↔ tx1.isTerminated = true) :
    WorldInv (({ w with tx := tx1 }).setPc i pc) := by
  refine h.update i pc tx1 w.ctlMu ?_ ?_ ?_ ?_ ?_ ?_ ?_ ?_ ?_ (fun _ => hna) ?_
  · rw [hm]
    simp [hh]
  · intro j _
    rfl
  · intro hc
    rw [hm] at hc
    cases hc
  · intro _
    exact hok
  · intro j hj hc
    rw [hm] at hc
    simp only [Option.some.injEq] at hc
    exact absurd hc.symm hj
  · intro hc
    rw [hc] at hh
    cases hh
  · intro hp
    exact ⟨hq.1 hp, Or.inr hnt⟩
  · intro ht
    exact Or.inl (hq.2 ht)
  · intro ht
    rw [hnt] at ht
    cases ht
  · intro err how hc
    rw [hc] at hh
    cases hh
theorem WorldInv.sameStatus {w : World} (h : WorldInv w) (w1 : World)
    (hs : w1.tx.status = w.tx.status) (hm : w1.ctlMu = w.ctlMu)
    (hp : ∀ j, w1.pcs j = w.pcs j) : WorldInv w1 := by
  have ht : w1.tx.isTerminated = w.tx.isTerminated := by
    simp only [CommittableTransaction.isTerminated, hs]
  refine ⟨?_, ?_, ?_, ?_, ?_, ?_, ?_, ?_⟩
  · intro i
    rw [hp, hm]
    exact h.holder i
  · rw [hm, hs, ht]
    exact h.free
  · intro i
    rw [hp, hm, hs]
    exact h.held i
  · intro i
    rw [hp]
    exact h.sound i
  · intro i
    rw [hp, ht]
    exact h.ended i
  · intro i j
    rw [hp, hp]
    exact h.once i j
  · rw [ht]
    intro hx
    obtain ⟨i, hi⟩ := h.performer hx
    exact ⟨i, by rw [hp]; exact hi⟩
  · intro i err how
    rw [hp, hs, ht]
    exact h.result i err how

theorem statusOk_preparing (pc : Pc) (st : txStatus)
    (hp : st = .txStatusPreparing ∨ st = .txStatusPrepareAborted)
    (h : pc.statusOk st = true) : pc.statusOk .txStatusPrepareAborted = true := by
  rcases hp with rfl | rfl <;> cases pc <;> simp [Pc.statusOk] at h ⊢

theorem WorldInv.shortcut {w : World} (h : WorldInv w) (i : Nat)
    (hp : (w.pcs i).holds = false) (hq : (w.pcs i).performed = false)
    (hprep : w.tx.isPreparing = true) :
    WorldInv (({ w with tx := { w.tx with status := .txStatusPrepareAborted } }).setPc i
      (.returned none .shortcut)) := by
  have hst : w.tx.status = .txStatusPreparing ∨ w.tx.status = .txStatusPrepareAborted := by
    simpa [CommittableTransaction.isPreparing] using hprep
  have hnt : w.tx.isTerminated = false := by
    rcases hst with h1 | h1 <;> simp [CommittableTransaction.isTerminated, h1]
  refine h.update i _ _ w.ctlMu ?_ ?_ ?_ ?_ ?_ ?_ ?_ ?_ ?_ ?_ ?_
  · simp only [Pc.holds, Bool.false_eq_true, false_iff]
    exact h.notHolder i hp
  · intro j _
    rfl
  · intro hm
    rcases h.free hm with h1 | h1
    · rcases hst with h2 | h2 <;> rw [h2] at h1 <;> cases h1
    · rw [hnt] at h1
      cases h1
  · intro hm
    exact absurd hm (h.notHolder i hp)
  · intro j _ hm
    exact statusOk_preparing _ _ hst (h.held j hm)
  · simp
  · intro hc
    simp [Pc.performed] at hc
  · intro hc
    simp [CommittableTransaction.isTerminated] at hc
  · intro hc
    rw [hnt] at hc
    cases hc
  · intro _
    simp
  · intro err how hc
    simp only [Pc.returned.injEq] at hc
    obtain ⟨rfl, rfl⟩ := hc
    simp

theorem WorldInv.move {w : World} (h : WorldInv w) (i : Nat) (pc : Pc)
    (hp : (w.pcs i).holds = false) (hq : (w.pcs i).performed = false)
    (hpc : pc = .rollbackWait) : WorldInv (w.setPc i pc) := by
  subst hpc
  refine h.update i _ w.tx w.ctlMu ?_ ?_ ?_ ?_ ?_ ?_ ?_ ?_ ?_ ?_ ?_
  · simp only [Pc.holds, Bool.false_eq_true, false_iff]
    exact h.notHolder i hp
  · intro j _
    rfl
  · exact h.free
  · intro hm
    exact absurd hm (h.notHolder i hp)
  · intro j _ hm
    exact h.held j hm
  · simp
  · intro hc
    simp [Pc.performed] at hc
  · intro ht
    right
    refine ⟨ht, fun hc => ?_⟩
    rw [hq] at hc
    cases hc
  · intro _
    rfl
  · exact id
  · intro err how hc
    cases hc

theorem afterLoop_inv {w : World} (h : WorldInv w) (i : Nat) (shouldAbort : Bool)
    (tx1 : CommittableTransaction) (hm : w.ctlMu = some i)
    (hnt : w.tx.isTerminated = false) :
    WorldInv (afterLoop { w with tx := tx1 } i shouldAbort) := by
  unfold afterLoop
  split
  · exact h.advance i _ _ hm rfl rfl hnt (by simp)
      (by simp [Pc.performed, CommittableTransaction.isTerminated])
  · refine h.advance i _ _ hm rfl ?_ hnt ?_ ?_
    · cases shouldAbort <;> simp [Pc.statusOk, CommittableTransaction.clear]
    · cases shouldAbort <;> simp [CommittableTransaction.clear]
    · cases shouldAbort <;>
        simp [Pc.performed, CommittableTransaction.isTerminated, CommittableTransaction.clear]

theorem lockedStatus {w : World} (h : WorldInv w) (i : Nat)
    (hpc : w.pcs i = .commitLocked ∨ w.pcs i = .rollbackLocked) :
    w.ctlMu = some i ∧ (w.tx.status = .txStatusActive ∨ w.tx.status = .txStatusCommitted ∨
      w.tx.status = .txStatusAborted) := by
  have hm : w.ctlMu = some i := by
    apply (h.holder i).1
    rcases hpc with h1 | h1 <;> rw [h1] <;> rfl
  have hok := h.held i hm
  refine ⟨hm, ?_⟩
  rcases hpc with h1 | h1 <;> rw [h1] at hok <;>
    simpa [Pc.statusOk, or_assoc] using hok
theorem lockedStep_inv {w : World} (h : WorldInv w) (i : Nat)
    (hpc : w.pcs i = .commitLocked ∨ w.pcs i = .rollbackLocked)
    (w1 : World)
    (hw1 : ∀ hact : w.tx.status = .txStatusActive, w.ctlMu = some i →
      w.tx.isTerminated = false → WorldInv w1) :
    WorldInv
      (if !(w.tx.isTerminated || w.tx.status == .txStatusActive) then
        w.setPc i .panicked
      else if w.tx.status == .txStatusAborted then
        ({ w with ctlMu := none }).setPc i (.returned (some .ErrTxAborted) .observed)
      else if w.tx.isTerminated then
        ({ w with ctlMu := none }).setPc i (.returned (some .ErrTxError) .observed)
      else w1) := by
  obtain ⟨hm, hst⟩ := lockedStatus h i hpc
  have hq : (w.pcs i).performed = false := by
    rcases hpc with h1 | h1 <;> rw [h1] <;> rfl
  split
  · next hc =>
    rcases hst with h1 | h1 | h1 <;>
      simp [CommittableTransaction.isTerminated, h1] at hc
  · split
    · next hc =>
      have h1 : w.tx.status = .txStatusAborted := by simpa using hc
      have ht : w.tx.isTerminated = true := by
        simp [CommittableTransaction.isTerminated, h1]
      exact h.release i _ _ w.tx hm ht (fun _ => rfl)
        (Or.inr ⟨rfl, ht, hq, by simp [h1]⟩)
    · next hna =>
      split
      · next ht =>
        have h1 : w.tx.status ≠ .txStatusAborted := by simpa using hna
        exact h.release i _ _ w.tx hm ht (fun _ => rfl)
          (Or.inr ⟨rfl, ht, hq, by simp [h1]⟩)
      · next hnt =>
        have hnt2 : w.tx.isTerminated = false := by simpa using hnt
        have hact : w.tx.status = .txStatusActive := by
          rcases hst with h1 | h1 | h1
          · exact h1
          · simp [CommittableTransaction.isTerminated, h1] at hnt2
          · simp [CommittableTransaction.isTerminated, h1] at hnt2
        exact hw1 hact hm hnt2

theorem passStep_inv {w : World} (h : WorldInv w) (i : Nat) (lenW lenW1 : Nat)
    (sa sa1 : Bool) (hpc : w.pcs i = .commitPass lenW sa) :
    WorldInv (if !sa1 && lenW < lenW1 then w.setPc i (.commitPass lenW1 sa1)
      else afterLoop w i sa1) := by
  have hm : w.ctlMu = some i := (h.holder i).1 (by rw [hpc]; rfl)
  have hok := h.held i hm
  rw [hpc] at hok
  have hst : w.tx.status = .txStatusPreparing ∨ w.tx.status = .txStatusPrepareAborted := by
    simpa [Pc.statusOk] using hok
  have hnt : w.tx.isTerminated = false := by
    rcases hst with h1 | h1 <;> simp [CommittableTransaction.isTerminated, h1]
  split
  · refine h.advance i (.commitPass lenW1 sa1) w.tx hm rfl ?_ hnt ?_ ?_
    · rcases hst with h1 | h1 <;> simp [Pc.statusOk, h1]
    · rcases hst with h1 | h1 <;> simp [h1]
    · simp [Pc.performed, hnt]
  · exact afterLoop_inv h i sa1 w.tx hm hnt

theorem stepCall_inv {w : World} (h : WorldInv w) (i : Nat) (vote : Bool) :
    WorldInv (stepCall w i vote) := by
  unfold stepCall
  split
  · next hpc =>
    split
    · next hm =>
      exact h.acquire i _ (by rw [hpc]; rfl) (by rw [hpc]; rfl) hm (Or.inl rfl)
    · exact h
  · next hpc =>
    apply lockedStep_inv h i (Or.inl hpc)
    intro hact hm hnt
    split
    · exact h.release i _ _ _ hm
        (by simp [CommittableTransaction.isTerminated, CommittableTransaction.clear])
        (fun hc => by rw [hnt] at hc; cases hc)
        (Or.inl ⟨rfl, Or.inl rfl, Or.inr hnt⟩)
    · split
      · exact h.advance i _ _ hm rfl rfl hnt (by simp)
          (by simp [Pc.performed, CommittableTransaction.isTerminated])
      · exact afterLoop_inv h i false _ hm hnt
  · next lenW sa hpc =>
    exact passStep_inv h i lenW _ sa _ hpc
  · next hpc =>
    have hm : w.ctlMu = some i := (h.holder i).1 (by rw [hpc]; rfl)
    have hok := h.held i hm
    rw [hpc] at hok
    have hst : w.tx.status = .txStatusFinalizing := by simpa [Pc.statusOk] using hok
    have hnt : w.tx.isTerminated = false := by
      simp [CommittableTransaction.isTerminated, hst]
    refine h.advance i _ _ hm rfl ?_ hnt ?_ ?_
    · cases vote <;> simp [Pc.statusOk, CommittableTransaction.clear]
    · cases vote <;> simp [CommittableTransaction.clear]
    · cases vote <;>
        simp [Pc.performed, CommittableTransaction.isTerminated, CommittableTransaction.clear]
  · next sa hpc =>
    have hm : w.ctlMu = some i := (h.holder i).1 (by rw [hpc]; rfl)
    have ht : w.tx.isTerminated = true := h.ended i (by rw [hpc]; rfl)
    exact h.release i _ _ w.tx hm ht (fun _ => rfl)
      (Or.inl ⟨rfl, by cases sa <;> simp, Or.inl (by rw [hpc]; rfl)⟩)
  · next hpc =>
    split
    · next hprep =>
      exact h.shortcut i (by rw [hpc]; rfl) (by rw [hpc]; rfl) hprep
    · exact h.move i _ (by rw [hpc]; rfl) (by rw [hpc]; rfl) rfl
  · next hpc =>
    split
    · next hm =>
      exact h.acquire i _ (by rw [hpc]; rfl) (by rw [hpc]; rfl) hm (Or.inr rfl)
    · exact h
  · next hpc =>
    apply lockedStep_inv h i (Or.inr hpc)
    intro hact hm hnt
    split
    · exact h.release i _ _ _ hm
        (by simp [CommittableTransaction.isTerminated])
        (fun hc => by rw [hnt] at hc; cases hc)
        (Or.inl ⟨rfl, Or.inl rfl, Or.inr hnt⟩)
    · exact h.advance i _ _ hm rfl rfl hnt (by simp [CommittableTransaction.clear])
        (by simp [Pc.performed, CommittableTransaction.isTerminated,
          CommittableTransaction.clear])
  · next hpc =>
    have hm : w.ctlMu = some i := (h.holder i).1 (by rw [hpc]; rfl)
    have ht : w.tx.isTerminated = true := h.ended i (by rw [hpc]; rfl)
    exact h.release i _ _ w.tx hm ht (fun _ => rfl)
      (Or.inl ⟨rfl, Or.inl rfl, Or.inl (by rw [hpc]; rfl)⟩)
  · exact h
  · exact h

theorem step_inv {w : World} (h : WorldInv w) (c : Choice) : WorldInv (step w c) := by
  cases c with
  | call i vote => exact stepCall_inv h i vote
  | enlist e =>
    exact h.sameStatus _ (runEnlist_status w.tx e) rfl (fun _ => rfl)

theorem runWorld_inv : ∀ (cs : List Choice) (w : World), WorldInv w →
    WorldInv (runWorld cs w)
  | [], _, h => h
  | c :: cs, w, h => runWorld_inv cs (step w c) (step_inv h c)
theorem runWorld_append : ∀ (a b : List Choice) (w : World),
    runWorld (a ++ b) w = runWorld b (runWorld a w)
  | [], _, _ => rfl
  | c :: a, b, w => runWorld_append a b (step w c)

theorem afterLoop_others (w : World) (i : Nat) (sa : Bool) (k : Nat) (hk : k ≠ i) :
    (afterLoop w i sa).pcs k = w.pcs k := by
  unfold afterLoop
  split <;> simp [World.setPc, hk]

theorem stepCall_others (w : World) (i : Nat) (vote : Bool) (k : Nat) (hk : k ≠ i) :
    (stepCall w i vote).pcs k = w.pcs k := by
  unfold stepCall
  split
  all_goals try simp only []
  all_goals repeat' split
  all_goals first
    | rfl
    | exact afterLoop_others _ i _ k hk
    | simp [World.setPc, hk]

theorem afterLoop_abort (w : World) (i : Nat) :
    (afterLoop w i true).pcs i = .commitNotify true := by
  simp [afterLoop, World.setPc]

theorem afterLoop_pc (w : World) (i : Nat) (sa : Bool) :
    (afterLoop w i sa).pcs i = .commitSpc ∨ (afterLoop w i sa).pcs i = .commitNotify sa := by
  unfold afterLoop
  split <;> simp [World.setPc]

theorem holderStep (w : World) (i : Nat) (hh : (w.pcs i).holds = true) :
    (stepCall w i true).pcs i = .panicked ∨
    ((stepCall w i true).pcs i).isReturned = true ∨
    (((stepCall w i true).pcs i).holds = true ∧
      ((stepCall w i true).pcs i).rank < (w.pcs i).rank) := by
  unfold stepCall
  split
  · next hpc => rw [hpc] at hh; cases hh
  · next hpc =>
    rw [hpc]
    repeat' split
    all_goals first
      | (rcases afterLoop_pc _ i false with h1 | h1 <;> rw [h1] <;>
          simp [Pc.holds, Pc.rank, Pc.isReturned])
      | simp [World.setPc, Pc.holds, Pc.rank, Pc.isReturned]
  · next lenW sa hpc =>
    rw [hpc]
    simp [afterLoop_abort, Pc.holds, Pc.rank, Pc.isReturned]
  · next hpc => rw [hpc]; simp [World.setPc, Pc.holds, Pc.rank, Pc.isReturned]
  · next hpc => rw [hpc]; simp [World.setPc, Pc.holds, Pc.rank, Pc.isReturned]
  · next hpc => rw [hpc] at hh; cases hh
  · next hpc => rw [hpc] at hh; cases hh
  · next hpc =>
    rw [hpc]
    repeat' split
    all_goals simp [World.setPc, Pc.holds, Pc.rank, Pc.isReturned]
  · next hpc => rw [hpc]; simp [World.setPc, Pc.holds, Pc.rank, Pc.isReturned]
  · next hpc => rw [hpc] at hh; cases hh
  · next hpc => rw [hpc] at hh; cases hh

theorem finishHolder : ∀ (n : Nat) (w : World), WorldInv w → ∀ i,
    (w.pcs i).holds = true → (w.pcs i).rank ≤ n →
    ∃ cs, ((runWorld cs w).pcs i).isReturned = true ∧
      ∀ k, k ≠ i → (runWorld cs w).pcs k = w.pcs k
  | 0, w, _, i, hh, hr => by
    exfalso
    cases hpc : w.pcs i <;> rw [hpc] at hh hr <;> simp [Pc.holds, Pc.rank] at hh hr
  | n + 1, w, h, i, hh, hr => by
    have h1 := stepCall_inv h i true
    rcases holderStep w i hh with hp | hp | ⟨hp, hlt⟩
    · exact absurd hp (h1.sound i)
    · exact ⟨[.call i true], hp, fun k hk => stepCall_others w i true k hk⟩
    · obtain ⟨cs, hcs, hot⟩ := finishHolder n _ h1 i hp (by omega)
      exact ⟨.call i true :: cs, hcs, fun k hk =>
        (hot k hk).trans (stepCall_others w i true k hk)⟩

theorem isReturned_not_holds {pc : Pc} (h : pc.isReturned = true) : pc.holds = false := by
  cases pc <;> simp [Pc.isReturned] at h <;> rfl

/-- From every state of the invariant the call holding `ctlMu`, if any, can be run to
its return, which leaves `ctlMu` free and the other calls where they are. -/
theorem canRelease {w : World} (h : WorldInv w) :
    ∃ cs, (runWorld cs w).ctlMu = none ∧
      ∀ k, w.ctlMu ≠ some k → (runWorld cs w).pcs k = w.pcs k := by
  cases hm : w.ctlMu with
  | none => exact ⟨[], hm, fun _ _ => rfl⟩
  | some j =>
    have hh : (w.pcs j).holds = true := (h.holder j).2 hm
    obtain ⟨cs, hret, hot⟩ := finishHolder _ w h j hh (le_refl _)
    refine ⟨cs, ?_, fun k hk => hot k (fun hkj => hk (by rw [hkj]))⟩
    have h1 := runWorld_inv cs w h
    cases hm1 : (runWorld cs w).ctlMu with
    | none => rfl
    | some k =>
      exfalso
      have hk := (h1.holder k).2 hm1
      by_cases hkj : k = j
      · subst hkj
        rw [isReturned_not_holds hret] at hk
        cases hk
      · rw [hot k hkj] at hk
        have := (h.holder k).1 hk
        rw [hm] at this
        exact hkj (Option.some.inj this).symm

theorem canReturn_waiting {w : World} (h : WorldInv w) (i : Nat)
    (hpc : w.pcs i = .commitStart ∨ w.pcs i = .rollbackWait) :
    ∃ cs, ((runWorld cs w).pcs i).isReturned = true := by
  obtain ⟨cs1, hfree, hot⟩ := canRelease h
  have hni : w.ctlMu ≠ some i := by
    intro hm
    have := (h.holder i).2 hm
    rcases hpc with h1 | h1 <;> rw [h1] at this <;> cases this
  have hpc1 := hot i hni
  have hinv1 := runWorld_inv cs1 w h
  have hinv2 := stepCall_inv hinv1 i true
  have hh : ((stepCall (runWorld cs1 w) i true).pcs i).holds = true := by
    unfold stepCall
    rcases hpc with h1 | h1 <;> rw [hpc1, h1] <;> simp [hfree, World.setPc, Pc.holds]
  obtain ⟨cs2, hret, -⟩ := finishHolder _ _ hinv2 i hh (le_refl _)
  refine ⟨cs1 ++ .call i true :: cs2, ?_⟩
  rw [runWorld_append]
  exact hret

/-- Every call can be run to its return from every state of the invariant. -/
theorem canReturn {w : World} (h : WorldInv w) (i : Nat) :
    ∃ cs, ((runWorld cs w).pcs i).isReturned = true := by
  cases hpc : w.pcs i with
  | commitStart => exact canReturn_waiting h i (Or.inl hpc)
  | rollbackWait => exact canReturn_waiting h i (Or.inr hpc)
  | commitLocked =>
    obtain ⟨cs, hc, -⟩ := finishHolder _ w h i (by rw [hpc]; rfl) (le_refl _)
    exact ⟨cs, hc⟩
  | commitPass lenW sa =>
    obtain ⟨cs, hc, -⟩ := finishHolder _ w h i (by rw [hpc]; rfl) (le_refl _)
    exact ⟨cs, hc⟩
  | commitSpc =>
    obtain ⟨cs, hc, -⟩ := finishHolder _ w h i (by rw [hpc]; rfl) (le_refl _)
    exact ⟨cs, hc⟩
  | commitNotify sa =>
    obtain ⟨cs, hc, -⟩ := finishHolder _ w h i (by rw [hpc]; rfl) (le_refl _)
    exact ⟨cs, hc⟩
  | rollbackLocked =>
    obtain ⟨cs, hc, -⟩ := finishHolder _ w h i (by rw [hpc]; rfl) (le_refl _)
    exact ⟨cs, hc⟩
  | rollbackNotify =>
    obtain ⟨cs, hc, -⟩ := finishHolder _ w h i (by rw [hpc]; rfl) (le_refl _)
    exact ⟨cs, hc⟩
  | returned err how => exact ⟨[], by simp [runWorld, hpc, Pc.isReturned]⟩
  | panicked => exact absurd hpc (h.sound i)
  | rollbackStart =>
    have hinv1 := stepCall_inv h i true
    have hs : (stepCall w i true).pcs i = .returned none .shortcut ∨
        (stepCall w i true).pcs i = .rollbackWait := by
      unfold stepCall
      rw [hpc]
      simp only []
      split <;> simp [World.setPc]
    rcases hs with hs | hs
    · exact ⟨[.call i true], by simp [runWorld, step, hs, Pc.isReturned]⟩
    · obtain ⟨cs, hc⟩ := canReturn_waiting hinv1 i (Or.inr hs)
      exact ⟨.call i true :: cs, hc⟩
/-- C27: concurrent `Commit` and `Rollback` calls on an Active transaction.  In every
state reached by any interleaving of the sections of the calls, with enlistments in
between: no call has failed the assertion at its entry, and a call that holds `ctlMu`
and `mu` at its entry finds the status Active, Committed or Aborted; at most one call
has performed the terminal transition; a call that has returned has performed the
terminal transition itself (nil or `ErrTxAborted`), or has returned nil through the
Preparing shortcut of `Rollback`, or has found the transaction terminated and returned
`ErrTxAborted` when the status is Aborted and `ErrTxError` otherwise; once a call has
returned and `ctlMu` is free, exactly one call has performed the terminal transition;
and every call can be run to its return. -/
theorem C27_concurrent_calls (tx : CommittableTransaction)
    (hact : tx.status = .txStatusActive) (kinds : Nat → CallKind) (cs : List Choice) :
    (∀ i, (runWorld cs (World.start tx kinds)).pcs i ≠ .panicked) ∧
    (∀ i, (runWorld cs (World.start tx kinds)).pcs i = .commitLocked ∨
        (runWorld cs (World.start tx kinds)).pcs i = .rollbackLocked →
      (runWorld cs (World.start tx kinds)).ctlMu = some i ∧
      ((runWorld cs (World.start tx kinds)).tx.status = .txStatusActive ∨
        (runWorld cs (World.start tx kinds)).tx.status = .txStatusCommitted ∨
        (runWorld cs (World.start tx kinds)).tx.status = .txStatusAborted)) ∧
    (∀ i j, ((runWorld cs (World.start tx kinds)).pcs i).performed = true →
      ((runWorld cs (World.start tx kinds)).pcs j).performed = true → i = j) ∧
    (∀ i err how, (runWorld cs (World.start tx kinds)).pcs i = .returned err how →
      (how = .transition ∧ (err = none ∨ err = some .ErrTxAborted)) ∨
      (how = .shortcut ∧ err = none) ∨
      (how = .observed ∧
        (((runWorld cs (World.start tx kinds)).tx.status = .txStatusAborted ∧
            err = some .ErrTxAborted) ∨
          ((runWorld cs (World.start tx kinds)).tx.status = .txStatusCommitted ∧
            err = some .ErrTxError)))) ∧
    (∀ i, ((runWorld cs (World.start tx kinds)).pcs i).isReturned = true →
      (runWorld cs (World.start tx kinds)).ctlMu = none →
      (runWorld cs (World.start tx kinds)).tx.isTerminated = true ∧
      ∃ j, ((runWorld cs (World.start tx kinds)).pcs j).performed = true ∧
        ∀ k, ((runWorld cs (World.start tx kinds)).pcs k).performed = true → k = j) ∧
    (∀ i, ∃ cs1,
      ((runWorld (cs ++ cs1) (World.start tx kinds)).pcs i).isReturned = true) := by
  have h := runWorld_inv cs _ (WorldInv.start tx kinds hact)
  refine ⟨h.sound, fun i hpc => lockedStatus h i hpc, h.once, ?_, ?_, ?_⟩
  · intro i err how hpc
    obtain ⟨-, h1, h2, h3⟩ := h.result i err how hpc
    cases how with
    | transition => exact Or.inl ⟨rfl, h1 rfl⟩
    | shortcut => exact Or.inr (Or.inl ⟨rfl, h2 rfl⟩)
    | observed =>
      obtain ⟨ht, he⟩ := h3 rfl
      refine Or.inr (Or.inr ⟨rfl, ?_⟩)
      by_cases hs : (runWorld cs (World.start tx kinds)).tx.status = .txStatusAborted
      · rw [if_pos hs] at he
        exact Or.inl ⟨hs, he⟩
      · rw [if_neg hs] at he
        refine Or.inr ⟨?_, he⟩
        simpa [CommittableTransaction.isTerminated, hs] using ht
  · intro i hret hm
    have hna : (runWorld cs (World.start tx kinds)).tx.status ≠ .txStatusActive := by
      cases hpc : (runWorld cs (World.start tx kinds)).pcs i with
      | returned err how => exact (h.result i err how hpc).1
      | _ => rw [hpc] at hret; cases hret
    have ht : (runWorld cs (World.start tx kinds)).tx.isTerminated = true := by
      rcases h.free hm with h1 | h1
      · exact absurd h1 hna
      · exact h1
    obtain ⟨j, hj⟩ := h.performer ht
    exact ⟨ht, j, hj, fun k hk => h.once k j hk hj⟩
  · intro i
    obtain ⟨cs1, h1⟩ := canReturn h i
    exact ⟨cs1, by rw [runWorld_append]; exact h1⟩

/-- Witness for C27: in `exampleSchedule` the `Commit` 0 aborts the transaction because
of the `Rollback` 1 that found it Preparing; the `Rollback` 3 finds it Aborted. -/
theorem C27_concurrent_calls_witness :
    exampleTx.status = .txStatusActive ∧
    (runWorld exampleSchedule (World.start exampleTx exampleKinds)).pcs 0 =
      .returned (some .ErrTxAborted) .transition ∧
    (runWorld exampleSchedule (World.start exampleTx exampleKinds)).pcs 1 =
      .returned none .shortcut ∧
    (runWorld exampleSchedule (World.start exampleTx exampleKinds)).pcs 3 =
      .returned (some .ErrTxAborted) .observed ∧
    (runWorld exampleSchedule (World.start exampleTx exampleKinds)).ctlMu = none ∧
    ∃ j, ((runWorld exampleSchedule (World.start exampleTx exampleKinds)).pcs j).performed
        = true ∧
      ∀ k, ((runWorld exampleSchedule (World.start exampleTx exampleKinds)).pcs k).performed
        = true → k = j :=
  ⟨by decide, by decide, by decide, by decide, by decide,
    ((C27_concurrent_calls exampleTx (by decide) exampleKinds exampleSchedule).2.2.2.2.1 0
      (by decide) (by decide)).2⟩

/-! ## Rollback during the prepare phase, in the log -/

theorem stepAction_rollLog (r : Run) (a : Action)
    (h : r.tx.isPreparing = true ∧
      (r.tx.status = .txStatusPrepareAborted ↔ ∃ x ∈ r.nested, x.call = .Rollback)) :
    (stepAction r a).state.tx.isPreparing = true ∧
      ((stepAction r a).state.tx.status = .txStatusPrepareAborted ↔
        ∃ x ∈ (stepAction r a).state.nested, x.call = .Rollback) := by
  obtain ⟨hp, hs⟩ := h
  cases a with
  | post m =>
    simp only [stepAction]
    split
    · exact ⟨hp, hs⟩
    · exact ⟨hp, hs⟩
  | call c =>
    cases c with
    | enlist e1 =>
      simp only [stepAction, Outcome.state]
      have hst := runEnlist_status r.tx e1
      refine ⟨?_, ?_⟩
      · simpa [CommittableTransaction.isPreparing, hst] using hp
      · rw [hst, hs]
        constructor
        · rintro ⟨x, hx, hc⟩
          exact ⟨x, List.mem_append_left _ hx, hc⟩
        · rintro ⟨x, hx, hc⟩
          rcases List.mem_append.1 hx with hx | hx
          · exact ⟨x, hx, hc⟩
          · rw [List.mem_singleton.1 hx] at hc
            cases hc
    | Rollback =>
      simp only [stepAction, CommittableTransaction.RollbackNested, hp, if_true, Outcome.state]
      refine ⟨by simp [CommittableTransaction.isPreparing], ?_⟩
      simp only [true_iff]
      exact ⟨_, List.mem_append_right _ (List.mem_singleton.2 rfl), rfl⟩

/-- In a returning `Commit`, `Rollback` is called on the transaction during a `Prepare`
of the trace exactly when the log of the run holds a `Rollback` call. -/
theorem Commit_rollbackLog (fuel : Nat) (env : Env) (tx : CommittableTransaction)
    (hact : tx.status = .txStatusActive) (hne : tx.tod ≠ none ∨ tx.vrms ≠ [])
    (e : Option Error) (r : Run) (h : Commit fuel env tx = .ret (e, r)) :
    nestedRollback env r.calls ↔ ∃ x ∈ r.nested, x.call = .Rollback := by
  obtain ⟨r1, es, hl, -, hi, hnest, -, hproc, hpl, -, -⟩ :=
    Commit_phases fuel env tx hact hne e r h
  obtain ⟨ps, hc⟩ := (Commit_spec fuel env tx hact hne).2 e r h
  have hps : ps = r1.tx.vrms := by
    rw [hc.enlisted, hnest, volWins_append, volWins_refusedLog, List.append_nil, hpl.vols]
  have hP := prepareLoop_txlog
    (fun t log => t.isPreparing = true ∧
      (t.status = .txStatusPrepareAborted ↔ ∃ x ∈ log, x.call = .Rollback))
    stepAction_rollLog env fuel (commitStart tx)
    ⟨by simp [commitStart, CommittableTransaction.isPreparing], by simp [commitStart]⟩
  rw [hl] at hP
  simp only [Outcome.state] at hP
  have hst := hi.status
  have h1 : nestedRollback env r.calls ↔ rolled env r.processed 0 ps = true := by
    constructor
    · exact hc.rolled_of_nested
    · intro hr
      obtain ⟨j, p, hp, hj, hf⟩ := (rolled_iff env _ _ 0).1 hr
      simp only [Nat.zero_add] at hj hf
      exact ⟨_, ((hc.prepare_iff _).2 ⟨j, p, hp, hj, rfl⟩).1, rfl, hf⟩
  have h2 : rolled env r.processed 0 ps = true ↔ r1.tx.status = .txStatusPrepareAborted := by
    rw [hproc, hps, hst]
    cases rolled env r1.processed 0 r1.tx.vrms <;> simp
  have h3 : (∃ x ∈ r.nested, x.call = .Rollback) ↔ ∃ x ∈ r1.nested, x.call = .Rollback := by
    rw [hnest]
    constructor
    · rintro ⟨x, hx, hcall⟩
      rcases List.mem_append.1 hx with hx | hx
      · exact ⟨x, hx, hcall⟩
      · simp only [refusedLog, List.mem_map] at hx
        obtain ⟨e1, -, he⟩ := hx
        rw [← he] at hcall
        cases hcall
    · rintro ⟨x, hx, hcall⟩
      exact ⟨x, List.mem_append_left _ hx, hcall⟩
  rw [h1, h2, hP.2, h3]
/-! ## The verdict of `Commit` and the abort path -/

/-- A `Commit` that does not return has no abort latched: its trace shows neither an
abort vote nor a `Rollback` called during a `Prepare`. -/
theorem Commit_stop_quiet (fuel : Nat) (env : Env) (tx : CommittableTransaction)
    (hact : tx.status = .txStatusActive) (hne : tx.tod ≠ none ∨ tx.vrms ≠ [])
    (r : Run) (h : Commit fuel env tx = .stop r) :
    ¬ (votedAbort env r.calls ∨ nestedRollback env r.calls) := by
  obtain ⟨hi, hsa, -, -⟩ := (Commit_spec fuel env tx hact hne).1 r h
  have hab := hi.abort
  rw [hsa] at hab
  have hf : forced env r.processed 0 r.tx.vrms = false := by
    cases hx : forced env r.processed 0 r.tx.vrms with
    | false => rfl
    | true => rw [hx] at hab; cases hab
  have hr : rolled env r.processed 0 r.tx.vrms = false := by
    cases hx : rolled env r.processed 0 r.tx.vrms with
    | false => rfl
    | true => rw [hx, Bool.or_true] at hab; cases hab
  have hmem : ∀ c ∈ r.calls, ∃ (j : Nat) (p : Participant), r.tx.vrms[j]? = some p ∧
      j < r.processed ∧ c = { trm := p, what := .Prepare, id := (j : Int) } := by
    intro c hc
    rw [hi.calls] at hc
    obtain ⟨j, p, hj, hcj⟩ := (mem_prepList _ 0 c).1 hc
    obtain ⟨hlt, hp⟩ := (getElem?_take_some _ _ j p).1 hj
    exact ⟨j, p, hp, hlt, by simpa using hcj⟩
  rintro ((⟨c, hc, -, hv⟩ | ⟨c, hc, hw, -⟩) | ⟨c, hc, -, hv⟩)
  · obtain ⟨j, p, hp, hlt, rfl⟩ := hmem c hc
    have := (forced_iff env r.processed r.tx.vrms 0).2 ⟨j, p, hp, by omega, by simpa using hv⟩
    rw [hf] at this
    cases this
  · obtain ⟨j, p, -, -, rfl⟩ := hmem c hc
    cases hw
  · obtain ⟨j, p, hp, hlt, rfl⟩ := hmem c hc
    have := (rolled_iff env r.processed r.tx.vrms 0).2 ⟨j, p, hp, by omega, by simpa using hv⟩
    rw [hr] at this
    cases this

/-- The volatile list at a loop head of the prepare loop is a prefix of the volatile
list at the exit of the loop. -/
theorem prepareLoop_grows (env : Env) : ∀ (k fuel : Nat) (r r0 r1 : Run), LoopInv env r →
    prepareLoop env k r = .stop r0 → prepareLoop env fuel r = .ret r1 →
    ∃ more, r1.tx.vrms = r0.tx.vrms ++ more
  | k, fuel, r, r0, r1, hi, hs, hr => by
    by_cases hc : r.shouldAbort = false ∧ r.processed < r.vrms.length
    · cases k with
      | zero =>
        rw [prepareLoop_zero env r hc] at hs
        cases hs
        exact ((prepareLoop_spec env fuel r hi).1 r1 hr).2.2
      | succ k =>
        cases fuel with
        | zero =>
          rw [prepareLoop_zero env r hc] at hr
          cases hr
        | succ fuel =>
          rw [prepareLoop_step env k r hc] at hs
          rw [prepareLoop_step env fuel r hc] at hr
          obtain ⟨r2, newV, e1, hi2, -⟩ := preparePass_spec env r hi hc.1
          simp only [e1] at hs hr
          exact prepareLoop_grows env k fuel r2 r0 r1 hi2 hs hr
    · rw [prepareLoop_exit env k r hc] at hs
      cases hs

/-- C7 (as amended): for every `Commit` on an Active transaction with at least one
participant (it returns whenever the volatile enlistments during the prepare phase are
bounded).  `Rollback` is called on the transaction while a `Prepare` is in flight, by
the notified participant from inside the notification or by another goroutine,
exactly when the log of the run holds a `Rollback` call.  If a prepared volatile
answers `ForceRollback`, or `Rollback` is so called, or the TOD answers
`SinglePhaseCommit` with `Aborted`, then `Commit` returns `ErrTxAborted` and the final
status is Aborted; otherwise `Commit` returns nil and the final status is
Committed. -/
theorem C7_commit_verdict (fuel : Nat) (env : Env) (tx : CommittableTransaction)
    (hact : tx.status = .txStatusActive) (hne : tx.tod ≠ none ∨ tx.vrms ≠ []) :
    (∀ N, boundedNesting env N → N < fuel → ∃ e r, Commit fuel env tx = .ret (e, r)) ∧
    (∀ e r, Commit fuel env tx = .ret (e, r) →
      (nestedRollback env r.calls ↔ ∃ x ∈ r.nested, x.call = .Rollback) ∧
      ((votedAbort env r.calls ∨ nestedRollback env r.calls) →
        e = some .ErrTxAborted ∧ r.tx.status = .txStatusAborted) ∧
      (¬ (votedAbort env r.calls ∨ nestedRollback env r.calls) →
        e = none ∧ r.tx.status = .txStatusCommitted)) := by
  refine ⟨fun N hb hf => Commit_returns fuel N env tx hact hne hb hf, ?_⟩
  intro e r h
  obtain ⟨ps, hc⟩ := (Commit_spec fuel env tx hact hne).2 e r h
  have hv := hc.verdict_iff
  have he := hc.err
  have hf := hc.final
  refine ⟨Commit_rollbackLog fuel env tx hact hne e r h, ?_, ?_⟩
  · intro ha
    have hsa := hv.2 ha
    rw [hsa] at he hf
    exact ⟨by simpa using he, by rw [hf]; rfl⟩
  · intro ha
    have hsa : r.shouldAbort = false := by
      cases hs : r.shouldAbort with
      | false => rfl
      | true => exact absurd (hv.1 hs) ha
    rw [hsa] at he hf
    exact ⟨by simpa using he, by rw [hf]; rfl⟩

/-- Witness for C7: the test "Rollback may be used during the prepare phase".  The only
volatile answers `Prepared`, there is no TOD, and another goroutine calls `Rollback`
while the `Prepare` is in flight: the status ends Aborted. -/
theorem C7_commit_verdict_witness :
    (exampleOutsideRollback.onPrepare 1 0).verb = .Prepared ∧
    (Commit 1 exampleOutsideRollback exampleOneVolatile).err =
      some (some .ErrTxAborted) ∧
    (Commit 1 exampleOutsideRollback exampleOneVolatile).run.tx.status =
      .txStatusAborted :=
  ⟨rfl, by decide,
    (((C7_commit_verdict 1 exampleOutsideRollback exampleOneVolatile rfl
      (Or.inr (by decide))).2 (some .ErrTxAborted)
      (Commit 1 exampleOutsideRollback exampleOneVolatile).run (by decide)).2.1
      (Or.inr ⟨{ trm := 1, what := .Prepare, id := 0 }, by decide, rfl, by decide⟩)).2⟩
set_option maxHeartbeats 4000000 in
/-- C7 as stated fails: in the test "nested Rollback" every volatile answers `Prepared`
and `SinglePhaseCommit` is never invoked, yet `Commit` returns `ErrTxAborted` and the
status ends Aborted. -/
theorem C7_counterexample :
    (Commit 1 exampleNestedRollback exampleTx).err = some (some .ErrTxAborted) ∧
    (Commit 1 exampleNestedRollback exampleTx).run.tx.status = .txStatusAborted ∧
    ¬ votedAbort exampleNestedRollback (Commit 1 exampleNestedRollback exampleTx).run.calls := by
  have hcalls : (Commit 1 exampleNestedRollback exampleTx).run.calls =
      [{ trm := 1, what := .Prepare, id := 0 }, { trm := 2, what := .Prepare, id := 1 },
       { trm := 9, what := .Rollback, id := -1 }, { trm := 1, what := .Rollback, id := 0 },
       { trm := 2, what := .Rollback, id := 1 }] := by decide
  refine ⟨by decide, by decide, ?_⟩
  rw [hcalls]
  simp only [votedAbort]
  decide

/-- C9: `Commit` on an Active transaction with participants returns whenever the
volatile enlistments during the prepare phase are bounded, and a run that does not
return has no abort latched: its trace shows neither an abort vote nor a `Rollback`
called during a `Prepare`.  In every run in which an abort is latched (an abort vote, a
`Rollback` called on the transaction during a `Prepare`, or `Aborted` from the TOD),
the call returns `ErrTxAborted`, no `Commit` notification is issued, and the trace ends
with `Rollback` to the TOD (if one is enlisted, at the start or during the prepare
phase) followed by `Rollback` to every non-nil slot of the working set in index order,
each once; a slot is nil exactly when its participant answered `Prepare` with
`Done`. -/
theorem C9_abort_rollback (fuel : Nat) (env : Env) (tx : CommittableTransaction)
    (hact : tx.status = .txStatusActive) (hne : tx.tod ≠ none ∨ tx.vrms ≠ []) :
    (∀ N, boundedNesting env N → N < fuel → ∃ e r, Commit fuel env tx = .ret (e, r)) ∧
    (∀ r, Commit fuel env tx = .stop r →
      r.shouldAbort = false ∧ ¬ (votedAbort env r.calls ∨ nestedRollback env r.calls)) ∧
    (∀ e r, Commit fuel env tx = .ret (e, r) →
      (votedAbort env r.calls ∨ nestedRollback env r.calls) →
      e = some .ErrTxAborted ∧ r.shouldAbort = true ∧
      (∀ c ∈ r.calls, c.what ≠ .Commit) ∧
      (∃ before, r.calls = before ++
          (todRollbackList r.tod true ++ termList .Rollback 0 r.vrms) ∧
        ∀ c ∈ before, c.what = .Prepare ∨ c.what = .SinglePhaseCommit) ∧
      r.calls.Nodup ∧
      (∀ d, tx.tod = some d → r.tod = some d) ∧
      (∀ d : Participant,
        ({ call := .enlist (.EnlistTheOnlyDurable d), err := none } : NestedResult) ∈ r.nested →
          r.tod = some d) ∧
      (∀ i : Nat, r.vrms[i]? = some none ↔
        ∃ p, ({ trm := p, what := .Prepare, id := (i : Int) } : Call) ∈ r.calls ∧
          (env.onPrepare p (i : Int)).verb = .Done)) := by
  obtain ⟨hstop, hret⟩ := Commit_spec fuel env tx hact hne
  refine ⟨fun N hb hf => Commit_returns fuel N env tx hact hne hb hf,
    fun r h => ⟨(hstop r h).2.1, Commit_stop_quiet fuel env tx hact hne r h⟩, ?_⟩
  intro e r h hab
  obtain ⟨ps, hc⟩ := hret e r h
  have hsa : r.shouldAbort = true := hc.verdict_iff.2 hab
  have hcalls := hc.calls
  rw [hsa] at hcalls
  refine ⟨by rw [hc.err, hsa]; rfl, hsa, ?_, ?_, hc.calls_nodup, hc.todKept, hc.todNested, ?_⟩
  · intro c hcm
    rw [hcalls] at hcm
    simp only [List.mem_append] at hcm
    rcases hcm with (h1 | h1) | h1
    · rw [(prepList_id_ge _ _ c h1).2]
      decide
    · obtain ⟨d, -, -, hd⟩ := (mem_spcList _ _ c).1 h1
      rw [hd]
      simp
    · rw [terminalList_what _ _ _ c h1]
      decide
  · refine ⟨prepList 0 (ps.take r.processed) ++
      spcList r.tod (forced env r.processed 0 ps || rolled env r.processed 0 ps), ?_, ?_⟩
    · rw [hcalls, terminalList]
      rfl
    · intro c hcm
      rcases List.mem_append.1 hcm with h1 | h1
      · exact Or.inl (prepList_id_ge _ _ c h1).2
      · obtain ⟨d, -, -, hd⟩ := (mem_spcList _ _ c).1 h1
        rw [hd]
        exact Or.inr rfl
  · intro i
    rw [hc.working, slots_none_iff]
    constructor
    · rintro ⟨p, hp, hi, hd⟩
      exact ⟨p, ((hc.prepare_iff _).2 ⟨i, p, hp, hi, rfl⟩).1, hd⟩
    · rintro ⟨p, hcm, hd⟩
      obtain ⟨j, q, hq, hj, hcj⟩ := (hc.prepare_iff _).1 ⟨hcm, rfl⟩
      simp only [Call.mk.injEq, Nat.cast_inj, true_and] at hcj
      obtain ⟨rfl, rfl⟩ := hcj
      exact ⟨p, hq, hj, hd⟩

set_option maxHeartbeats 4000000 in
/-- Witness for C9: the test "nested Rollback, synchronous". -/
theorem C9_abort_rollback_witness :
    (Commit 1 exampleNestedRollback exampleTx).run.calls.Nodup :=
  ((C9_abort_rollback 1 exampleNestedRollback exampleTx rfl (Or.inl (by decide))).2.2
    (some .ErrTxAborted) (Commit 1 exampleNestedRollback exampleTx).run (by decide)
    (Or.inr ⟨{ trm := 2, what := .Prepare, id := 1 }, by decide, rfl, by decide⟩)).2.2.2.2.1

/-- C10 (as amended): in every returning `Commit` run on an Active transaction with
participants (it returns whenever the volatile enlistments during the prepare phase
are bounded) all `Prepare` notifications come first and no slot is prepared twice;
every volatile that receives `Commit` has received its `Prepare` before, and so has
every volatile that receives `Rollback` and whose slot was reached by the prepare
loop.  Where `r1` is the state at the exit of the prepare loop: the volatile list of
the transaction is then the initial list followed by the volatiles enlisted during the
prepare phase, it extends the list of every earlier loop head, and the working set has
its length; the number of `Prepare` notifications never exceeds that length and equals
it when no abort is latched; and a volatile whose slot was not reached by the prepare
loop (it was enlisted during the pass in which the abort was latched) is in the
working set and receives `Rollback` without any `Prepare`.  A run that does not return
has issued `Prepare` notifications only. -/
theorem C10_prepare_before_terminal (fuel : Nat) (env : Env) (tx : CommittableTransaction)
    (hact : tx.status = .txStatusActive) (hne : tx.tod ≠ none ∨ tx.vrms ≠ []) :
    (∀ N, boundedNesting env N → N < fuel → ∃ e r, Commit fuel env tx = .ret (e, r)) ∧
    (∀ r, Commit fuel env tx = .stop r →
      r.calls.Nodup ∧ ∀ c ∈ r.calls, c.what = .Prepare) ∧
    (∀ e r, Commit fuel env tx = .ret (e, r) →
      ∃ prepares rest, r.calls = prepares ++ rest ∧
        (∀ c ∈ prepares, c.what = .Prepare) ∧ (∀ c ∈ rest, c.what ≠ .Prepare) ∧
        prepares.Nodup ∧
        prepares.length = r.processed ∧ r.processed ≤ r.vrms.length ∧
        (r.shouldAbort = false → r.processed = r.vrms.length) ∧
        (∀ c ∈ rest, c.what = .Commit →
          ({ trm := c.trm, what := .Prepare, id := c.id } : Call) ∈ prepares) ∧
        (∀ c ∈ rest, c.what = .Rollback → 0 ≤ c.id → c.id < (r.processed : Int) →
          ({ trm := c.trm, what := .Prepare, id := c.id } : Call) ∈ prepares) ∧
        ∃ r1 es, prepareLoop env fuel (commitStart tx) = .ret r1 ∧
          r.nested = r1.nested ++ refusedLog es ∧
          r1.tx.vrms = tx.vrms ++ volWins r1.nested ∧
          (∀ (k : Nat) (r0 : Run), Commit k env tx = .stop r0 →
            ∃ more, r1.tx.vrms = r0.tx.vrms ++ more) ∧
          r.vrms.length = r1.tx.vrms.length ∧
          prepares.length ≤ r1.tx.vrms.length ∧
          (r.shouldAbort = false → prepares.length = r1.tx.vrms.length) ∧
          (∀ (j : Nat) (p : Participant), r1.tx.vrms[j]? = some p → r.processed ≤ j →
            r.shouldAbort = true ∧ e = some .ErrTxAborted ∧
            r.vrms[j]? = some (some p) ∧
            ({ trm := p, what := .Rollback, id := (j : Int) } : Call) ∈ rest ∧
            ∀ c ∈ r.calls, c.what = .Prepare → c.id ≠ (j : Int))) := by
  obtain ⟨hstop, hret⟩ := Commit_spec fuel env tx hact hne
  refine ⟨fun N hb hf => Commit_returns fuel N env tx hact hne hb hf, ?_, ?_⟩
  · intro r h
    obtain ⟨hi, -⟩ := hstop r h
    rw [hi.calls]
    exact ⟨prepList_nodup _ 0, fun c hcm => (prepList_id_ge _ _ c hcm).2⟩
  intro e r h
  obtain ⟨ps, hc⟩ := hret e r h
  have hlen : r.vrms.length = ps.length := by rw [hc.working, slots_length]
  have hcomplete : r.shouldAbort = false → r.processed = ps.length := by
    intro hs
    apply hc.complete
    have hv := hc.verdict
    rw [hs] at hv
    cases hl : (forced env r.processed 0 ps || rolled env r.processed 0 ps) with
    | false => rfl
    | true => rw [hl] at hv; cases hv
  have hprep : ∀ (j : Nat) (p : Participant), r.vrms[j]? = some (some p) → j < r.processed →
      ({ trm := p, what := .Prepare, id := (j : Int) } : Call) ∈
        prepList 0 (ps.take r.processed) := by
    intro j p hj hlt
    rw [hc.working] at hj
    have hp := slots_some env _ ps 0 j p hj
    exact (mem_prepList _ 0 _).2 ⟨j, p, (getElem?_take_some ps _ j p).2 ⟨hlt, hp⟩, by simp⟩
  obtain ⟨r1, es, hl, -, hi1, hnest, -, hproc, hpl, -, -⟩ :=
    Commit_phases fuel env tx hact hne e r h
  have hps : ps = r1.tx.vrms := by
    rw [hc.enlisted, hnest, volWins_append, volWins_refusedLog, List.append_nil, hpl.vols]
  have hplen : (prepList 0 (ps.take r.processed)).length = r.processed := by
    rw [prepList_length, List.length_take, Nat.min_eq_left hc.bound]
  refine ⟨prepList 0 (ps.take r.processed),
    spcList r.tod (forced env r.processed 0 ps || rolled env r.processed 0 ps) ++
      terminalList r.tod r.shouldAbort r.vrms, ?_, ?_, ?_, prepList_nodup _ 0, ?_, ?_, ?_, ?_, ?_,
    r1, es, hl, hnest, hpl.vols, ?_, by rw [hlen, hps], ?_, ?_, ?_⟩
  · rw [hc.calls, List.append_assoc]
  · exact fun c hcm => (prepList_id_ge _ _ c hcm).2
  · intro c hcm
    rcases List.mem_append.1 hcm with h1 | h1
    · obtain ⟨d, -, -, hd⟩ := (mem_spcList _ _ c).1 h1
      rw [hd]
      simp
    · rw [terminalList_what _ _ _ c h1]
      cases r.shouldAbort <;> simp
  · rw [prepList_length, List.length_take, Nat.min_eq_left hc.bound]
  · rw [hlen]
    exact hc.bound
  · intro hs
    rw [hlen]
    exact hcomplete hs
  · intro c hcm hw
    rcases List.mem_append.1 hcm with h1 | h1
    · obtain ⟨d, -, -, hd⟩ := (mem_spcList _ _ c).1 h1
      rw [hd] at hw
      cases hw
    · rcases (mem_terminalList _ _ _ c).1 h1 with ⟨d, -, -, hd⟩ | ⟨j, p, hj, hd⟩
      · rw [hd] at hw
        cases hw
      · have hs : r.shouldAbort = false := by
          cases hs : r.shouldAbort with
          | false => rfl
          | true =>
            rw [hd, hs] at hw
            cases hw
        have hjl : j < r.vrms.length := lt_length_of_getElem? _ _ _ hj
        rw [hd]
        exact hprep j p hj (by rw [hcomplete hs, ← hlen]; exact hjl)
  · intro c hcm hw h0 hlt
    rcases List.mem_append.1 hcm with h1 | h1
    · obtain ⟨d, -, -, hd⟩ := (mem_spcList _ _ c).1 h1
      rw [hd] at hw
      cases hw
    · rcases (mem_terminalList _ _ _ c).1 h1 with ⟨d, -, -, hd⟩ | ⟨j, p, hj, hd⟩
      · rw [hd] at h0
        simp at h0
      · rw [hd] at hlt ⊢
        simp only [Nat.cast_lt] at hlt
        exact hprep j p hj hlt
  · intro k r0 hk
    have hk2 : prepareLoop env k (commitStart tx) = .stop r0 := by
      rw [Commit_active k env tx hact hne] at hk
      cases hl0 : prepareLoop env k (commitStart tx) with
      | stop r2 =>
        rw [hl0] at hk
        simpa using hk
      | ret r2 =>
        rw [hl0] at hk
        have hi2 := ((prepareLoop_spec env k (commitStart tx) (commitStart_inv env tx)).1
          r2 hl0).1
        obtain ⟨r3, h3, -⟩ := commitFinish_spec env r2 hi2
        simp only [h3] at hk
        cases hk
    exact prepareLoop_grows env k fuel (commitStart tx) r0 r1 (commitStart_inv env tx) hk2 hl
  · rw [hplen, ← hps]
    exact hc.bound
  · intro hs
    rw [hplen, ← hps]
    exact hcomplete hs
  · intro j p hj hle
    rw [← hps] at hj
    have hjl : j < ps.length := lt_length_of_getElem? _ _ _ hj
    have hsa : r.shouldAbort = true := by
      cases hs : r.shouldAbort with
      | true => rfl
      | false =>
        have := hcomplete hs
        omega
    have hslot : r.vrms[j]? = some (some p) := by
      rw [hc.working]
      exact (slots_some_iff env _ ps j p).2 ⟨hj, fun hx => by omega⟩
    refine ⟨hsa, by rw [hc.err, hsa]; rfl, hslot, ?_, ?_⟩
    · apply List.mem_append_right
      apply (mem_terminalList _ _ _ _).2
      right
      exact ⟨j, p, hslot, by rw [hsa]; rfl⟩
    · intro c hcm hw hid
      obtain ⟨j2, q, -, hj2, hcj⟩ := (hc.prepare_iff c).1 ⟨hcm, hw⟩
      rw [hcj] at hid
      simp only [Nat.cast_inj] at hid
      omega


set_option maxHeartbeats 1000000 in
/-- The run of `Commit` in the scenario `exampleLateEnlist` on `exampleTx`, evaluated
stage by stage. -/
theorem exampleLateEnlist_run :
    Commit 2 exampleLateEnlist exampleTx =
      .ret (some .ErrTxAborted,
        { tx := { status := .txStatusAborted, tod := none, vrms := [] },
          tod := some 9, vrms := [some 1, some 2, some 3],
          responses := { cap := 4, buf := [enlistment.Done { id := -1 },
            enlistment.Done { id := 0 }, enlistment.Done { id := 1 },
            enlistment.Done { id := 2 }] },
          shouldAbort := true, processed := 2, pendingRespsNo := 4,
          calls := [{ trm := 1, what := .Prepare, id := 0 },
            { trm := 2, what := .Prepare, id := 1 },
            { trm := 9, what := .Rollback, id := -1 },
            { trm := 1, what := .Rollback, id := 0 },
            { trm := 2, what := .Rollback, id := 1 },
            { trm := 3, what := .Rollback, id := 2 }],
          nested := [{ call := .enlist (.EnlistVolatile 3), err := none }] }) := by
  have hpass : preparePass exampleLateEnlist (commitStart exampleTx) =
      .ret { tx := { status := .txStatusPreparing, tod := some 9, vrms := [1, 2, 3] },
             tod := some 9, vrms := [some 1, some 2, some 3],
             responses := { cap := 4, buf := [] },
             shouldAbort := true, processed := 2, pendingRespsNo := 0,
             calls := [{ trm := 1, what := .Prepare, id := 0 },
               { trm := 2, what := .Prepare, id := 1 }],
             nested := [{ call := .enlist (.EnlistVolatile 3), err := none }] } := by
    decide
  rw [Commit_active 2 _ _ rfl (Or.inl (by decide)),
    prepareLoop_step _ 1 _ (by decide), hpass]
  simp only []
  rw [prepareLoop_exit _ 1 _ (by decide)]
  decide

/-- Witness for C10: participant 1 enlists the volatile 3 from inside `Prepare` and
answers `ForceRollback`; the volatile 3 is in the working set and receives `Rollback`
without a `Prepare`. -/
theorem C10_prepare_before_terminal_witness :
    (Commit 2 exampleLateEnlist exampleTx).run.vrms[2]? = some (some 3) ∧
    ({ trm := 3, what := .Rollback, id := 2 } : Call) ∈
      (Commit 2 exampleLateEnlist exampleTx).run.calls ∧
    ∀ c ∈ (Commit 2 exampleLateEnlist exampleTx).run.calls,
      c.what = .Prepare → c.id ≠ 2 := by
  have hrun := exampleLateEnlist_run
  obtain ⟨prepares, rest, hcalls, -, -, -, -, -, -, -, -, r1, es, -, hn, hv, -, -, -, -,
      hlate⟩ :=
    (C10_prepare_before_terminal 2 exampleLateEnlist exampleTx rfl (Or.inl (by decide))).2.2
      (some .ErrTxAborted) (Commit 2 exampleLateEnlist exampleTx).run (by rw [hrun]; rfl)
  have h3 : r1.tx.vrms = [1, 2, 3] := by
    have hw : volWins (Commit 2 exampleLateEnlist exampleTx).run.nested = [3] := by
      rw [hrun]
      decide
    rw [hn, volWins_append, volWins_refusedLog, List.append_nil] at hw
    rw [hv, hw]
    rfl
  obtain ⟨-, -, h1, h2, h4⟩ := hlate 2 3 (by rw [h3]; rfl) (by rw [hrun]; decide)
  exact ⟨h1, by rw [hcalls]; exact List.mem_append_right _ h2, h4⟩

set_option maxHeartbeats 4000000 in
/-- C10 as stated fails: when participant 1 enlists the volatile 3 from inside
`Prepare` and answers `ForceRollback`, participant 3 (slot 2) receives `Rollback`
without ever receiving `Prepare`, and two `Prepare` notifications are issued while the
volatile list has reached size three. -/
theorem C10_counterexample :
    ({ trm := 3, what := .Rollback, id := 2 } : Call) ∈
      (Commit 2 exampleLateEnlist exampleTx).run.calls ∧
    (∀ c ∈ (Commit 2 exampleLateEnlist exampleTx).run.calls, c.what = .Prepare → c.trm ≠ 3) ∧
    ((Commit 2 exampleLateEnlist exampleTx).run.calls.filter
      (fun c => c.what = .Prepare)).length = 2 ∧
    (Commit 2 exampleLateEnlist exampleTx).run.vrms.length = 3 ∧
    (Commit 2 exampleLateEnlist exampleTx).err = some (some .ErrTxAborted) := by
  have hcalls : (Commit 2 exampleLateEnlist exampleTx).run.calls =
      [{ trm := 1, what := .Prepare, id := 0 }, { trm := 2, what := .Prepare, id := 1 },
       { trm := 9, what := .Rollback, id := -1 }, { trm := 1, what := .Rollback, id := 0 },
       { trm := 2, what := .Rollback, id := 1 }, { trm := 3, what := .Rollback, id := 2 }] := by
    decide
  rw [hcalls]
  refine ⟨by decide, by decide, by decide, by decide, by decide⟩
/-- A `Commit` that does not return has no `Rollback` call in its log. -/
theorem Commit_stop_log (fuel : Nat) (env : Env) (tx : CommittableTransaction)
    (hact : tx.status = .txStatusActive) (hne : tx.tod ≠ none ∨ tx.vrms ≠ [])
    (r : Run) (h : Commit fuel env tx = .stop r) :
    ∀ x ∈ r.nested, x.call ≠ .Rollback := by
  obtain ⟨hi, hsa, -, -⟩ := (Commit_spec fuel env tx hact hne).1 r h
  have hl : prepareLoop env fuel (commitStart tx) = .stop r := by
    rw [Commit_active fuel env tx hact hne] at h
    cases hl0 : prepareLoop env fuel (commitStart tx) with
    | stop r2 =>
      rw [hl0] at h
      simpa using h
    | ret r2 =>
      rw [hl0] at h
      have hi2 := ((prepareLoop_spec env fuel (commitStart tx) (commitStart_inv env tx)).1
        r2 hl0).1
      obtain ⟨r3, h3, -⟩ := commitFinish_spec env r2 hi2
      simp only [h3] at h
      cases h
  have hP := prepareLoop_txlog
    (fun t log => t.isPreparing = true ∧
      (t.status = .txStatusPrepareAborted ↔ ∃ x ∈ log, x.call = .Rollback))
    stepAction_rollLog env fuel (commitStart tx)
    ⟨by simp [commitStart, CommittableTransaction.isPreparing], by simp [commitStart]⟩
  rw [hl] at hP
  simp only [Outcome.state] at hP
  have hab := hi.abort
  rw [hsa] at hab
  have hr : rolled env r.processed 0 r.tx.vrms = false := by
    cases hx : rolled env r.processed 0 r.tx.vrms with
    | false => rfl
    | true => rw [hx, Bool.or_true] at hab; cases hab
  have hst := hi.status
  rw [hr] at hst
  intro x hx hc
  have := hP.2.2 ⟨x, hx, hc⟩
  rw [hst] at this
  cases this

set_option maxHeartbeats 1000000 in
/-- The run of `Commit` in the scenario `exampleOutsideRollback` on `exampleTx`,
evaluated stage by stage. -/
theorem exampleOutsideRollback_run :
    Commit 1 exampleOutsideRollback exampleTx =
      .ret (some .ErrTxAborted,
        { tx := { status := .txStatusAborted, tod := none, vrms := [] },
          tod := some 9, vrms := [some 1, some 2],
          responses := { cap := 3, buf := [enlistment.Done { id := -1 },
            enlistment.Done { id := 0 }, enlistment.Done { id := 1 }] },
          shouldAbort := true, processed := 2, pendingRespsNo := 3,
          calls := [{ trm := 1, what := .Prepare, id := 0 },
            { trm := 2, what := .Prepare, id := 1 },
            { trm := 9, what := .Rollback, id := -1 },
            { trm := 1, what := .Rollback, id := 0 },
            { trm := 2, what := .Rollback, id := 1 }],
          nested := [{ call := .Rollback, err := none }] }) := by
  have hpass : preparePass exampleOutsideRollback (commitStart exampleTx) =
      .ret { tx := { status := .txStatusPrepareAborted, tod := some 9, vrms := [1, 2] },
             tod := some 9, vrms := [some 1, some 2], responses := { cap := 3, buf := [] },
             shouldAbort := true, processed := 2, pendingRespsNo := 0,
             calls := [{ trm := 1, what := .Prepare, id := 0 },
               { trm := 2, what := .Prepare, id := 1 }],
             nested := [{ call := .Rollback, err := none }] } := by
    decide
  rw [Commit_active 1 _ _ rfl (Or.inl (by decide)),
    prepareLoop_step _ 0 _ (by decide), hpass]
  simp only []
  rw [prepareLoop_exit _ 0 _ (by decide)]
  decide

/-- C11 (as amended): for every `Commit` on an Active transaction with participants
during whose prepare phase `Rollback` is called on the transaction, from inside a
`Prepare` notification or by another goroutine while the status is Preparing or
PrepareAborted (`Commit` returns whenever the volatile enlistments during the prepare
phase are bounded; `Rollback` is so called exactly when the log of the run holds a
`Rollback` call): every such `Rollback` returns nil, the `Commit` returns
`ErrTxAborted` with the final status Aborted, no `SinglePhaseCommit` is issued, the TOD
(enlisted before or during the prepare phase) receives `Rollback`, and every enlisted
volatile, including those enlisted after the `Rollback`, receives `Rollback` unless it
answered its `Prepare` with `Done`. -/
theorem C11_nested_rollback (fuel : Nat) (env : Env) (tx : CommittableTransaction)
    (hact : tx.status = .txStatusActive) (hne : tx.tod ≠ none ∨ tx.vrms ≠ []) :
    (∀ N, boundedNesting env N → N < fuel → ∃ e r, Commit fuel env tx = .ret (e, r)) ∧
    (∀ e r, Commit fuel env tx = .ret (e, r) →
      (nestedRollback env r.calls ↔ ∃ x ∈ r.nested, x.call = .Rollback)) ∧
    (∀ r, Commit fuel env tx = .stop r →
      ¬ nestedRollback env r.calls ∧ ∀ x ∈ r.nested, x.call ≠ .Rollback) ∧
    (∀ e r, Commit fuel env tx = .ret (e, r) → nestedRollback env r.calls →
      e = some .ErrTxAborted ∧ r.tx.status = .txStatusAborted ∧
      (∀ x ∈ r.nested, x.call = .Rollback → x.err = none) ∧
      (∀ c ∈ r.calls, c.what ≠ .SinglePhaseCommit) ∧
      (∀ d : Participant, (tx.tod = some d ∨
          ({ call := .enlist (.EnlistTheOnlyDurable d), err := none } : NestedResult) ∈
            r.nested) →
        ({ trm := d, what := .Rollback, id := -1 } : Call) ∈ r.calls) ∧
      (∀ (i : Nat) (p : Participant), (tx.vrms ++ volWins r.nested)[i]? = some p →
        (({ trm := p, what := .Rollback, id := (i : Int) } : Call) ∈ r.calls ↔
          ¬ (({ trm := p, what := .Prepare, id := (i : Int) } : Call) ∈ r.calls ∧
            (env.onPrepare p (i : Int)).verb = .Done)))) := by
  refine ⟨fun N hb hf => Commit_returns fuel N env tx hact hne hb hf,
    fun e r h => Commit_rollbackLog fuel env tx hact hne e r h,
    fun r h => ⟨fun hn => Commit_stop_quiet fuel env tx hact hne r h (Or.inr hn),
      Commit_stop_log fuel env tx hact hne r h⟩, ?_⟩
  intro e r h hnr
  obtain ⟨ps, hc⟩ := (Commit_spec fuel env tx hact hne).2 e r h
  have hsa : r.shouldAbort = true := hc.verdict_iff.2 (Or.inr hnr)
  have hrolled := hc.rolled_of_nested hnr
  have hcalls := hc.calls
  rw [hsa] at hcalls
  refine ⟨by rw [hc.err, hsa]; rfl, by rw [hc.final, hsa]; rfl, hc.rollback_nil, ?_, ?_, ?_⟩
  · intro c hcm hw
    obtain ⟨d, -, hl, -⟩ := (hc.spc_iff c).1 ⟨hcm, hw⟩
    rw [hrolled] at hl
    simp at hl
  · intro d hd
    have htod : r.tod = some d := by
      rcases hd with hd | hd
      · exact hc.todKept d hd
      · exact hc.todNested d hd
    rw [hcalls]
    apply List.mem_append_right
    exact (mem_terminalList _ _ _ _).2 (Or.inl ⟨d, htod, rfl, rfl⟩)
  · intro i p hp
    rw [← hc.enlisted] at hp
    constructor
    · rintro hrb ⟨hpr, hdone⟩
      rw [hcalls] at hrb
      simp only [List.mem_append] at hrb
      rcases hrb with (h1 | h1) | h1
      · have := (prepList_id_ge _ _ _ h1).2
        cases this
      · obtain ⟨d, -, -, hd⟩ := (mem_spcList _ _ _).1 h1
        cases hd
      · rcases (mem_terminalList _ _ _ _).1 h1 with ⟨d, -, -, hd⟩ | ⟨j, q, hj, hd⟩
        · simp only [Call.mk.injEq] at hd
          have := hd.2.2
          omega
        · simp only [Call.mk.injEq, Nat.cast_inj, if_true, true_and] at hd
          obtain ⟨rfl, rfl⟩ := hd
          rw [hc.working] at hj
          have h2 := ((slots_some_iff env _ ps i p).1 hj).2
          obtain ⟨j, q, hq, hj2, hcj⟩ := (hc.prepare_iff _).1 ⟨hpr, rfl⟩
          simp only [Call.mk.injEq, Nat.cast_inj, true_and] at hcj
          obtain ⟨rfl, rfl⟩ := hcj
          exact h2 ⟨hj2, hdone⟩
    · intro hnd
      rw [hcalls]
      apply List.mem_append_right
      apply (mem_terminalList _ _ _ _).2
      right
      refine ⟨i, p, ?_, rfl⟩
      rw [hc.working]
      apply (slots_some_iff env _ ps i p).2
      refine ⟨hp, ?_⟩
      rintro ⟨hlt, hdone⟩
      exact hnd ⟨((hc.prepare_iff _).2 ⟨i, p, hp, hlt, rfl⟩).1, hdone⟩

/-- Witness for C11: the test "Rollback may be used during the prepare phase" on the
transaction with two volatiles and a TOD.  Another goroutine calls `Rollback` while
the first `Prepare` is in flight; all participants answer `Prepared`. -/
theorem C11_nested_rollback_witness :
    (Commit 1 exampleOutsideRollback exampleTx).run.nested =
      [{ call := .Rollback, err := none }] ∧
    (Commit 1 exampleOutsideRollback exampleTx).run.tx.status = .txStatusAborted ∧
    ({ trm := 9, what := .Rollback, id := -1 } : Call) ∈
      (Commit 1 exampleOutsideRollback exampleTx).run.calls ∧
    ({ trm := 2, what := .Rollback, id := 1 } : Call) ∈
      (Commit 1 exampleOutsideRollback exampleTx).run.calls :=
  have hrun := exampleOutsideRollback_run
  have h := (C11_nested_rollback 1 exampleOutsideRollback exampleTx rfl
    (Or.inl (by decide))).2.2.2 (some .ErrTxAborted)
    (Commit 1 exampleOutsideRollback exampleTx).run (by rw [hrun]; rfl)
    ⟨{ trm := 1, what := .Prepare, id := 0 }, by rw [hrun]; decide, rfl, by decide⟩
  ⟨by rw [hrun]; rfl, h.2.1, h.2.2.2.2.1 9 (Or.inl rfl),
    (h.2.2.2.2.2 1 2 (by rw [hrun]; rfl)).2 (fun hx => by
      have := hx.2
      revert this
      decide)⟩

set_option maxHeartbeats 4000000 in
/-- C11 as stated fails: participant 1 answers `Prepare` with `Done`, participant 2
calls `Rollback` from inside `Prepare`; the `Commit` returns `ErrTxAborted`, yet the
enlisted participant 1 receives no `Rollback` notification. -/
theorem C11_counterexample :
    nestedRollback exampleDoneAndRollback
      (Commit 1 exampleDoneAndRollback exampleTx).run.calls ∧
    (Commit 1 exampleDoneAndRollback exampleTx).err = some (some .ErrTxAborted) ∧
    (1 : Participant) ∈ exampleTx.vrms ∧
    ∀ c ∈ (Commit 1 exampleDoneAndRollback exampleTx).run.calls,
      c.what = .Rollback → c.trm ≠ 1 := by
  have hcalls : (Commit 1 exampleDoneAndRollback exampleTx).run.calls =
      [{ trm := 1, what := .Prepare, id := 0 }, { trm := 2, what := .Prepare, id := 1 },
       { trm := 9, what := .Rollback, id := -1 }, { trm := 2, what := .Rollback, id := 1 }] := by
    decide
  rw [hcalls]
  refine ⟨⟨{ trm := 2, what := .Prepare, id := 1 }, by decide, rfl, by decide⟩, by decide,
    by decide, by decide⟩

end qtx
